import Mathlib

/-!
Verification of the moli project-scaffolding tool.

This file shallowly embeds the core of the repository:
the configuration data model (`models.rs`), the validator (`validator.rs`),
the managed-path collector (`path_collector.rs`), the filesystem scanner's
extension stripping (`filesystem_scanner.rs`), the generation engine's
decision logic and file effects (`file_builder.rs`, `directory_builder.rs`,
`rust/module_generator.rs`, `any/file_handler.rs`), and the string-based
structural editor (`yaml_modifier.rs`).

Pure functions are translated directly; filesystem state is passed
explicitly as association lists; subprocess outcomes are oracle parameters.
Strings are processed as lists of characters (`Line := List Char`),
mirroring the byte/char-level operations of the source.
-/

namespace Moli

/-! ## Character/string utilities mirroring the Rust `str` operations used. -/

/-- A single text line, as its character sequence. -/
abbrev Line := List Char

/-- Whitespace test: Rust `char::is_whitespace` restricted to the ASCII
whitespace that occurs in specification documents (the embedding assumes
ASCII input). -/
def isWs (c : Char) : Bool := c = ' ' || c = '\t' || c = '\r' || c = '\n'

/-- Embedding of Rust `str::trim_start`. -/
def trimStart (l : Line) : Line := l.dropWhile isWs

/-- Embedding of Rust `str::trim` (both ends). -/
def trimL (l : Line) : Line := ((l.dropWhile isWs).reverse.dropWhile isWs).reverse

/-- Embedding of `YamlModifier::line_indent`:
`line.len() - line.trim_start().len()`. -/
def indentOf (l : Line) : Nat := l.length - (trimStart l).length

/-- Embedding of Rust `str::contains(char)`. -/
def strContainsChar (s : String) (c : Char) : Bool := s.data.contains c

/-- Embedding of Rust `str::contains(&str)`: substring containment. -/
def listIsInfix (pat : List Char) (s : List Char) : Bool :=
  match s with
  | [] => pat.isEmpty
  | _ :: t => pat.isPrefixOf s || listIsInfix pat t

/-- Embedding of Rust `str::ends_with(&str)`. -/
def strEndsWith (s suffix : String) : Bool := suffix.data.isSuffixOf s.data

/-- Embedding of Rust `[String]::join("/")` for path components. -/
def joinPath : List String → String
  | [] => ""
  | [x] => x
  | x :: xs => x ++ "/" ++ joinPath xs

/-! ## Data model (`project_management/config/models.rs`) -/

/-- Embedding of `CodeFile` from `models.rs`. -/
structure CodeFile where
  name : String
  pubv : Option String
deriving Repr, DecidableEq

/-- Embedding of `Module` from `models.rs`: the fields `name`, `from`,
`pub`, `tree`, `file`. -/
inductive Module where
  | mk (name : Option String) (fromUrl : Option String) (pubv : Option String)
      (tree : List Module) (file : List CodeFile)

def Module.nameField : Module → Option String | .mk n _ _ _ _ => n
def Module.fromUrl : Module → Option String | .mk _ f _ _ _ => f
def Module.pubv : Module → Option String | .mk _ _ p _ _ => p
def Module.subtree : Module → List Module | .mk _ _ _ t _ => t
def Module.files : Module → List CodeFile | .mk _ _ _ _ f => f

/-- Embedding of `Module::extract_repo_name`: strip a `.git` suffix, take
the last `/`-separated component. -/
def extract_repo_name (url : String) : String :=
  let url' : String := if strEndsWith url ".git" then ⟨url.data.take (url.data.length - 4)⟩ else url
  (((url'.data.splitOn '/').getLast?).map (fun l => (⟨l⟩ : String))).getD "unknown"

/-- Embedding of `Module::name()`: the explicit `name`, else the repository
name derived from `from`, else `"unknown"`. -/
def Module.name (m : Module) : String :=
  match m.nameField with
  | some n => n
  | none =>
    match m.fromUrl with
    | some url => extract_repo_name url
    | none => "unknown"

/-- Embedding of `Module::is_git_clone()`. -/
def Module.is_git_clone (m : Module) : Bool := m.fromUrl.isSome

/-- Embedding of `Project` from `models.rs`. -/
structure Project where
  name : String
  root : Bool
  lang : String
  file : List CodeFile
  tree : List Module

/-- Embedding of `MoliConfig` from `models.rs`. -/
structure MoliConfig where
  projects : List Project

/-- Embedding of `CodeFile::filename_with_extension`: a name containing `.`
is used verbatim, otherwise a language-specific extension is appended. -/
def CodeFile.filename_with_extension (cf : CodeFile) (language : String) : String :=
  if strContainsChar cf.name '.' then cf.name
  else
    let extension : String :=
      if language = "rust" then "rs"
      else if language = "go" then "go"
      else if language = "python" then "py"
      else if language = "javascript" then "js"
      else if language = "typescript" then "ts"
      else if language = "markdown" then "md"
      else "txt"
    cf.name ++ "." ++ extension

/-! ## Filesystem scanner (`filesystem_scanner.rs`) -/

/-- Embedding of `FilesystemScanner::filename_without_standard_extension`:
remove the single standard extension of the project language, otherwise
return the filename unchanged. -/
def filename_without_standard_extension (filename : String) (language : String) : String :=
  let extOpt : Option String :=
    if language = "rust" then some ".rs"
    else if language = "go" then some ".go"
    else if language = "python" then some ".py"
    else if language = "typescript" then some ".ts"
    else if language = "javascript" then some ".js"
    else none
  match extOpt with
  | none => filename
  | some ext =>
    if strEndsWith filename ext then ⟨filename.data.take (filename.data.length - ext.length)⟩
    else filename

/-- The extension table exactly as the specification claim words it:
`.rs`/`.go`/`.py`/`.ts`/`.js` for rust/go/python/typescript/javascript,
nothing for any other language. -/
def spec_standard_extension (language : String) : Option String :=
  if language = "rust" then some ".rs"
  else if language = "go" then some ".go"
  else if language = "python" then some ".py"
  else if language = "typescript" then some ".ts"
  else if language = "javascript" then some ".js"
  else none

/-- The stripping behaviour exactly as the specification claim words it:
the matching extension is removed when the filename ends with it, and every
other filename is returned unchanged. -/
def spec_strip_extension (filename : String) (language : String) : String :=
  match spec_standard_extension language with
  | none => filename
  | some ext =>
    if strEndsWith filename ext then ⟨filename.data.take (filename.data.length - ext.length)⟩ else filename


/-! ## An induction principle for the nested `Module` inductive. -/

theorem sizeOf_lt_of_mem_module {m : Module} {tree : List Module}
    (h : m ∈ tree) {n f p fl} : sizeOf m < sizeOf (Module.mk n f p tree fl) := by
  have := List.sizeOf_lt_of_mem h
  cases n <;> cases f <;> cases p <;> simp <;> omega

/-- Structural induction over modules, recursing through the `tree` list. -/
def moduleRecTree {P : Module → Prop}
    (h : ∀ n f p tree fl, (∀ m ∈ tree, P m) → P (Module.mk n f p tree fl)) :
    ∀ m, P m
  | .mk n f p tree fl =>
    h n f p tree fl (fun m hm =>
      have : sizeOf m < sizeOf (Module.mk n f p tree fl) := sizeOf_lt_of_mem_module hm
      moduleRecTree h m)
termination_by m => sizeOf m

/-! ## Managed-path collector (`path_collector.rs`) -/

/-- Embedding of `ManagedFile` from `path_collector.rs`. -/
structure ManagedFile where
  display_path : String
  project_index : Nat
  file_name : String
  module_path : List String
  is_project_level : Bool
  is_directory : Bool
deriving Repr, DecidableEq

mutual

/-- Embedding of `PathCollector::collect_module_entries`.  The Rust code
pushes onto a `&mut Vec` in the order: the module's own directory entry,
then its file entries, then the recursive entries of each submodule; the
embedding returns that pushed sequence directly. -/
def collect_module_entries (base_path language : String) (project_index : Nat)
    (m : Module) (parent_modules : List String) : List ManagedFile :=
  match m with
  | .mk n f p tree fl =>
    let module_name := (Module.mk n f p tree fl).name
    let current_module_path := parent_modules ++ [module_name]
    let module_dir := base_path ++ joinPath current_module_path ++ "/"
    ⟨module_dir, project_index, module_name, parent_modules, false, true⟩ ::
      (fl.map (fun cf =>
        ⟨module_dir ++ cf.filename_with_extension language, project_index, cf.name,
          current_module_path, false, false⟩)
      ++ collect_submodule_entries base_path language project_index tree current_module_path)

/-- Entries of a list of sibling modules, in order. -/
def collect_submodule_entries (base_path language : String) (project_index : Nat)
    (ms : List Module) (parents : List String) : List ManagedFile :=
  match ms with
  | [] => []
  | m :: rest =>
    collect_module_entries base_path language project_index m parents
      ++ collect_submodule_entries base_path language project_index rest parents

end

/-- Entries contributed by one project: top-level files first, then the
pre-order traversal of its tree. -/
def collect_project_entries (project_index : Nat) (project : Project) : List ManagedFile :=
  let base_path := if project.root then "" else project.name ++ "/"
  project.file.map (fun cf =>
    ⟨base_path ++ cf.filename_with_extension project.lang, project_index, cf.name,
      [], true, false⟩)
  ++ collect_submodule_entries base_path project.lang project_index project.tree []

/-- Embedding of `PathCollector::collect_all_entries`. -/
def collect_all_entries (config : MoliConfig) : List ManagedFile :=
  (config.projects.enum).flatMap (fun pi => collect_project_entries pi.1 pi.2)

/-! ## Rust entry-module decision (`file_builder.rs`, `rust/module_generator.rs`) -/

/-- The predicate tested by `should_generate_main_rs` on each file:
name `main` or filename `main.rs`. -/
def main_role_file (f : CodeFile) : Bool :=
  f.name = "main" || f.filename_with_extension "rust" = "main.rs"

/-- The predicate tested by `should_generate_lib_rs` on each file:
name `lib` or filename `lib.rs`. -/
def lib_role_file (f : CodeFile) : Bool :=
  f.name = "lib" || f.filename_with_extension "rust" = "lib.rs"

/-- Embedding of `RustModuleGenerator::should_generate_main_rs`. -/
def should_generate_main_rs (p : Project) : Bool :=
  (p.file.any main_role_file) ||
  (((p.tree.filter (fun m => m.name = "src")).flatMap (fun m => m.files)).any main_role_file)

/-- Embedding of `RustModuleGenerator::should_generate_lib_rs`. -/
def should_generate_lib_rs (p : Project) : Bool :=
  (p.file.any lib_role_file) ||
  (((p.tree.filter (fun m => m.name = "src")).flatMap (fun m => m.files)).any lib_role_file)

/-- Which entry-module file generation produces. -/
inductive RustEntryFile where
  | mainRs
  | libRs
deriving Repr, DecidableEq

/-- Decision logic of `FileBuilder::build_rust_project_files` (lines 40-48):
an entry file is produced only when a top-level module named `src` exists,
and then `main.rs` if `should_generate_main_rs`, else `lib.rs` if
`should_generate_lib_rs`, else nothing. -/
def rust_entry_file (p : Project) : Option RustEntryFile :=
  match p.tree.find? (fun m => m.name = "src") with
  | none => none
  | some _ =>
    if should_generate_main_rs p then some RustEntryFile.mainRs
    else if should_generate_lib_rs p then some RustEntryFile.libRs
    else none

/-- A code file explicitly named for the entry role, as the claim words it:
name `main` or `lib`, or filename `main.rs`/`lib.rs`. -/
def entry_role_file (f : CodeFile) : Bool :=
  f.name = "main" || f.name = "lib" ||
  f.filename_with_extension "rust" = "main.rs" || f.filename_with_extension "rust" = "lib.rs"

mutual

/-- Whether a module's subtree names an entry-role file anywhere. -/
def module_names_entry_role (m : Module) : Bool :=
  match m with
  | .mk _ _ _ tree fl => fl.any entry_role_file || modules_name_entry_role tree

def modules_name_entry_role (ms : List Module) : Bool :=
  match ms with
  | [] => false
  | m :: rest => module_names_entry_role m || modules_name_entry_role rest

end

/-- Whether an entry-role file is named anywhere in the project's spec. -/
def names_entry_role_somewhere (p : Project) : Bool :=
  p.file.any entry_role_file || modules_name_entry_role p.tree

/-! ## Claim C10 -/

/-- C10: when an add request inserts a file, only the single extension
matching the project's declared language is stripped:
`filename_without_standard_extension` removes exactly `.rs`/`.go`/`.py`/
`.ts`/`.js` for rust/go/python/typescript/javascript when the filename ends
with it, and returns every other filename unchanged (for example `App.tsx`
under typescript, `config.yaml` under rust, and any name under any other
language keep their extension verbatim). -/
theorem C10_extension_stripping :
    (∀ (filename language : String),
      filename_without_standard_extension filename language =
        spec_strip_extension filename language) ∧
    filename_without_standard_extension "App.tsx" "typescript" = "App.tsx" ∧
    filename_without_standard_extension "config.yaml" "rust" = "config.yaml" ∧
    filename_without_standard_extension "liberty" "rust" = "liberty" ∧
    filename_without_standard_extension "model.rs" "rust" = "model" ∧
    filename_without_standard_extension "model.rs" "markdown" = "model.rs" := by
  refine ⟨fun f l => ?_, by decide, by decide, by decide, by decide, by decide⟩
  simp only [filename_without_standard_extension, spec_strip_extension,
    spec_standard_extension]

/-! ## Claim C7 -/

/-- A project whose spec names a file `main` only in a nested module
(`src/domain/main`): the spec names an entry-role file, yet no entry module
is generated, because the generator only inspects the project's top-level
files and the direct files of the top-level `src` module. -/
def c7_project : Project :=
  { name := "app", root := true, lang := "rust",
    file := [],
    tree := [Module.mk (some "src") none none
      [Module.mk (some "domain") none none [] [⟨"main", none⟩]] []] }

/-- C7 counterexample: the claim "the entry-module file is generated if and
only if a file explicitly named for that role exists somewhere in the spec"
fails on `c7_project`: a `main` file exists in the spec, but generation
abstains. -/
theorem C7_counterexample :
    names_entry_role_somewhere c7_project = true ∧
    rust_entry_file c7_project = none := by
  constructor
  · decide
  · decide

theorem should_main_iff (p : Project) :
    should_generate_main_rs p = true ↔
      ((∃ f ∈ p.file, main_role_file f = true) ∨
        ∃ m ∈ p.tree, m.name = "src" ∧ ∃ f ∈ m.files, main_role_file f = true) := by
  simp only [should_generate_main_rs, Bool.or_eq_true, List.any_eq_true,
    List.mem_flatMap, List.mem_filter]
  aesop

theorem should_lib_iff (p : Project) :
    should_generate_lib_rs p = true ↔
      ((∃ f ∈ p.file, lib_role_file f = true) ∨
        ∃ m ∈ p.tree, m.name = "src" ∧ ∃ f ∈ m.files, lib_role_file f = true) := by
  simp only [should_generate_lib_rs, Bool.or_eq_true, List.any_eq_true,
    List.mem_flatMap, List.mem_filter]
  aesop

theorem entry_role_split (f : CodeFile) :
    entry_role_file f = true ↔ (main_role_file f = true ∨ lib_role_file f = true) := by
  simp only [entry_role_file, main_role_file, lib_role_file, Bool.or_eq_true]
  tauto

/-- C7 (amended): the entry-module file is generated if and only if a
top-level module named `src` exists in the project's tree and a file
explicitly named for the entry role (name `main`/`lib` or filename
`main.rs`/`lib.rs`) appears among the project's top-level files or among
the direct files of a top-level module named `src`. -/
theorem C7_entry_module_amended (p : Project) :
    (rust_entry_file p).isSome = true ↔
      ((∃ m ∈ p.tree, m.name = "src") ∧
        ((∃ f ∈ p.file, entry_role_file f = true) ∨
          ∃ m ∈ p.tree, m.name = "src" ∧ ∃ f ∈ m.files, entry_role_file f = true)) := by
  unfold rust_entry_file
  rcases hf : p.tree.find? (fun m => m.name = "src") with _ | m
  · simp only [hf, Option.isSome_none, Bool.false_eq_true, false_iff, not_and]
    rintro ⟨x, hx, hname⟩
    have := List.find?_eq_none.mp hf x hx
    simp [hname] at this
  · have hmem : m ∈ p.tree := List.mem_of_find?_eq_some hf
    have hname : m.name = "src" := by
      have := List.find?_some hf; simpa using this
    simp only [hf]
    constructor
    · intro h
      refine ⟨⟨m, hmem, hname⟩, ?_⟩
      by_cases h1 : should_generate_main_rs p
      · rcases (should_main_iff p).mp h1 with ⟨f, hfm, hrole⟩ | ⟨m', hm', hsrc, f, hfm, hrole⟩
        · exact Or.inl ⟨f, hfm, (entry_role_split f).mpr (Or.inl hrole)⟩
        · exact Or.inr ⟨m', hm', hsrc, f, hfm, (entry_role_split f).mpr (Or.inl hrole)⟩
      · by_cases h2 : should_generate_lib_rs p
        · rcases (should_lib_iff p).mp h2 with ⟨f, hfm, hrole⟩ | ⟨m', hm', hsrc, f, hfm, hrole⟩
          · exact Or.inl ⟨f, hfm, (entry_role_split f).mpr (Or.inr hrole)⟩
          · exact Or.inr ⟨m', hm', hsrc, f, hfm, (entry_role_split f).mpr (Or.inr hrole)⟩
        · simp [h1, h2] at h
    · rintro ⟨-, hrole⟩
      have hml : should_generate_main_rs p = true ∨ should_generate_lib_rs p = true := by
        rcases hrole with ⟨f, hfm, hr⟩ | ⟨m', hm', hsrc, f, hfm, hr⟩
        · rcases (entry_role_split f).mp hr with h | h
          · exact Or.inl ((should_main_iff p).mpr (Or.inl ⟨f, hfm, h⟩))
          · exact Or.inr ((should_lib_iff p).mpr (Or.inl ⟨f, hfm, h⟩))
        · rcases (entry_role_split f).mp hr with h | h
          · exact Or.inl ((should_main_iff p).mpr (Or.inr ⟨m', hm', hsrc, f, hfm, h⟩))
          · exact Or.inr ((should_lib_iff p).mpr (Or.inr ⟨m', hm', hsrc, f, hfm, h⟩))
      rcases hml with h | h
      · simp [h]
      · by_cases h1 : should_generate_main_rs p <;> simp [h1, h]

/-! ## Claim C6: counterexample -/

/-- A configuration with a non-root project named `a` (listed first) and a
root project whose tree contains a module named `a`.  Both are accepted by
the validator: project names are distinct and only one project is root. -/
def c6_config : MoliConfig :=
  { projects := [
      { name := "a", root := false, lang := "go", file := [⟨"main", none⟩], tree := [] },
      { name := "app", root := true, lang := "rust", file := [],
        tree := [Module.mk (some "a") none none [] []] } ] }

/-- C6 counterexample: in `collect_all_entries c6_config` the directory
entry `a/` sits at index 1 while the file entry `a/main.go`, whose display
path it prefixes, sits at index 0 — so a directory entry's index does not
always precede the indices of all entries whose display path it prefixes. -/
theorem C6_counterexample :
    ((collect_all_entries c6_config).map
        (fun e => (e.display_path, e.is_directory))) =
      [("a/main.go", false), ("a/", true)] ∧
    "a/".data <+: "a/main.go".data ∧ ¬ ((1 : Nat) < 0) := by
  refine ⟨by decide, by decide, by omega⟩

/-! ## Validator (`validator.rs`) -/

/-- Embedding of `ValidationError` from `validator.rs`. -/
structure ValidationError where
  message : String
  path : String
deriving Repr, DecidableEq

/-- Embedding of the `Display` impl for `ValidationError`. -/
def ValidationError.display (e : ValidationError) : String :=
  "Validation error at " ++ e.path ++ ": " ++ e.message

/-- Embedding of `ConfigValidator::is_supported_language`. -/
def is_supported_language (lang : String) : Bool :=
  lang = "rust" || lang = "go" || lang = "python" || lang = "javascript" ||
  lang = "typescript" || lang = "any" || lang = "bash" || lang = "lua"

mutual

/-- Embedding of `ConfigValidator::validate_module`: the per-module rule
checks in source order, then recursion into the subtree with indexed
`.tree[i]` path locators.  The Rust function returns `Ok(())` for an empty
error vector; the embedding returns the vector itself. -/
def validate_module (m : Module) (path : String) (language : String) : List ValidationError :=
  match m with
  | .mk nameF fromU pubv tree fl =>
    let name := (Module.mk nameF fromU pubv tree fl).name
    (if nameF.isNone && fromU.isNone then
      [⟨"Module must have either 'name' or 'from' field", path⟩] else [])
    ++ (if name = "" then [⟨"Module name cannot be empty", path ++ ".name"⟩] else [])
    ++ (if strContainsChar name '/' || strContainsChar name '\\' then
      [⟨"Module name cannot contain path separators", path ++ ".name"⟩] else [])
    ++ (if fromU.isSome && !(language = "any") then
      [⟨"Module with 'from' field can only be used with 'lang: any' (current: " ++
        language ++ ")", path ++ ".from"⟩] else [])
    ++ (if fromU.isSome && !tree.isEmpty then
      [⟨"Module with 'from' field cannot have 'tree' (git clone target cannot have subdirectories)",
        path ++ ".tree"⟩] else [])
    ++ (if fromU.isSome && !fl.isEmpty then
      [⟨"Module with 'from' field cannot have 'file' (git clone target cannot have files)",
        path ++ ".file"⟩] else [])
    ++ validate_modules tree path language 0

/-- The indexed loop `for (i, submodule) in module.subtree().iter().enumerate()`. -/
def validate_modules (ms : List Module) (path : String) (language : String) (i : Nat) :
    List ValidationError :=
  match ms with
  | [] => []
  | m :: rest =>
    validate_module m (path ++ ".tree[" ++ toString i ++ "]") language
      ++ validate_modules rest path language (i + 1)

end

/-- Embedding of `ConfigValidator::validate_project`. -/
def validate_project (p : Project) (path : String) : List ValidationError :=
  (if p.name = "" then [⟨"Project name cannot be empty", path ++ ".name"⟩] else [])
  ++ (if p.lang = "" then [⟨"Project language cannot be empty", path ++ ".lang"⟩]
      else if !is_supported_language p.lang then
        [⟨"Unsupported language: " ++ p.lang, path ++ ".lang"⟩]
      else [])
  ++ validate_modules p.tree path p.lang 0

/-- The loop `for (i, project) in config.projects().iter().enumerate()`. -/
def validate_projects (ps : List Project) (i : Nat) : List ValidationError :=
  match ps with
  | [] => []
  | p :: rest =>
    validate_project p ("projects[" ++ toString i ++ "]") ++ validate_projects rest (i + 1)

/-- Embedding of `ConfigValidator::validate_root_projects`. -/
def validate_root_projects (config : MoliConfig) : List ValidationError :=
  match (config.projects.filter (fun p => p.root)).length with
  | 0 => []
  | 1 => []
  | _ => [⟨"Only one project can be marked as root", "projects"⟩]

/-- Embedding of `ConfigValidator::validate_project_names`: a seen-set fold;
an error is emitted for each project whose name was already inserted. -/
def validate_project_names_aux (ps : List Project) (i : Nat) (seen : List String) :
    List ValidationError :=
  match ps with
  | [] => []
  | p :: rest =>
    if seen.contains p.name then
      ⟨"Duplicate project name: " ++ p.name, "projects[" ++ toString i ++ "].name"⟩ ::
        validate_project_names_aux rest (i + 1) seen
    else validate_project_names_aux rest (i + 1) (p.name :: seen)

/-- The error vector accumulated by `ConfigValidator::validate` before the
final emptiness test. -/
def collected_errors (config : MoliConfig) : List ValidationError :=
  validate_projects config.projects 0
    ++ validate_root_projects config
    ++ validate_project_names_aux config.projects 0 []

/-- Embedding of `ConfigValidator::validate`. -/
def validate (config : MoliConfig) : Except String Unit :=
  if config.projects.isEmpty then
    .error "Configuration must contain at least one project"
  else
    let errors := collected_errors config
    if errors.isEmpty then .ok ()
    else .error ("Configuration validation failed:\n" ++
      String.intercalate "\n" (errors.map ValidationError.display))

/-! ### Specification-side violation enumeration for C4.

The claim asserts one reported entry per rule violation across the whole
configuration.  The functions below enumerate the violations differently
from the validator: all module nodes are listed first, then the per-node
rules are applied to each node, and the duplicate-name rule is phrased via
`List.take` instead of a seen-set fold. -/

mutual

/-- All module nodes of a subtree with their path locators, pre-order. -/
def module_nodes (m : Module) (path : String) : List (String × Module) :=
  match m with
  | .mk n f p tree fl =>
    (path, Module.mk n f p tree fl) :: module_nodes_list tree path 0

def module_nodes_list (ms : List Module) (path : String) (i : Nat) :
    List (String × Module) :=
  match ms with
  | [] => []
  | m :: rest =>
    module_nodes m (path ++ ".tree[" ++ toString i ++ "]")
      ++ module_nodes_list rest path (i + 1)

end

/-- The per-module rules of `validate_module`, applied to a single node
without recursion. -/
def module_rule_violations (language : String) (pm : String × Module) :
    List ValidationError :=
  match pm with
  | (path, .mk nameF fromU pubv tree fl) =>
    let name := (Module.mk nameF fromU pubv tree fl).name
    (if nameF.isNone && fromU.isNone then
      [⟨"Module must have either 'name' or 'from' field", path⟩] else [])
    ++ (if name = "" then [⟨"Module name cannot be empty", path ++ ".name"⟩] else [])
    ++ (if strContainsChar name '/' || strContainsChar name '\\' then
      [⟨"Module name cannot contain path separators", path ++ ".name"⟩] else [])
    ++ (if fromU.isSome && !(language = "any") then
      [⟨"Module with 'from' field can only be used with 'lang: any' (current: " ++
        language ++ ")", path ++ ".from"⟩] else [])
    ++ (if fromU.isSome && !tree.isEmpty then
      [⟨"Module with 'from' field cannot have 'tree' (git clone target cannot have subdirectories)",
        path ++ ".tree"⟩] else [])
    ++ (if fromU.isSome && !fl.isEmpty then
      [⟨"Module with 'from' field cannot have 'file' (git clone target cannot have files)",
        path ++ ".file"⟩] else [])

/-- The project-level rules of `validate_project` (name and language). -/
def project_rule_violations (p : Project) (path : String) : List ValidationError :=
  (if p.name = "" then [⟨"Project name cannot be empty", path ++ ".name"⟩] else [])
  ++ (if p.lang = "" then [⟨"Project language cannot be empty", path ++ ".lang"⟩]
      else if !is_supported_language p.lang then
        [⟨"Unsupported language: " ++ p.lang, path ++ ".lang"⟩]
      else [])

/-- One violation entry when more than one project is marked root. -/
def root_violation (config : MoliConfig) : List ValidationError :=
  if 2 ≤ (config.projects.filter (fun p => p.root)).length then
    [⟨"Only one project can be marked as root", "projects"⟩]
  else []

/-- One violation entry per project whose name already occurred earlier in
the project list. -/
def duplicate_name_violations (projects : List Project) : List ValidationError :=
  projects.enum.flatMap (fun ip =>
    if ((projects.take ip.1).map Project.name).contains ip.2.name then
      [⟨"Duplicate project name: " ++ ip.2.name,
        "projects[" ++ toString ip.1 ++ "].name"⟩]
    else [])

/-- Every rule violation of the whole configuration, one entry each. -/
def spec_violations (config : MoliConfig) : List ValidationError :=
  (config.projects.enum.flatMap (fun ip =>
    let ppath := "projects[" ++ toString ip.1 ++ "]"
    project_rule_violations ip.2 ppath
      ++ (module_nodes_list ip.2.tree ppath 0).flatMap (module_rule_violations ip.2.lang)))
  ++ root_violation config
  ++ duplicate_name_violations config.projects

/-! ### C4 lemmas -/

theorem validate_modules_eq_of (lang : String) (ms : List Module)
    (ih : ∀ m ∈ ms, ∀ path, validate_module m path lang =
      (module_nodes m path).flatMap (module_rule_violations lang)) :
    ∀ path i, validate_modules ms path lang i =
      (module_nodes_list ms path i).flatMap (module_rule_violations lang) := by
  induction ms with
  | nil => intro path i; rfl
  | cons m rest ihr =>
    intro path i
    rw [validate_modules, module_nodes_list, List.flatMap_append]
    rw [ih m (by simp), ihr (fun m' hm' => ih m' (by simp [hm'])) path (i + 1)]

theorem validate_module_eq (lang : String) :
    ∀ m, ∀ path, validate_module m path lang =
      (module_nodes m path).flatMap (module_rule_violations lang) := by
  refine moduleRecTree ?_
  intro n f p tree fl ih path
  rw [validate_module, module_nodes, List.flatMap_cons,
    validate_modules_eq_of lang tree ih path 0]
  rfl

theorem validate_projects_eq (ps : List Project) :
    ∀ i, validate_projects ps i = (ps.enumFrom i).flatMap (fun ip =>
      let ppath := "projects[" ++ toString ip.1 ++ "]"
      project_rule_violations ip.2 ppath
        ++ (module_nodes_list ip.2.tree ppath 0).flatMap
            (module_rule_violations ip.2.lang)) := by
  induction ps with
  | nil => intro i; rfl
  | cons p rest ihr =>
    intro i
    rw [validate_projects, List.enumFrom_cons, List.flatMap_cons, ihr]
    congr 1
    rw [validate_project,
      validate_modules_eq_of _ _ (fun m _ path => validate_module_eq _ m path) _ 0]
    simp only [project_rule_violations, List.append_assoc]

theorem validate_root_projects_eq (config : MoliConfig) :
    validate_root_projects config = root_violation config := by
  rw [validate_root_projects, root_violation]
  rcases h : (config.projects.filter (fun p => p.root)).length with _ | _ | n <;>
    rw [h] <;> simp

theorem flatMap_congr_mem {α β : Type _} {l : List α} {f g : α → List β}
    (h : ∀ a ∈ l, f a = g a) : l.flatMap f = l.flatMap g := by
  induction l with
  | nil => rfl
  | cons a t ih =>
    simp only [List.flatMap_cons]
    rw [h a (by simp), ih (fun x hx => h x (by simp [hx]))]

theorem names_aux_eq (ps : List Project) :
    ∀ (i : Nat) (seen : List String),
      validate_project_names_aux ps i seen =
        (ps.enumFrom i).flatMap (fun jp =>
          if seen.contains jp.2.name ||
              ((ps.take (jp.1 - i)).map Project.name).contains jp.2.name then
            [⟨"Duplicate project name: " ++ jp.2.name,
              "projects[" ++ toString jp.1 ++ "].name"⟩]
          else []) := by
  induction ps with
  | nil => intro i seen; rfl
  | cons p rest ihr =>
    intro i seen
    rw [validate_project_names_aux, List.enumFrom_cons, List.flatMap_cons]
    simp only [Nat.sub_self, List.take_zero, List.map_nil, List.contains_nil, Bool.or_false]
    have hmem : ∀ jp ∈ rest.enumFrom (i + 1), i + 1 ≤ jp.1 := by
      intro jp hjp
      exact (List.mem_enumFrom hjp).1
    have htake : ∀ jp ∈ rest.enumFrom (i + 1),
        (p :: rest).take (jp.1 - i) = p :: rest.take (jp.1 - (i + 1)) := by
      intro jp hjp
      have h1 : i + 1 ≤ jp.1 := hmem jp hjp
      have h2 : jp.1 - i = (jp.1 - (i + 1)) + 1 := by omega
      rw [h2, List.take_succ_cons]
    by_cases hc : seen.contains p.name
    · rw [if_pos hc, ihr (i + 1) seen]
      have hcong : ∀ jp ∈ rest.enumFrom (i + 1),
          (if seen.contains jp.2.name ||
              ((rest.take (jp.1 - (i + 1))).map Project.name).contains jp.2.name then
            [(⟨"Duplicate project name: " ++ jp.2.name,
              "projects[" ++ toString jp.1 ++ "].name"⟩ : ValidationError)]
          else []) =
          (if seen.contains jp.2.name ||
              (((p :: rest).take (jp.1 - i)).map Project.name).contains jp.2.name then
            [(⟨"Duplicate project name: " ++ jp.2.name,
              "projects[" ++ toString jp.1 ++ "].name"⟩ : ValidationError)]
          else []) := by
        intro jp hjp
        rw [htake jp hjp]
        simp only [List.map_cons, List.contains_cons]
        cases hbeq : (jp.2.name == p.name)
        · simp
        · have hname : jp.2.name = p.name := eq_of_beq hbeq
          have hx : seen.contains jp.2.name = true := by rw [hname]; exact hc
          rw [hx]
          simp
      rw [flatMap_congr_mem hcong]
      have hmemseen : p.name ∈ seen := by simpa using hc
      simp [hmemseen]
    · rw [if_neg hc, ihr (i + 1) (p.name :: seen)]
      have hcong : ∀ jp ∈ rest.enumFrom (i + 1),
          (if (p.name :: seen).contains jp.2.name ||
              ((rest.take (jp.1 - (i + 1))).map Project.name).contains jp.2.name then
            [(⟨"Duplicate project name: " ++ jp.2.name,
              "projects[" ++ toString jp.1 ++ "].name"⟩ : ValidationError)]
          else []) =
          (if seen.contains jp.2.name ||
              (((p :: rest).take (jp.1 - i)).map Project.name).contains jp.2.name then
            [(⟨"Duplicate project name: " ++ jp.2.name,
              "projects[" ++ toString jp.1 ++ "].name"⟩ : ValidationError)]
          else []) := by
        intro jp hjp
        rw [htake jp hjp]
        simp only [List.map_cons, List.contains_cons]
        cases hbeq : (jp.2.name == p.name)
        · simp
        · simp
      rw [flatMap_congr_mem hcong]
      have hmemseen : p.name ∉ seen := by simpa using hc
      simp [hmemseen]

theorem collected_errors_eq (config : MoliConfig) :
    collected_errors config = spec_violations config := by
  rw [collected_errors, spec_violations, validate_projects_eq,
    validate_root_projects_eq, names_aux_eq, duplicate_name_violations]
  have henum : config.projects.enum = config.projects.enumFrom 0 := rfl
  rw [henum]
  congr 1

theorem isPrefix_str_append {p : List Char} {a : String} (h : p <+: a.data)
    (s : String) : p <+: (a ++ s).data := by
  rw [String.data_append]
  exact h.trans (List.prefix_append _ _)

theorem mem_if_singleton {c : Prop} [Decidable c] {x e : ValidationError}
    (h : e ∈ (if c then [x] else [])) : e = x := by
  split at h <;> simp_all

theorem module_nodes_list_path_prefix (ms : List Module)
    (ihAll : ∀ m ∈ ms, ∀ path q mm, (q, mm) ∈ module_nodes m path → path.data <+: q.data) :
    ∀ path i q mm, (q, mm) ∈ module_nodes_list ms path i → path.data <+: q.data := by
  induction ms with
  | nil => intro path i q mm h; simp [module_nodes_list] at h
  | cons m rest ihr =>
    intro path i q mm h
    rw [module_nodes_list, List.mem_append] at h
    rcases h with h | h
    · have := ihAll m (by simp) _ _ _ h
      calc path.data <+: (path ++ (".tree[" ++ toString i ++ "]")).data :=
            isPrefix_str_append (List.prefix_refl _) _
        _ <+: q.data := by
            have harr : path ++ ".tree[" ++ toString i ++ "]"
                = path ++ (".tree[" ++ toString i ++ "]") := by
              simp [String.append_assoc]
            rw [harr] at this
            exact this
    · exact ihr (fun m' hm' => ihAll m' (by simp [hm'])) path (i + 1) q mm h

theorem module_nodes_path_prefix :
    ∀ m, ∀ path q mm, (q, mm) ∈ module_nodes m path → path.data <+: q.data := by
  refine moduleRecTree ?_
  intro n f p tree fl ih path q mm h
  rw [module_nodes] at h
  rcases List.mem_cons.mp h with h | h
  · cases h
    exact List.prefix_refl _
  · exact module_nodes_list_path_prefix tree ih path 0 q mm h

theorem module_rule_violations_path (lang : String) (q : String) (mm : Module) :
    ∀ e ∈ module_rule_violations lang (q, mm), q.data <+: e.path.data := by
  intro e he
  rcases mm with ⟨n, f, p, tree, fl⟩
  simp only [module_rule_violations, List.mem_append] at he
  rcases he with ((((h | h) | h) | h) | h) | h <;>
    rw [mem_if_singleton h] <;>
    first
      | exact List.prefix_refl _
      | exact isPrefix_str_append (List.prefix_refl _) _

theorem project_rule_violations_path (p : Project) (q : String) :
    ∀ e ∈ project_rule_violations p q, q.data <+: e.path.data := by
  intro e he
  simp only [project_rule_violations, List.mem_append] at he
  rcases he with h | h
  · rw [mem_if_singleton h]
    exact isPrefix_str_append (List.prefix_refl _) _
  · split at h
    · simp only [List.mem_singleton] at h
      rw [h]
      exact isPrefix_str_append (List.prefix_refl _) _
    · split at h
      · simp only [List.mem_singleton] at h
        rw [h]
        exact isPrefix_str_append (List.prefix_refl _) _
      · simp at h

theorem projects_prefix_ppath (i : Nat) (s : String) :
    "projects".data <+: ("projects[" ++ toString i ++ s).data := by
  have h0 : "projects".data <+: "projects[".data := by decide
  exact isPrefix_str_append (isPrefix_str_append h0 _) _

theorem spec_violation_paths (config : MoliConfig) :
    ∀ e ∈ spec_violations config, "projects".data <+: e.path.data := by
  intro e he
  simp only [spec_violations, List.mem_append] at he
  rcases he with (h | h) | h
  · rw [List.mem_flatMap] at h
    rcases h with ⟨ip, _, h⟩
    rw [List.mem_append] at h
    have hpp : "projects".data <+: ("projects[" ++ toString ip.1 ++ "]").data :=
      projects_prefix_ppath ip.1 "]"
    rcases h with h | h
    · exact hpp.trans (project_rule_violations_path ip.2 _ e h)
    · rw [List.mem_flatMap] at h
      rcases h with ⟨node, hnode, h⟩
      have h1 : ("projects[" ++ toString ip.1 ++ "]").data <+: node.1.data := by
        rcases node with ⟨q, mm⟩
        exact module_nodes_list_path_prefix ip.2.tree
          (fun m _ path q' mm' h' => module_nodes_path_prefix m path q' mm' h') _ 0 q mm hnode
      have h2 : node.1.data <+: e.path.data := by
        rcases node with ⟨q, mm⟩
        exact module_rule_violations_path ip.2.lang q mm e h
      exact hpp.trans (h1.trans h2)
  · rw [root_violation] at h
    split at h
    · simp only [List.mem_singleton] at h
      rw [h]
    · simp at h
  · rw [duplicate_name_violations, List.mem_flatMap] at h
    rcases h with ⟨ip, _, h⟩
    rw [mem_if_singleton h]
    exact projects_prefix_ppath ip.1 "].name"

/-- C4: `validate` collects all rule violations across the entire
configuration and reports them together rather than stopping at the first:
for every configuration (with a nonempty project list) the collected error
vector equals the one-entry-per-violation enumeration `spec_violations`
(project-level rules, per-module-node rules, multiple-root rule,
duplicate-name rule), `validate` succeeds exactly when that enumeration is
empty, and every reported entry carries a path locator rooted at
`projects` (such as `projects[1].tree[0].from`). -/
theorem C4_validator_collects_all (config : MoliConfig) (h : config.projects ≠ []) :
    collected_errors config = spec_violations config ∧
    (validate config = .ok () ↔ spec_violations config = []) ∧
    ∀ e ∈ collected_errors config, "projects".data <+: e.path.data := by
  refine ⟨collected_errors_eq config, ?_, ?_⟩
  · have hne : config.projects.isEmpty = false := by
      cases hc : config.projects
      · exact absurd hc h
      · rfl
    rw [validate, if_neg (by simp [hne])]
    rw [← collected_errors_eq]
    by_cases hemp : (collected_errors config).isEmpty
    · simp only [hemp, if_true]
      simp only [List.isEmpty_iff] at hemp
      simp [hemp]
    · simp only [hemp, if_false]
      simp only [List.isEmpty_iff] at hemp
      constructor
      · intro hcontra
        cases hcontra
      · intro hx
        exact absurd hx hemp
  · intro e he
    rw [collected_errors_eq] at he
    exact spec_violation_paths config e he

/-- A configuration violating several rules at once: an unsupported
language, a clone-target module under a non-`any` language that also
carries a subtree, two root projects, and duplicate project names. -/
def c4_witness_config : MoliConfig :=
  { projects := [
      { name := "app", root := true, lang := "cobol", file := [],
        tree := [Module.mk none (some "https://ex/r.git") none
          [Module.mk (some "z") none none [] []] []] },
      { name := "app", root := true, lang := "rust", file := [], tree := [] } ] }

theorem C4_validator_collects_all_witness :
    c4_witness_config.projects ≠ [] ∧
    (collected_errors c4_witness_config).length = 5 ∧
    (collected_errors c4_witness_config = spec_violations c4_witness_config ∧
      (validate c4_witness_config = .ok () ↔ spec_violations c4_witness_config = []) ∧
      ∀ e ∈ collected_errors c4_witness_config, "projects".data <+: e.path.data) :=
  ⟨by simp [c4_witness_config], by rfl,
    C4_validator_collects_all c4_witness_config (by simp [c4_witness_config])⟩

/-! ## Filesystem model for the generation engine -/

/-- File contents on disk, newest write first. -/
abbrev FS := List (List String × String)

/-- Rust `fs::write`: create or replace the file at a path. -/
def fsWrite (fs : FS) (path : List String) (content : String) : FS :=
  (path, content) :: fs

/-- Current content of a path, if any. -/
def fsRead (fs : FS) (path : List String) : Option String := fs.lookup path

/-- Whether a file exists at a path. -/
def fsFileExists (fs : FS) (path : List String) : Bool := (fsRead fs path).isSome

/-! ## Generic file builder (`file_builder.rs`) -/

/-- Embedding of `FileBuilder::generate_file_content`. -/
def generate_file_content (codefile : CodeFile) (language : String) : String :=
  if language = "go" then
    if listIsInfix "main".data codefile.name.data then
      "package main\n\nfunc main() \x7b\n\t// TODO: implement\n\x7d\n"
    else "package main\n\n// TODO: implement\n"
  else if language = "python" then
    if codefile.name = "__init__" then "# Package initialization\n"
    else "# TODO: implement\n"
  else if language = "javascript" then
    if listIsInfix "index".data codefile.name.data then
      "// Main entry point\nconsole.log('Hello, world!');\n"
    else "// TODO: implement\n"
  else if language = "typescript" then
    if listIsInfix "index".data codefile.name.data then
      "// Main entry point\nconsole.log('Hello, world!');\n"
    else "// TODO: implement\n"
  else ""

mutual

/-- Embedding of `FileBuilder::build_generic_module_files` (lines 100-124):
for every code file of the module the skeleton content is written with
`fs::write`, with no existence check, then submodules are processed
recursively.  I/O failures are outside the model (writes always succeed,
matching a successful run). -/
def build_generic_module_files (base_path : List String) (m : Module)
    (language : String) (fs : FS) : FS :=
  match m with
  | .mk n f p tree fl =>
    let module_path := base_path ++ [(Module.mk n f p tree fl).name]
    let fs := fl.foldl (fun acc codefile =>
      fsWrite acc (module_path ++ [codefile.filename_with_extension language])
        (generate_file_content codefile language)) fs
    build_generic_modules_files module_path tree language fs

def build_generic_modules_files (base_path : List String) (ms : List Module)
    (language : String) (fs : FS) : FS :=
  match ms with
  | [] => fs
  | m :: rest =>
    build_generic_modules_files base_path rest language
      (build_generic_module_files base_path m language fs)

end

/-- For contrast, the guarded write of
`RustModuleGenerator::generate_module` (lines 52-60): a code file is
written only when absent. -/
def rust_write_code_file (fs : FS) (path : List String) : FS :=
  if fsFileExists fs path then fs else fsWrite fs path ""

/-! ## Claim C1 -/

/-- A `go` project module `src` declaring the file `util`. -/
def c1_module : Module := Module.mk (some "src") none none [] [⟨"util", none⟩]

/-- A filesystem on which `src/util.go` already exists with developer
content before generation runs. -/
def c1_fs0 : FS := [(["src", "util.go"], "my code")]

/-- C1: evaluating `build_generic_module_files` at the failing input.
Before generation `src/util.go` holds `"my code"`; after generation for a
`go` project the file holds the skeleton stub — the generic builder calls
`fs::write` with no existence check, so the pre-existing content is
overwritten, contradicting the protection invariant.  The guarded Rust
writer (`rust_write_code_file`) leaves the same file untouched. -/
theorem C1_generic_builder_overwrites :
    fsRead c1_fs0 ["src", "util.go"] = some "my code" ∧
    fsRead (build_generic_module_files [] c1_module "go" c1_fs0) ["src", "util.go"] =
      some "package main\n\n// TODO: implement\n" ∧
    "package main\n\n// TODO: implement\n" ≠ "my code" ∧
    fsRead (rust_write_code_file c1_fs0 ["src", "util.go"]) ["src", "util.go"] =
      some "my code" := by
  refine ⟨rfl, ?_, by decide, rfl⟩
  rfl

/-! ## Directory builder and clone handling (`directory_builder.rs`,
`any/file_handler.rs`) -/

/-- Oracles for the external effects of generation: whether a clone of a
given URL into a given target path succeeds (a failed launch and a
non-zero exit are both `false`), and whether directory creation succeeds. -/
structure GenEnv where
  cloneOk : List String → String → Bool
  mkdirOk : List String → Bool

/-- Generation state: directories present, file contents, and the record
of clone invocations actually launched. -/
structure GenState where
  dirs : List (List String)
  files : FS
  clones : List (List String × String)
deriving Repr

/-- Rust `Path::exists`: a directory or file exists at the path. -/
def pathExists (st : GenState) (path : List String) : Bool :=
  st.dirs.contains path || fsFileExists st.files path

/-- Rust `fs::create_dir_all` (idempotent). -/
def mkDir (st : GenState) (path : List String) : GenState :=
  { st with dirs := if st.dirs.contains path then st.dirs else st.dirs ++ [path] }

/-- The clone step shared by `DirectoryBuilder::build_module_structure` and
`AnyFileHandler::generate_module`: skip with a warning when the target
exists; otherwise invoke the clone, and treat a non-zero exit or a failed
launch as non-fatal (the error is only logged). -/
def clone_step (env : GenEnv) (st : GenState) (module_path : List String)
    (url : String) : GenState :=
  if pathExists st module_path then st
  else
    let st := { st with clones := st.clones ++ [(module_path, url)] }
    if env.cloneOk module_path url then
      { st with dirs := st.dirs ++ [module_path] }
    else st

mutual

/-- Embedding of `DirectoryBuilder::build_module_structure`. -/
def build_module_structure (env : GenEnv) (base : List String) (m : Module)
    (st : GenState) : Except String GenState :=
  match m with
  | .mk n fromU p tree fl =>
    let module_path := base ++ [(Module.mk n fromU p tree fl).name]
    match fromU with
    | some url => .ok (clone_step env st module_path url)
    | none =>
      if env.mkdirOk module_path then
        build_modules_structure env module_path tree (mkDir st module_path)
      else .error ("Failed to create module directory: " ++ joinPath module_path)

def build_modules_structure (env : GenEnv) (base : List String) (ms : List Module)
    (st : GenState) : Except String GenState :=
  match ms with
  | [] => .ok st
  | m :: rest =>
    match build_module_structure env base m st with
    | .ok st' => build_modules_structure env base rest st'
    | .error e => .error e

end

mutual

/-- Embedding of `AnyFileHandler::generate_module`: the same clone
handling, then directory creation, creation of the module's files only
when absent, and recursion into the subtree. -/
def any_generate_module (env : GenEnv) (parent : List String) (m : Module)
    (st : GenState) : Except String GenState :=
  match m with
  | .mk n fromU p tree fl =>
    let module_path := parent ++ [(Module.mk n fromU p tree fl).name]
    match fromU with
    | some url => .ok (clone_step env st module_path url)
    | none =>
      if env.mkdirOk module_path then
        let st := mkDir st module_path
        let st := fl.foldl (fun acc codefile =>
          let file_path := module_path ++ [codefile.name]
          if fsFileExists acc.files file_path then acc
          else { acc with files := fsWrite acc.files file_path "" }) st
        any_generate_modules env module_path tree st
      else .error ("Failed to create module directory: " ++ joinPath module_path)

def any_generate_modules (env : GenEnv) (parent : List String) (ms : List Module)
    (st : GenState) : Except String GenState :=
  match ms with
  | [] => .ok st
  | m :: rest =>
    match any_generate_module env parent m st with
    | .ok st' => any_generate_modules env parent rest st'
    | .error e => .error e

end

theorem clone_step_dirs_mono (env : GenEnv) (st : GenState) (mp : List String)
    (url : String) : st.dirs ⊆ (clone_step env st mp url).dirs := by
  rw [clone_step]
  split
  · exact fun a ha => ha
  · split
    · intro a ha
      simp [ha]
    · exact fun a ha => ha

theorem mkDir_dirs_mono (st : GenState) (p : List String) :
    st.dirs ⊆ (mkDir st p).dirs := by
  rw [mkDir]
  split
  · exact fun a ha => ha
  · intro a ha
    simp [ha]

theorem mkDir_mem (st : GenState) (p : List String) : p ∈ (mkDir st p).dirs := by
  rw [mkDir]
  split
  · exact List.elem_iff.mp (by assumption)
  · simp

theorem build_module_dirs_mono :
    ∀ m, ∀ (env : GenEnv) (base : List String) (st st' : GenState),
      build_module_structure env base m st = .ok st' → st.dirs ⊆ st'.dirs := by
  have hlist : ∀ (ms : List Module),
      (∀ m ∈ ms, ∀ (env : GenEnv) (base : List String) (st st' : GenState),
        build_module_structure env base m st = .ok st' → st.dirs ⊆ st'.dirs) →
      ∀ (env : GenEnv) (base : List String) (st st' : GenState),
        build_modules_structure env base ms st = .ok st' → st.dirs ⊆ st'.dirs := by
    intro ms
    induction ms with
    | nil =>
      intro _ env base st st' h
      rw [build_modules_structure] at h
      cases h
      exact fun a ha => ha
    | cons m rest ihr =>
      intro ih env base st st' h
      rw [build_modules_structure] at h
      rcases hm : build_module_structure env base m st with e | st1
      · rw [hm] at h; cases h
      · rw [hm] at h
        exact (ih m (by simp) env base st st1 hm).trans
          (ihr (fun m' hm' => ih m' (by simp [hm'])) env base st1 st' h)
  refine moduleRecTree ?_
  intro n fromU p tree fl ih env base st st' h
  rw [build_module_structure.eq_def] at h
  rcases fromU with _ | url
  · simp only at h
    split at h
    · exact (mkDir_dirs_mono st _).trans (hlist tree ih env _ _ st' h)
    · cases h
  · simp only at h
    cases h
    exact clone_step_dirs_mono env st _ url

theorem build_modules_dirs_mono (ms : List Module) :
    ∀ (env : GenEnv) (base : List String) (st st' : GenState),
      build_modules_structure env base ms st = .ok st' → st.dirs ⊆ st'.dirs := by
  induction ms with
  | nil =>
    intro env base st st' h
    rw [build_modules_structure] at h
    cases h
    exact fun a ha => ha
  | cons m rest ihr =>
    intro env base st st' h
    rw [build_modules_structure] at h
    rcases hm : build_module_structure env base m st with e | st1
    · rw [hm] at h; cases h
    · rw [hm] at h
      exact (build_module_dirs_mono m env base st st1 hm).trans (ihr env base st1 st' h)

theorem build_modules_total (ms : List Module) :
    ∀ (env : GenEnv) (base : List String) (st : GenState),
      (∀ pth, env.mkdirOk pth = true) →
      ∃ st', build_modules_structure env base ms st = .ok st' ∧
        ∀ m ∈ ms, m.is_git_clone = false → (base ++ [m.name]) ∈ st'.dirs := by
  have hone : ∀ m, ∀ (env : GenEnv) (base : List String) (st : GenState),
      (∀ pth, env.mkdirOk pth = true) →
      ∃ st', build_module_structure env base m st = .ok st' ∧
        (m.is_git_clone = false → (base ++ [m.name]) ∈ st'.dirs) := by
    refine moduleRecTree ?_
    intro n fromU p tree fl ih env base st hmk
    rw [build_module_structure.eq_def]
    rcases fromU with _ | url
    · simp only
      rw [if_pos (hmk _)]
      have : ∀ (ms' : List Module),
          (∀ m ∈ ms', ∀ (env : GenEnv) (base : List String) (st : GenState),
            (∀ pth, env.mkdirOk pth = true) →
            ∃ st', build_module_structure env base m st = .ok st' ∧
              (m.is_git_clone = false → (base ++ [m.name]) ∈ st'.dirs)) →
          ∀ (env : GenEnv) (base : List String) (st : GenState),
            (∀ pth, env.mkdirOk pth = true) →
            ∃ st', build_modules_structure env base ms' st = .ok st' := by
        intro ms'
        induction ms' with
        | nil => intro _ env' base' st' _; exact ⟨st', rfl⟩
        | cons m rest ihr =>
          intro ih' env' base' st' hmk'
          rcases ih' m (by simp) env' base' st' hmk' with ⟨st1, h1, _⟩
          rcases ihr (fun m' hm' => ih' m' (by simp [hm'])) env' base' st1 hmk' with ⟨st2, h2⟩
          exact ⟨st2, by rw [build_modules_structure, h1]; exact h2⟩
      rcases this tree ih env _ (mkDir st (base ++ [(Module.mk n none p tree fl).name])) hmk
        with ⟨st', h'⟩
      refine ⟨st', h', fun _ => ?_⟩
      exact build_modules_dirs_mono tree env _ _ st' h' (mkDir_mem st _)
    · simp only
      exact ⟨clone_step env st (base ++ [(Module.mk n (some url) p tree fl).name]) url,
        rfl, fun hfalse => by simp [Module.is_git_clone, Module.fromUrl] at hfalse⟩
  intro env base st hmk
  induction ms generalizing st with
  | nil => exact ⟨st, rfl, by simp⟩
  | cons m rest ihr =>
    rcases hone m env base st hmk with ⟨st1, h1, hmem1⟩
    rcases ihr st1 with ⟨st2, h2, hmem2⟩
    refine ⟨st2, by rw [build_modules_structure, h1]; exact h2, ?_⟩
    intro m' hm' hclone
    rcases List.mem_cons.mp hm' with rfl | hm'
    · exact build_modules_dirs_mono rest env base st1 st2 h2 (hmem1 hclone)
    · exact hmem2 m' hm' hclone

/-- C5: clone-target generation is non-fatal in both failure modes and
structural: (1)/(2) the directory builder and the `any` handler process a
clone module identically whether or not it carries `tree`/`file` entries
— clone targets never recurse into files or subtree; (3) a clone module
always yields success, whatever the clone outcome oracle says (non-zero
exit and failed launch are both oracle `false`); (4) when the target path
already exists the module is skipped: the state — including the record of
clone invocations — is returned unchanged, with no error; (5) the engine
keeps processing sibling and remaining modules: with directory creation
succeeding, the whole list builds to success for every clone oracle, and
every non-clone module's directory is present afterwards. -/
theorem C5_clone_non_fatal :
    (∀ (env : GenEnv) (base : List String) n p tree fl url (st : GenState),
      build_module_structure env base (Module.mk n (some url) p tree fl) st =
        build_module_structure env base (Module.mk n (some url) p [] []) st) ∧
    (∀ (env : GenEnv) (parent : List String) n p tree fl url (st : GenState),
      any_generate_module env parent (Module.mk n (some url) p tree fl) st =
        any_generate_module env parent (Module.mk n (some url) p [] []) st) ∧
    (∀ (env : GenEnv) (base : List String) n p tree fl url (st : GenState),
      ∃ st', build_module_structure env base (Module.mk n (some url) p tree fl) st = .ok st') ∧
    (∀ (env : GenEnv) (base : List String) n p tree fl url (st : GenState),
      pathExists st (base ++ [(Module.mk n (some url) p tree fl).name]) = true →
        build_module_structure env base (Module.mk n (some url) p tree fl) st = .ok st ∧
        any_generate_module env base (Module.mk n (some url) p tree fl) st = .ok st) ∧
    (∀ (env : GenEnv) (base : List String) (ms : List Module) (st : GenState),
      (∀ pth, env.mkdirOk pth = true) →
      ∃ st', build_modules_structure env base ms st = .ok st' ∧
        ∀ m ∈ ms, m.is_git_clone = false → (base ++ [m.name]) ∈ st'.dirs) := by
  refine ⟨?_, ?_, ?_, ?_, fun env base ms st hmk => build_modules_total ms env base st hmk⟩
  · intro env base n p tree fl url st
    rw [build_module_structure.eq_def, build_module_structure.eq_def]
    rfl
  · intro env parent n p tree fl url st
    rw [any_generate_module.eq_def, any_generate_module.eq_def]
    rfl
  · intro env base n p tree fl url st
    refine ⟨clone_step env st (base ++ [(Module.mk n (some url) p tree fl).name]) url, ?_⟩
    rw [build_module_structure.eq_def]
  · intro env base n p tree fl url st hex
    constructor
    · rw [build_module_structure.eq_def]
      show Except.ok (clone_step env st _ url) = _
      rw [clone_step, if_pos hex]
    · rw [any_generate_module.eq_def]
      show Except.ok (clone_step env st _ url) = _
      rw [clone_step, if_pos hex]

/-- A clone-target module whose target directory already exists, plus a
sibling ordinary module, under an oracle where every clone fails. -/
def c5_env : GenEnv := { cloneOk := fun _ _ => false, mkdirOk := fun _ => true }

def c5_clone_module : Module := Module.mk none (some "https://ex/lib.git") none [] []

def c5_plain_module : Module := Module.mk (some "src") none none [] []

def c5_state : GenState := { dirs := [["lib"]], files := [], clones := [] }

theorem C5_clone_non_fatal_witness :
    pathExists c5_state ["lib"] = true ∧
    (∀ pth, c5_env.mkdirOk pth = true) ∧
    build_module_structure c5_env [] c5_clone_module c5_state = .ok c5_state ∧
    ∃ st', build_modules_structure c5_env [] [c5_clone_module, c5_plain_module] c5_state =
        .ok st' ∧
      ∀ m ∈ [c5_clone_module, c5_plain_module], m.is_git_clone = false →
        ([] ++ [m.name]) ∈ st'.dirs := by
  refine ⟨by decide, fun pth => rfl, ?_, ?_⟩
  · exact (C5_clone_non_fatal.2.2.2.1 c5_env [] none none [] [] "https://ex/lib.git"
      c5_state (by decide)).1
  · exact C5_clone_non_fatal.2.2.2.2 c5_env [] [c5_clone_module, c5_plain_module]
      c5_state (fun pth => rfl)

/-! ### C6 amended: hypotheses and string lemmas -/

/-- A usable path component: nonempty and free of `/`. -/
def goodStr (s : String) : Bool := !(s = "") && !(s.data.contains '/')

/-- Boolean duplicate-freedom of a name list. -/
def nodupB : List String → Bool
  | [] => true
  | x :: xs => !(xs.contains x) && nodupB xs

mutual

/-- Goodness of a module subtree for the amended C6: module names and
extended file names are `/`-free and nonempty, and sibling module names
are distinct at every level. -/
def goodModule (lang : String) : Module → Bool
  | .mk n f p tree fl =>
    goodStr (Module.mk n f p tree fl).name &&
    fl.all (fun cf => goodStr (cf.filename_with_extension lang)) &&
    nodupB (tree.map Module.name) &&
    goodModules lang tree

def goodModules (lang : String) : List Module → Bool
  | [] => true
  | m :: rest => goodModule lang m && goodModules lang rest

end

/-- Goodness of a project for the amended C6. -/
def goodProject (p : Project) : Bool :=
  p.file.all (fun cf => goodStr (cf.filename_with_extension p.lang)) &&
  nodupB (p.tree.map Module.name) &&
  goodModules p.lang p.tree

/-- Segment separation: for `/`-free `a` and `b`, a prefix relation between
`a ++ "/" ++ x` and `b ++ "/" ++ y` forces the first segments to agree. -/
theorem seg_prefix_eq : ∀ (a b x y : List Char),
    a.contains '/' = false → b.contains '/' = false →
    (a ++ '/' :: x) <+: (b ++ '/' :: y) → a = b ∧ x <+: y := by
  intro a
  induction a with
  | nil =>
    intro b x y _ hb h
    cases b with
    | nil =>
      simp only [List.nil_append] at h
      exact ⟨rfl, (List.cons_prefix_cons.mp h).2⟩
    | cons c bs =>
      exfalso
      simp only [List.nil_append, List.cons_append] at h
      have hc := (List.cons_prefix_cons.mp h).1
      rw [List.contains_cons] at hb
      simp [← hc] at hb
  | cons c as ih =>
    intro b x y ha hb h
    cases b with
    | nil =>
      exfalso
      simp only [List.cons_append, List.nil_append] at h
      have hc := (List.cons_prefix_cons.mp h).1
      rw [List.contains_cons] at ha
      simp [hc] at ha
    | cons c' bs =>
      simp only [List.cons_append] at h
      obtain ⟨hc, h2⟩ := List.cons_prefix_cons.mp h
      rw [List.contains_cons, Bool.or_eq_false_iff] at ha hb
      obtain ⟨h3, h4⟩ := ih bs x y ha.2 hb.2 h2
      exact ⟨by rw [hc, h3], h4⟩

/-- The display-path prefix contributed by a module chain: the base path
followed by each chain component and a trailing `/` (nothing for the empty
chain). -/
def chainPrefix (base : String) (parents : List String) : String :=
  base ++ joinPath parents ++ (if parents.isEmpty then "" else "/")

theorem joinPath_append_singleton (parents : List String) (x : String) :
    joinPath (parents ++ [x]) =
      joinPath parents ++ (if parents.isEmpty then "" else "/") ++ x := by
  induction parents with
  | nil => simp [joinPath]
  | cons a ps ih =>
    cases ps with
    | nil => simp [joinPath]
    | cons b ps' =>
      have h1 : joinPath (a :: b :: (ps' ++ [x])) = a ++ "/" ++ joinPath (b :: (ps' ++ [x])) := by
        rfl
      have h2 : joinPath (a :: b :: ps') = a ++ "/" ++ joinPath (b :: ps') := rfl
      rw [List.cons_append] at ih
      rw [List.cons_append, List.cons_append, h1, ih, h2]
      simp [String.append_assoc]

theorem chainPrefix_snoc (base : String) (parents : List String) (x : String) :
    chainPrefix base (parents ++ [x]) = chainPrefix base parents ++ x ++ "/" := by
  rw [chainPrefix, chainPrefix, joinPath_append_singleton]
  simp [String.append_assoc]

theorem chainPrefix_snoc_data (base : String) (parents : List String) (x : String) :
    (chainPrefix base (parents ++ [x])).data =
      (chainPrefix base parents).data ++ x.data ++ ['/'] := by
  rw [chainPrefix_snoc]
  simp [String.data_append]

theorem chainPrefix_nil (base : String) : chainPrefix base [] = base := by
  rw [chainPrefix]
  simp [joinPath]

/-- The module directory display path used by the collector is the chain
prefix of the extended chain. -/
theorem module_dir_eq_chainPrefix (base : String) (parents : List String) (x : String) :
    base ++ joinPath (parents ++ [x]) ++ "/" = chainPrefix base (parents ++ [x]) := by
  rw [chainPrefix]
  simp

theorem shape_module :
    ∀ m, ∀ (base lang : String) (k : Nat) (parents : List String),
      ∀ e ∈ collect_module_entries base lang k m parents,
        ∃ Z : List Char, e.display_path.data =
          (chainPrefix base parents).data ++ m.name.data ++ '/' :: Z := by
  have hsub : ∀ (ms : List Module),
      (∀ m ∈ ms, ∀ (base lang : String) (k : Nat) (parents : List String),
        ∀ e ∈ collect_module_entries base lang k m parents,
          ∃ Z : List Char, e.display_path.data =
            (chainPrefix base parents).data ++ m.name.data ++ '/' :: Z) →
      ∀ (base lang : String) (k : Nat) (parents : List String),
        ∀ e ∈ collect_submodule_entries base lang k ms parents,
          ∃ mm ∈ ms, ∃ Z : List Char, e.display_path.data =
            (chainPrefix base parents).data ++ mm.name.data ++ '/' :: Z := by
    intro ms
    induction ms with
    | nil =>
      intro _ base lang k parents e he
      rw [collect_submodule_entries] at he
      cases he
    | cons m rest ihr =>
      intro ih base lang k parents e he
      rw [collect_submodule_entries, List.mem_append] at he
      rcases he with he | he
      · rcases ih m (by simp) base lang k parents e he with ⟨Z, hZ⟩
        exact ⟨m, by simp, Z, hZ⟩
      · rcases ihr (fun m' hm' => ih m' (by simp [hm'])) base lang k parents e he
          with ⟨mm, hmm, Z, hZ⟩
        exact ⟨mm, by simp [hmm], Z, hZ⟩
  refine moduleRecTree ?_
  intro n f p tree fl ih base lang k parents e he
  rw [collect_module_entries] at he
  set name := (Module.mk n f p tree fl).name with hname
  have hdirdata : (base ++ joinPath (parents ++ [name]) ++ "/").data =
      (chainPrefix base parents).data ++ name.data ++ ['/'] := by
    rw [module_dir_eq_chainPrefix, chainPrefix_snoc_data]
  rcases List.mem_cons.mp he with he | he
  · refine ⟨[], ?_⟩
    rw [he]
    simpa using hdirdata
  · rw [List.mem_append] at he
    rcases he with he | he
    · rw [List.mem_map] at he
      rcases he with ⟨cf, _, hcf⟩
      refine ⟨(cf.filename_with_extension lang).data, ?_⟩
      rw [← hcf]
      show (base ++ joinPath (parents ++ [name]) ++ "/" ++ cf.filename_with_extension lang).data = _
      rw [String.data_append, hdirdata]
      simp
    · rcases hsub tree ih base lang k (parents ++ [name]) e he with ⟨mm, _, Z, hZ⟩
      refine ⟨mm.name.data ++ '/' :: Z, ?_⟩
      rw [hZ, chainPrefix_snoc_data]
      simp

theorem shape_list (ms : List Module) (base lang : String) (k : Nat)
    (parents : List String) :
    ∀ e ∈ collect_submodule_entries base lang k ms parents,
      ∃ mm ∈ ms, ∃ Z : List Char, e.display_path.data =
        (chainPrefix base parents).data ++ mm.name.data ++ '/' :: Z := by
  induction ms with
  | nil =>
    intro e he
    rw [collect_submodule_entries] at he
    cases he
  | cons m rest ihr =>
    intro e he
    rw [collect_submodule_entries, List.mem_append] at he
    rcases he with he | he
    · rcases shape_module m base lang k parents e he with ⟨Z, hZ⟩
      exact ⟨m, by simp, Z, hZ⟩
    · rcases ihr e he with ⟨mm, hmm, Z, hZ⟩
      exact ⟨mm, by simp [hmm], Z, hZ⟩

/-- The amended C6 ordering property of an entry list: a directory entry's
index precedes the index of every other entry whose display path it
prefixes. -/
def DirPrecedes (L : List ManagedFile) : Prop :=
  ∀ (i j : Nat) (hi : i < L.length) (hj : j < L.length),
    (L.get ⟨i, hi⟩).is_directory = true →
    (L.get ⟨i, hi⟩).display_path.data <+: (L.get ⟨j, hj⟩).display_path.data →
    i ≠ j → i < j

theorem prefix_cancel {α : Type _} : ∀ (l s t : List α), (l ++ s) <+: (l ++ t) → s <+: t := by
  intro l
  induction l with
  | nil => intro s t h; simpa using h
  | cons a l ih =>
    intro s t h
    simp only [List.cons_append] at h
    exact ih s t (List.cons_prefix_cons.mp h).2

theorem goodModules_mem {lang : String} {ms : List Module} {m : Module}
    (h : goodModules lang ms = true) (hm : m ∈ ms) : goodModule lang m = true := by
  induction ms with
  | nil => cases hm
  | cons m' rest ih =>
    rw [goodModules, Bool.and_eq_true] at h
    rcases List.mem_cons.mp hm with rfl | hm
    · exact h.1
    · exact ih h.2 hm

theorem goodStr_no_slash {s : String} (h : goodStr s = true) :
    s.data.contains '/' = false := by
  rw [goodStr, Bool.and_eq_true] at h
  have := h.2
  simp only [Bool.not_eq_true'] at this
  exact this

theorem goodModule_name {lang : String} {m : Module} (h : goodModule lang m = true) :
    goodStr m.name = true := by
  rcases m with ⟨n, f, p, tree, fl⟩
  rw [goodModule, Bool.and_eq_true, Bool.and_eq_true, Bool.and_eq_true] at h
  exact h.1.1.1

theorem goodModule_files {lang : String} {n f p tree fl}
    (h : goodModule lang (Module.mk n f p tree fl) = true) :
    ∀ cf ∈ fl, goodStr (cf.filename_with_extension lang) = true := by
  rw [goodModule, Bool.and_eq_true, Bool.and_eq_true, Bool.and_eq_true] at h
  intro cf hcf
  exact List.all_eq_true.mp h.1.1.2 cf hcf

theorem goodModule_nodup {lang : String} {n f p tree fl}
    (h : goodModule lang (Module.mk n f p tree fl) = true) :
    nodupB (tree.map Module.name) = true := by
  rw [goodModule, Bool.and_eq_true, Bool.and_eq_true, Bool.and_eq_true] at h
  exact h.1.2

theorem goodModule_subtree {lang : String} {n f p tree fl}
    (h : goodModule lang (Module.mk n f p tree fl) = true) :
    goodModules lang tree = true := by
  rw [goodModule, Bool.and_eq_true, Bool.and_eq_true, Bool.and_eq_true] at h
  exact h.2

theorem dirPrecedes_append (A B : List ManagedFile)
    (hA : DirPrecedes A) (hB : DirPrecedes B)
    (hcross : ∀ (i' j' : Nat) (hi' : i' < B.length) (hj' : j' < A.length),
      (B.get ⟨i', hi'⟩).is_directory = true →
      ¬ ((B.get ⟨i', hi'⟩).display_path.data <+: (A.get ⟨j', hj'⟩).display_path.data)) :
    DirPrecedes (A ++ B) := by
  intro i j hi hj hdir hpre hne
  have hlen := hi
  rw [List.length_append] at hlen
  have hlenj := hj
  rw [List.length_append] at hlenj
  by_cases hiA : i < A.length
  · by_cases hjA : j < A.length
    · have hgi : (A ++ B).get ⟨i, hi⟩ = A.get ⟨i, hiA⟩ := by
        simp only [List.get_eq_getElem]
        exact List.getElem_append_left hiA
      have hgj : (A ++ B).get ⟨j, hj⟩ = A.get ⟨j, hjA⟩ := by
        simp only [List.get_eq_getElem]
        exact List.getElem_append_left hjA
      rw [hgi] at hdir hpre
      rw [hgj] at hpre
      exact hA i j hiA hjA hdir hpre hne
    · omega
  · have hiB : A.length ≤ i := by omega
    have hgi : (A ++ B).get ⟨i, hi⟩ = B.get ⟨i - A.length, by omega⟩ := by
      simp only [List.get_eq_getElem]
      exact List.getElem_append_right hiB
    by_cases hjA : j < A.length
    · exfalso
      have hgj : (A ++ B).get ⟨j, hj⟩ = A.get ⟨j, hjA⟩ := by
        simp only [List.get_eq_getElem]
        exact List.getElem_append_left hjA
      rw [hgi] at hdir hpre
      rw [hgj] at hpre
      exact hcross (i - A.length) j (by omega) hjA hdir hpre
    · have hjB : A.length ≤ j := by omega
      have hgj : (A ++ B).get ⟨j, hj⟩ = B.get ⟨j - A.length, by omega⟩ := by
        simp only [List.get_eq_getElem]
        exact List.getElem_append_right hjB
      rw [hgi] at hdir hpre
      rw [hgj] at hpre
      have := hB (i - A.length) (j - A.length) (by omega) (by omega) hdir hpre (by omega)
      omega

theorem no_slash_not_mem {s : String} (h : goodStr s = true) : '/' ∉ s.data := by
  have h2 := goodStr_no_slash h
  intro hm
  have h3 : s.data.contains '/' = true := List.elem_iff.mpr hm
  rw [h3] at h2
  cases h2

theorem main_list_of (base lang : String) (k : Nat) (ms : List Module)
    (ih : ∀ m ∈ ms, ∀ parents, goodModule lang m = true →
      DirPrecedes (collect_module_entries base lang k m parents)) :
    ∀ parents, goodModules lang ms = true →
      nodupB (ms.map Module.name) = true →
      DirPrecedes (collect_submodule_entries base lang k ms parents) := by
  induction ms with
  | nil =>
    intro parents _ _ i j hi hj hdir hpre hne
    rw [collect_submodule_entries] at hi
    simp at hi
  | cons m rest ihr =>
    intro parents hgood hnodup
    rw [goodModules, Bool.and_eq_true] at hgood
    rw [List.map_cons, nodupB, Bool.and_eq_true] at hnodup
    have hL : collect_submodule_entries base lang k (m :: rest) parents =
        collect_module_entries base lang k m parents ++
          collect_submodule_entries base lang k rest parents := by
      rw [collect_submodule_entries]
    rw [hL]
    apply dirPrecedes_append
    · exact ih m (by simp) parents hgood.1
    · exact ihr (fun m' hm' => ih m' (by simp [hm'])) parents hgood.2 hnodup.2
    · intro i' j' hi' hj' hdir hpre
      rcases shape_list rest base lang k parents _ (List.get_mem _ i' hi') with ⟨mt, hmt, Z1, hZ1⟩
      rcases shape_module m base lang k parents _ (List.get_mem _ j' hj') with ⟨Z2, hZ2⟩
      rw [hZ1, hZ2, List.append_assoc, List.append_assoc] at hpre
      have hseg := seg_prefix_eq _ _ _ _
        (goodStr_no_slash (goodModule_name (goodModules_mem hgood.2 hmt)))
        (goodStr_no_slash (goodModule_name hgood.1))
        (prefix_cancel _ _ _ hpre)
      have hname : mt.name = m.name := String.ext hseg.1
      have hmem : m.name ∈ rest.map Module.name := by
        rw [List.mem_map]
        exact ⟨mt, hmt, hname⟩
      have hcont := List.elem_iff.mpr hmem
      rcases hnodup with ⟨h1, -⟩
      rw [Bool.not_eq_true'] at h1
      have : (List.map Module.name rest).contains m.name = true := hcont
      rw [this] at h1
      cases h1

theorem main_mod (base lang : String) (k : Nat) :
    ∀ m, ∀ parents, goodModule lang m = true →
      DirPrecedes (collect_module_entries base lang k m parents) := by
  refine moduleRecTree ?_
  intro n f p tree fl ih parents hgood
  have hL : collect_module_entries base lang k (Module.mk n f p tree fl) parents =
      ((⟨base ++ joinPath (parents ++ [(Module.mk n f p tree fl).name]) ++ "/", k,
          (Module.mk n f p tree fl).name, parents, false, true⟩ : ManagedFile) ::
        fl.map (fun cf =>
          (⟨(base ++ joinPath (parents ++ [(Module.mk n f p tree fl).name]) ++ "/") ++
              cf.filename_with_extension lang, k, cf.name,
            parents ++ [(Module.mk n f p tree fl).name], false, false⟩ : ManagedFile))) ++
        collect_submodule_entries base lang k tree
          (parents ++ [(Module.mk n f p tree fl).name]) := by
    rw [collect_module_entries]
    rfl
  rw [hL]
  have hdirdata : (base ++ joinPath (parents ++ [(Module.mk n f p tree fl).name]) ++ "/").data =
      (chainPrefix base (parents ++ [(Module.mk n f p tree fl).name])).data := by
    rw [module_dir_eq_chainPrefix]
  apply dirPrecedes_append
  · intro i j hi hj hdir hpre hne
    cases i with
    | zero =>
      cases j with
      | zero => exact absurd rfl hne
      | succ jj => omega
    | succ ii =>
      exfalso
      have hii : ii < fl.length := by
        simp at hi
        omega
      have hgete : ((⟨base ++ joinPath (parents ++ [(Module.mk n f p tree fl).name]) ++ "/", k,
          (Module.mk n f p tree fl).name, parents, false, true⟩ : ManagedFile) ::
          fl.map (fun cf =>
            (⟨(base ++ joinPath (parents ++ [(Module.mk n f p tree fl).name]) ++ "/") ++
                cf.filename_with_extension lang, k, cf.name,
              parents ++ [(Module.mk n f p tree fl).name], false, false⟩ : ManagedFile))).get
            ⟨ii + 1, hi⟩ =
          (fl.map (fun cf =>
            (⟨(base ++ joinPath (parents ++ [(Module.mk n f p tree fl).name]) ++ "/") ++
                cf.filename_with_extension lang, k, cf.name,
              parents ++ [(Module.mk n f p tree fl).name], false, false⟩ : ManagedFile))).get
            ⟨ii, by simpa using hi⟩ := rfl
      rw [hgete] at hdir
      simp only [List.get_eq_getElem, List.getElem_map] at hdir
      cases hdir
  · exact main_list_of base lang k tree ih
      (parents ++ [(Module.mk n f p tree fl).name])
      (goodModule_subtree hgood) (goodModule_nodup hgood)
  · intro i' j' hi' hj' hdir hpre
    rcases shape_list tree base lang k (parents ++ [(Module.mk n f p tree fl).name]) _
      (List.get_mem _ i' hi') with ⟨mt, hmt, Z1, hZ1⟩
    cases j' with
    | zero =>
      have hgetd : ((⟨base ++ joinPath (parents ++ [(Module.mk n f p tree fl).name]) ++ "/", k,
          (Module.mk n f p tree fl).name, parents, false, true⟩ : ManagedFile) ::
          fl.map (fun cf =>
            (⟨(base ++ joinPath (parents ++ [(Module.mk n f p tree fl).name]) ++ "/") ++
                cf.filename_with_extension lang, k, cf.name,
              parents ++ [(Module.mk n f p tree fl).name], false, false⟩ : ManagedFile))).get
            ⟨0, hj'⟩ =
          (⟨base ++ joinPath (parents ++ [(Module.mk n f p tree fl).name]) ++ "/", k,
            (Module.mk n f p tree fl).name, parents, false, true⟩ : ManagedFile) := rfl
      rw [hgetd, hZ1] at hpre
      have hle := hpre.length_le
      rw [hdirdata] at hle
      simp [List.length_append] at hle
    | succ jj =>
      have hjj : jj < fl.length := by
        simp at hj'
        omega
      have hgete : ((⟨base ++ joinPath (parents ++ [(Module.mk n f p tree fl).name]) ++ "/", k,
          (Module.mk n f p tree fl).name, parents, false, true⟩ : ManagedFile) ::
          fl.map (fun cf =>
            (⟨(base ++ joinPath (parents ++ [(Module.mk n f p tree fl).name]) ++ "/") ++
                cf.filename_with_extension lang, k, cf.name,
              parents ++ [(Module.mk n f p tree fl).name], false, false⟩ : ManagedFile))).get
            ⟨jj + 1, hj'⟩ =
          (fl.map (fun cf =>
            (⟨(base ++ joinPath (parents ++ [(Module.mk n f p tree fl).name]) ++ "/") ++
                cf.filename_with_extension lang, k, cf.name,
              parents ++ [(Module.mk n f p tree fl).name], false, false⟩ : ManagedFile))).get
            ⟨jj, by simpa using hj'⟩ := rfl
      rw [hgete, hZ1] at hpre
      simp only [List.get_eq_getElem, List.getElem_map] at hpre
      have hpre2 : (chainPrefix base (parents ++ [(Module.mk n f p tree fl).name])).data ++
          (mt.name.data ++ '/' :: Z1) <+:
          (chainPrefix base (parents ++ [(Module.mk n f p tree fl).name])).data ++
          (fl[jj].filename_with_extension lang).data := by
        rw [← List.append_assoc]
        have : ((base ++ joinPath (parents ++ [(Module.mk n f p tree fl).name]) ++ "/") ++
            fl[jj].filename_with_extension lang).data =
            (chainPrefix base (parents ++ [(Module.mk n f p tree fl).name])).data ++
            (fl[jj].filename_with_extension lang).data := by
          rw [String.data_append, hdirdata]
        rw [← this]
        exact hpre
      have hcanc := prefix_cancel _ _ _ hpre2
      have hmem : '/' ∈ (fl[jj].filename_with_extension lang).data :=
        hcanc.sublist.subset (by simp)
      exact no_slash_not_mem (goodModule_files hgood (fl[jj]) (by simp)) hmem

theorem goodProject_parts (p : Project) (h : goodProject p = true) :
    (∀ cf ∈ p.file, goodStr (cf.filename_with_extension p.lang) = true) ∧
    nodupB (p.tree.map Module.name) = true ∧ goodModules p.lang p.tree = true := by
  rw [goodProject, Bool.and_eq_true, Bool.and_eq_true] at h
  exact ⟨fun cf hcf => List.all_eq_true.mp h.1.1 cf hcf, h.1.2, h.2⟩

theorem project_dir_precedes (k : Nat) (p : Project) (hgood : goodProject p = true) :
    DirPrecedes (collect_project_entries k p) := by
  obtain ⟨hfiles, hnodup, hmods⟩ := goodProject_parts p hgood
  have hL : collect_project_entries k p =
      (p.file.map (fun cf =>
        (⟨(if p.root then "" else p.name ++ "/") ++ cf.filename_with_extension p.lang,
          k, cf.name, [], true, false⟩ : ManagedFile))) ++
      collect_submodule_entries (if p.root then "" else p.name ++ "/") p.lang k p.tree [] := by
    rw [collect_project_entries]
  rw [hL]
  apply dirPrecedes_append
  · intro i j hi hj hdir hpre hne
    exfalso
    simp only [List.get_eq_getElem, List.getElem_map] at hdir
    cases hdir
  · exact main_list_of _ p.lang k p.tree
      (fun m _ parents hg => main_mod _ p.lang k m parents hg) [] hmods hnodup
  · intro i' j' hi' hj' hdir hpre
    rcases shape_list p.tree (if p.root then "" else p.name ++ "/") p.lang k [] _
      (List.get_mem _ i' hi') with ⟨mt, hmt, Z1, hZ1⟩
    have hjlt : j' < p.file.length := by simpa using hj'
    have hgj : ((p.file.map (fun cf =>
        (⟨(if p.root then "" else p.name ++ "/") ++ cf.filename_with_extension p.lang,
          k, cf.name, [], true, false⟩ : ManagedFile))).get ⟨j', hj'⟩).display_path =
        (if p.root then "" else p.name ++ "/") ++ (p.file[j']).filename_with_extension p.lang := by
      simp only [List.get_eq_getElem, List.getElem_map]
    rw [hZ1, hgj, chainPrefix_nil] at hpre
    rw [String.data_append, List.append_assoc] at hpre
    have hcanc := prefix_cancel _ _ _ hpre
    have hmem : '/' ∈ ((p.file[j']).filename_with_extension p.lang).data :=
      hcanc.sublist.subset (by simp)
    exact no_slash_not_mem (hfiles (p.file[j']) (by simp)) hmem

theorem flatMap_get_decomp {α β : Type _} (f : α → List β) :
    ∀ (l : List α) (i : Nat) (hi : i < (l.flatMap f).length),
      ∃ (kk : Nat) (hk : kk < l.length) (i' : Nat)
        (hi' : i' < (f (l.get ⟨kk, hk⟩)).length),
        (l.flatMap f).get ⟨i, hi⟩ = (f (l.get ⟨kk, hk⟩)).get ⟨i', hi'⟩ ∧
        i = ((l.take kk).flatMap f).length + i' := by
  intro l
  induction l with
  | nil => intro i hi; simp at hi
  | cons a rest ih =>
    intro i hi
    have hi2 : i < (f a).length + (rest.flatMap f).length := by
      simpa [List.length_append] using hi
    by_cases hia : i < (f a).length
    · refine ⟨0, by simp, i, hia, ?_, by simp⟩
      show ((f a ++ rest.flatMap f)).get ⟨i, by simpa using hi⟩ = _
      simp only [List.get_eq_getElem]
      exact List.getElem_append_left hia
    · have hge : (f a).length ≤ i := by omega
      obtain ⟨kk, hk, i', hi', hget, hoff⟩ := ih (i - (f a).length) (by omega)
      refine ⟨kk + 1, by simpa using hk, i', hi', ?_, ?_⟩
      · show ((f a ++ rest.flatMap f)).get ⟨i, by simpa using hi⟩ = _
        simp only [List.get_eq_getElem]
        rw [List.getElem_append_right hge]
        simp only [List.get_eq_getElem] at hget
        exact hget
      · have : ((a :: rest).take (kk + 1)).flatMap f = f a ++ (rest.take kk).flatMap f := by
          rw [List.take_succ_cons, List.flatMap_cons]
        rw [this, List.length_append]
        omega

theorem collect_module_entries_pidx :
    ∀ m, ∀ (base lang : String) (k : Nat) (parents : List String),
      ∀ e ∈ collect_module_entries base lang k m parents, e.project_index = k := by
  have hsub : ∀ (ms : List Module),
      (∀ m ∈ ms, ∀ (base lang : String) (k : Nat) (parents : List String),
        ∀ e ∈ collect_module_entries base lang k m parents, e.project_index = k) →
      ∀ (base lang : String) (k : Nat) (parents : List String),
        ∀ e ∈ collect_submodule_entries base lang k ms parents, e.project_index = k := by
    intro ms
    induction ms with
    | nil =>
      intro _ base lang k parents e he
      rw [collect_submodule_entries] at he
      cases he
    | cons m rest ihr =>
      intro ih base lang k parents e he
      rw [collect_submodule_entries, List.mem_append] at he
      rcases he with he | he
      · exact ih m (by simp) base lang k parents e he
      · exact ihr (fun m' hm' => ih m' (by simp [hm'])) base lang k parents e he
  refine moduleRecTree ?_
  intro n f p tree fl ih base lang k parents e he
  rw [collect_module_entries] at he
  rcases List.mem_cons.mp he with he | he
  · rw [he]
  · rw [List.mem_append] at he
    rcases he with he | he
    · rw [List.mem_map] at he
      rcases he with ⟨cf, _, hcf⟩
      rw [← hcf]
    · exact hsub tree ih base lang k _ e he

theorem collect_project_entries_pidx (k : Nat) (p : Project) :
    ∀ e ∈ collect_project_entries k p, e.project_index = k := by
  intro e he
  rw [collect_project_entries, List.mem_append] at he
  rcases he with he | he
  · rw [List.mem_map] at he
    rcases he with ⟨cf, _, hcf⟩
    rw [← hcf]
  · have hsubpidx : ∀ (ms : List Module) (base lang : String) (parents : List String),
          ∀ e' ∈ collect_submodule_entries base lang k ms parents, e'.project_index = k := by
      intro ms base lang parents e' he'
      induction ms generalizing e' with
      | nil =>
        rw [collect_submodule_entries] at he'
        cases he'
      | cons m rest ihr =>
        rw [collect_submodule_entries, List.mem_append] at he'
        rcases he' with he' | he'
        · exact collect_module_entries_pidx m base lang k parents e' he'
        · exact ihr e' he'
    exact hsubpidx p.tree _ p.lang [] e he

/-- C6 (amended): for every configuration whose module names and code-file
names (with their generated extensions) are nonempty and `/`-free and whose
sibling module names are distinct at every level, a directory entry's index
in the collected entry list precedes the index of every other entry of the
same project whose display path it prefixes. -/
theorem C6_directory_precedes_amended (config : MoliConfig)
    (hgood : ∀ p ∈ config.projects, goodProject p = true) :
    ∀ (i j : Nat) (hi : i < (collect_all_entries config).length)
      (hj : j < (collect_all_entries config).length),
      ((collect_all_entries config).get ⟨i, hi⟩).is_directory = true →
      ((collect_all_entries config).get ⟨i, hi⟩).project_index =
        ((collect_all_entries config).get ⟨j, hj⟩).project_index →
      ((collect_all_entries config).get ⟨i, hi⟩).display_path.data <+:
        ((collect_all_entries config).get ⟨j, hj⟩).display_path.data →
      i ≠ j → i < j := by
  intro i j hi hj hdir hpidx hpre hne
  have hi0 := hi
  have hj0 := hj
  rw [collect_all_entries] at hi0 hj0
  obtain ⟨k1, hk1, i', hi', hgi, hoffi⟩ :=
    flatMap_get_decomp (fun pi => collect_project_entries pi.1 pi.2) config.projects.enum i hi0
  obtain ⟨k2, hk2, j', hj', hgj, hoffj⟩ :=
    flatMap_get_decomp (fun pi => collect_project_entries pi.1 pi.2) config.projects.enum j hj0
  have hgi' : (collect_all_entries config).get ⟨i, hi⟩ =
      (collect_project_entries (config.projects.enum.get ⟨k1, hk1⟩).1
        (config.projects.enum.get ⟨k1, hk1⟩).2).get ⟨i', hi'⟩ := hgi
  have hgj' : (collect_all_entries config).get ⟨j, hj⟩ =
      (collect_project_entries (config.projects.enum.get ⟨k2, hk2⟩).1
        (config.projects.enum.get ⟨k2, hk2⟩).2).get ⟨j', hj'⟩ := hgj
  have henum1 : (config.projects.enum.get ⟨k1, hk1⟩) =
      (k1, config.projects.get ⟨k1, by simpa using hk1⟩) := by
    simp only [List.get_eq_getElem]
    exact List.getElem_enum _ _ _
  have henum2 : (config.projects.enum.get ⟨k2, hk2⟩) =
      (k2, config.projects.get ⟨k2, by simpa using hk2⟩) := by
    simp only [List.get_eq_getElem]
    exact List.getElem_enum _ _ _
  have hpi1 : ((collect_all_entries config).get ⟨i, hi⟩).project_index = k1 := by
    rw [hgi']
    have := collect_project_entries_pidx (config.projects.enum.get ⟨k1, hk1⟩).1
      (config.projects.enum.get ⟨k1, hk1⟩).2 _ (List.get_mem _ i' hi')
    rw [this, henum1]
  have hpi2 : ((collect_all_entries config).get ⟨j, hj⟩).project_index = k2 := by
    rw [hgj']
    have := collect_project_entries_pidx (config.projects.enum.get ⟨k2, hk2⟩).1
      (config.projects.enum.get ⟨k2, hk2⟩).2 _ (List.get_mem _ j' hj')
    rw [this, henum2]
  have hkk : k1 = k2 := by
    rw [hpi1, hpi2] at hpidx
    exact hpidx
  subst hkk
  have hDP : DirPrecedes (collect_project_entries (config.projects.enum.get ⟨k1, hk1⟩).1
      (config.projects.enum.get ⟨k1, hk1⟩).2) := by
    rw [henum1]
    exact project_dir_precedes k1 _ (hgood _ (List.get_mem _ k1 (by simpa using hk1)))
  have hij : i' ≠ j' := by
    intro hcontra
    apply hne
    omega
  have hlt := hDP i' j' hi' hj' (by rw [← hgi']; exact hdir)
    (by rw [← hgi', ← hgj']; exact hpre) hij
  omega

/-- A well-formed configuration for the amended C6 witness. -/
def c6w_config : MoliConfig :=
  { projects := [
      { name := "app", root := true, lang := "rust", file := [],
        tree := [Module.mk (some "src") none none
          [Module.mk (some "domain") none none [] [⟨"model", none⟩]]
          [⟨"main", none⟩]] } ] }

theorem C6_directory_precedes_amended_witness :
    (∀ p ∈ c6w_config.projects, goodProject p = true) ∧ (2 : Nat) < 3 :=
  ⟨by decide,
    C6_directory_precedes_amended c6w_config (by decide) 2 3 (by decide) (by decide)
      (by decide) (by decide) (by decide) (by decide)⟩

/-! ## Structural editor (`yaml_modifier.rs`): line primitives -/

/-- The literal `- name:` keyword tested with `starts_with`. -/
def nameKw : Line := "- name:".data

/-- An entry line `- name: X` as compared against trimmed lines. -/
def entryLine (name : Line) : Line := "- name: ".data ++ name

/-- Embedding of Rust `str::lines` for ASCII text without carriage
returns: split on newline, with a single trailing newline producing no
final empty line. -/
def linesOfStr (s : String) : List Line :=
  if s.data.isEmpty then []
  else
    let parts := s.data.splitOn '\n'
    if s.data.getLast? = some '\n' then parts.dropLast else parts

/-- Embedding of `[String]::join("\n")`. -/
def joinLines (ls : List Line) : List Char := List.intercalate ['\n'] ls

def strOfLines (ls : List Line) : String := ⟨joinLines ls⟩

/-- Rust `Vec::insert` for lines. -/
def insertAt (ls : List Line) (pos : Nat) (l : Line) : List Line :=
  ls.take pos ++ l :: ls.drop pos

/-- Removing the index range `[s, e]` from a line vector (the skip loop of
the removal functions, with `s ≤ e`). -/
def deleteRange (ls : List Line) (s e : Nat) : List Line :=
  ls.take s ++ ls.drop (e + 1)

/-- The trailing-newline preservation step shared by every editor entry
point: the original's trailing newline is re-appended when lost. -/
def withTrailingNewline (original : String) (result : String) : String :=
  if original.data.getLast? = some '\n' ∧ ¬ result.data.getLast? = some '\n' then
    ⟨result.data ++ ['\n']⟩
  else result

/-- Embedding of `YamlModifier::find_module_start`: first line at or after
`from` whose trimmed content equals the entry line. -/
def find_module_start (lines : List Line) (from_ : Nat) (name : Line) : Option Nat :=
  match (lines.drop from_).findIdx? (fun l => trimL l == entryLine name) with
  | some kk => some (from_ + kk)
  | none => none

/-- Chain navigation `for seg in segs { find_module_start(...)? + 1 }`,
returning the running `search_start`. -/
def navChain (lines : List Line) (start : Nat) (segs : List String) : Option Nat :=
  match segs with
  | [] => some start
  | s :: rest =>
    match find_module_start lines start s.data with
    | some idx => navChain lines (idx + 1) rest
    | none => none

/-- Embedding of `YamlModifier::match_file_entry`: the removal range of a
file entry line together with its deeper non-entry continuation lines. -/
def match_file_entry (lines : List Line) (line_index : Nat) (file_name : Line)
    (expected_indent : Nat) : Option (Nat × Nat) :=
  let line := lines.getD line_index []
  if indentOf line ≠ expected_indent then none
  else if trimL line ≠ entryLine file_name then none
  else
    let contOk := fun l => !(trimL l).isEmpty &&
      decide (expected_indent < indentOf l) && !(nameKw.isPrefixOf (trimL l))
    some (line_index, line_index + ((lines.drop (line_index + 1)).takeWhile contOk).length)

/-- Embedding of the `has_entries` scan of
`YamlModifier::remove_empty_sections`: among the lines following a section
key, the first non-empty one must be a deeper-indented `- name:` entry. -/
def has_entries (rest : List Line) (indent : Nat) : Bool :=
  match rest.find? (fun l => !(trimL l).isEmpty) with
  | some l => decide (indent < indentOf l) && nameKw.isPrefixOf (trimL l)
  | none => false

/-- Embedding of `YamlModifier::remove_empty_sections` at line level: the
while loop over indices, which drops every `section_key` line whose
section has become childless, rendered as structural recursion (each
iteration inspects only the current line and the lines after it). -/
def remove_empty_sections_lines (key : Line) : List Line → List Line
  | [] => []
  | l :: rest =>
    if trimL l == key && !(has_entries rest (indentOf l)) then
      remove_empty_sections_lines key rest
    else l :: remove_empty_sections_lines key rest

/-- Embedding of `YamlModifier::remove_empty_sections` (string to string:
the Rust function re-splits the joined content). -/
def remove_empty_sections (content : String) (key : Line) : String :=
  strOfLines (remove_empty_sections_lines key (linesOfStr content))

/-- The claim-side reading of the cleanup pass: keep exactly those lines
that are not childless section keys, where childlessness of the key at
position `i` is judged against the whole document. -/
def has_entries_at (lines : List Line) (i : Nat) (indent : Nat) : Bool :=
  has_entries (lines.drop (i + 1)) indent

/-- The claim-side cleanup as a positional filter over the document. -/
def spec_childless_filter (lines : List Line) (key : Line) : List Line :=
  (lines.enum.filter (fun il =>
    !(trimL il.2 == key) || has_entries_at lines il.1 (indentOf il.2))).map (fun il => il.2)

/-! ## Removal-side navigation (`remove_file_entry` / `remove_module_entry`) -/

/-- Loop body of `YamlModifier::find_top_level_module`. The project counter
starts at `-1` and the Rust `as usize` comparison of `-1` never equals a
representable index, so an `Int` counter compared with the index is exact.
The first argument is the number of lines still to scan (`lines.length - i`
at every call), so the loop is structurally recursive and executable. -/
def ftlm_go (lines : List Line) (project_index : Nat) (name : Line) :
    Nat → Nat → Int → Bool → Option Nat
  | 0, _, _, _ => none
  | fuel + 1, i, curProj, inTree =>
    let line := lines.getD i []
    let trimmed := trimL line
    let isHeader := nameKw.isPrefixOf trimmed && indentOf line == 0
    let curProj2 := if isHeader then curProj + 1 else curProj
    let inTree2 := if isHeader then false else inTree
    if curProj2 ≠ (project_index : Int) then
      ftlm_go lines project_index name fuel (i + 1) curProj2 inTree2
    else if trimmed == "tree:".data && indentOf line == 2 then
      ftlm_go lines project_index name fuel (i + 1) curProj2 true
    else if inTree2 && trimmed == entryLine name && indentOf line == 4 then
      some i
    else
      ftlm_go lines project_index name fuel (i + 1) curProj2 inTree2

/-- Embedding of `YamlModifier::find_top_level_module`. -/
def find_top_level_module (lines : List Line) (project_index : Nat) (name : Line) :
    Option Nat :=
  ftlm_go lines project_index name lines.length 0 (-1) false

/-- Loop body of `YamlModifier::find_project_level_file`, structurally
recursive on the count of remaining lines. -/
def fplf_go (lines : List Line) (project_index : Nat) (file_name : Line) :
    Nat → Nat → Int → Bool → Nat → Option (Nat × Nat)
  | 0, _, _, _, _ => none
  | fuel + 1, i, curProj, inFile, pind =>
    let line := lines.getD i []
    let trimmed := trimL line
    let isHeader := nameKw.isPrefixOf trimmed && indentOf line == 0
    let curProj2 := if isHeader then curProj + 1 else curProj
    let inFile2 := if isHeader then false else inFile
    let pind2 := if isHeader then 2 else pind
    if curProj2 ≠ (project_index : Int) then
      fplf_go lines project_index file_name fuel (i + 1) curProj2 inFile2 pind2
    else if trimmed == "file:".data && indentOf line == pind2 then
      fplf_go lines project_index file_name fuel (i + 1) curProj2 true pind2
    else
      let inFile3 :=
        if inFile2 && indentOf line ≤ pind2 && !trimmed.isEmpty &&
           !(nameKw.isPrefixOf trimmed) && !("pub:".data.isPrefixOf trimmed) then
          false
        else inFile2
      if inFile3 then
        match match_file_entry lines i file_name (pind2 + 2) with
        | some range => some range
        | none => fplf_go lines project_index file_name fuel (i + 1) curProj2 inFile3 pind2
      else fplf_go lines project_index file_name fuel (i + 1) curProj2 inFile3 pind2

/-- Embedding of `YamlModifier::find_project_level_file`. -/
def find_project_level_file (lines : List Line) (project_index : Nat) (file_name : Line) :
    Option (Nat × Nat) :=
  fplf_go lines project_index file_name lines.length 0 (-1) false 0

/-- Scan loop of `YamlModifier::find_tree_file` after the module has been
located, structurally recursive on the count of remaining lines. -/
def ftf_go (lines : List Line) (file_name : Line) (module_indent : Nat) :
    Nat → Nat → Bool → Option (Nat × Nat)
  | 0, _, _ => none
  | fuel + 1, i, inFile =>
    let line := lines.getD i []
    let trimmed := trimL line
    let indent := indentOf line
    if !trimmed.isEmpty && indent ≤ module_indent then none
    else if trimmed == "file:".data && indent == module_indent + 2 then
      ftf_go lines file_name module_indent fuel (i + 1) true
    else
      let inFile2 :=
        if inFile && indent == module_indent + 2 && !trimmed.isEmpty &&
           !(nameKw.isPrefixOf trimmed) && !("pub:".data.isPrefixOf trimmed) then
          false
        else inFile
      if inFile2 then
        match match_file_entry lines i file_name (module_indent + 4) with
        | some range => some range
        | none => ftf_go lines file_name module_indent fuel (i + 1) inFile2
      else ftf_go lines file_name module_indent fuel (i + 1) inFile2

/-- Embedding of `YamlModifier::find_tree_file`: navigate the module chain,
re-find the last module, then scan its block for the file entry. An empty
`module_path` panics in the source; targets built by the path collector
always carry a non-empty chain for tree files, and the embedding returns
`none` there. -/
def find_tree_file (lines : List Line) (module_path : List String) (file_name : Line) :
    Option (Nat × Nat) :=
  match navChain lines 0 module_path with
  | none => none
  | some search_start =>
    match module_path.getLast? with
    | none => none
    | some last_module =>
      match find_module_start lines (search_start - 1) last_module.data with
      | none => none
      | some module_start =>
        let module_indent := indentOf (lines.getD module_start [])
        ftf_go lines file_name module_indent (lines.length - (module_start + 1))
          (module_start + 1) false

/-! ## Removal entry points -/

/-- Module-span loop of `YamlModifier::remove_module_entry`: extend the end
index over deeper-indented lines, skipping interior empty lines, stopping
at the first non-empty line at or above the module's indent. -/
def span_end_go (lines : List Line) (module_indent : Nat) : Nat → Nat → Nat → Nat
  | 0, _, module_end => module_end
  | fuel + 1, i, module_end =>
    let line := lines.getD i []
    if (trimL line).isEmpty then span_end_go lines module_indent fuel (i + 1) module_end
    else if module_indent < indentOf line then span_end_go lines module_indent fuel (i + 1) i
    else module_end

/-- Embedding of `YamlModifier::remove_file_entry`. -/
def remove_file_entry (yaml_content : String) (target : ManagedFile) :
    Except String String :=
  let lines := linesOfStr yaml_content
  let removal_range :=
    if target.is_project_level then
      find_project_level_file lines target.project_index target.file_name.data
    else
      find_tree_file lines target.module_path target.file_name.data
  match removal_range with
  | none => Except.error ("Could not find file entry '" ++ target.file_name ++ "' in moli.yml")
  | some (s, e) =>
    let result := strOfLines (deleteRange lines s e)
    let result := remove_empty_sections result "file:".data
    Except.ok (withTrailingNewline yaml_content result)

/-- Embedding of `YamlModifier::remove_module_entry`. -/
def remove_module_entry (yaml_content : String) (target : ManagedFile) :
    Except String String :=
  let lines := linesOfStr yaml_content
  let module_start? :=
    if target.module_path.isEmpty then
      Except.ok (find_top_level_module lines target.project_index target.file_name.data)
    else
      match navChain lines 0 target.module_path with
      | none => Except.error "Could not find parent module in moli.yml"
      | some search_start =>
        Except.ok (find_module_start lines search_start target.file_name.data)
  match module_start? with
  | Except.error e => Except.error e
  | Except.ok none =>
    Except.error ("Could not find module '" ++ target.file_name ++ "' in moli.yml")
  | Except.ok (some module_start) =>
    let module_indent := indentOf (lines.getD module_start [])
    let module_end := span_end_go lines module_indent (lines.length - (module_start + 1))
      (module_start + 1) module_start
    let result := strOfLines (deleteRange lines module_start module_end)
    let result := remove_empty_sections result "tree:".data
    Except.ok (withTrailingNewline yaml_content result)

/-- Embedding of `YamlModifier::remove_entry`. -/
def remove_entry (yaml_content : String) (target : ManagedFile) :
    Except String String :=
  if target.is_directory then remove_module_entry yaml_content target
  else remove_file_entry yaml_content target

/-! ## Cleanup pass: loop/filter equivalence and absence of childless keys -/

lemma drop_append_cons (pre : List Line) (c : Line) (cs : List Line) :
    (pre ++ c :: cs).drop (pre.length + 1) = cs := by
  rw [show pre.length + 1 = (pre ++ [c]).length by simp,
    show pre ++ c :: cs = (pre ++ [c]) ++ cs by simp]
  exact List.drop_left _ _

lemma childless_filter_go (key : Line) :
    ∀ (cur pre : List Line),
      ((cur.enumFrom pre.length).filter (fun il =>
        !(trimL il.2 == key) || has_entries_at (pre ++ cur) il.1 (indentOf il.2))).map
          (fun il => il.2) = remove_empty_sections_lines key cur := by
  intro cur
  induction cur with
  | nil => intro pre; rfl
  | cons c cs ih =>
    intro pre
    show ((( pre.length, c) :: cs.enumFrom (pre.length + 1)).filter _).map _ = _
    have hhd : has_entries_at (pre ++ c :: cs) pre.length (indentOf c)
        = has_entries cs (indentOf c) := by
      unfold has_entries_at
      rw [drop_append_cons]
    have htl := ih (pre ++ [c])
    rw [List.length_append, List.length_singleton] at htl
    rw [List.append_assoc] at htl
    simp only [List.singleton_append] at htl
    rw [List.filter_cons]
    rw [remove_empty_sections_lines]
    rw [hhd]
    cases ha : (trimL c == key) <;> cases hb : has_entries cs (indentOf c) <;>
      simp only [ha, hb, Bool.not_true, Bool.not_false, Bool.and_true, Bool.and_false,
        Bool.true_or, Bool.false_or, Bool.true_and, Bool.false_and, Bool.or_true,
        Bool.or_false, if_true, if_false, List.map_cons] <;>
      first
        | (exact congrArg (c :: ·) (by simpa using htl))
        | (simpa using htl)

/-- The cleanup loop equals the claim-side positional filter. -/
theorem remove_empty_sections_eq_filter (key : Line) (lines : List Line) :
    remove_empty_sections_lines key lines = spec_childless_filter lines key := by
  unfold spec_childless_filter
  have := childless_filter_go key lines []
  simpa using this.symm

/-- Claim-side predicate: no section key of the given kind anywhere in the
document is childless (every key line's first following non-empty line is
a deeper-indented `- name:` entry). -/
def no_childless (key : Line) : List Line → Bool
  | [] => true
  | l :: rest => (!(trimL l == key) || has_entries rest (indentOf l)) && no_childless key rest

lemma find?_nonempty_cleanup (key : Line) (hkey : nameKw.isPrefixOf key = false)
    (hne : key ≠ []) :
    ∀ (rest : List Line) (x : Line),
      rest.find? (fun l => !(trimL l).isEmpty) = some x →
      nameKw.isPrefixOf (trimL x) = true →
      (remove_empty_sections_lines key rest).find? (fun l => !(trimL l).isEmpty) = some x := by
  intro rest
  induction rest with
  | nil =>
    intro x hf
    rw [List.find?_nil] at hf
    cases hf
  | cons r rs ih =>
    intro x hf hx
    rw [List.find?_cons] at hf
    rw [remove_empty_sections_lines]
    cases hr : (!(trimL r).isEmpty) with
    | false =>
      rw [hr] at hf
      have hrempty : trimL r = [] := by
        have h1 : (trimL r).isEmpty = true := by
          revert hr; cases (trimL r).isEmpty <;> simp
        exact List.isEmpty_iff.mp h1
      have hkeep : (trimL r == key && !has_entries rs (indentOf r)) = false := by
        rw [hrempty]
        have : ([] == key) = false := by
          cases key with
          | nil => exact absurd rfl hne
          | cons a as => rfl
        rw [this]
        rfl
      rw [hkeep]
      simp only [Bool.false_eq_true, if_false]
      rw [List.find?_cons, hr]
      exact ih x hf hx
    | true =>
      rw [hr] at hf
      have hxr : r = x := by injection hf
      subst hxr
      have hkeep : (trimL r == key && !has_entries rs (indentOf r)) = false := by
        have : (trimL r == key) = false := by
          cases heq : (trimL r == key) with
          | false => rfl
          | true =>
            have := eq_of_beq heq
            rw [this] at hx
            rw [hx] at hkey
            cases hkey
        rw [this]
        rfl
      rw [hkeep]
      simp only [Bool.false_eq_true, if_false]
      rw [List.find?_cons, hr]

lemma has_entries_cleanup (key : Line) (hkey : nameKw.isPrefixOf key = false)
    (hne : key ≠ []) (rest : List Line) (ind : Nat)
    (h : has_entries rest ind = true) :
    has_entries (remove_empty_sections_lines key rest) ind = true := by
  unfold has_entries at h ⊢
  cases hf : rest.find? (fun l => !(trimL l).isEmpty) with
  | none => rw [hf] at h; cases h
  | some x =>
    rw [hf] at h
    have hx : nameKw.isPrefixOf (trimL x) = true := (Bool.and_eq_true_iff.mp h).2
    rw [find?_nonempty_cleanup key hkey hne rest x hf hx]
    exact h

/-- Single-pass cleanup leaves no childless key of the cleaned kind. -/
theorem cleanup_no_childless (key : Line) (hkey : nameKw.isPrefixOf key = false)
    (hne : key ≠ []) :
    ∀ lines : List Line, no_childless key (remove_empty_sections_lines key lines) = true := by
  intro lines
  induction lines with
  | nil => rfl
  | cons l rest ih =>
    rw [remove_empty_sections_lines]
    cases hdrop : (trimL l == key && !has_entries rest (indentOf l)) with
    | true => simpa [hdrop] using ih
    | false =>
      simp only [hdrop, Bool.false_eq_true, if_false]
      rw [no_childless]
      refine Bool.and_eq_true_iff.mpr ⟨?_, ih⟩
      cases hkeyl : (trimL l == key) with
      | false => rfl
      | true =>
        have hhe : has_entries rest (indentOf l) = true := by
          cases hhe : has_entries rest (indentOf l) with
          | true => rfl
          | false => rw [hkeyl, hhe] at hdrop; cases hdrop
        rw [has_entries_cleanup key hkey hne rest (indentOf l) hhe]
        rfl

/-! ## Join/relines round-trip lemmas -/

lemma intercalate_cons_ne (l : Line) (ls : List Line) (h : ls ≠ []) :
    List.intercalate ['\n'] (l :: ls) = l ++ '\n' :: List.intercalate ['\n'] ls := by
  cases ls with
  | nil => exact absurd rfl h
  | cons b t => simp [List.intercalate, List.intersperse]

lemma join_concat_empty :
    ∀ (init : List Line), init ≠ [] →
      List.intercalate ['\n'] (init ++ [([] : Line)]) =
        List.intercalate ['\n'] init ++ ['\n'] := by
  intro init
  induction init with
  | nil => intro h; exact absurd rfl h
  | cons a t ih =>
    intro _
    cases t with
    | nil => simp [List.intercalate, List.intersperse]
    | cons b u =>
      rw [List.cons_append, intercalate_cons_ne a (( b :: u) ++ [[]]) (by simp),
        intercalate_cons_ne a (b :: u) (by simp), ih (by simp)]
      simp

lemma join_concat_pre :
    ∀ (init : List Line) (l : Line), ∃ pre : List Char,
      List.intercalate ['\n'] (init ++ [l]) = pre ++ l := by
  intro init
  induction init with
  | nil => intro l; exact ⟨[], by simp [List.intercalate, List.intersperse]⟩
  | cons a t ih =>
    intro l
    obtain ⟨pre, hpre⟩ := ih l
    refine ⟨a ++ '\n' :: pre, ?_⟩
    rw [List.cons_append, intercalate_cons_ne a (t ++ [l]) (by simp), hpre]
    simp

lemma linesOf_join (ls : List Line) (hnl : ∀ l ∈ ls, ¬ ('\n' ∈ l)) :
    linesOfStr (strOfLines ls) =
      if ls.getLast? = some ([] : Line) then ls.dropLast else ls := by
  induction ls using List.reverseRecOn with
  | nil => simp [linesOfStr, strOfLines, joinLines, List.intercalate, List.intersperse]
  | append_singleton init last ih =>
    clear ih
    rw [List.getLast?_concat]
    by_cases hlast : last = ([] : Line)
    · subst hlast
      rw [if_pos rfl, List.dropLast_concat]
      cases hinit : init with
      | nil =>
        simp [linesOfStr, strOfLines, joinLines, List.intercalate, List.intersperse]
      | cons a t =>
        rw [← hinit]
        have hrepr : (strOfLines (init ++ [([] : Line)])).data
            = List.intercalate ['\n'] (init ++ [([] : Line)]) := rfl
        have hj := join_concat_empty init (by rw [hinit]; simp)
        unfold linesOfStr
        rw [hrepr, hj]
        rw [if_neg (by simp)]
        rw [List.getLast?_concat]
        rw [if_pos rfl]
        have hsplit : List.splitOn '\n' (List.intercalate ['\n'] (init ++ [([] : Line)]))
            = init ++ [([] : Line)] := by
          refine List.splitOn_intercalate _ '\n' ?_ (by simp)
          intro l hl
          rcases List.mem_append.mp hl with h | h
          · exact hnl l (List.mem_append.mpr (Or.inl h))
          · rw [List.mem_singleton.mp h]; simp
        rw [← hj, hsplit, List.dropLast_concat]
    · rw [if_neg (by simpa using hlast)]
      have hrepr : (strOfLines (init ++ [last])).data
          = List.intercalate ['\n'] (init ++ [last]) := rfl
      obtain ⟨pre, hpre⟩ := join_concat_pre init last
      have hlastchar : (List.intercalate ['\n'] (init ++ [last])).getLast? ≠ some '\n' := by
        rw [hpre, List.getLast?_append_of_ne_nil pre hlast]
        intro hcon
        have : '\n' ∈ last := List.mem_of_mem_getLast? hcon
        exact hnl last (List.mem_append.mpr (Or.inr (List.mem_singleton.mpr rfl))) this
      have hne2 : List.intercalate ['\n'] (init ++ [last]) ≠ [] := by
        rw [hpre]
        intro hcon
        exact hlast (List.append_eq_nil.mp hcon).2
      unfold linesOfStr
      rw [hrepr]
      rw [if_neg (by simpa using hne2), if_neg hlastchar]
      refine List.splitOn_intercalate _ '\n' ?_ (by simp)
      intro l hl
      exact hnl l hl

lemma join_ends_nl (ls : List Line) (hnl : ∀ l ∈ ls, ¬ ('\n' ∈ l)) :
    ((strOfLines ls).data.getLast? = some '\n') ↔
      (ls.getLast? = some ([] : Line) ∧ ls ≠ [([] : Line)]) := by
  induction ls using List.reverseRecOn with
  | nil =>
    constructor
    · intro h; cases h
    · intro ⟨h, _⟩; cases h
  | append_singleton init last ih =>
    clear ih
    have hrepr : (strOfLines (init ++ [last])).data
        = List.intercalate ['\n'] (init ++ [last]) := rfl
    rw [hrepr, List.getLast?_concat]
    by_cases hlast : last = ([] : Line)
    · subst hlast
      cases hinit : init with
      | nil =>
        constructor
        · intro h; cases h
        · intro ⟨_, h2⟩; exact absurd rfl h2
      | cons a t =>
        rw [← hinit, join_concat_empty init (by rw [hinit]; simp), List.getLast?_concat]
        constructor
        · intro _
          refine ⟨rfl, ?_⟩
          intro hcon
          have : init = [] := by
            cases init with
            | nil => rfl
            | cons b u =>
              cases u with
              | nil => cases hcon
              | cons c v => cases hcon
          rw [this] at hinit; cases hinit
        · intro _; rfl
    · obtain ⟨pre, hpre⟩ := join_concat_pre init last
      rw [hpre, List.getLast?_append_of_ne_nil pre hlast]
      constructor
      · intro hcon
        exact absurd (List.mem_of_mem_getLast? hcon)
          (hnl last (List.mem_append.mpr (Or.inr (List.mem_singleton.mpr rfl))))
      · intro ⟨h1, _⟩
        exact absurd (Option.some.inj h1) hlast

lemma linesOf_out (ls : List Line) (orig : String) (hnl : ∀ l ∈ ls, ¬ ('\n' ∈ l)) :
    linesOfStr (withTrailingNewline orig (strOfLines ls)) =
      if orig.data.getLast? = some '\n' then
        if ls = [] ∨ ls = [([] : Line)] then [([] : Line)]
        else if ls.getLast? = some ([] : Line) then ls.dropLast
        else ls
      else
        if ls.getLast? = some ([] : Line) then ls.dropLast else ls := by
  by_cases horig : orig.data.getLast? = some '\n'
  · rw [if_pos horig]
    by_cases hjoin : ((strOfLines ls).data.getLast? = some '\n')
    · have hwt : withTrailingNewline orig (strOfLines ls) = strOfLines ls := by
        unfold withTrailingNewline
        rw [if_neg (by intro hcc; exact hcc.2 hjoin)]
      rw [hwt, linesOf_join ls hnl]
      obtain ⟨h1, h2⟩ := (join_ends_nl ls hnl).mp hjoin
      have hor : ¬ (ls = [] ∨ ls = [([] : Line)]) := by
        intro hcon
        rcases hcon with h | h
        · rw [h] at h1; cases h1
        · exact h2 h
      rw [if_neg hor, if_pos h1]
    · have hwt : withTrailingNewline orig (strOfLines ls)
          = ⟨(strOfLines ls).data ++ ['\n']⟩ := by
        unfold withTrailingNewline
        rw [if_pos ⟨horig, hjoin⟩]
      rw [hwt]
      by_cases hnil : ls = []
      · subst hnil
        rw [if_pos (Or.inl rfl)]
        decide
      · by_cases hone : ls = [([] : Line)]
        · subst hone
          rw [if_pos (Or.inr rfl)]
          decide
        · have hlast : ¬ (ls.getLast? = some ([] : Line)) := by
            intro hcon
            exact hjoin ((join_ends_nl ls hnl).mpr ⟨hcon, hone⟩)
          rw [if_neg (by intro hcc; rcases hcc with h | h; exacts [hnil h, hone h]),
            if_neg hlast]
          have hdata : (strOfLines ls).data ++ ['\n']
              = List.intercalate ['\n'] (ls ++ [([] : Line)]) := by
            rw [join_concat_empty ls hnil]
            rfl
          show linesOfStr ⟨(strOfLines ls).data ++ ['\n']⟩ = ls
          unfold linesOfStr
          simp only [hdata]
          rw [if_neg ?side]
          case side =>
            rw [← hdata]
            simp
          rw [← hdata, List.getLast?_concat, if_pos rfl]
          have hsplit : List.splitOn '\n' ((strOfLines ls).data ++ ['\n'])
              = ls ++ [([] : Line)] := by
            rw [hdata]
            refine List.splitOn_intercalate _ '\n' ?_ (by simp)
            intro l hl
            rcases List.mem_append.mp hl with h | h
            · exact hnl l h
            · rw [List.mem_singleton.mp h]; simp
          rw [hsplit, List.dropLast_concat]
  · have hwt : withTrailingNewline orig (strOfLines ls) = strOfLines ls := by
      unfold withTrailingNewline
      rw [if_neg (by intro hcc; exact horig hcc.1)]
    rw [hwt, if_neg horig, linesOf_join ls hnl]

lemma mem_splitOn_nl_free :
    ∀ (xs : List Char), ∀ l ∈ xs.splitOn '\n', ¬ ('\n' ∈ l) := by
  intro xs
  induction xs with
  | nil =>
    intro l hl
    rw [List.splitOn_nil] at hl
    rw [List.mem_singleton.mp hl]
    simp
  | cons c cs ih =>
    intro l hl
    have hrepr : (c :: cs).splitOn '\n' = List.splitOnP (fun x => x == '\n') (c :: cs) := rfl
    rw [hrepr, List.splitOnP_cons] at hl
    by_cases hc : (c == '\n') = true
    · rw [if_pos hc] at hl
      rcases List.mem_cons.mp hl with h | h
      · rw [h]; simp
      · exact ih l h
    · rw [if_neg hc] at hl
      obtain ⟨hd, tl, heq⟩ :=
        List.exists_cons_of_ne_nil (List.splitOnP_ne_nil (fun x => x == '\n') cs)
      rw [heq, List.modifyHead_cons] at hl
      rcases List.mem_cons.mp hl with h | h
      · rw [h]
        intro hmem
        rcases List.mem_cons.mp hmem with h2 | h2
        · exact hc (by rw [← h2]; decide)
        · refine ih hd ?_ h2
          show hd ∈ List.splitOnP (fun x => x == '\n') cs
          rw [heq]
          exact List.mem_cons_self _ _
      · refine ih l ?_
        show l ∈ List.splitOnP (fun x => x == '\n') cs
        rw [heq]
        exact List.mem_cons_of_mem _ h

lemma mem_linesOfStr_nl_free (s : String) : ∀ l ∈ linesOfStr s, ¬ ('\n' ∈ l) := by
  intro l hl
  unfold linesOfStr at hl
  by_cases he : s.data.isEmpty = true
  · rw [if_pos he] at hl; cases hl
  · rw [if_neg he] at hl
    by_cases hlast : s.data.getLast? = some '\n'
    · rw [if_pos hlast] at hl
      exact mem_splitOn_nl_free s.data l (List.dropLast_subset _ hl)
    · rw [if_neg hlast] at hl
      exact mem_splitOn_nl_free s.data l hl

lemma mem_cleanup_sub (key : Line) :
    ∀ (ls : List Line), ∀ l ∈ remove_empty_sections_lines key ls, l ∈ ls := by
  intro ls
  induction ls with
  | nil => intro l hl; cases hl
  | cons c cs ih =>
    intro l hl
    rw [remove_empty_sections_lines] at hl
    by_cases hc : (trimL c == key && !has_entries cs (indentOf c)) = true
    · rw [if_pos hc] at hl
      exact List.mem_cons_of_mem _ (ih l hl)
    · rw [if_neg hc] at hl
      rcases List.mem_cons.mp hl with h | h
      · rw [h]; exact List.mem_cons_self _ _
      · exact List.mem_cons_of_mem _ (ih l h)

lemma has_entries_dropLast (rest : List Line) (ind : Nat)
    (hlast : rest.getLast? = some ([] : Line))
    (h : has_entries rest ind = true) : has_entries rest.dropLast ind = true := by
  obtain ⟨front, a, heq⟩ := List.eq_nil_or_concat rest |>.resolve_left (by
    intro hcon; rw [hcon] at hlast; cases hlast)
  rw [List.concat_eq_append] at heq
  subst heq
  rw [List.getLast?_concat] at hlast
  have ha : a = ([] : Line) := Option.some.inj hlast
  subst ha
  rw [List.dropLast_concat]
  unfold has_entries at h ⊢
  rw [List.find?_append] at h
  have hnone : List.find? (fun l => !(trimL l).isEmpty) [([] : Line)] = none := by
    decide
  rw [hnone] at h
  cases hf : List.find? (fun l => !(trimL l).isEmpty) front with
  | none => rw [hf] at h; cases h
  | some x => rw [hf] at h; exact h

lemma no_childless_dropLast (key : Line) :
    ∀ (ls : List Line), no_childless key ls = true →
      ls.getLast? = some ([] : Line) → no_childless key ls.dropLast = true := by
  intro ls
  induction ls with
  | nil => intro h _; exact h
  | cons l rest ih =>
    intro h hlast
    by_cases hrestne : rest = []
    · subst hrestne; rfl
    · rw [List.dropLast_cons_of_ne_nil hrestne]
      rw [no_childless] at h ⊢
      obtain ⟨h1, h2⟩ := Bool.and_eq_true_iff.mp h
      have hlast2 : rest.getLast? = some ([] : Line) := by
        have hcons : (l :: rest).getLast? = rest.getLast? := by
          cases rest with
          | nil => exact absurd rfl hrestne
          | cons b t => rfl
        rw [hcons] at hlast
        exact hlast
      refine Bool.and_eq_true_iff.mpr ⟨?_, ih h2 hlast2⟩
      cases hk : (trimL l == key) with
      | false => rfl
      | true =>
        rw [hk] at h1
        simp only [Bool.not_true, Bool.false_or] at h1
        rw [has_entries_dropLast rest (indentOf l) hlast2 h1]
        simp

lemma no_childless_single_empty (key : Line) (hne : key ≠ []) :
    no_childless key [([] : Line)] = true := by
  have hbeq : ((trimL ([] : Line)) == key) = false := by
    cases key with
    | nil => exact absurd rfl hne
    | cons a as => rfl
  rw [no_childless, no_childless, hbeq]
  rfl

lemma no_childless_of_out (key : Line) (orig : String)
    (hne : key ≠ []) (ls : List Line) (hnl : ∀ l ∈ ls, ¬ ('\n' ∈ l))
    (h : no_childless key ls = true) :
    no_childless key (linesOfStr (withTrailingNewline orig (strOfLines ls))) = true := by
  rw [linesOf_out ls orig hnl]
  split_ifs with h1 h2 h3 h4
  · exact no_childless_single_empty key hne
  · exact no_childless_dropLast key ls h h3
  · exact h
  · exact no_childless_dropLast key ls h h4
  · exact h

/-- The claim of C9: empty-section cleanup after removal is global. For
every input text and every successful remove operation, no `file:` key
(after a file removal) and no `tree:` key (after a module removal)
anywhere in the output document is childless: each such key's first
following non-empty line is a deeper-indented `- name:` entry. -/
theorem C9_cleanup_is_global (yaml : String) (target : ManagedFile) (out : String) :
    (remove_file_entry yaml target = Except.ok out →
      no_childless "file:".data (linesOfStr out) = true) ∧
    (remove_module_entry yaml target = Except.ok out →
      no_childless "tree:".data (linesOfStr out) = true) := by
  constructor
  · intro hok
    unfold remove_file_entry at hok
    rcases hrr : (if target.is_project_level then
        find_project_level_file (linesOfStr yaml) target.project_index target.file_name.data
      else
        find_tree_file (linesOfStr yaml) target.module_path target.file_name.data) with _ | se
    · simp only [hrr] at hok
      cases hok
    · obtain ⟨s, e⟩ := se
      simp only [hrr] at hok
      have hout : out = withTrailingNewline yaml
          (strOfLines (remove_empty_sections_lines "file:".data
            (linesOfStr (strOfLines (deleteRange (linesOfStr yaml) s e))))) := by
        exact (Except.ok.inj hok).symm
      rw [hout]
      refine no_childless_of_out _ yaml (by decide) _ ?_ ?_
      · intro l hl
        exact mem_linesOfStr_nl_free _ l (mem_cleanup_sub _ _ l hl)
      · exact cleanup_no_childless _ (by decide) (by decide) _
  · intro hok
    unfold remove_module_entry at hok
    rcases hms : (if target.module_path.isEmpty then
        Except.ok (find_top_level_module (linesOfStr yaml) target.project_index
          target.file_name.data)
      else
        match navChain (linesOfStr yaml) 0 target.module_path with
        | none => Except.error "Could not find parent module in moli.yml"
        | some search_start =>
          Except.ok (find_module_start (linesOfStr yaml) search_start
            target.file_name.data)) with herr | oms
    · simp only [hms] at hok
      cases hok
    · rcases oms with _ | ms
      · simp only [hms] at hok
        cases hok
      · simp only [hms] at hok
        have hout : out = withTrailingNewline yaml
            (strOfLines (remove_empty_sections_lines "tree:".data
              (linesOfStr (strOfLines (deleteRange (linesOfStr yaml) ms
                (span_end_go (linesOfStr yaml)
                  (indentOf ((linesOfStr yaml).getD ms []))
                  ((linesOfStr yaml).length - (ms + 1)) (ms + 1) ms)))))) := by
          exact (Except.ok.inj hok).symm
        rw [hout]
        refine no_childless_of_out _ yaml (by decide) _ ?_ ?_
        · intro l hl
          exact mem_linesOfStr_nl_free _ l (mem_cleanup_sub _ _ l hl)
        · exact cleanup_no_childless _ (by decide) (by decide) _

def c9w_yaml : String :=
  "- name: app\n  tree:\n    - name: src\n      file:\n        - name: a\n        - name: b\n"

def c9w_file_target : ManagedFile :=
  { display_path := "src/a", project_index := 0, file_name := "a",
    module_path := ["src"], is_project_level := false, is_directory := false }

def c9w_yaml2 : String :=
  "- name: app\n  tree:\n    - name: src\n      file:\n        - name: a\n"

def c9w_dir_target : ManagedFile :=
  { display_path := "src/", project_index := 0, file_name := "src",
    module_path := [], is_project_level := false, is_directory := true }

theorem C9_cleanup_is_global_witness :
    (remove_file_entry c9w_yaml c9w_file_target =
        Except.ok "- name: app\n  tree:\n    - name: src\n      file:\n        - name: b\n" ∧
      no_childless "file:".data
        (linesOfStr "- name: app\n  tree:\n    - name: src\n      file:\n        - name: b\n")
        = true) ∧
    (remove_module_entry c9w_yaml2 c9w_dir_target = Except.ok "- name: app\n" ∧
      no_childless "tree:".data (linesOfStr "- name: app\n") = true) :=
  ⟨⟨by rfl,
    (C9_cleanup_is_global c9w_yaml c9w_file_target
      "- name: app\n  tree:\n    - name: src\n      file:\n        - name: b\n").1 (by rfl)⟩,
   ⟨by rfl,
    (C9_cleanup_is_global c9w_yaml2 c9w_dir_target "- name: app\n").2 (by rfl)⟩⟩

/-! ## Span characterization for directory removal (C3) -/

/-- Claim-side description of the removed block of a module: the run of
subsequent lines that are blank or more indented than the anchor, stopping
at the first non-empty line at or below the anchor's indent. -/
def spec_span_block (lines : List Line) (a m : Nat) : List Line :=
  (lines.drop (a + 1)).takeWhile (fun l => (trimL l).isEmpty || decide (m < indentOf l))

/-- Count of blank lines at the end of a block (such trailing blanks are
not removed with the module). -/
def trailingEmpties (b : List Line) : Nat :=
  (b.reverse.takeWhile (fun l => (trimL l).isEmpty)).length

/-- Claim-side last removed line: the anchor plus the block, excluding its
trailing blank lines. -/
def spec_span_end (lines : List Line) (a m : Nat) : Nat :=
  a + (spec_span_block lines a m).length - trailingEmpties (spec_span_block lines a m)

lemma trailingEmpties_le (b : List Line) : trailingEmpties b ≤ b.length := by
  unfold trailingEmpties
  have := (List.takeWhile_prefix (l := b.reverse) (fun l => (trimL l).isEmpty)).length_le
  simpa using this

lemma trailingEmpties_cons (l : Line) (b : List Line) :
    trailingEmpties (l :: b) =
      if trailingEmpties b = b.length then
        (if (trimL l).isEmpty then b.length + 1 else b.length)
      else trailingEmpties b := by
  unfold trailingEmpties
  rw [List.reverse_cons, List.takeWhile_append]
  rw [List.length_reverse]
  split_ifs with h1 h2
  · rw [List.length_append, List.length_reverse, List.takeWhile_cons, if_pos h2]
    rfl
  · rw [List.length_append, List.length_reverse, List.takeWhile_cons, if_neg h2]
    rfl
  · rfl

lemma span_end_go_spec (lines : List Line) (m : Nat) :
    ∀ (fuel i cur : Nat), fuel = lines.length - i →
      span_end_go lines m fuel i cur =
        (if ((lines.drop i).takeWhile
              (fun l => (trimL l).isEmpty || decide (m < indentOf l))).length =
            trailingEmpties ((lines.drop i).takeWhile
              (fun l => (trimL l).isEmpty || decide (m < indentOf l)))
         then cur
         else i + ((lines.drop i).takeWhile
              (fun l => (trimL l).isEmpty || decide (m < indentOf l))).length -
            trailingEmpties ((lines.drop i).takeWhile
              (fun l => (trimL l).isEmpty || decide (m < indentOf l))) - 1) := by
  intro fuel
  induction fuel with
  | zero =>
    intro i cur hf
    have hge : lines.length ≤ i := by omega
    rw [List.drop_eq_nil_of_le hge]
    rfl
  | succ fuel ih =>
    intro i cur hf
    have hi : i < lines.length := by omega
    have hdrop : lines.drop i = (lines[i]?.getD ([] : Line)) :: lines.drop (i + 1) := by
      rw [List.getElem?_eq_getElem hi, Option.getD_some]
      exact List.drop_eq_getElem_cons hi
    have hle := trailingEmpties_le ((lines.drop (i + 1)).takeWhile
      (fun l => (trimL l).isEmpty || decide (m < indentOf l)))
    simp only [span_end_go, List.getD_eq_getElem?_getD]
    rw [hdrop, List.takeWhile_cons]
    have hrec := fun cur2 => ih (i + 1) cur2 (by omega)
    by_cases hemp : ((trimL (lines[i]?.getD ([] : Line))).isEmpty) = true
    · rw [if_pos hemp, if_pos (show ((trimL (lines[i]?.getD ([] : Line))).isEmpty ||
          decide (m < indentOf (lines[i]?.getD ([] : Line)))) = true by rw [hemp]; rfl),
        hrec cur, trailingEmpties_cons, if_pos hemp, List.length_cons]
      split_ifs <;> omega
    · have hempf : ((trimL (lines[i]?.getD ([] : Line))).isEmpty) = false :=
        Bool.eq_false_iff.mpr hemp
      rw [if_neg hemp]
      by_cases hdeep : (m < indentOf (lines[i]?.getD ([] : Line)))
      · rw [if_pos hdeep, if_pos (show ((trimL (lines[i]?.getD ([] : Line))).isEmpty ||
            decide (m < indentOf (lines[i]?.getD ([] : Line)))) = true by
              rw [hempf]
              simp only [Bool.false_or]
              exact decide_eq_true hdeep),
          hrec i, trailingEmpties_cons, if_neg hemp, List.length_cons]
        split_ifs <;> omega
      · rw [if_neg hdeep, if_neg (show ¬ ((trimL (lines[i]?.getD ([] : Line))).isEmpty ||
            decide (m < indentOf (lines[i]?.getD ([] : Line)))) = true by
              rw [hempf]
              simp only [Bool.false_or, decide_eq_true_eq]
              exact hdeep)]
        rfl

/-- The module-span loop as invoked by `remove_module_entry` computes the
claim-side span end. -/
lemma span_end_eq_spec (lines : List Line) (a m : Nat) :
    span_end_go lines m (lines.length - (a + 1)) (a + 1) a = spec_span_end lines a m := by
  rw [span_end_go_spec lines m (lines.length - (a + 1)) (a + 1) a rfl]
  have hle := trailingEmpties_le (spec_span_block lines a m)
  unfold spec_span_end
  unfold spec_span_block at *
  split_ifs <;> omega

/-- Counterexample to C3 as stated: a legitimate directory-removal request
(module `y` inside module `x`, exactly the path the collector derives for
it) deletes a file entry named `y` in a sibling's `file:` section instead
of the target module's anchor line and descendants, because parent-chain
navigation matches the first `- name: x`/`- name: y` lines anywhere in the
document. The target module survives, its sibling's file entry (with its
`pub:` attribute) is deleted, and a childless `file:` key is left behind
(module removal cleans only `tree:` keys). -/
theorem C3_counterexample :
    remove_entry
        "- name: p\n  tree:\n    - name: x\n      file:\n        - name: y\n          pub: true\n      tree:\n        - name: y\n"
        { display_path := "x/y/", project_index := 0, file_name := "y",
          module_path := ["x"], is_project_level := false, is_directory := true }
      = Except.ok
        "- name: p\n  tree:\n    - name: x\n      file:\n      tree:\n        - name: y\n" ∧
    listIsInfix "      tree:\n        - name: y".data
      "- name: p\n  tree:\n    - name: x\n      file:\n      tree:\n        - name: y\n".data
      = true ∧
    listIsInfix "pub: true".data
      "- name: p\n  tree:\n    - name: x\n      file:\n      tree:\n        - name: y\n".data
      = false ∧
    no_childless "file:".data
      (linesOfStr "- name: p\n  tree:\n    - name: x\n      file:\n      tree:\n        - name: y\n")
      = false :=
  ⟨by rfl, by decide, by decide, by decide⟩

/-- Amended C3: for every directory removal request whose navigation
resolves an anchor line `a` (the first-occurrence match, which the
counterexample shows need not be the target module), the removal deletes
exactly the contiguous index range from `a` to the claim-side span end:
the anchor plus every subsequent line more indented than the anchor
(blank interior lines included), stopping at the first non-empty line at
or below the anchor's indent and leaving trailing blank lines in place.
Afterwards the childless-key filter is applied to `tree:` keys of the
whole document (`file:` keys are not cleaned by directory removal), and
the original's trailing newline is preserved. -/
theorem C3_removal_span_amended (yaml : String) (target : ManagedFile) (a : Nat)
    (hdir : target.is_directory = true)
    (hres : (if target.module_path.isEmpty then
        Except.ok (find_top_level_module (linesOfStr yaml) target.project_index
          target.file_name.data)
      else
        match navChain (linesOfStr yaml) 0 target.module_path with
        | none => Except.error "Could not find parent module in moli.yml"
        | some search_start =>
          Except.ok (find_module_start (linesOfStr yaml) search_start
            target.file_name.data)) = Except.ok (some a)) :
    remove_entry yaml target = Except.ok (withTrailingNewline yaml
      (strOfLines (spec_childless_filter
        (linesOfStr (strOfLines (deleteRange (linesOfStr yaml) a
          (spec_span_end (linesOfStr yaml) a
            (indentOf ((linesOfStr yaml).getD a []))))))
        "tree:".data))) := by
  unfold remove_entry
  rw [if_pos hdir]
  unfold remove_module_entry
  simp only [hres]
  unfold remove_empty_sections
  rw [span_end_eq_spec, remove_empty_sections_eq_filter]

def c3w_yaml : String := "- name: app\n  tree:\n    - name: src\n      file:\n        - name: a\n"

def c3w_target : ManagedFile :=
  { display_path := "src/", project_index := 0, file_name := "src",
    module_path := [], is_project_level := false, is_directory := true }

theorem C3_removal_span_amended_witness :
    c3w_target.is_directory = true ∧
    remove_entry c3w_yaml c3w_target = Except.ok (withTrailingNewline c3w_yaml
      (strOfLines (spec_childless_filter
        (linesOfStr (strOfLines (deleteRange (linesOfStr c3w_yaml) 2
          (spec_span_end (linesOfStr c3w_yaml) 2
            (indentOf ((linesOfStr c3w_yaml).getD 2 []))))))
        "tree:".data))) :=
  ⟨rfl, C3_removal_span_amended c3w_yaml c3w_target 2 rfl (by rfl)⟩

/-! ## Add-side embedding (`YamlModifier::add_entry` and helpers) -/

/-- Rust `" ".repeat(n)`. -/
def spaces (n : Nat) : Line := List.replicate n ' '

/-- The entry-span scan shared by the file-insertion loops: length of the
run of following lines that are non-empty, deeper than the threshold and
not `- name:` entries (the loop breaks at the first blank line). -/
def contSpanLen (lines : List Line) (i : Nat) (threshold : Nat) : Nat :=
  ((lines.drop (i + 1)).takeWhile (fun l =>
    !(trimL l).isEmpty && decide (threshold < indentOf l) &&
      !(nameKw.isPrefixOf (trimL l)))).length

/-- Loop of `YamlModifier::find_project_end`, structurally recursive on the
count of remaining lines. -/
def fpe_go (lines : List Line) (project_index : Nat) : Nat → Nat → Int → Nat
  | 0, _, _ => lines.length
  | fuel + 1, i, cur =>
    let line := lines.getD i []
    let isHeader := nameKw.isPrefixOf (trimL line) && indentOf line == 0
    let cur2 := if isHeader then cur + 1 else cur
    if isHeader && decide ((project_index : Int) < cur2) then i
    else fpe_go lines project_index fuel (i + 1) cur2

/-- Embedding of `YamlModifier::find_project_end`. -/
def find_project_end (lines : List Line) (project_index : Nat) : Nat :=
  fpe_go lines project_index lines.length 0 (-1)

/-- Project-start scan shared by `add_nested_module` and
`add_file_to_module`: index of the `project_index`-th top-level header, or
`0` when there is none. -/
def fps_go (lines : List Line) (project_index : Nat) : Nat → Nat → Int → Nat
  | 0, _, _ => 0
  | fuel + 1, i, cur =>
    let line := lines.getD i []
    let isHeader := nameKw.isPrefixOf (trimL line) && indentOf line == 0
    if isHeader && (cur + 1 = (project_index : Int)) then i
    else fps_go lines project_index fuel (i + 1) (if isHeader then cur + 1 else cur)

def find_project_start (lines : List Line) (project_index : Nat) : Nat :=
  fps_go lines project_index lines.length 0 (-1)

/-- Chain navigation with a per-segment error, as in the add-side
functions (`msg` is the message prefix of the bail). -/
def navChainErr (lines : List Line) (msg : String) : Nat → List String → Except String Nat
  | start, [] => Except.ok start
  | start, s :: rest =>
    match find_module_start lines start s.data with
    | some idx => navChainErr lines msg (idx + 1) rest
    | none => Except.error (msg ++ s ++ "' in moli.yml")

/-- Main scan of `YamlModifier::add_top_level_module`: returns the final
`(tree_line, insert_pos)` pair (the loop breaks early, with
`insert_pos = Some i`, at the header of a later project). The inner
end-of-block scan is the skip-blanks span loop (`span_end_go`) at
threshold 4. -/
def atlm_go (lines : List Line) (project_index : Nat) :
    Nat → Nat → Int → Option Nat → Option Nat → (Option Nat × Option Nat)
  | 0, _, _, tl, pos => (tl, pos)
  | fuel + 1, i, cur, tl, pos =>
    let line := lines.getD i []
    let trimmed := trimL line
    let isHeader := nameKw.isPrefixOf trimmed && indentOf line == 0
    if isHeader && decide ((project_index : Int) < cur + 1) then (tl, some i)
    else
      let cur2 := if isHeader then cur + 1 else cur
      if cur2 = (project_index : Int) then
        let tl2 := if trimmed == "tree:".data && indentOf line == 2 then some i else tl
        let pos2 :=
          if tl2.isSome && indentOf line == 4 && nameKw.isPrefixOf trimmed then
            some (span_end_go lines 4 (lines.length - (i + 1)) (i + 1) i + 1)
          else pos
        atlm_go lines project_index fuel (i + 1) cur2 tl2 pos2
      else atlm_go lines project_index fuel (i + 1) cur2 tl pos

/-- Embedding of `YamlModifier::add_top_level_module` at line level. The
Rust code inserts the no-`tree:` case as one vector element containing an
embedded newline; the joined text equals inserting the two lines
separately, which is how the embedding represents it. -/
def add_top_level_module (lines : List Line) (project_index : Nat) (name : Line) :
    List Line :=
  match atlm_go lines project_index lines.length 0 (-1) none none with
  | (none, _) =>
    let project_end := find_project_end lines project_index
    insertAt (insertAt lines project_end ("    - name: ".data ++ name))
      project_end "  tree:".data
  | (some _, some pos) => insertAt lines pos ("    - name: ".data ++ name)
  | (some _, none) => lines

/-- Tree-section scan of `YamlModifier::add_nested_module` (latched
`tree_section_found`, insert position after the last entry's span; the
inner end scan is the skip-blanks span loop at the entry indent). -/
def anm_scan_go (lines : List Line) (parent_indent : Nat) :
    Nat → Nat → Bool → Option Nat → (Bool × Option Nat)
  | 0, _, found, pos => (found, pos)
  | fuel + 1, i, found, pos =>
    let line := lines.getD i []
    let trimmed := trimL line
    let indent := indentOf line
    if !trimmed.isEmpty && indent ≤ parent_indent then (found, pos)
    else if trimmed == "tree:".data && indent == parent_indent + 2 then
      anm_scan_go lines parent_indent fuel (i + 1) true pos
    else
      let pos2 :=
        if found && indent == parent_indent + 4 && nameKw.isPrefixOf trimmed then
          some (span_end_go lines (parent_indent + 4) (lines.length - (i + 1)) (i + 1) i + 1)
        else pos
      anm_scan_go lines parent_indent fuel (i + 1) found pos2

/-- Last non-empty line of a parent module's block (`parent_end` loop of
`add_nested_module`). -/
def parent_end_go (lines : List Line) (parent_indent : Nat) : Nat → Nat → Nat → Nat
  | 0, _, pe => pe
  | fuel + 1, i, pe =>
    let line := lines.getD i []
    let trimmed := trimL line
    if !trimmed.isEmpty && indentOf line ≤ parent_indent then pe
    else parent_end_go lines parent_indent fuel (i + 1) (if !trimmed.isEmpty then i else pe)

/-- Fallback of `add_nested_module` for a found-but-empty `tree:` section:
first `tree:` line at the tree indent anywhere at or after `start` (this
loop has no block-end break in the source). -/
def anm_fallback_pos (lines : List Line) (parent_indent start : Nat) : Option Nat :=
  match (lines.drop start).findIdx? (fun l =>
      trimL l == "tree:".data && indentOf l == parent_indent + 2) with
  | some k => some (start + k + 1)
  | none => none

/-- Embedding of `YamlModifier::add_nested_module` at line level. -/
def add_nested_module (lines : List Line) (project_index : Nat)
    (parent_segments : List String) (name : Line) : Except String (List Line) :=
  let ss0 := find_project_start lines project_index
  match navChainErr lines "Could not find parent module '" ss0 parent_segments with
  | Except.error e => Except.error e
  | Except.ok search_start =>
    let parent_start := search_start - 1
    let parent_indent := indentOf (lines.getD parent_start [])
    let entry := spaces (parent_indent + 4) ++ "- name: ".data ++ name
    match anm_scan_go lines parent_indent (lines.length - (parent_start + 1))
        (parent_start + 1) false none with
    | (false, _) =>
      let pe := parent_end_go lines parent_indent (lines.length - (parent_start + 1))
        (parent_start + 1) parent_start
      Except.ok (insertAt (insertAt lines (pe + 1) entry) (pe + 1)
        (spaces (parent_indent + 2) ++ "tree:".data))
    | (true, some pos) => Except.ok (insertAt lines pos entry)
    | (true, none) =>
      match anm_fallback_pos lines parent_indent (parent_start + 1) with
      | some ipos => Except.ok (insertAt lines ipos entry)
      | none => Except.ok lines

/-- Duplicate check of `YamlModifier::add_file_to_module`. -/
def aftm_dup_go (lines : List Line) (expected : Line) (module_indent : Nat) :
    Nat → Nat → Bool → Bool
  | 0, _, _ => false
  | fuel + 1, i, inFile =>
    let line := lines.getD i []
    let trimmed := trimL line
    let indent := indentOf line
    if !trimmed.isEmpty && indent ≤ module_indent then false
    else if trimmed == "file:".data && indent == module_indent + 2 then
      aftm_dup_go lines expected module_indent fuel (i + 1) true
    else if inFile && indent == module_indent + 4 && trimmed == expected then true
    else aftm_dup_go lines expected module_indent fuel (i + 1) inFile

/-- Insert-position scan of `add_file_to_module` (`file:` found flag and
position; stops at a `tree:` key at the section indent once `file:` was
seen; the entry-span scan breaks at blank lines). -/
def aftm_insert_go (lines : List Line) (module_indent : Nat) :
    Nat → Nat → Bool → Option Nat → (Bool × Option Nat)
  | 0, _, found, pos => (found, pos)
  | fuel + 1, i, found, pos =>
    let line := lines.getD i []
    let trimmed := trimL line
    let indent := indentOf line
    if !trimmed.isEmpty && indent ≤ module_indent then (found, pos)
    else if trimmed == "file:".data && indent == module_indent + 2 then
      aftm_insert_go lines module_indent fuel (i + 1) true (some (i + 1))
    else
      let pos2 :=
        if found && indent == module_indent + 4 && nameKw.isPrefixOf trimmed then
          some (i + contSpanLen lines i (module_indent + 4) + 1)
        else pos
      if found && trimmed == "tree:".data && indent == module_indent + 2 then (found, pos2)
      else aftm_insert_go lines module_indent fuel (i + 1) found pos2

/-- Section-creation scan of `add_file_to_module`: position of a `tree:`
key to insert before, and the last non-empty line of the module block. -/
def aftm_create_go (lines : List Line) (module_indent : Nat) :
    Nat → Nat → Nat → (Option Nat × Nat)
  | 0, _, mce => (none, mce)
  | fuel + 1, i, mce =>
    let line := lines.getD i []
    let trimmed := trimL line
    let indent := indentOf line
    if !trimmed.isEmpty && indent ≤ module_indent then (none, mce)
    else
      let mce2 := if !trimmed.isEmpty then i else mce
      if trimmed == "tree:".data && indent == module_indent + 2 then (some i, mce2)
      else aftm_create_go lines module_indent fuel (i + 1) mce2

/-- Embedding of `YamlModifier::add_file_to_module` (string to string: the
duplicate path returns the input string itself). -/
def add_file_to_module (yaml : String) (project_index : Nat)
    (module_segments : List String) (file_name : String) : Except String String :=
  let lines := linesOfStr yaml
  let ss0 := find_project_start lines project_index
  match navChainErr lines "Could not find module '" ss0 module_segments with
  | Except.error e => Except.error e
  | Except.ok search_start =>
    let module_start := search_start - 1
    let mi := indentOf (lines.getD module_start [])
    let expected := entryLine file_name.data
    let entry := spaces (mi + 4) ++ "- name: ".data ++ file_name.data
    let fileline := spaces (mi + 2) ++ "file:".data
    if aftm_dup_go lines expected mi (lines.length - (module_start + 1))
        (module_start + 1) false then
      Except.ok yaml
    else
      match aftm_insert_go lines mi (lines.length - (module_start + 1))
          (module_start + 1) false none with
      | (false, _) =>
        match aftm_create_go lines mi (lines.length - (module_start + 1))
            (module_start + 1) module_start with
        | (some tp, _) =>
          Except.ok (strOfLines (insertAt (insertAt lines tp entry) tp fileline))
        | (none, mce) =>
          Except.ok (strOfLines (insertAt (insertAt lines (mce + 1) entry) (mce + 1) fileline))
      | (true, some pos) => Except.ok (strOfLines (insertAt lines pos entry))
      | (true, none) => Except.ok (strOfLines lines)

/-- Main scan of `YamlModifier::add_project_level_file`: `none` when the
duplicate check fires (the input is returned verbatim), otherwise the
final `(file_section_found, insert_pos)` state. -/
def aplf_go (lines : List Line) (project_index : Nat) (expected : Line) :
    Nat → Nat → Int → Bool → Option Nat → Option (Bool × Option Nat)
  | 0, _, _, found, pos => some (found, pos)
  | fuel + 1, i, cur, found, pos =>
    let line := lines.getD i []
    let trimmed := trimL line
    let isHeader := nameKw.isPrefixOf trimmed && indentOf line == 0
    let cur2 := if isHeader then cur + 1 else cur
    let found2 := if isHeader then false else found
    if cur2 ≠ (project_index : Int) then
      aplf_go lines project_index expected fuel (i + 1) cur2 found2 pos
    else if trimmed == "file:".data && indentOf line == 2 then
      aplf_go lines project_index expected fuel (i + 1) cur2 true (some (i + 1))
    else if found2 && indentOf line == 4 && nameKw.isPrefixOf trimmed then
      if trimmed == expected then none
      else
        aplf_go lines project_index expected fuel (i + 1) cur2 found2
          (some (i + contSpanLen lines i 4 + 1))
    else aplf_go lines project_index expected fuel (i + 1) cur2 found2 pos

/-- Project-scoped `tree:` scan of `add_project_level_file`'s creation
branch. -/
def aplf_tree_go (lines : List Line) (project_index : Nat) :
    Nat → Nat → Int → Option Nat
  | 0, _, _ => none
  | fuel + 1, i, cur =>
    let line := lines.getD i []
    let trimmed := trimL line
    let isHeader := nameKw.isPrefixOf trimmed && indentOf line == 0
    let cur2 := if isHeader then cur + 1 else cur
    if cur2 ≠ (project_index : Int) then aplf_tree_go lines project_index fuel (i + 1) cur2
    else if trimmed == "tree:".data && indentOf line == 2 then some i
    else aplf_tree_go lines project_index fuel (i + 1) cur2

/-- Embedding of `YamlModifier::add_project_level_file`. -/
def add_project_level_file (yaml : String) (project_index : Nat)
    (file_name : String) : Except String String :=
  let lines := linesOfStr yaml
  let expected := entryLine file_name.data
  let entry := "    - name: ".data ++ file_name.data
  match aplf_go lines project_index expected lines.length 0 (-1) false none with
  | none => Except.ok yaml
  | some (false, _) =>
    (match aplf_tree_go lines project_index lines.length 0 (-1) with
      | some tp =>
        Except.ok (strOfLines (insertAt (insertAt lines tp entry) tp "  file:".data))
      | none =>
        let pe := find_project_end lines project_index
        Except.ok (strOfLines (insertAt (insertAt lines pe entry) pe "  file:".data)))
  | some (true, some pos) => Except.ok (strOfLines (insertAt lines pos entry))
  | some (true, none) => Except.ok (strOfLines lines)

/-- Embedding of `YamlModifier::module_exists`. -/
def module_exists (yaml : String) (project_index : Nat) (segments : List String) : Bool :=
  let lines := linesOfStr yaml
  match segments with
  | [] => true
  | [s] => (find_top_level_module lines project_index s.data).isSome
  | _ :: _ :: _ =>
    match navChain lines 0 segments.dropLast, segments.getLast? with
    | some ss, some last => (find_module_start lines ss last.data).isSome
    | _, _ => false

/-- Embedding of `YamlModifier::add_module`. -/
def add_module (yaml : String) (project_index : Nat) (parent_segments : List String)
    (module_name : String) : Except String String :=
  let lines := linesOfStr yaml
  if parent_segments.isEmpty then
    Except.ok (strOfLines (add_top_level_module lines project_index module_name.data))
  else
    match add_nested_module lines project_index parent_segments module_name.data with
    | Except.error e => Except.error e
    | Except.ok ls => Except.ok (strOfLines ls)

/-- Depth loop of `YamlModifier::ensure_tree_path` (`done` is the prefix
of segments already processed). -/
def ensure_tree_path_go (project_index : Nat) :
    List String → String → List String → Except String String
  | _, result, [] => Except.ok result
  | done, result, seg :: rest =>
    let cur := done ++ [seg]
    if module_exists result project_index cur then
      ensure_tree_path_go project_index cur result rest
    else
      match add_module result project_index done seg with
      | Except.error e => Except.error e
      | Except.ok r2 => ensure_tree_path_go project_index cur r2 rest

/-- Embedding of `YamlModifier::ensure_tree_path`. -/
def ensure_tree_path (yaml : String) (project_index : Nat) (segments : List String) :
    Except String String :=
  ensure_tree_path_go project_index [] yaml segments

/-- A child entry to add when a directory is added
(`yaml_modifier.rs::AddChild`). -/
inductive AddChild where
  | mk (name : String) (is_directory : Bool) (children : List AddChild)

mutual

/-- Embedding of `YamlModifier::add_child_recursive`. -/
def add_child_recursive (yaml : String) (project_index : Nat)
    (parent_segments : List String) (child : AddChild) (language : String) :
    Except String String :=
  match child with
  | AddChild.mk cname cdir cchildren =>
    if cdir then
      match ensure_tree_path yaml project_index (parent_segments ++ [cname]) with
      | Except.error e => Except.error e
      | Except.ok r =>
        add_children_recursive r project_index (parent_segments ++ [cname])
          cchildren language
    else
      add_file_to_module yaml project_index parent_segments
        (filename_without_standard_extension cname language)

/-- The child loops of `add_entry` and `add_child_recursive`. -/
def add_children_recursive (yaml : String) (project_index : Nat)
    (parent_segments : List String) (children : List AddChild) (language : String) :
    Except String String :=
  match children with
  | [] => Except.ok yaml
  | c :: rest =>
    match add_child_recursive yaml project_index parent_segments c language with
    | Except.error e => Except.error e
    | Except.ok r => add_children_recursive r project_index parent_segments rest language

end

/-- Embedding of `YamlModifier::add_entry`. -/
def add_entry (yaml : String) (project_index : Nat) (path_segments : List String)
    (is_directory : Bool) (language : String) (children : List AddChild) :
    Except String String :=
  if path_segments.isEmpty then Except.error "Cannot add entry with empty path"
  else
    let step : Except String String :=
      if is_directory then
        match ensure_tree_path yaml project_index path_segments with
        | Except.error e => Except.error e
        | Except.ok r =>
          add_children_recursive r project_index path_segments children language
      else
        let dir_path := path_segments.dropLast
        let file_name := (path_segments.getLast?).getD ""
        let moli_name := filename_without_standard_extension file_name language
        if dir_path.isEmpty then add_project_level_file yaml project_index moli_name
        else
          match ensure_tree_path yaml project_index dir_path with
          | Except.error e => Except.error e
          | Except.ok r => add_file_to_module r project_index dir_path moli_name
    match step with
    | Except.error e => Except.error e
    | Except.ok result => Except.ok (withTrailingNewline yaml result)

/-! ## Idempotence machinery for the add operation (C2) -/

/-- A name is well formed for line-based insertion when it is non-empty,
does not end in whitespace, and contains no newline (so the inserted
entry line round-trips through trimming and line splitting). -/
def wellFormedName (n : String) : Bool :=
  !(n.data.isEmpty) &&
    (match n.data.getLast? with
      | some c => !(isWs c)
      | none => false) &&
    !(n.data.contains '\n')

/-- State effect (project counter and `file:` flag) of one line of the
`add_project_level_file` scan. -/
def aplf_step (project_index : Nat) (s : Int × Bool) (l : Line) : Int × Bool :=
  let trimmed := trimL l
  let isHeader := nameKw.isPrefixOf trimmed && indentOf l == 0
  let cur2 := if isHeader then s.1 + 1 else s.1
  let found2 := if isHeader then false else s.2
  if cur2 ≠ (project_index : Int) then (cur2, found2)
  else if trimmed == "file:".data && indentOf l == 2 then (cur2, true)
  else (cur2, found2)

/-- The scan state after the first `k` lines. -/
def aplf_fold (project_index : Nat) (L : List Line) (k : Nat) : Int × Bool :=
  (L.take k).foldl (aplf_step project_index) (-1, false)

lemma aplf_fold_succ (pidx : Nat) (L : List Line) (i : Nat) (hi : i < L.length) :
    aplf_fold pidx L (i + 1) = aplf_step pidx (aplf_fold pidx L i) (L.getD i []) := by
  unfold aplf_fold
  rw [List.getD_eq_getElem L [] hi, List.take_succ, List.getElem?_eq_getElem hi]
  simp only [Option.toList_some, List.foldl_append, List.foldl_cons, List.foldl_nil]

/-- One scan step of `aplf_go` either fires the duplicate return or
recurses with the `aplf_step` state (and some insert position). -/
lemma aplf_go_step (L : List Line) (pidx : Nat) (expected : Line)
    (fuel i : Nat) (cur : Int) (found : Bool) (pos0 : Option Nat) :
    aplf_go L pidx expected (fuel + 1) i cur found pos0 = none ∨
    ∃ pos1, aplf_go L pidx expected (fuel + 1) i cur found pos0 =
      aplf_go L pidx expected fuel (i + 1)
        (aplf_step pidx (cur, found) (L.getD i [])).1
        (aplf_step pidx (cur, found) (L.getD i [])).2 pos1 := by
  simp only [aplf_go, aplf_step]
  by_cases h1 : ((if nameKw.isPrefixOf (trimL (L.getD i [])) && indentOf (L.getD i []) == 0
      then cur + 1 else cur) ≠ (pidx : Int))
  · rw [if_pos h1, if_pos h1]
    exact Or.inr ⟨pos0, rfl⟩
  · rw [if_neg h1, if_neg h1]
    by_cases h2 : ((trimL (L.getD i []) == "file:".data) && (indentOf (L.getD i []) == 2)) = true
    · rw [if_pos h2, if_pos h2]
      exact Or.inr ⟨some (i + 1), rfl⟩
    · rw [if_neg h2, if_neg h2]
      by_cases h3 : ((if nameKw.isPrefixOf (trimL (L.getD i [])) && indentOf (L.getD i []) == 0
          then false else found) && indentOf (L.getD i []) == 4 &&
          nameKw.isPrefixOf (trimL (L.getD i []))) = true
      · rw [if_pos h3]
        by_cases h4 : (trimL (L.getD i []) == expected) = true
        · rw [if_pos h4]
          exact Or.inl rfl
        · rw [if_neg h4]
          exact Or.inr ⟨_, rfl⟩
      · rw [if_neg h3]
        exact Or.inr ⟨pos0, rfl⟩

/-- If some position `p` holds a matching file entry line and the scan
state reaching `p` is (target project, inside a `file:` section), then the
`add_project_level_file` scan fires the duplicate return. -/
lemma aplf_go_dup (L : List Line) (pidx : Nat) (expected : Line) (p : Nat)
    (hp : p < L.length)
    (hind : indentOf (L.getD p []) = 4)
    (htrim : trimL (L.getD p []) = expected)
    (hpre : nameKw.isPrefixOf expected = true)
    (hfold : aplf_fold pidx L p = ((pidx : Int), true)) :
    ∀ (fuel i : Nat) (pos0 : Option Nat), fuel = L.length - i → i ≤ p →
      aplf_go L pidx expected fuel i (aplf_fold pidx L i).1 (aplf_fold pidx L i).2 pos0
        = none := by
  intro fuel
  induction fuel with
  | zero =>
    intro i pos0 hf hip
    omega
  | succ fuel ih =>
    intro i pos0 hf hip
    rcases Nat.lt_or_ge i p with hlt | hge
    · rcases aplf_go_step L pidx expected fuel i (aplf_fold pidx L i).1
          (aplf_fold pidx L i).2 pos0 with hnone | ⟨pos1, hstep⟩
      · exact hnone
      · rw [hstep]
        have hfs := aplf_fold_succ pidx L i (by omega)
        rw [← hfs]
        exact ih (i + 1) pos1 (by omega) (by omega)
    · have hij : i = p := by omega
      subst hij
      rw [hfold]
      simp only [aplf_go]
      have hh : (nameKw.isPrefixOf (trimL (L.getD i [])) && (indentOf (L.getD i []) == 0))
          = false := by
        rw [hind]
        simp
      rw [hh]
      simp only [Bool.false_eq_true, if_false]
      rw [if_neg (by simp)]
      have hf2 : ((trimL (L.getD i []) == "file:".data) && (indentOf (L.getD i []) == 2))
          = false := by
        rw [hind]
        simp
      rw [hf2]
      simp only [Bool.false_eq_true, if_false]
      have h3 : (true && (indentOf (L.getD i []) == 4) &&
          nameKw.isPrefixOf (trimL (L.getD i []))) = true := by
        rw [hind, htrim, hpre]
        simp
      rw [if_pos ?h3p]
      case h3p => rw [htrim] at h3 ⊢; exact h3
      rw [if_pos (by rw [htrim]; simp)]

/-- The entry-span lines following a file entry leave the scan state
unchanged: they are non-empty, deeper than indent 4 and not entries, so
they are neither headers nor `file:` keys. -/
lemma aplf_fold_stable_span (L : List Line) (pidx : Nat) (i : Nat)
    (hfold : aplf_fold pidx L (i + 1) = ((pidx : Int), true)) :
    ∀ k, k ≤ contSpanLen L i 4 →
      aplf_fold pidx L (i + 1 + k) = ((pidx : Int), true) := by
  intro k
  induction k with
  | zero => intro _; exact hfold
  | succ k ihk =>
    intro hk
    have hspanle : contSpanLen L i 4 ≤ L.length - (i + 1) := by
      unfold contSpanLen
      have := (List.takeWhile_prefix (l := L.drop (i + 1)) (fun l =>
        !(trimL l).isEmpty && decide (4 < indentOf l) &&
          !(nameKw.isPrefixOf (trimL l)))).length_le
      simpa using this
    have hlen : i + 1 + k < L.length := by omega
    have hfs := aplf_fold_succ pidx L (i + 1 + k) hlen
    have hB : ∀ hkb : k < ((L.drop (i + 1)).takeWhile (fun l =>
        !(trimL l).isEmpty && decide (4 < indentOf l) &&
          !(nameKw.isPrefixOf (trimL l)))).length,
        ((L.drop (i + 1)).takeWhile (fun l =>
          !(trimL l).isEmpty && decide (4 < indentOf l) &&
            !(nameKw.isPrefixOf (trimL l)))).get ⟨k, hkb⟩ = L.getD (i + 1 + k) [] := by
      intro hkb
      have hkd : k < (L.drop (i + 1)).length := by
        have := (List.takeWhile_prefix (l := L.drop (i + 1)) (fun l =>
          !(trimL l).isEmpty && decide (4 < indentOf l) &&
            !(nameKw.isPrefixOf (trimL l)))).length_le
        omega
      rw [List.get_eq_getElem,
        (List.takeWhile_prefix _).getElem hkb, List.getElem_drop,
        List.getD_eq_getElem L [] (by omega)]
    have hkb : k < ((L.drop (i + 1)).takeWhile (fun l =>
        !(trimL l).isEmpty && decide (4 < indentOf l) &&
          !(nameKw.isPrefixOf (trimL l)))).length := by
      unfold contSpanLen at hk
      omega
    have hmem := List.mem_takeWhile_imp (List.get_mem _ k hkb)
    rw [hB hkb] at hmem
    obtain ⟨h12, h3⟩ := Bool.and_eq_true_iff.mp hmem
    obtain ⟨h1, h2⟩ := Bool.and_eq_true_iff.mp h12
    have hstep : aplf_step pidx ((pidx : Int), true) (L.getD (i + 1 + k) []) =
        ((pidx : Int), true) := by
      simp only [aplf_step]
      have hih : (nameKw.isPrefixOf (trimL (L.getD (i + 1 + k) [])) &&
          (indentOf (L.getD (i + 1 + k) []) == 0)) = false := by
        rw [Bool.not_eq_true' ] at h3
        rw [h3]
        rfl
      rw [hih]
      simp only [Bool.false_eq_true, if_false]
      rw [if_neg (by simp)]
      have hf2 : ((trimL (L.getD (i + 1 + k) []) == "file:".data) &&
          (indentOf (L.getD (i + 1 + k) []) == 2)) = false := by
        have hgt : 4 < indentOf (L.getD (i + 1 + k) []) := of_decide_eq_true h2
        have : (indentOf (L.getD (i + 1 + k) []) == 2) = false := by
          simp only [beq_eq_false_iff_ne]
          omega
        rw [this]
        simp
      rw [hf2]
      simp
    show aplf_fold pidx L (i + 1 + k + 1) = ((pidx : Int), true)
    rw [show i + 1 + k + 1 = (i + 1 + k) + 1 by omega, aplf_fold_succ pidx L (i + 1 + k) hlen,
      ihk (by omega), hstep]

/-- When the `add_project_level_file` scan finishes with the `file:` flag
set and an insert position, that position carries the scan state (target
project, inside `file:`): it is either right after a `file:` key of the
target project or right after an entry's span there. -/
lemma aplf_go_found_state (L : List Line) (pidx : Nat) (expected : Line) :
    ∀ (fuel i : Nat) (pos0 : Option Nat), fuel = L.length - i →
      (∀ q, pos0 = some q → q ≤ L.length ∧ aplf_fold pidx L q = ((pidx : Int), true)) →
      ((aplf_fold pidx L i).2 = true → pos0 ≠ none) →
      ∀ (found : Bool) (pos : Option Nat),
        aplf_go L pidx expected fuel i (aplf_fold pidx L i).1 (aplf_fold pidx L i).2 pos0
          = some (found, pos) →
        found = true →
        ∃ q, pos = some q ∧ q ≤ L.length ∧ aplf_fold pidx L q = ((pidx : Int), true) := by
  intro fuel
  induction fuel with
  | zero =>
    intro i pos0 hf hpos0 hfp found pos hgo hfound
    simp only [aplf_go] at hgo
    have h12 := Option.some.inj hgo
    have h1 : (aplf_fold pidx L i).2 = found := congrArg Prod.fst h12
    have h2 : pos0 = pos := congrArg Prod.snd h12
    subst hfound
    have hne := hfp h1
    cases hq : pos0 with
    | none => exact absurd hq hne
    | some q =>
      refine ⟨q, by rw [← h2, hq], (hpos0 q hq).1, (hpos0 q hq).2⟩
  | succ fuel ih =>
    intro i pos0 hf hpos0 hfp found pos hgo hfound
    have hi : i < L.length := by omega
    have hfs := aplf_fold_succ pidx L i hi
    simp only [aplf_go] at hgo
    by_cases hih : (nameKw.isPrefixOf (trimL (L.getD i [])) && (indentOf (L.getD i []) == 0))
        = true
    · rw [hih] at hgo
      simp only [if_true] at hgo
      have hstep : aplf_step pidx (aplf_fold pidx L i) (L.getD i [])
          = (if ((aplf_fold pidx L i).1 + 1 ≠ (pidx : Int)) then
              ((aplf_fold pidx L i).1 + 1, false)
            else if ((trimL (L.getD i []) == "file:".data) &&
                (indentOf (L.getD i []) == 2)) = true then
              ((aplf_fold pidx L i).1 + 1, true)
            else ((aplf_fold pidx L i).1 + 1, false)) := by
        simp only [aplf_step, hih, if_true]
      by_cases h1 : ((aplf_fold pidx L i).1 + 1 ≠ (pidx : Int))
      · rw [if_pos h1] at hgo
        rw [if_pos h1] at hstep
        refine ih (i + 1) pos0 (by omega) hpos0 ?_ found pos ?_ hfound
        · intro hcon
          rw [hfs, hstep] at hcon
          cases hcon
        · rw [hfs, hstep]
          exact hgo
      · rw [if_neg h1] at hgo
        rw [if_neg h1] at hstep
        by_cases h2 : ((trimL (L.getD i []) == "file:".data) &&
            (indentOf (L.getD i []) == 2)) = true
        · rw [if_pos h2] at hgo
          rw [if_pos h2] at hstep
          refine ih (i + 1) (some (i + 1)) (by omega) ?_ (by intro _; simp) found pos ?_ hfound
          · intro q hq
            obtain hq2 := (Option.some.inj hq).symm
            subst hq2
            refine ⟨by omega, ?_⟩
            rw [hfs, hstep]
            refine Prod.ext ?_ rfl
            simp only at h1 ⊢
            omega
          · rw [hfs, hstep]
            exact hgo
        · rw [if_neg h2] at hgo
          rw [if_neg h2] at hstep
          simp only [Bool.false_and, Bool.false_eq_true, if_false] at hgo
          refine ih (i + 1) pos0 (by omega) hpos0 ?_ found pos ?_ hfound
          · intro hcon
            rw [hfs, hstep] at hcon
            cases hcon
          · rw [hfs, hstep]
            exact hgo
    · have hihf : (nameKw.isPrefixOf (trimL (L.getD i [])) && (indentOf (L.getD i []) == 0))
          = false := Bool.eq_false_iff.mpr hih
      rw [hihf] at hgo
      simp only [Bool.false_eq_true, if_false] at hgo
      have hstep : aplf_step pidx (aplf_fold pidx L i) (L.getD i [])
          = (if ((aplf_fold pidx L i).1 ≠ (pidx : Int)) then
              ((aplf_fold pidx L i).1, (aplf_fold pidx L i).2)
            else if ((trimL (L.getD i []) == "file:".data) &&
                (indentOf (L.getD i []) == 2)) = true then
              ((aplf_fold pidx L i).1, true)
            else ((aplf_fold pidx L i).1, (aplf_fold pidx L i).2)) := by
        simp only [aplf_step, hihf, Bool.false_eq_true, if_false]
      by_cases h1 : ((aplf_fold pidx L i).1 ≠ (pidx : Int))
      · rw [if_pos h1] at hgo
        rw [if_pos h1] at hstep
        refine ih (i + 1) pos0 (by omega) hpos0 ?_ found pos ?_ hfound
        · intro hcon
          rw [hfs, hstep] at hcon
          exact hfp hcon
        · rw [hfs, hstep]
          exact hgo
      · rw [if_neg h1] at hgo
        rw [if_neg h1] at hstep
        by_cases h2 : ((trimL (L.getD i []) == "file:".data) &&
            (indentOf (L.getD i []) == 2)) = true
        · rw [if_pos h2] at hgo
          rw [if_pos h2] at hstep
          refine ih (i + 1) (some (i + 1)) (by omega) ?_ (by intro _; simp) found pos ?_ hfound
          · intro q hq
            obtain hq2 := (Option.some.inj hq).symm
            subst hq2
            refine ⟨by omega, ?_⟩
            rw [hfs, hstep]
            refine Prod.ext ?_ rfl
            simp only at h1 ⊢
            omega
          · rw [hfs, hstep]
            exact hgo
        · rw [if_neg h2] at hgo
          rw [if_neg h2] at hstep
          by_cases h3 : ((aplf_fold pidx L i).2 && (indentOf (L.getD i []) == 4) &&
              nameKw.isPrefixOf (trimL (L.getD i []))) = true
          · rw [if_pos h3] at hgo
            by_cases h4 : (trimL (L.getD i []) == expected) = true
            · rw [if_pos h4] at hgo
              cases hgo
            · rw [if_neg h4] at hgo
              have hfoundi : (aplf_fold pidx L i).2 = true :=
                (Bool.and_eq_true_iff.mp (Bool.and_eq_true_iff.mp h3).1).1
              have hcuri : (aplf_fold pidx L i).1 = (pidx : Int) := by
                simp only [not_not] at h1
                exact h1
              have hfold1 : aplf_fold pidx L (i + 1) = ((pidx : Int), true) := by
                rw [hfs, hstep, hcuri, hfoundi]
              refine ih (i + 1) (some (i + contSpanLen L i 4 + 1)) (by omega) ?_
                (by intro _; simp) found pos ?_ hfound
              · intro q hq
                obtain hq2 := (Option.some.inj hq).symm
                subst hq2
                have hspanle : contSpanLen L i 4 ≤ L.length - (i + 1) := by
                  unfold contSpanLen
                  have := (List.takeWhile_prefix (l := L.drop (i + 1)) (fun l =>
                    !(trimL l).isEmpty && decide (4 < indentOf l) &&
                      !(nameKw.isPrefixOf (trimL l)))).length_le
                  simpa using this
                refine ⟨by omega, ?_⟩
                have := aplf_fold_stable_span L pidx i hfold1 (contSpanLen L i 4) le_rfl
                rw [show i + contSpanLen L i 4 + 1 = i + 1 + contSpanLen L i 4 by omega]
                exact this
              · rw [hfs, hstep, hcuri, hfoundi]
                rw [hcuri, hfoundi] at hgo
                exact hgo
          · rw [if_neg h3] at hgo
            refine ih (i + 1) pos0 (by omega) hpos0 ?_ found pos ?_ hfound
            · intro hcon
              rw [hfs, hstep] at hcon
              exact hfp hcon
            · rw [hfs, hstep]
              exact hgo

lemma aplf_step_fst (pidx : Nat) (s : Int × Bool) (l : Line) :
    (aplf_step pidx s l).1 =
      if (nameKw.isPrefixOf (trimL l) && (indentOf l == 0)) = true then s.1 + 1 else s.1 := by
  simp only [aplf_step]
  split_ifs <;> rfl

/-- The number of top-level `- name:` headers in a document. -/
def header_count (lines : List Line) : Nat :=
  (lines.filter (fun l => nameKw.isPrefixOf (trimL l) && indentOf l == 0)).length

lemma aplf_foldl_fst (pidx : Nat) :
    ∀ (M : List Line) (c : Int) (b : Bool),
      (M.foldl (aplf_step pidx) (c, b)).1 =
        c + ((M.filter (fun l => nameKw.isPrefixOf (trimL l) && indentOf l == 0)).length : Int) := by
  intro M
  induction M with
  | nil => intro c b; simp
  | cons l M ih =>
    intro c b
    rw [List.foldl_cons, List.filter_cons]
    have hstep : aplf_step pidx (c, b) l =
        ((aplf_step pidx (c, b) l).1, (aplf_step pidx (c, b) l).2) := rfl
    rw [hstep, ih]
    rw [aplf_step_fst]
    by_cases hh : (nameKw.isPrefixOf (trimL l) && (indentOf l == 0)) = true
    · rw [if_pos hh, if_pos hh]
      simp only [List.length_cons]
      push_cast
      ring
    · rw [if_neg hh, if_neg hh]

lemma aplf_fold_fst_count (pidx : Nat) (L : List Line) (k : Nat) :
    (aplf_fold pidx L k).1 = -1 + (header_count (L.take k) : Int) := by
  unfold aplf_fold header_count
  exact aplf_foldl_fst pidx (L.take k) (-1) false

/-- `find_project_end` returns a position at which exactly the first
`project_index + 1` headers have been passed, provided the index is in
range. -/
lemma fpe_go_state (L : List Line) (pidx : Nat)
    (htotal : (pidx : Int) ≤ (aplf_fold pidx L L.length).1) :
    ∀ (fuel i : Nat), fuel = L.length - i →
      (aplf_fold pidx L i).1 ≤ (pidx : Int) →
      fpe_go L pidx fuel i (aplf_fold pidx L i).1 ≤ L.length ∧
        (aplf_fold pidx L (fpe_go L pidx fuel i (aplf_fold pidx L i).1)).1 = (pidx : Int) := by
  intro fuel
  induction fuel with
  | zero =>
    intro i hf hle
    have hge : L.length ≤ i := by omega
    have heq : aplf_fold pidx L i = aplf_fold pidx L L.length := by
      unfold aplf_fold
      rw [List.take_of_length_le hge, List.take_of_length_le le_rfl]
    simp only [fpe_go]
    refine ⟨le_rfl, ?_⟩
    rw [heq] at hle
    omega
  | succ fuel ih =>
    intro i hf hle
    have hi : i < L.length := by omega
    have hfs := aplf_fold_succ pidx L i hi
    have hfst := aplf_step_fst pidx (aplf_fold pidx L i) (L.getD i [])
    simp only [fpe_go]
    by_cases hih : (nameKw.isPrefixOf (trimL (L.getD i [])) && (indentOf (L.getD i []) == 0))
        = true
    · have hf1 : (aplf_fold pidx L (i + 1)).1 = (aplf_fold pidx L i).1 + 1 := by
        rw [hfs, hfst, if_pos hih]
      by_cases hgt : ((pidx : Int) < (aplf_fold pidx L i).1 + 1)
      · rw [if_pos (by rw [hih]; simp [hgt])]
        exact ⟨by omega, by omega⟩
      · rw [if_neg (by rw [hih]; simp [hgt])]
        rw [if_pos hih]
        have := ih (i + 1) (by omega) (by rw [hf1]; omega)
        rw [hf1] at this
        exact this
    · have hihf : (nameKw.isPrefixOf (trimL (L.getD i [])) && (indentOf (L.getD i []) == 0))
          = false := Bool.eq_false_iff.mpr hih
      have hf1 : (aplf_fold pidx L (i + 1)).1 = (aplf_fold pidx L i).1 := by
        rw [hfs, hfst, if_neg (by rw [hihf]; simp)]
      rw [if_neg (by rw [hihf]; simp), if_neg (by rw [hihf]; simp)]
      have := ih (i + 1) (by omega) (by rw [hf1]; exact hle)
      rw [hf1] at this
      exact this

/-- When the project-scoped `tree:` scan finds a position, the project
counter there equals the target index. -/
lemma aplf_tree_go_state (L : List Line) (pidx : Nat) :
    ∀ (fuel i : Nat), fuel = L.length - i →
      ∀ tp, aplf_tree_go L pidx fuel i (aplf_fold pidx L i).1 = some tp →
        tp < L.length ∧ (aplf_fold pidx L tp).1 = (pidx : Int) := by
  intro fuel
  induction fuel with
  | zero =>
    intro i hf tp htp
    simp only [aplf_tree_go] at htp
    cases htp
  | succ fuel ih =>
    intro i hf tp htp
    have hi : i < L.length := by omega
    have hfs := aplf_fold_succ pidx L i hi
    have hfst := aplf_step_fst pidx (aplf_fold pidx L i) (L.getD i [])
    simp only [aplf_tree_go] at htp
    by_cases hih : (nameKw.isPrefixOf (trimL (L.getD i [])) && (indentOf (L.getD i []) == 0))
        = true
    · have hf1 : (aplf_fold pidx L (i + 1)).1 = (aplf_fold pidx L i).1 + 1 := by
        rw [hfs, hfst, if_pos hih]
      rw [if_pos hih] at htp
      by_cases hc1 : ((aplf_fold pidx L i).1 + 1 ≠ (pidx : Int))
      · rw [if_pos hc1] at htp
        rw [← hf1] at htp
        exact ih (i + 1) (by omega) tp htp
      · rw [if_neg hc1] at htp
        have htree : (trimL (L.getD i []) == "tree:".data && (indentOf (L.getD i []) == 2))
            = false := by
          obtain ⟨hpre, _⟩ := Bool.and_eq_true_iff.mp hih
          cases heq : (trimL (L.getD i []) == "tree:".data) with
          | false => rfl
          | true =>
            have := eq_of_beq heq
            rw [this] at hpre
            cases hpre
        rw [htree] at htp
        simp only [Bool.false_eq_true, if_false] at htp
        rw [← hf1] at htp
        exact ih (i + 1) (by omega) tp htp
    · have hihf : (nameKw.isPrefixOf (trimL (L.getD i [])) && (indentOf (L.getD i []) == 0))
          = false := Bool.eq_false_iff.mpr hih
      have hf1 : (aplf_fold pidx L (i + 1)).1 = (aplf_fold pidx L i).1 := by
        rw [hfs, hfst, if_neg (by rw [hihf]; simp)]
      rw [hihf] at htp
      simp only [Bool.false_eq_true, if_false] at htp
      by_cases hc1 : ((aplf_fold pidx L i).1 ≠ (pidx : Int))
      · rw [if_pos hc1] at htp
        rw [← hf1] at htp
        exact ih (i + 1) (by omega) tp htp
      · rw [if_neg hc1] at htp
        by_cases hc2 : ((trimL (L.getD i []) == "tree:".data) &&
            (indentOf (L.getD i []) == 2)) = true
        · rw [if_pos hc2] at htp
          obtain rfl := Option.some.inj htp
          refine ⟨hi, ?_⟩
          simp only [not_not] at hc1
          exact hc1
        · rw [if_neg hc2] at htp
          rw [← hf1] at htp
          exact ih (i + 1) (by omega) tp htp

lemma trimStart_spaces_append (l : Line) :
    ∀ k, trimStart (spaces k ++ l) = trimStart l := by
  intro k
  induction k with
  | zero => rfl
  | succ k ih =>
    show trimStart (List.replicate (k + 1) ' ' ++ l) = trimStart l
    rw [List.replicate_succ, List.cons_append]
    show List.dropWhile isWs (' ' :: (List.replicate k ' ' ++ l)) = trimStart l
    rw [List.dropWhile_cons, if_pos (by decide)]
    exact ih

lemma trimStart_cons_nonws (c : Char) (hc : isWs c = false) (l : Line) :
    trimStart (c :: l) = c :: l := by
  unfold trimStart
  rw [List.dropWhile_cons, if_neg (by rw [hc]; simp)]

lemma trimL_eq_of_getLast (l : Line) (c : Char) (hc : isWs c = false)
    (hlast : l.getLast? = some c) (hstart : trimStart l = l) : trimL l = l := by
  obtain ⟨front, a, heq⟩ := List.eq_nil_or_concat l |>.resolve_left (by
    intro hcon; rw [hcon] at hlast; cases hlast)
  rw [List.concat_eq_append] at heq
  subst heq
  rw [List.getLast?_concat] at hlast
  obtain rfl := (Option.some.inj hlast).symm
  unfold trimL
  rw [show (front ++ [c]).dropWhile isWs = front ++ [c] from hstart]
  rw [List.reverse_append, List.reverse_singleton, List.singleton_append,
    List.dropWhile_cons, if_neg (by rw [hc]; simp)]
  simp

/-- Shape facts for an inserted entry line `{spaces k}- name: {n}` with a
well-formed name. -/
lemma entry_line_shape (k : Nat) (n : String) (hn : wellFormedName n = true) :
    trimL (spaces k ++ "- name: ".data ++ n.data) = entryLine n.data ∧
    indentOf (spaces k ++ "- name: ".data ++ n.data) = k ∧
    ¬ ('\n' ∈ (spaces k ++ "- name: ".data ++ n.data)) := by
  obtain ⟨h12, h3⟩ := Bool.and_eq_true_iff.mp hn
  obtain ⟨h1, h2⟩ := Bool.and_eq_true_iff.mp h12
  have hne : n.data ≠ [] := by
    intro hcon
    rw [show n.data.isEmpty = true by rw [hcon]; rfl] at h1
    cases h1
  obtain ⟨c, hc⟩ : ∃ c, n.data.getLast? = some c := by
    cases hg : n.data.getLast? with
    | none => exact absurd (List.getLast?_eq_none_iff.mp hg) hne
    | some c => exact ⟨c, rfl⟩
  have hcw : isWs c = false := by
    rw [hc] at h2
    have h2b : (!(isWs c)) = true := h2
    revert h2b
    cases isWs c <;> simp
  have hts : trimStart (spaces k ++ "- name: ".data ++ n.data)
      = "- name: ".data ++ n.data := by
    rw [List.append_assoc, trimStart_spaces_append]
    exact trimStart_cons_nonws '-' (by decide) _
  have htrim : trimL (spaces k ++ "- name: ".data ++ n.data) = entryLine n.data := by
    unfold trimL
    rw [show List.dropWhile isWs (spaces k ++ "- name: ".data ++ n.data)
      = "- name: ".data ++ n.data from hts]
    have : trimL ("- name: ".data ++ n.data) = "- name: ".data ++ n.data := by
      refine trimL_eq_of_getLast _ c hcw ?_ ?_
      · rw [List.getLast?_append_of_ne_nil _ hne]
        exact hc
      · exact trimStart_cons_nonws '-' (by decide) _
    unfold trimL at this
    rw [show List.dropWhile isWs ("- name: ".data ++ n.data)
      = "- name: ".data ++ n.data from trimStart_cons_nonws '-' (by decide) _] at this
    exact this
  refine ⟨htrim, ?_, ?_⟩
  · unfold indentOf
    rw [show trimStart (spaces k ++ "- name: ".data ++ n.data)
      = "- name: ".data ++ n.data from hts]
    simp [spaces]
  · intro hmem
    rcases List.mem_append.mp hmem with hmem2 | hmem2
    · rcases List.mem_append.mp hmem2 with hmem3 | hmem3
      · have := List.eq_of_mem_replicate hmem3
        cases this
      · revert hmem3
        decide
    · have : n.data.contains '\n' = true := List.elem_iff.mpr hmem2
      rw [this] at h3
      cases h3

lemma insertAt_eq (L : List Line) (q : Nat) (x : Line) :
    insertAt L q x = L.take q ++ x :: L.drop q := rfl

lemma insertAt_insertAt (L : List Line) (q : Nat) (hq : q ≤ L.length) (e f : Line) :
    insertAt (insertAt L q e) q f = L.take q ++ f :: e :: L.drop q := by
  rw [insertAt_eq, insertAt_eq]
  have hlen : (L.take q).length = q := by
    rw [List.length_take]
    omega
  rw [List.take_left' hlen, List.drop_left' hlen]

lemma take_append_cons (A : List Line) (x : Line) (B : List Line) :
    (A ++ x :: B).take A.length = A := List.take_left _ _

lemma getD_append_self (A : List Line) (x : Line) (B : List Line) :
    (A ++ x :: B).getD A.length [] = x := by
  have hlt : A.length < (A ++ x :: B).length := by
    rw [List.length_append]
    simp
  rw [List.getD_eq_getElem _ [] hlt, List.getElem_append_right le_rfl]
  simp

lemma getD_append_succ (A : List Line) (x y : Line) (B : List Line) :
    (A ++ x :: y :: B).getD (A.length + 1) [] = y := by
  have hlt : A.length + 1 < (A ++ x :: y :: B).length := by
    rw [List.length_append]
    simp only [List.length_cons]
    omega
  rw [List.getD_eq_getElem _ [] hlt, List.getElem_append_right (by omega)]
  simp

lemma getD_append_self' (A : List Line) (x : Line) (B : List Line) (q : Nat)
    (hq : A.length = q) : (A ++ x :: B).getD q [] = x := by
  subst hq
  exact getD_append_self A x B

lemma getD_append_succ' (A : List Line) (x y : Line) (B : List Line) (q : Nat)
    (hq : A.length = q) : (A ++ x :: y :: B).getD (q + 1) [] = y := by
  subst hq
  exact getD_append_succ A x y B

/-- The scan state over a list agrees with the state over any extension
that is identical on the first `k` lines. -/
lemma aplf_fold_take_congr (pidx : Nat) (X Y : List Line) (k : Nat)
    (h : X.take k = Y.take k) : aplf_fold pidx X k = aplf_fold pidx Y k := by
  unfold aplf_fold
  rw [h]

lemma withTrailingNewline_self (o : String) : withTrailingNewline o o = o := by
  unfold withTrailingNewline
  split_ifs with h
  · exact absurd h.1 h.2
  · rfl

lemma nameKw_isPrefixOf_entryLine (x : Line) : nameKw.isPrefixOf (entryLine x) = true := by
  apply List.isPrefixOf_iff_prefix.mpr
  exact ⟨' ' :: x, rfl⟩

/-- Firing the scoped duplicate check makes `add_project_level_file`
return its input verbatim. -/
lemma aplf_noop_of_dup (t1 : String) (pidx : Nat) (n : String) (p : Nat)
    (hp : p < (linesOfStr t1).length)
    (hind : indentOf ((linesOfStr t1).getD p []) = 4)
    (htrim : trimL ((linesOfStr t1).getD p []) = entryLine n.data)
    (hfold : aplf_fold pidx (linesOfStr t1) p = ((pidx : Int), true)) :
    add_project_level_file t1 pidx n = Except.ok t1 := by
  have hdup := aplf_go_dup (linesOfStr t1) pidx (entryLine n.data) p hp hind htrim
    (nameKw_isPrefixOf_entryLine n.data) hfold
    (linesOfStr t1).length 0 none (Nat.sub_zero _).symm (Nat.zero_le p)
  unfold add_project_level_file
  have hdup2 : aplf_go (linesOfStr t1) pidx (entryLine n.data) (linesOfStr t1).length 0 (-1)
      false none = none := hdup
  simp only [hdup2]

/-- Dispatch over the trailing-newline normalisation: a duplicate position
in the pre-join line list fires the duplicate check on the re-split output
text. -/
lemma dup_transfer (t : String) (pidx : Nat) (n : String) (X : List Line) (p : Nat)
    (hnl : ∀ l ∈ X, ¬ ('\n' ∈ l))
    (hp : p < X.length)
    (hne : X.getD p [] ≠ [])
    (hind : indentOf (X.getD p []) = 4)
    (htrim : trimL (X.getD p []) = entryLine n.data)
    (hfold : aplf_fold pidx X p = ((pidx : Int), true)) :
    add_project_level_file (withTrailingNewline t (strOfLines X)) pidx n
      = Except.ok (withTrailingNewline t (strOfLines X)) := by
  have hout := linesOf_out X t hnl
  have hcases : linesOfStr (withTrailingNewline t (strOfLines X)) = X ∨
      (linesOfStr (withTrailingNewline t (strOfLines X)) = X.dropLast ∧
        X.getLast? = some ([] : Line)) := by
    rw [hout]
    split_ifs with h1 h2 h3 h4
    · exfalso
      rcases h2 with h2 | h2
      · rw [h2] at hp; cases hp
      · rw [h2] at hne hp
        have hp0 : p = 0 := by
          simp only [List.length_singleton] at hp
          omega
        subst hp0
        exact hne rfl
    · exact Or.inr ⟨rfl, h3⟩
    · exact Or.inl rfl
    · exact Or.inr ⟨rfl, h4⟩
    · exact Or.inl rfl
  rcases hcases with hEq | ⟨hEq, hlast⟩
  · refine aplf_noop_of_dup _ pidx n p ?_ ?_ ?_ ?_ <;> rw [hEq]
    · exact hp
    · exact hind
    · exact htrim
    · exact hfold
  · have hplast : p < X.length - 1 := by
      rcases Nat.lt_or_ge p (X.length - 1) with h | h
      · exact h
      · exfalso
        have hpe : p = X.length - 1 := by omega
        apply hne
        rw [hpe]
        rw [List.getLast?_eq_getElem?] at hlast
        rw [List.getD_eq_getElem?_getD, hlast]
        rfl
    refine aplf_noop_of_dup _ pidx n p ?_ ?_ ?_ ?_ <;> rw [hEq]
    · rw [List.length_dropLast]
      omega
    · rw [List.dropLast_eq_take, List.getD_eq_getElem?_getD,
        List.getElem?_take_of_lt (by omega : p < X.length - 1),
        ← List.getD_eq_getElem?_getD]
      exact hind
    · rw [List.dropLast_eq_take, List.getD_eq_getElem?_getD,
        List.getElem?_take_of_lt (by omega : p < X.length - 1),
        ← List.getD_eq_getElem?_getD]
      exact htrim
    · rw [aplf_fold_take_congr pidx X.dropLast X p
        (by rw [List.dropLast_eq_take, List.take_take, Nat.min_eq_left (by omega)])]
      exact hfold

lemma aplf_step_file (pidx : Nat) (s : Int × Bool) (hc : s.1 = (pidx : Int)) :
    aplf_step pidx s "  file:".data = ((pidx : Int), true) := by
  obtain ⟨c, b⟩ := s
  simp only at hc
  subst hc
  simp only [aplf_step]
  rw [show (nameKw.isPrefixOf (trimL ("  file:".data : Line)) &&
    (indentOf ("  file:".data : Line) == 0)) = false from by decide]
  simp only [Bool.false_eq_true, if_false]
  rw [if_neg (by simp)]
  rw [if_pos (by decide)]

lemma add_entry_single_eq (t : String) (pidx : Nat) (seg lang : String)
    (ch : List AddChild) :
    add_entry t pidx [seg] false lang ch =
      match add_project_level_file t pidx (filename_without_standard_extension seg lang) with
      | Except.error e => Except.error e
      | Except.ok result => Except.ok (withTrailingNewline t result) := rfl

lemma aplf_idem_core (t : String) (pidx : Nat) (n : String)
    (hwf : wellFormedName n = true)
    (hcnt : pidx < header_count (linesOfStr t)) :
    ∀ t1, (match add_project_level_file t pidx n with
        | Except.error e => Except.error e
        | Except.ok result => Except.ok (withTrailingNewline t result)) = Except.ok t1 →
      add_project_level_file t1 pidx n = Except.ok t1 := by
  intro t1 hok
  have hlit : (spaces 4 ++ "- name: ".data : Line) = "    - name: ".data := by decide
  have he := entry_line_shape 4 n hwf
  rw [hlit] at he
  obtain ⟨heTrim, heInd, heNl⟩ := he
  have heNe : ("    - name: ".data ++ n.data : Line) ≠ [] := by simp
  rcases hgo : aplf_go (linesOfStr t) pidx (entryLine n.data) (linesOfStr t).length
      0 (-1) false none with _ | ⟨found, pos⟩
  · have haplf : add_project_level_file t pidx n = Except.ok t := by
      unfold add_project_level_file
      simp only [hgo]
    rw [haplf] at hok
    have hok2 : Except.ok (withTrailingNewline t t) = Except.ok t1 := hok
    rw [withTrailingNewline_self] at hok2
    obtain rfl : t = t1 := Except.ok.inj hok2
    exact haplf
  · cases found with
    | true =>
      have hstate := aplf_go_found_state (linesOfStr t) pidx (entryLine n.data)
        (linesOfStr t).length 0 none (Nat.sub_zero _).symm
        (by intro q hq; cases hq) (by intro hcon; exact Bool.noConfusion hcon)
        true pos hgo rfl
      obtain ⟨q, hpos, hqle, hqfold⟩ := hstate
      subst hpos
      have haplf : add_project_level_file t pidx n = Except.ok
          (strOfLines (insertAt (linesOfStr t) q ("    - name: ".data ++ n.data))) := by
        unfold add_project_level_file
        simp only [hgo]
      rw [haplf] at hok
      rw [insertAt_eq] at hok
      have hlenA : ((linesOfStr t).take q).length = q := by
        rw [List.length_take]
        omega
      have hnl : ∀ l ∈ (linesOfStr t).take q ++
          ("    - name: ".data ++ n.data) :: (linesOfStr t).drop q, ¬ ('\n' ∈ l) := by
        intro l hl
        rcases List.mem_append.mp hl with h | h
        · exact mem_linesOfStr_nl_free t l (List.take_subset _ _ h)
        · rcases List.mem_cons.mp h with h | h
          · rw [h]; exact heNl
          · exact mem_linesOfStr_nl_free t l (List.drop_subset _ _ h)
      obtain rfl := Except.ok.inj hok
      refine dup_transfer t pidx n _ q hnl ?_ ?_ ?_ ?_ ?_
      · rw [List.length_append, hlenA]
        simp
      · rw [getD_append_self' _ _ _ _ hlenA]
        exact heNe
      · rw [getD_append_self' _ _ _ _ hlenA]
        exact heInd
      · rw [getD_append_self' _ _ _ _ hlenA]
        exact heTrim
      · rw [aplf_fold_take_congr pidx _ (linesOfStr t) q (List.take_left' hlenA)]
        exact hqfold
    | false =>
      have htotal : (pidx : Int) ≤ (aplf_fold pidx (linesOfStr t) (linesOfStr t).length).1 := by
        rw [aplf_fold_fst_count, List.take_of_length_le le_rfl]
        have : (pidx : Int) < (header_count (linesOfStr t) : Int) := by exact_mod_cast hcnt
        omega
      rcases htree : aplf_tree_go (linesOfStr t) pidx (linesOfStr t).length 0 (-1)
          with _ | tp
      · have hfpe : find_project_end (linesOfStr t) pidx ≤ (linesOfStr t).length ∧
            (aplf_fold pidx (linesOfStr t)
              (find_project_end (linesOfStr t) pidx)).1 = (pidx : Int) :=
          fpe_go_state (linesOfStr t) pidx htotal (linesOfStr t).length 0
            (Nat.sub_zero _).symm (by
              rw [show (aplf_fold pidx (linesOfStr t) 0).1 = -1 from rfl]
              omega)
        obtain ⟨hqle, hqfold⟩ := hfpe
        have haplf : add_project_level_file t pidx n = Except.ok
            (strOfLines (insertAt (insertAt (linesOfStr t)
              (find_project_end (linesOfStr t) pidx) ("    - name: ".data ++ n.data))
              (find_project_end (linesOfStr t) pidx) "  file:".data)) := by
          unfold add_project_level_file
          simp only [hgo, htree]
        rw [haplf, insertAt_insertAt _ _ hqle] at hok
        have hlenA : ((linesOfStr t).take (find_project_end (linesOfStr t) pidx)).length
            = find_project_end (linesOfStr t) pidx := by
          rw [List.length_take]
          omega
        have hnl : ∀ l ∈ (linesOfStr t).take (find_project_end (linesOfStr t) pidx) ++
            "  file:".data :: ("    - name: ".data ++ n.data) ::
              (linesOfStr t).drop (find_project_end (linesOfStr t) pidx), ¬ ('\n' ∈ l) := by
          intro l hl
          rcases List.mem_append.mp hl with h | h
          · exact mem_linesOfStr_nl_free t l (List.take_subset _ _ h)
          · rcases List.mem_cons.mp h with h | h
            · rw [h]; decide
            · rcases List.mem_cons.mp h with h | h
              · rw [h]; exact heNl
              · exact mem_linesOfStr_nl_free t l (List.drop_subset _ _ h)
        obtain rfl := Except.ok.inj hok
        refine dup_transfer t pidx n _ (find_project_end (linesOfStr t) pidx + 1)
          hnl ?_ ?_ ?_ ?_ ?_
        · rw [List.length_append, hlenA]
          simp only [List.length_cons]
          omega
        · rw [getD_append_succ' _ _ _ _ _ hlenA]
          exact heNe
        · rw [getD_append_succ' _ _ _ _ _ hlenA]
          exact heInd
        · rw [getD_append_succ' _ _ _ _ _ hlenA]
          exact heTrim
        · have hlt : find_project_end (linesOfStr t) pidx <
              ((linesOfStr t).take (find_project_end (linesOfStr t) pidx) ++
                "  file:".data :: ("    - name: ".data ++ n.data) ::
                  (linesOfStr t).drop (find_project_end (linesOfStr t) pidx)).length := by
            rw [List.length_append, hlenA]
            simp only [List.length_cons]
            omega
          rw [aplf_fold_succ pidx _ _ hlt]
          rw [getD_append_self' _ _ _ _ hlenA]
          rw [aplf_fold_take_congr pidx _ (linesOfStr t) _ (List.take_left' hlenA)]
          exact aplf_step_file pidx _ hqfold
      · have htp : tp < (linesOfStr t).length ∧
            (aplf_fold pidx (linesOfStr t) tp).1 = (pidx : Int) :=
          aplf_tree_go_state (linesOfStr t) pidx (linesOfStr t).length 0
            (Nat.sub_zero _).symm tp htree
        obtain ⟨htplt, htpfold⟩ := htp
        have htple : tp ≤ (linesOfStr t).length := by omega
        have haplf : add_project_level_file t pidx n = Except.ok
            (strOfLines (insertAt (insertAt (linesOfStr t) tp
              ("    - name: ".data ++ n.data)) tp "  file:".data)) := by
          unfold add_project_level_file
          simp only [hgo, htree]
        rw [haplf, insertAt_insertAt _ _ htple] at hok
        have hlenA : ((linesOfStr t).take tp).length = tp := by
          rw [List.length_take]
          omega
        have hnl : ∀ l ∈ (linesOfStr t).take tp ++
            "  file:".data :: ("    - name: ".data ++ n.data) ::
              (linesOfStr t).drop tp, ¬ ('\n' ∈ l) := by
          intro l hl
          rcases List.mem_append.mp hl with h | h
          · exact mem_linesOfStr_nl_free t l (List.take_subset _ _ h)
          · rcases List.mem_cons.mp h with h | h
            · rw [h]; decide
            · rcases List.mem_cons.mp h with h | h
              · rw [h]; exact heNl
              · exact mem_linesOfStr_nl_free t l (List.drop_subset _ _ h)
        obtain rfl := Except.ok.inj hok
        refine dup_transfer t pidx n _ (tp + 1) hnl ?_ ?_ ?_ ?_ ?_
        · rw [List.length_append, hlenA]
          simp only [List.length_cons]
          omega
        · rw [getD_append_succ' _ _ _ _ _ hlenA]
          exact heNe
        · rw [getD_append_succ' _ _ _ _ _ hlenA]
          exact heInd
        · rw [getD_append_succ' _ _ _ _ _ hlenA]
          exact heTrim
        · have hlt : tp < ((linesOfStr t).take tp ++
              "  file:".data :: ("    - name: ".data ++ n.data) ::
                (linesOfStr t).drop tp).length := by
            rw [List.length_append, hlenA]
            simp only [List.length_cons]
            omega
          rw [aplf_fold_succ pidx _ _ hlt]
          rw [getD_append_self' _ _ _ _ hlenA]
          rw [aplf_fold_take_congr pidx _ (linesOfStr t) _ (List.take_left' hlenA)]
          exact aplf_step_file pidx _ htpfold

/-- When every prefix of the directory path already exists,
`ensure_tree_path` leaves the text unchanged. -/
lemma ensure_tree_path_go_id (pidx : Nat) (t : String) :
    ∀ (rest done : List String),
      (∀ k, k < rest.length → module_exists t pidx (done ++ rest.take (k + 1)) = true) →
      ensure_tree_path_go pidx done t rest = Except.ok t := by
  intro rest
  induction rest with
  | nil => intro done _; rfl
  | cons seg rest ih =>
    intro done hall
    simp only [ensure_tree_path_go]
    rw [if_pos (by
      have := hall 0 (by simp)
      simpa using this)]
    apply ih
    intro k hk
    have := hall (k + 1) (by simp only [List.length_cons]; omega)
    rw [List.take_succ_cons] at this
    rw [List.append_assoc, List.singleton_append]
    exact this

/-- Scoped no-op: a nested file addition whose directory chain exists and
whose duplicate scan (run at the module block resolved by first-occurrence
navigation) finds the entry returns the input text verbatim. -/
lemma add_entry_nested_noop (t : String) (pidx : Nat) (ds : List String)
    (fseg lang : String) (ch : List AddChild) (ss : Nat)
    (hds : ds ≠ [])
    (hex : ∀ k, k < ds.length → module_exists t pidx (ds.take (k + 1)) = true)
    (hnav : navChainErr (linesOfStr t) "Could not find module '"
      (find_project_start (linesOfStr t) pidx) ds = Except.ok ss)
    (hdup : aftm_dup_go (linesOfStr t)
      (entryLine (filename_without_standard_extension fseg lang).data)
      (indentOf ((linesOfStr t).getD (ss - 1) []))
      ((linesOfStr t).length - (ss - 1 + 1)) (ss - 1 + 1) false = true) :
    add_entry t pidx (ds ++ [fseg]) false lang ch = Except.ok t := by
  have hensure : ensure_tree_path t pidx ds = Except.ok t := by
    unfold ensure_tree_path
    apply ensure_tree_path_go_id
    intro k hk
    simpa using hex k hk
  have haftm : add_file_to_module t pidx ds
      (filename_without_standard_extension fseg lang) = Except.ok t := by
    unfold add_file_to_module
    simp only [hnav, hdup, if_true]
  unfold add_entry
  rw [if_neg (by
    intro hcon
    rcases ds with _ | ⟨d, ds⟩
    · exact hds rfl
    · cases hcon)]
  simp only [Bool.false_eq_true, if_false, List.dropLast_concat, List.getLast?_concat,
    Option.getD_some]
  rw [if_neg (by
    intro hcon
    rcases ds with _ | ⟨d, ds⟩
    · exact hds rfl
    · cases hcon)]
  simp only [hensure, haftm, withTrailingNewline_self]

/-- Counterexample to C2 as stated: in the text below the target file
`x/f` exists verbatim (module `x` with file `f`), yet the add operation
modifies the text, inserting a second `f` entry nested under the file
entry `- name: x` of the sibling module `b` — the block that
first-occurrence navigation resolves for segment `x` and at which the
scoped duplicate check looks. -/
theorem C2_counterexample :
    listIsInfix "- name: x\n      file:\n        - name: f\n".data
      "- name: p\n  tree:\n    - name: b\n      file:\n        - name: x\n    - name: x\n      file:\n        - name: f\n".data
      = true ∧
    add_entry
        "- name: p\n  tree:\n    - name: b\n      file:\n        - name: x\n    - name: x\n      file:\n        - name: f\n"
        0 ["x", "f"] false "rust" []
      = Except.ok
        "- name: p\n  tree:\n    - name: b\n      file:\n        - name: x\n          file:\n            - name: f\n    - name: x\n      file:\n        - name: f\n" ∧
    ("- name: p\n  tree:\n    - name: b\n      file:\n        - name: x\n          file:\n            - name: f\n    - name: x\n      file:\n        - name: f\n"
      : String) ≠
      "- name: p\n  tree:\n    - name: b\n      file:\n        - name: x\n    - name: x\n      file:\n        - name: f\n" :=
  ⟨by decide, by rfl, by decide⟩

/-- A line that makes the removal-side project-file scan leave the
`file:` section: non-empty, at indent ≤ 2, and neither a `- name:` entry
nor a `pub:` property. -/
def exitLine (l : Line) : Bool :=
  decide (indentOf l ≤ 2) && !(trimL l).isEmpty &&
    !(nameKw.isPrefixOf (trimL l)) && !("pub:".data.isPrefixOf (trimL l))

/-- No line scanned while the project counter sits at the target index
with the `file:` flag set is a section-exiting line. -/
def noExitWhileFound (pidx : Nat) (L : List Line) : Bool :=
  (List.range L.length).all (fun j =>
    !(decide (aplf_fold pidx L j = ((pidx : Int), true))) || !(exitLine (L.getD j [])))

/-- The continuation predicate of the file-entry span at threshold 4
(shared by `contSpanLen` and `match_file_entry`). -/
def contOkF (l : Line) : Bool :=
  !(trimL l).isEmpty && decide (4 < indentOf l) && !(nameKw.isPrefixOf (trimL l))

/-- A position at which the file-entry span cannot continue. -/
def stopOkAt (L : List Line) (q : Nat) : Prop :=
  L.length ≤ q ∨ contOkF (L.getD q []) = false

lemma takeWhile_stop (p : Line → Bool) :
    ∀ (l : List Line), (l.takeWhile p).length < l.length →
      p (l.getD (l.takeWhile p).length []) = false := by
  intro l
  induction l with
  | nil => intro h; cases h
  | cons a l ih =>
    intro h
    rw [List.takeWhile_cons] at h ⊢
    cases hp : p a with
    | false =>
      rw [if_neg (by simp)]
      simp only [List.length_nil, List.getD_cons_zero]
      exact hp
    | true =>
      rw [if_pos hp] at h
      rw [if_pos rfl]
      simp only [List.length_cons] at h ⊢
      rw [List.getD_cons_succ]
      exact ih (by omega)

lemma no_childless_at (key : Line) :
    ∀ (L : List Line) (i : Nat), no_childless key L = true → i < L.length →
      (trimL (L.getD i []) == key) = true →
      has_entries (L.drop (i + 1)) (indentOf (L.getD i [])) = true := by
  intro L
  induction L with
  | nil => intro i _ hi; cases hi
  | cons a L ih =>
    intro i h hi hk
    rw [no_childless] at h
    obtain ⟨h1, h2⟩ := Bool.and_eq_true_iff.mp h
    cases i with
    | zero =>
      have hk0 : (trimL a == key) = true := hk
      rw [hk0] at h1
      simp only [Bool.not_true, Bool.false_or] at h1
      simpa using h1
    | succ i =>
      have := ih i h2 (by simpa using hi) (by simpa using hk)
      simpa using this

lemma aplf_no_dup (L : List Line) (pidx : Nat) (expected : Line)
    (hpre : nameKw.isPrefixOf expected = true)
    (hgo : aplf_go L pidx expected L.length 0 (-1) false none ≠ none) :
    ∀ j, j < L.length → indentOf (L.getD j []) = 4 →
      trimL (L.getD j []) = expected → aplf_fold pidx L j ≠ ((pidx : Int), true) := by
  intro j hj hind htrim hfold
  exact hgo (aplf_go_dup L pidx expected j hj hind htrim hpre hfold
    L.length 0 none (Nat.sub_zero _).symm (Nat.zero_le j))

lemma entryLine_ne_file (x : Line) : (entryLine x == "file:".data) = false := by
  refine beq_eq_false_iff_ne.mpr ?_
  intro h
  have := congrArg (fun l => l.head?) h
  simp [entryLine] at this

lemma getD_eq_of_take_eq (X L : List Line) (q j : Nat)
    (h : X.take q = L.take q) (hj : j < q) : X.getD j [] = L.getD j [] := by
  rw [List.getD_eq_getElem?_getD, List.getD_eq_getElem?_getD,
    ← List.getElem?_take_of_lt (l := X) hj, ← List.getElem?_take_of_lt (l := L) hj, h]

lemma take_eq_of_take_eq (X L : List Line) (q j : Nat)
    (h : X.take q = L.take q) (hj : j ≤ q) : X.take j = L.take j := by
  have hx : (X.take q).take j = (L.take q).take j := by rw [h]
  rw [List.take_take, List.take_take, Nat.min_eq_left hj] at hx
  exact hx

lemma wtn_ends (o s : String) (hs : ¬ s.data.getLast? = some '\n') :
    ((withTrailingNewline o s).data.getLast? = some '\n') ↔
      (o.data.getLast? = some '\n') := by
  unfold withTrailingNewline
  split_ifs with h
  · constructor
    · intro _; exact h.1
    · intro _
      show (s.data ++ ['\n']).getLast? = some '\n'
      rw [List.getLast?_concat]
  · constructor
    · intro hcon; exact absurd hcon hs
    · intro ho
      exact absurd ⟨ho, hs⟩ h

lemma wtn_congr_left (a b r : String)
    (h : (a.data.getLast? = some '\n') ↔ (b.data.getLast? = some '\n')) :
    withTrailingNewline a r = withTrailingNewline b r := by
  unfold withTrailingNewline
  split_ifs with h1 h2 h2
  · rfl
  · exact absurd ⟨h.mp h1.1, h1.2⟩ h2
  · exact absurd ⟨h.mpr h2.1, h2.2⟩ h1
  · rfl

lemma no_childless_id (key : Line) :
    ∀ (ls : List Line), no_childless key ls = true →
      remove_empty_sections_lines key ls = ls := by
  intro ls
  induction ls with
  | nil => intro _; rfl
  | cons l rest ih =>
    intro h
    rw [no_childless] at h
    obtain ⟨h1, h2⟩ := Bool.and_eq_true_iff.mp h
    rw [remove_empty_sections_lines]
    have hc : ¬ ((trimL l == key && !has_entries rest (indentOf l)) = true) := by
      intro hcon
      obtain ⟨hk, hne⟩ := Bool.and_eq_true_iff.mp hcon
      rw [hk] at h1
      simp only [Bool.not_true, Bool.false_or] at h1
      rw [h1] at hne
      simp at hne
    rw [if_neg hc, ih h2]

lemma cleanup_insert (key f : Line) (hf : (trimL f == key) = true) (B : List Line)
    (hB : ∀ ind, has_entries B ind = false) :
    ∀ (A : List Line), no_childless key (A ++ B) = true →
      remove_empty_sections_lines key (A ++ f :: B) = A ++ B := by
  intro A
  induction A with
  | nil =>
    intro h
    rw [List.nil_append, List.nil_append, remove_empty_sections_lines]
    rw [if_pos (by rw [hf, hB (indentOf f)]; rfl)]
    exact no_childless_id key B h
  | cons a A ih =>
    intro h
    rw [List.cons_append, no_childless] at h
    obtain ⟨h1, h2⟩ := Bool.and_eq_true_iff.mp h
    rw [List.cons_append, List.cons_append, remove_empty_sections_lines]
    have hcond : (trimL a == key && !has_entries (A ++ f :: B) (indentOf a)) = false := by
      cases hk : (trimL a == key) with
      | false => simp [hk]
      | true =>
        rw [hk] at h1
        simp only [Bool.not_true, Bool.false_or] at h1
        have h1' : has_entries (A ++ f :: B) (indentOf a) = true := by
          unfold has_entries at h1 ⊢
          rw [List.find?_append] at h1 ⊢
          cases hfa : List.find? (fun l => !(trimL l).isEmpty) A with
          | some x =>
            rw [hfa] at h1
            exact h1
          | none =>
            rw [hfa] at h1
            exfalso
            have hb := hB (indentOf a)
            unfold has_entries at hb
            have h1b : (match List.find? (fun l => !(trimL l).isEmpty) B with
                | some l => decide (indentOf a < indentOf l) && nameKw.isPrefixOf (trimL l)
                | none => false) = true := h1
            exact Bool.noConfusion (hb.symm.trans h1b)
        rw [h1']
        simp
    rw [if_neg (by rw [hcond]; simp), ih h2]

lemma match_file_entry_some_facts (L : List Line) (j : Nat) (nm : Line) (e : Nat)
    (r : Nat × Nat) (h : match_file_entry L j nm e = some r) :
    indentOf (L.getD j []) = e ∧ trimL (L.getD j []) = entryLine nm := by
  simp only [match_file_entry] at h
  by_cases h1 : indentOf (L.getD j []) ≠ e
  · rw [if_pos h1] at h; cases h
  · rw [if_neg h1] at h
    by_cases h2 : trimL (L.getD j []) ≠ entryLine nm
    · rw [if_pos h2] at h; cases h
    · exact ⟨not_not.mp h1, not_not.mp h2⟩

lemma match_file_entry_fire (L : List Line) (j : Nat) (nm : Line) (e : Nat)
    (hind : indentOf (L.getD j []) = e) (htrim : trimL (L.getD j []) = entryLine nm) :
    match_file_entry L j nm e = some (j, j + ((L.drop (j + 1)).takeWhile (fun l =>
      !(trimL l).isEmpty && decide (e < indentOf l) &&
        !(nameKw.isPrefixOf (trimL l)))).length) := by
  have hind' : indentOf (L[j]?.getD []) = e := by
    rw [← List.getD_eq_getElem?_getD]; exact hind
  have htrim' : trimL (L[j]?.getD []) = entryLine nm := by
    rw [← List.getD_eq_getElem?_getD]; exact htrim
  simp only [match_file_entry]
  rw [if_neg (by simp [hind']), if_neg (by simp [htrim'])]

lemma fpe_go_stop (L : List Line) (pidx : Nat) :
    ∀ (fuel i : Nat) (cur : Int) (r : Nat), fpe_go L pidx fuel i cur = r →
      r = L.length ∨
        (nameKw.isPrefixOf (trimL (L.getD r [])) && (indentOf (L.getD r []) == 0)) = true := by
  intro fuel
  induction fuel with
  | zero =>
    intro i cur r h
    exact Or.inl h.symm
  | succ fuel ih =>
    intro i cur r h
    simp only [fpe_go] at h
    by_cases hih : (nameKw.isPrefixOf (trimL (L.getD i [])) && (indentOf (L.getD i []) == 0))
        = true
    · by_cases hgt : ((pidx : Int) < cur + 1)
      · rw [if_pos (by rw [hih]; simp [hgt])] at h
        subst h
        exact Or.inr hih
      · rw [if_neg (by rw [hih]; simp [hgt])] at h
        exact ih _ _ _ h
    · have hihf : (nameKw.isPrefixOf (trimL (L.getD i [])) && (indentOf (L.getD i []) == 0))
          = false := Bool.eq_false_iff.mpr hih
      rw [if_neg (by rw [hihf]; simp)] at h
      exact ih _ _ _ h

lemma aplf_tree_go_line (L : List Line) (pidx : Nat) :
    ∀ (fuel i : Nat) (cur : Int) (tp : Nat),
      aplf_tree_go L pidx fuel i cur = some tp →
      (trimL (L.getD tp []) == "tree:".data) = true ∧
        (indentOf (L.getD tp []) == 2) = true := by
  intro fuel
  induction fuel with
  | zero => intro i cur tp h; cases h
  | succ fuel ih =>
    intro i cur tp h
    simp only [aplf_tree_go] at h
    by_cases h1 : ((if (nameKw.isPrefixOf (trimL (L.getD i [])) &&
        (indentOf (L.getD i []) == 0)) = true then cur + 1 else cur) ≠ (pidx : Int))
    · rw [if_pos h1] at h
      exact ih _ _ _ h
    · rw [if_neg h1] at h
      by_cases h2 : ((trimL (L.getD i []) == "tree:".data) &&
          (indentOf (L.getD i []) == 2)) = true
      · rw [if_pos h2] at h
        obtain rfl := Option.some.inj h
        exact ⟨(Bool.and_eq_true_iff.mp h2).1, (Bool.and_eq_true_iff.mp h2).2⟩
      · rw [if_neg h2] at h
        exact ih _ _ _ h

lemma linesOf_join_clean (ls : List Line) (hnl : ∀ l ∈ ls, ¬ ('\n' ∈ l))
    (hlast : ls.getLast? ≠ some ([] : Line)) :
    linesOfStr (strOfLines ls) = ls := by
  rw [linesOf_join ls hnl, if_neg hlast]

lemma linesOf_out_clean (ls : List Line) (orig : String) (hnl : ∀ l ∈ ls, ¬ ('\n' ∈ l))
    (hne : ls ≠ []) (hlast : ls.getLast? ≠ some ([] : Line)) :
    linesOfStr (withTrailingNewline orig (strOfLines ls)) = ls := by
  rw [linesOf_out ls orig hnl]
  have hone : ls ≠ [([] : Line)] := by
    intro hcon
    exact hlast (by rw [hcon]; rfl)
  have hor : ¬ (ls = [] ∨ ls = [([] : Line)]) := by
    rintro (hx | hx)
    · exact hne hx
    · exact hone hx
  by_cases h1 : orig.data.getLast? = some '\n'
  · rw [if_pos h1, if_neg hor, if_neg hlast]
  · rw [if_neg h1, if_neg hlast]

lemma getLast?_drop_of_lt (L : List Line) (q : Nat) (hq : q < L.length) :
    (L.drop q).getLast? = L.getLast? := by
  have hne : L.drop q ≠ [] := by
    intro hcon
    have := congrArg List.length hcon
    rw [List.length_drop] at this
    simp only [List.length_nil] at this
    omega
  conv_rhs => rw [← List.take_append_drop q L]
  rw [List.getLast?_append_of_ne_nil _ hne]

lemma stop_of_file_key (L : List Line) (i : Nat) (hi : i < L.length)
    (hnc : no_childless "file:".data L = true)
    (h2 : ((trimL (L.getD i []) == "file:".data) && (indentOf (L.getD i []) == 2)) = true) :
    stopOkAt L (i + 1) := by
  rcases Nat.lt_or_ge (i + 1) L.length with hlt | hge
  · right
    obtain ⟨hkey, _⟩ := Bool.and_eq_true_iff.mp h2
    have hhe := no_childless_at "file:".data L i hnc hi hkey
    have hdrop : L.drop (i + 1) = L.getD (i + 1) [] :: L.drop (i + 1 + 1) := by
      rw [List.getD_eq_getElem L [] hlt]
      exact List.drop_eq_getElem_cons hlt
    unfold has_entries at hhe
    rw [hdrop] at hhe
    cases hemp : (trimL (L.getD (i + 1) [])).isEmpty with
    | true =>
      unfold contOkF
      rw [hemp]
      rfl
    | false =>
      have hfind : List.find? (fun l => !(trimL l).isEmpty)
          (L.getD (i + 1) [] :: L.drop (i + 1 + 1)) = some (L.getD (i + 1) []) :=
        List.find?_cons_of_pos _ (by rw [hemp]; rfl)
      rw [hfind] at hhe
      have hpre : nameKw.isPrefixOf (trimL (L.getD (i + 1) [])) = true :=
        (Bool.and_eq_true_iff.mp hhe).2
      unfold contOkF
      rw [hpre]
      simp
  · left
    exact hge

lemma stop_of_span (L : List Line) (i : Nat) :
    stopOkAt L (i + contSpanLen L i 4 + 1) := by
  rcases Nat.lt_or_ge (i + contSpanLen L i 4 + 1) L.length with hlt | hge
  · right
    have hsp : contSpanLen L i 4 < (L.drop (i + 1)).length := by
      rw [List.length_drop]
      omega
    have hst := takeWhile_stop (fun l =>
      !(trimL l).isEmpty && decide (4 < indentOf l) && !(nameKw.isPrefixOf (trimL l)))
      (L.drop (i + 1)) hsp
    have hgd : (L.drop (i + 1)).getD (contSpanLen L i 4) [] =
        L.getD (i + 1 + contSpanLen L i 4) [] := by
      rw [List.getD_eq_getElem?_getD, List.getD_eq_getElem?_getD, List.getElem?_drop]
    show contOkF (L.getD (i + contSpanLen L i 4 + 1) []) = false
    unfold contOkF
    rw [show i + contSpanLen L i 4 + 1 = i + 1 + contSpanLen L i 4 by omega, ← hgd]
    exact hst
  · left
    exact hge

lemma aplf_go_found_stop (L : List Line) (pidx : Nat) (expected : Line)
    (hnc : no_childless "file:".data L = true) :
    ∀ (fuel i : Nat) (pos0 : Option Nat), fuel = L.length - i →
      (∀ q, pos0 = some q → q ≤ L.length ∧ aplf_fold pidx L q = ((pidx : Int), true) ∧
        stopOkAt L q) →
      ((aplf_fold pidx L i).2 = true → pos0 ≠ none) →
      ∀ (found : Bool) (pos : Option Nat),
        aplf_go L pidx expected fuel i (aplf_fold pidx L i).1 (aplf_fold pidx L i).2 pos0
          = some (found, pos) →
        found = true →
        ∃ q, pos = some q ∧ q ≤ L.length ∧ aplf_fold pidx L q = ((pidx : Int), true) ∧
          stopOkAt L q := by
  intro fuel
  induction fuel with
  | zero =>
    intro i pos0 hf hpos0 hfp found pos hgo hfound
    simp only [aplf_go] at hgo
    have h12 := Option.some.inj hgo
    have h1 : (aplf_fold pidx L i).2 = found := congrArg Prod.fst h12
    have h2 : pos0 = pos := congrArg Prod.snd h12
    subst hfound
    have hne := hfp h1
    cases hq : pos0 with
    | none => exact absurd hq hne
    | some q =>
      refine ⟨q, by rw [← h2, hq], (hpos0 q hq).1, (hpos0 q hq).2.1, (hpos0 q hq).2.2⟩
  | succ fuel ih =>
    intro i pos0 hf hpos0 hfp found pos hgo hfound
    have hi : i < L.length := by omega
    have hfs := aplf_fold_succ pidx L i hi
    simp only [aplf_go] at hgo
    by_cases hih : (nameKw.isPrefixOf (trimL (L.getD i [])) && (indentOf (L.getD i []) == 0))
        = true
    · rw [hih] at hgo
      simp only [if_true] at hgo
      have hstep : aplf_step pidx (aplf_fold pidx L i) (L.getD i [])
          = (if ((aplf_fold pidx L i).1 + 1 ≠ (pidx : Int)) then
              ((aplf_fold pidx L i).1 + 1, false)
            else if ((trimL (L.getD i []) == "file:".data) &&
                (indentOf (L.getD i []) == 2)) = true then
              ((aplf_fold pidx L i).1 + 1, true)
            else ((aplf_fold pidx L i).1 + 1, false)) := by
        simp only [aplf_step, hih, if_true]
      by_cases h1 : ((aplf_fold pidx L i).1 + 1 ≠ (pidx : Int))
      · rw [if_pos h1] at hgo
        rw [if_pos h1] at hstep
        refine ih (i + 1) pos0 (by omega) hpos0 ?_ found pos ?_ hfound
        · intro hcon
          rw [hfs, hstep] at hcon
          cases hcon
        · rw [hfs, hstep]
          exact hgo
      · rw [if_neg h1] at hgo
        rw [if_neg h1] at hstep
        by_cases h2 : ((trimL (L.getD i []) == "file:".data) &&
            (indentOf (L.getD i []) == 2)) = true
        · rw [if_pos h2] at hgo
          rw [if_pos h2] at hstep
          refine ih (i + 1) (some (i + 1)) (by omega) ?_ (by intro _; simp) found pos ?_ hfound
          · intro q hq
            obtain hq2 := (Option.some.inj hq).symm
            subst hq2
            refine ⟨by omega, ?_, stop_of_file_key L i hi hnc h2⟩
            rw [hfs, hstep]
            refine Prod.ext ?_ rfl
            simp only at h1 ⊢
            omega
          · rw [hfs, hstep]
            exact hgo
        · rw [if_neg h2] at hgo
          rw [if_neg h2] at hstep
          simp only [Bool.false_and, Bool.false_eq_true, if_false] at hgo
          refine ih (i + 1) pos0 (by omega) hpos0 ?_ found pos ?_ hfound
          · intro hcon
            rw [hfs, hstep] at hcon
            cases hcon
          · rw [hfs, hstep]
            exact hgo
    · have hihf : (nameKw.isPrefixOf (trimL (L.getD i [])) && (indentOf (L.getD i []) == 0))
          = false := Bool.eq_false_iff.mpr hih
      rw [hihf] at hgo
      simp only [Bool.false_eq_true, if_false] at hgo
      have hstep : aplf_step pidx (aplf_fold pidx L i) (L.getD i [])
          = (if ((aplf_fold pidx L i).1 ≠ (pidx : Int)) then
              ((aplf_fold pidx L i).1, (aplf_fold pidx L i).2)
            else if ((trimL (L.getD i []) == "file:".data) &&
                (indentOf (L.getD i []) == 2)) = true then
              ((aplf_fold pidx L i).1, true)
            else ((aplf_fold pidx L i).1, (aplf_fold pidx L i).2)) := by
        simp only [aplf_step, hihf, Bool.false_eq_true, if_false]
      by_cases h1 : ((aplf_fold pidx L i).1 ≠ (pidx : Int))
      · rw [if_pos h1] at hgo
        rw [if_pos h1] at hstep
        refine ih (i + 1) pos0 (by omega) hpos0 ?_ found pos ?_ hfound
        · intro hcon
          rw [hfs, hstep] at hcon
          exact hfp hcon
        · rw [hfs, hstep]
          exact hgo
      · rw [if_neg h1] at hgo
        rw [if_neg h1] at hstep
        by_cases h2 : ((trimL (L.getD i []) == "file:".data) &&
            (indentOf (L.getD i []) == 2)) = true
        · rw [if_pos h2] at hgo
          rw [if_pos h2] at hstep
          refine ih (i + 1) (some (i + 1)) (by omega) ?_ (by intro _; simp) found pos ?_ hfound
          · intro q hq
            obtain hq2 := (Option.some.inj hq).symm
            subst hq2
            refine ⟨by omega, ?_, stop_of_file_key L i hi hnc h2⟩
            rw [hfs, hstep]
            refine Prod.ext ?_ rfl
            simp only at h1 ⊢
            omega
          · rw [hfs, hstep]
            exact hgo
        · rw [if_neg h2] at hgo
          rw [if_neg h2] at hstep
          by_cases h3 : ((aplf_fold pidx L i).2 && (indentOf (L.getD i []) == 4) &&
              nameKw.isPrefixOf (trimL (L.getD i []))) = true
          · rw [if_pos h3] at hgo
            by_cases h4 : (trimL (L.getD i []) == expected) = true
            · rw [if_pos h4] at hgo
              cases hgo
            · rw [if_neg h4] at hgo
              have hfoundi : (aplf_fold pidx L i).2 = true :=
                (Bool.and_eq_true_iff.mp (Bool.and_eq_true_iff.mp h3).1).1
              have hcuri : (aplf_fold pidx L i).1 = (pidx : Int) := by
                simp only [not_not] at h1
                exact h1
              have hfold1 : aplf_fold pidx L (i + 1) = ((pidx : Int), true) := by
                rw [hfs, hstep, hcuri, hfoundi]
              refine ih (i + 1) (some (i + contSpanLen L i 4 + 1)) (by omega) ?_
                (by intro _; simp) found pos ?_ hfound
              · intro q hq
                obtain hq2 := (Option.some.inj hq).symm
                subst hq2
                have hspanle : contSpanLen L i 4 ≤ L.length - (i + 1) := by
                  unfold contSpanLen
                  have := (List.takeWhile_prefix (l := L.drop (i + 1)) (fun l =>
                    !(trimL l).isEmpty && decide (4 < indentOf l) &&
                      !(nameKw.isPrefixOf (trimL l)))).length_le
                  simpa using this
                refine ⟨by omega, ?_, stop_of_span L i⟩
                have := aplf_fold_stable_span L pidx i hfold1 (contSpanLen L i 4) le_rfl
                rw [show i + contSpanLen L i 4 + 1 = i + 1 + contSpanLen L i 4 by omega]
                exact this
              · rw [hfs, hstep, hcuri, hfoundi]
                rw [hcuri, hfoundi] at hgo
                exact hgo
          · rw [if_neg h3] at hgo
            refine ih (i + 1) pos0 (by omega) hpos0 ?_ found pos ?_ hfound
            · intro hcon
              rw [hfs, hstep] at hcon
              exact hfp hcon
            · rw [hfs, hstep]
              exact hgo

lemma fplf_go_run (X : List Line) (pidx : Nat) (nm : Line) (q : Nat)
    (hq : q < X.length)
    (hqp : (aplf_fold pidx X q).1 = (pidx : Int))
    (hnodup : ∀ j, j < q → indentOf (X.getD j []) = 4 →
      trimL (X.getD j []) = entryLine nm → aplf_fold pidx X j ≠ ((pidx : Int), true))
    (hnoex : ∀ j, j < q → aplf_fold pidx X j = ((pidx : Int), true) →
      exitLine (X.getD j []) = false) :
    ∀ (fuel i : Nat) (cur : Int) (inF : Bool) (pind : Nat),
      fuel = X.length - i → i ≤ q →
      cur = (aplf_fold pidx X i).1 → inF = (aplf_fold pidx X i).2 →
      (pind = 2 ∨ ((aplf_fold pidx X i).1 = -1 ∧ pind = 0)) →
      fplf_go X pidx nm fuel i cur inF pind =
        fplf_go X pidx nm (X.length - q) q (pidx : Int) ((aplf_fold pidx X q).2) 2 := by
  intro fuel
  induction fuel with
  | zero =>
    intro i cur inF pind hf hiq hcur hinF hpind
    omega
  | succ fuel ih =>
    intro i cur inF pind hf hiq hcur hinF hpind
    subst hcur
    subst hinF
    rcases Nat.eq_or_lt_of_le hiq with heq | hlt
    · subst heq
      have hp2 : pind = 2 := by
        rcases hpind with h | ⟨hc, _⟩
        · exact h
        · rw [hqp] at hc
          exfalso
          omega
      rw [hf, hqp, hp2]
    · have hiX : i < X.length := by omega
      have hfs := aplf_fold_succ pidx X i hiX
      simp only [fplf_go]
      by_cases hih : (nameKw.isPrefixOf (trimL (X.getD i [])) &&
          (indentOf (X.getD i []) == 0)) = true
      · rw [hih]
        simp only [if_true]
        have hstep : aplf_step pidx (aplf_fold pidx X i) (X.getD i [])
            = (if ((aplf_fold pidx X i).1 + 1 ≠ (pidx : Int)) then
                ((aplf_fold pidx X i).1 + 1, false)
              else if ((trimL (X.getD i []) == "file:".data) &&
                  (indentOf (X.getD i []) == 2)) = true then
                ((aplf_fold pidx X i).1 + 1, true)
              else ((aplf_fold pidx X i).1 + 1, false)) := by
          simp only [aplf_step, hih, if_true]
        by_cases h1 : ((aplf_fold pidx X i).1 + 1 ≠ (pidx : Int))
        · rw [if_pos h1]
          have hf1 : aplf_fold pidx X (i + 1) = ((aplf_fold pidx X i).1 + 1, false) := by
            rw [hfs, hstep, if_pos h1]
          exact ih (i + 1) _ _ 2 (by omega) (by omega) (by rw [hf1]) (by rw [hf1])
            (Or.inl rfl)
        · rw [if_neg h1]
          by_cases h2 : ((trimL (X.getD i []) == "file:".data) &&
              (indentOf (X.getD i []) == 2)) = true
          · rw [if_pos h2]
            have hf1 : aplf_fold pidx X (i + 1) = ((aplf_fold pidx X i).1 + 1, true) := by
              rw [hfs, hstep, if_neg h1, if_pos h2]
            exact ih (i + 1) _ _ 2 (by omega) (by omega) (by rw [hf1]) (by rw [hf1])
              (Or.inl rfl)
          · rw [if_neg h2]
            simp only [Bool.false_and, Bool.false_eq_true, if_false]
            have hf1 : aplf_fold pidx X (i + 1) = ((aplf_fold pidx X i).1 + 1, false) := by
              rw [hfs, hstep, if_neg h1, if_neg h2]
            exact ih (i + 1) _ _ 2 (by omega) (by omega) (by rw [hf1]) (by rw [hf1])
              (Or.inl rfl)
      · have hihf : (nameKw.isPrefixOf (trimL (X.getD i [])) &&
            (indentOf (X.getD i []) == 0)) = false := Bool.eq_false_iff.mpr hih
        rw [hihf]
        simp only [Bool.false_eq_true, if_false]
        have hstep : aplf_step pidx (aplf_fold pidx X i) (X.getD i [])
            = (if ((aplf_fold pidx X i).1 ≠ (pidx : Int)) then
                ((aplf_fold pidx X i).1, (aplf_fold pidx X i).2)
              else if ((trimL (X.getD i []) == "file:".data) &&
                  (indentOf (X.getD i []) == 2)) = true then
                ((aplf_fold pidx X i).1, true)
              else ((aplf_fold pidx X i).1, (aplf_fold pidx X i).2)) := by
          simp only [aplf_step, hihf, Bool.false_eq_true, if_false]
        by_cases h1 : ((aplf_fold pidx X i).1 ≠ (pidx : Int))
        · rw [if_pos h1]
          have hf1 : aplf_fold pidx X (i + 1)
              = ((aplf_fold pidx X i).1, (aplf_fold pidx X i).2) := by
            rw [hfs, hstep, if_pos h1]
          refine ih (i + 1) _ _ pind (by omega) (by omega) (by rw [hf1]) (by rw [hf1]) ?_
          rcases hpind with h | ⟨hc, hp0⟩
          · exact Or.inl h
          · exact Or.inr ⟨by rw [hf1]; exact hc, hp0⟩
        · rw [if_neg h1]
          have hp2 : pind = 2 := by
            rcases hpind with h | ⟨hc, _⟩
            · exact h
            · exfalso
              simp only [not_not] at h1
              rw [h1] at hc
              omega
          subst hp2
          by_cases h2 : ((trimL (X.getD i []) == "file:".data) &&
              (indentOf (X.getD i []) == 2)) = true
          · rw [if_pos h2]
            have hf1 : aplf_fold pidx X (i + 1) = ((aplf_fold pidx X i).1, true) := by
              rw [hfs, hstep, if_neg h1, if_pos h2]
            exact ih (i + 1) _ _ 2 (by omega) (by omega) (by rw [hf1]) (by rw [hf1])
              (Or.inl rfl)
          · rw [if_neg h2]
            have hf1 : aplf_fold pidx X (i + 1)
                = ((aplf_fold pidx X i).1, (aplf_fold pidx X i).2) := by
              rw [hfs, hstep, if_neg h1, if_neg h2]
            cases hfd : (aplf_fold pidx X i).2 with
            | false =>
              simp only [Bool.false_and, Bool.false_eq_true, if_false]
              refine ih (i + 1) _ _ 2 (by omega) (by omega) (by rw [hf1]) ?_ (Or.inl rfl)
              rw [hf1, hfd]
            | true =>
              have hpt : aplf_fold pidx X i = ((pidx : Int), true) :=
                Prod.ext (not_not.mp h1) hfd
              have hex := hnoex i hlt hpt
              unfold exitLine at hex
              simp only [Bool.true_and]
              have hpub : "pub:".data = ['p', 'u', 'b', ':'] := rfl
              rw [hpub] at hex
              have hcnot : ¬ ((decide (indentOf (X.getD i []) ≤ 2) &&
                  !(trimL (X.getD i [])).isEmpty &&
                  !(nameKw.isPrefixOf (trimL (X.getD i []))) &&
                  !(['p', 'u', 'b', ':'].isPrefixOf (trimL (X.getD i [])))) = true) := by
                rw [hex]
                simp
              rw [if_neg hcnot, if_pos rfl]
              cases hmf : match_file_entry X i nm (2 + 2) with
              | some r =>
                exfalso
                obtain ⟨hind4, htr⟩ := match_file_entry_some_facts X i nm (2 + 2) r hmf
                exact hnodup i hlt (by simpa using hind4) htr hpt
              | none =>
                refine ih (i + 1) _ _ 2 (by omega) (by omega) (by rw [hf1]) ?_ (Or.inl rfl)
                rw [hf1, hfd]

lemma noExit_spec (pidx : Nat) (L : List Line) (h : noExitWhileFound pidx L = true) :
    ∀ j, j < L.length → aplf_fold pidx L j = ((pidx : Int), true) →
      exitLine (L.getD j []) = false := by
  intro j hj hfold
  unfold noExitWhileFound at h
  have hx := List.all_eq_true.mp h j (List.mem_range.mpr hj)
  rw [decide_eq_true hfold] at hx
  simpa using hx

lemma drop_succ_append (A : List Line) (x : Line) (B : List Line) (q : Nat)
    (hq : A.length = q) : (A ++ x :: B).drop (q + 1) = B := by
  rw [show A ++ x :: B = (A ++ [x]) ++ B by simp]
  exact List.drop_left' (by rw [List.length_append, hq]; rfl)

lemma take_succ_append (A : List Line) (x : Line) (B : List Line) (q : Nat)
    (hq : A.length = q) : (A ++ x :: B).take (q + 1) = A ++ [x] := by
  rw [show A ++ x :: B = (A ++ [x]) ++ B by simp]
  exact List.take_left' (by rw [List.length_append, hq]; rfl)

lemma drop_two_append (A : List Line) (x y : Line) (B : List Line) (q : Nat)
    (hq : A.length = q) : (A ++ x :: y :: B).drop (q + 1 + 1) = B := by
  rw [show A ++ x :: y :: B = (A ++ [x]) ++ y :: B by simp]
  exact drop_succ_append _ _ _ _ (by rw [List.length_append, hq]; rfl)

lemma span0_of_stop (L : List Line) (q : Nat) (hstop : stopOkAt L q) :
    ((L.drop q).takeWhile (fun l =>
      !(trimL l).isEmpty && decide (4 < indentOf l) &&
        !(nameKw.isPrefixOf (trimL l)))).length = 0 := by
  rcases Nat.lt_or_ge q L.length with hlt | hge
  · rcases hstop with hge2 | hcf
    · omega
    · have hdrop : L.drop q = L.getD q [] :: L.drop (q + 1) := by
        rw [List.getD_eq_getElem L [] hlt]
        exact List.drop_eq_getElem_cons hlt
      rw [hdrop, List.takeWhile_cons]
      unfold contOkF at hcf
      rw [hcf]
      rfl
  · have hnil : L.drop q = [] := by
      have := List.length_drop q L
      have h0 : (L.drop q).length = 0 := by omega
      exact List.eq_nil_of_length_eq_zero h0
    rw [hnil]
    rfl

lemma has_entries_drop_tree (L : List Line) (q : Nat) (hq : q < L.length)
    (hkey : (trimL (L.getD q []) == "tree:".data) = true) :
    ∀ ind, has_entries (L.drop q) ind = false := by
  intro ind
  have hdrop : L.drop q = L.getD q [] :: L.drop (q + 1) := by
    rw [List.getD_eq_getElem L [] hq]
    exact List.drop_eq_getElem_cons hq
  have htr : trimL (L.getD q []) = "tree:".data := eq_of_beq hkey
  unfold has_entries
  rw [hdrop, List.find?_cons_of_pos _ (by rw [htr]; rfl)]
  show (decide (ind < indentOf (L.getD q [])) && nameKw.isPrefixOf (trimL (L.getD q []))) = false
  rw [htr, show nameKw.isPrefixOf ("tree:".data) = false from by decide]
  simp

lemma has_entries_drop_header (L : List Line) (q : Nat) (hq : q < L.length)
    (hhd : (nameKw.isPrefixOf (trimL (L.getD q [])) && (indentOf (L.getD q []) == 0)) = true) :
    ∀ ind, has_entries (L.drop q) ind = false := by
  intro ind
  obtain ⟨hpre, hind⟩ := Bool.and_eq_true_iff.mp hhd
  have hdrop : L.drop q = L.getD q [] :: L.drop (q + 1) := by
    rw [List.getD_eq_getElem L [] hq]
    exact List.drop_eq_getElem_cons hq
  have hne : (trimL (L.getD q [])).isEmpty = false := by
    cases htr : trimL (L.getD q []) with
    | nil =>
      rw [htr] at hpre
      exact Bool.noConfusion hpre
    | cons c cs => rfl
  unfold has_entries
  rw [hdrop, List.find?_cons_of_pos _ (by rw [hne]; rfl)]
  show (decide (ind < indentOf (L.getD q [])) && nameKw.isPrefixOf (trimL (L.getD q []))) = false
  rw [show indentOf (L.getD q []) = 0 from by simpa using hind]
  simp

lemma fplf_land_entry (X : List Line) (pidx : Nat) (n : String) (q : Nat)
    (hwf : wellFormedName n = true)
    (hfuel : 1 ≤ X.length - q)
    (hel : X.getD q [] = "    - name: ".data ++ n.data)
    (hspan : ((X.drop (q + 1)).takeWhile (fun l =>
      !(trimL l).isEmpty && decide (4 < indentOf l) &&
        !(nameKw.isPrefixOf (trimL l)))).length = 0) :
    fplf_go X pidx n.data (X.length - q) q (pidx : Int) true 2 = some (q, q) := by
  have hlit : (spaces 4 ++ "- name: ".data : Line) = "    - name: ".data := by decide
  have he := entry_line_shape 4 n hwf
  rw [hlit] at he
  obtain ⟨heTrim, heInd, _⟩ := he
  obtain ⟨m, hm⟩ : ∃ m, X.length - q = m + 1 := ⟨X.length - q - 1, by omega⟩
  rw [hm]
  simp only [fplf_go]
  rw [hel]
  have hc1 : (nameKw.isPrefixOf (trimL ("    - name: ".data ++ n.data)) &&
      (indentOf ("    - name: ".data ++ n.data) == 0)) = false := by
    rw [heInd]
    simp
  rw [hc1]
  simp only [Bool.false_eq_true, if_false]
  rw [if_neg (show ¬ ((pidx : Int) ≠ (pidx : Int)) from by simp)]
  have hc2 : ((trimL ("    - name: ".data ++ n.data) == "file:".data) &&
      (indentOf ("    - name: ".data ++ n.data) == 2)) = false := by
    rw [heTrim, entryLine_ne_file]
    rfl
  rw [hc2]
  simp only [Bool.false_eq_true, if_false]
  have hc3 : (true && decide (indentOf ("    - name: ".data ++ n.data) ≤ 2) &&
      !(trimL ("    - name: ".data ++ n.data)).isEmpty &&
      !(nameKw.isPrefixOf (trimL ("    - name: ".data ++ n.data))) &&
      !(['p', 'u', 'b', ':'].isPrefixOf (trimL ("    - name: ".data ++ n.data)))) = false := by
    rw [heInd]
    simp
  rw [hc3]
  simp only [Bool.false_eq_true, if_false, if_pos rfl]
  rw [show (2 : Nat) + 2 = 4 from rfl]
  rw [match_file_entry_fire X q n.data 4 (by rw [hel]; exact heInd)
    (by rw [hel]; exact heTrim)]
  rw [hspan, Nat.add_zero]
  rfl

lemma fplf_land_key (X : List Line) (pidx : Nat) (n : String) (q : Nat) (b : Bool)
    (hfuel : 1 ≤ X.length - (q + 1))
    (hkey : X.getD q [] = "  file:".data) :
    fplf_go X pidx n.data (X.length - q) q (pidx : Int) b 2 =
      fplf_go X pidx n.data (X.length - (q + 1)) (q + 1) (pidx : Int) true 2 := by
  rw [show X.length - q = (X.length - (q + 1)) + 1 from by omega]
  simp only [fplf_go]
  rw [hkey]
  rw [show (nameKw.isPrefixOf (trimL ("  file:".data : Line)) &&
    (indentOf ("  file:".data : Line) == 0)) = false from by decide]
  simp only [Bool.false_eq_true, if_false]
  rw [if_neg (show ¬ ((pidx : Int) ≠ (pidx : Int)) from by simp)]
  rw [if_pos (show ((trimL ("  file:".data : Line) == "file:".data) &&
    (indentOf ("  file:".data : Line) == 2)) = true from by decide)]

lemma rt_finish (t : String) (pidx : Nat) (n : String) (X : List Line) (s e : Nat)
    (dp : String) (mp : List String)
    (hnlX : ∀ l ∈ X, ¬ ('\n' ∈ l)) (hXne : X ≠ [])
    (hXlast : X.getLast? ≠ some ([] : Line))
    (hfind : find_project_level_file X pidx n.data = some (s, e))
    (hclean : remove_empty_sections (strOfLines (deleteRange X s e)) "file:".data
      = strOfLines (linesOfStr t))
    (hnorm : withTrailingNewline t (strOfLines (linesOfStr t)) = t) :
    remove_file_entry (withTrailingNewline t (strOfLines X))
      (ManagedFile.mk dp pidx n mp true false) = Except.ok t := by
  have hL1 : linesOfStr (withTrailingNewline t (strOfLines X)) = X :=
    linesOf_out_clean X t hnlX hXne hXlast
  have hstep1 : remove_file_entry (withTrailingNewline t (strOfLines X))
      (ManagedFile.mk dp pidx n mp true false) =
      match find_project_level_file (linesOfStr (withTrailingNewline t (strOfLines X)))
          pidx n.data with
      | none => Except.error ("Could not find file entry '" ++ n ++ "' in moli.yml")
      | some (s2, e2) =>
        Except.ok (withTrailingNewline (withTrailingNewline t (strOfLines X))
          (remove_empty_sections
            (strOfLines (deleteRange (linesOfStr (withTrailingNewline t (strOfLines X))) s2 e2))
            "file:".data)) := rfl
  rw [hstep1, hL1, hfind]
  show Except.ok (withTrailingNewline (withTrailingNewline t (strOfLines X))
    (remove_empty_sections (strOfLines (deleteRange X s e)) "file:".data)) = Except.ok t
  rw [hclean]
  have hXjoin : ¬ ((strOfLines X).data.getLast? = some '\n') := by
    rw [join_ends_nl X hnlX]
    rintro ⟨hl, _⟩
    exact hXlast hl
  have hiff := wtn_ends t (strOfLines X) hXjoin
  rw [wtn_congr_left (withTrailingNewline t (strOfLines X)) t (strOfLines (linesOfStr t)) hiff,
    hnorm]

lemma rt_branch_insert (t : String) (pidx : Nat) (n : String) (dp : String)
    (mp : List String) (L : List Line) (hLdef : linesOfStr t = L)
    (hwf : wellFormedName n = true)
    (hnc : no_childless "file:".data L = true)
    (hlast : L.getLast? ≠ some ([] : Line))
    (hnorm : withTrailingNewline t (strOfLines L) = t)
    (hnl : ∀ l ∈ L, ¬ ('\n' ∈ l))
    (hnodupL : ∀ j, j < L.length → indentOf (L.getD j []) = 4 →
      trimL (L.getD j []) = entryLine n.data → aplf_fold pidx L j ≠ ((pidx : Int), true))
    (hnoexL : ∀ j, j < L.length → aplf_fold pidx L j = ((pidx : Int), true) →
      exitLine (L.getD j []) = false)
    (q : Nat) (hqle : q ≤ L.length)
    (hqfold : aplf_fold pidx L q = ((pidx : Int), true))
    (hqstop : stopOkAt L q) :
    remove_file_entry (withTrailingNewline t (strOfLines (L.take q ++
      ("    - name: ".data ++ n.data) :: L.drop q)))
      (ManagedFile.mk dp pidx n mp true false) = Except.ok t := by
  have hlit : (spaces 4 ++ "- name: ".data : Line) = "    - name: ".data := by decide
  have he := entry_line_shape 4 n hwf
  rw [hlit] at he
  obtain ⟨heTrim, heInd, heNl⟩ := he
  have heNe : ("    - name: ".data ++ n.data : Line) ≠ [] := by simp
  have hlenA : (L.take q).length = q := by
    rw [List.length_take]
    omega
  have hXlen : (L.take q ++ ("    - name: ".data ++ n.data) :: L.drop q).length
      = L.length + 1 := by
    rw [List.length_append, hlenA, List.length_cons, List.length_drop]
    omega
  have hXtake : (L.take q ++ ("    - name: ".data ++ n.data) :: L.drop q).take q
      = L.take q := List.take_left' hlenA
  have hnlX : ∀ l ∈ L.take q ++ ("    - name: ".data ++ n.data) :: L.drop q,
      ¬ ('\n' ∈ l) := by
    intro l hl
    rcases List.mem_append.mp hl with h | h
    · exact hnl l (List.take_subset _ _ h)
    · rcases List.mem_cons.mp h with h | h
      · rw [h]; exact heNl
      · exact hnl l (List.drop_subset _ _ h)
  have hXne : L.take q ++ ("    - name: ".data ++ n.data) :: L.drop q ≠ [] := by
    intro hcon
    have := congrArg List.length hcon
    rw [hXlen] at this
    simp at this
  have hXlast : (L.take q ++ ("    - name: ".data ++ n.data) :: L.drop q).getLast?
      ≠ some ([] : Line) := by
    rcases eq_or_ne (L.drop q) [] with hB | hB
    · rw [hB, List.getLast?_append_of_ne_nil _ (by simp)]
      intro hcon
      exact heNe (Option.some.inj hcon)
    · rw [List.getLast?_append_of_ne_nil _ (by simp),
        show (("    - name: ".data ++ n.data) :: L.drop q)
          = ["    - name: ".data ++ n.data] ++ L.drop q by simp,
        List.getLast?_append_of_ne_nil _ hB]
      have hqlt : q < L.length := by
        rcases Nat.lt_or_ge q L.length with h | h
        · exact h
        · exfalso
          apply hB
          have := List.length_drop q L
          have h0 : (L.drop q).length = 0 := by omega
          exact List.eq_nil_of_length_eq_zero h0
      rw [getLast?_drop_of_lt L q hqlt]
      exact hlast
  have hfoldXq : aplf_fold pidx (L.take q ++ ("    - name: ".data ++ n.data) :: L.drop q) q
      = ((pidx : Int), true) := by
    rw [aplf_fold_take_congr pidx _ L q hXtake]
    exact hqfold
  have hq2 : (aplf_fold pidx (L.take q ++ ("    - name: ".data ++ n.data) :: L.drop q) q).2
      = true := by rw [hfoldXq]
  have hrun := fplf_go_run (L.take q ++ ("    - name: ".data ++ n.data) :: L.drop q)
    pidx n.data q (by omega)
    (by rw [hfoldXq])
    (by
      intro j hj hind htrim
      rw [getD_eq_of_take_eq _ L q j hXtake hj] at hind htrim
      rw [aplf_fold_take_congr pidx _ L j (take_eq_of_take_eq _ L q j hXtake (by omega))]
      exact hnodupL j (by omega) hind htrim)
    (by
      intro j hj hfold
      rw [aplf_fold_take_congr pidx _ L j (take_eq_of_take_eq _ L q j hXtake (by omega))]
        at hfold
      rw [getD_eq_of_take_eq _ L q j hXtake hj]
      exact hnoexL j (by omega) hfold)
    (L.take q ++ ("    - name: ".data ++ n.data) :: L.drop q).length 0 (-1) false 0
    (Nat.sub_zero _).symm (Nat.zero_le q) rfl rfl (Or.inr ⟨rfl, rfl⟩)
  have hfind : find_project_level_file
      (L.take q ++ ("    - name: ".data ++ n.data) :: L.drop q) pidx n.data
      = some (q, q) := by
    unfold find_project_level_file
    rw [hrun, hq2]
    exact fplf_land_entry _ pidx n q hwf (by omega)
      (getD_append_self' _ _ _ _ hlenA)
      (by
        rw [drop_succ_append _ _ _ _ hlenA]
        exact span0_of_stop L q hqstop)
  have hdel : deleteRange (L.take q ++ ("    - name: ".data ++ n.data) :: L.drop q) q q
      = L := by
    unfold deleteRange
    rw [List.take_left' hlenA, drop_succ_append _ _ _ _ hlenA]
    exact List.take_append_drop q L
  refine rt_finish t pidx n _ q q dp mp hnlX hXne hXlast hfind ?_ (by rw [hLdef]; exact hnorm)
  rw [hdel, hLdef]
  unfold remove_empty_sections
  rw [linesOf_join_clean L hnl hlast, no_childless_id _ _ hnc]

lemma rt_branch_create (t : String) (pidx : Nat) (n : String) (dp : String)
    (mp : List String) (L : List Line) (hLdef : linesOfStr t = L)
    (hwf : wellFormedName n = true)
    (hnc : no_childless "file:".data L = true)
    (hlast : L.getLast? ≠ some ([] : Line))
    (hnorm : withTrailingNewline t (strOfLines L) = t)
    (hnl : ∀ l ∈ L, ¬ ('\n' ∈ l))
    (hnodupL : ∀ j, j < L.length → indentOf (L.getD j []) = 4 →
      trimL (L.getD j []) = entryLine n.data → aplf_fold pidx L j ≠ ((pidx : Int), true))
    (hnoexL : ∀ j, j < L.length → aplf_fold pidx L j = ((pidx : Int), true) →
      exitLine (L.getD j []) = false)
    (q : Nat) (hqle : q ≤ L.length)
    (hqfold1 : (aplf_fold pidx L q).1 = (pidx : Int))
    (hB3 : ∀ ind, has_entries (L.drop q) ind = false)
    (hqstop : stopOkAt L q) :
    remove_file_entry (withTrailingNewline t (strOfLines (L.take q ++ "  file:".data ::
      ("    - name: ".data ++ n.data) :: L.drop q)))
      (ManagedFile.mk dp pidx n mp true false) = Except.ok t := by
  have hlit : (spaces 4 ++ "- name: ".data : Line) = "    - name: ".data := by decide
  have he := entry_line_shape 4 n hwf
  rw [hlit] at he
  obtain ⟨heTrim, heInd, heNl⟩ := he
  have heNe : ("    - name: ".data ++ n.data : Line) ≠ [] := by simp
  have hlenA : (L.take q).length = q := by
    rw [List.length_take]
    omega
  have hXlen : (L.take q ++ "  file:".data ::
      ("    - name: ".data ++ n.data) :: L.drop q).length = L.length + 2 := by
    rw [List.length_append, hlenA, List.length_cons, List.length_cons, List.length_drop]
    omega
  have hXtake : (L.take q ++ "  file:".data ::
      ("    - name: ".data ++ n.data) :: L.drop q).take q = L.take q := List.take_left' hlenA
  have hnlX : ∀ l ∈ L.take q ++ "  file:".data ::
      ("    - name: ".data ++ n.data) :: L.drop q, ¬ ('\n' ∈ l) := by
    intro l hl
    rcases List.mem_append.mp hl with h | h
    · exact hnl l (List.take_subset _ _ h)
    · rcases List.mem_cons.mp h with h | h
      · rw [h]; decide
      · rcases List.mem_cons.mp h with h | h
        · rw [h]; exact heNl
        · exact hnl l (List.drop_subset _ _ h)
  have hXne : L.take q ++ "  file:".data ::
      ("    - name: ".data ++ n.data) :: L.drop q ≠ [] := by
    intro hcon
    have := congrArg List.length hcon
    rw [hXlen] at this
    simp at this
  have hXlast : (L.take q ++ "  file:".data ::
      ("    - name: ".data ++ n.data) :: L.drop q).getLast? ≠ some ([] : Line) := by
    rcases eq_or_ne (L.drop q) [] with hB | hB
    · rw [hB, List.getLast?_append_of_ne_nil _ (by simp)]
      rw [show ("  file:".data :: ("    - name: ".data ++ n.data) :: ([] : List Line))
        = ["  file:".data] ++ [("    - name: ".data ++ n.data)] by simp,
        List.getLast?_append_of_ne_nil _ (by simp)]
      intro hcon
      exact heNe (Option.some.inj hcon)
    · rw [List.getLast?_append_of_ne_nil _ (by simp),
        show ("  file:".data :: ("    - name: ".data ++ n.data) :: L.drop q)
          = ["  file:".data, ("    - name: ".data ++ n.data)] ++ L.drop q by simp,
        List.getLast?_append_of_ne_nil _ hB]
      have hqlt : q < L.length := by
        rcases Nat.lt_or_ge q L.length with h | h
        · exact h
        · exfalso
          apply hB
          have := List.length_drop q L
          have h0 : (L.drop q).length = 0 := by omega
          exact List.eq_nil_of_length_eq_zero h0
      rw [getLast?_drop_of_lt L q hqlt]
      exact hlast
  have hfoldXq : (aplf_fold pidx (L.take q ++ "  file:".data ::
      ("    - name: ".data ++ n.data) :: L.drop q) q).1 = (pidx : Int) := by
    rw [aplf_fold_take_congr pidx _ L q hXtake]
    exact hqfold1
  have hrun := fplf_go_run (L.take q ++ "  file:".data ::
      ("    - name: ".data ++ n.data) :: L.drop q)
    pidx n.data q (by omega)
    hfoldXq
    (by
      intro j hj hind htrim
      rw [getD_eq_of_take_eq _ L q j hXtake hj] at hind htrim
      rw [aplf_fold_take_congr pidx _ L j (take_eq_of_take_eq _ L q j hXtake (by omega))]
      exact hnodupL j (by omega) hind htrim)
    (by
      intro j hj hfold
      rw [aplf_fold_take_congr pidx _ L j (take_eq_of_take_eq _ L q j hXtake (by omega))]
        at hfold
      rw [getD_eq_of_take_eq _ L q j hXtake hj]
      exact hnoexL j (by omega) hfold)
    (L.take q ++ "  file:".data ::
      ("    - name: ".data ++ n.data) :: L.drop q).length 0 (-1) false 0
    (Nat.sub_zero _).symm (Nat.zero_le q) rfl rfl (Or.inr ⟨rfl, rfl⟩)
  have hfind : find_project_level_file (L.take q ++ "  file:".data ::
      ("    - name: ".data ++ n.data) :: L.drop q) pidx n.data
      = some (q + 1, q + 1) := by
    unfold find_project_level_file
    rw [hrun]
    rw [fplf_land_key _ pidx n q _ (by omega) (getD_append_self' _ _ _ _ hlenA)]
    exact fplf_land_entry _ pidx n (q + 1) hwf (by omega)
      (getD_append_succ' _ _ _ _ _ hlenA)
      (by
        rw [drop_two_append _ _ _ _ _ hlenA]
        exact span0_of_stop L q hqstop)
  have hdel : deleteRange (L.take q ++ "  file:".data ::
      ("    - name: ".data ++ n.data) :: L.drop q) (q + 1) (q + 1)
      = L.take q ++ "  file:".data :: L.drop q := by
    unfold deleteRange
    rw [take_succ_append _ _ _ _ hlenA, drop_two_append _ _ _ _ _ hlenA]
    simp
  refine rt_finish t pidx n _ (q + 1) (q + 1) dp mp hnlX hXne hXlast hfind ?_
    (by rw [hLdef]; exact hnorm)
  rw [hdel, hLdef]
  unfold remove_empty_sections
  have hABlast : (L.take q ++ "  file:".data :: L.drop q).getLast? ≠ some ([] : Line) := by
    rcases eq_or_ne (L.drop q) [] with hB | hB
    · rw [hB, List.getLast?_append_of_ne_nil _ (by simp)]
      intro hcon
      have := Option.some.inj hcon
      simp at this
    · rw [List.getLast?_append_of_ne_nil _ (by simp),
        show ("  file:".data :: L.drop q) = ["  file:".data] ++ L.drop q by simp,
        List.getLast?_append_of_ne_nil _ hB]
      have hqlt : q < L.length := by
        rcases Nat.lt_or_ge q L.length with h | h
        · exact h
        · exfalso
          apply hB
          have := List.length_drop q L
          have h0 : (L.drop q).length = 0 := by omega
          exact List.eq_nil_of_length_eq_zero h0
      rw [getLast?_drop_of_lt L q hqlt]
      exact hlast
  have hABnl : ∀ l ∈ L.take q ++ "  file:".data :: L.drop q, ¬ ('\n' ∈ l) := by
    intro l hl
    rcases List.mem_append.mp hl with h | h
    · exact hnl l (List.take_subset _ _ h)
    · rcases List.mem_cons.mp h with h | h
      · rw [h]; decide
      · exact hnl l (List.drop_subset _ _ h)
  rw [linesOf_join_clean _ hABnl hABlast]
  have hins := cleanup_insert "file:".data "  file:".data (by decide) (L.drop q)
    (fun ind => hB3 ind) (L.take q)
    (by rw [List.take_append_drop]; exact hnc)
  rw [hins, List.take_append_drop]

lemma rt_core (t : String) (pidx : Nat) (n : String) (dp : String) (mp : List String)
    (hwf : wellFormedName n = true)
    (hcnt : pidx < header_count (linesOfStr t))
    (hnc : no_childless "file:".data (linesOfStr t) = true)
    (hlast : (linesOfStr t).getLast? ≠ some ([] : Line))
    (hnorm : withTrailingNewline t (strOfLines (linesOfStr t)) = t)
    (hnoexit : noExitWhileFound pidx (linesOfStr t) = true)
    (hins : aplf_go (linesOfStr t) pidx (entryLine n.data) (linesOfStr t).length
      0 (-1) false none ≠ none)
    (t1 : String)
    (hok : (match add_project_level_file t pidx n with
      | Except.error e => Except.error e
      | Except.ok result => Except.ok (withTrailingNewline t result)) = Except.ok t1) :
    remove_file_entry t1 (ManagedFile.mk dp pidx n mp true false) = Except.ok t := by
  have hnlL := mem_linesOfStr_nl_free t
  have hnodupL := aplf_no_dup (linesOfStr t) pidx (entryLine n.data)
    (nameKw_isPrefixOf_entryLine n.data) hins
  have hnoexL := noExit_spec pidx (linesOfStr t) hnoexit
  rcases hgo : aplf_go (linesOfStr t) pidx (entryLine n.data) (linesOfStr t).length 0 (-1)
      false none with _ | ⟨found, pos⟩
  · exact absurd hgo hins
  · cases found with
    | true =>
      have hstate := aplf_go_found_stop (linesOfStr t) pidx (entryLine n.data) hnc
        (linesOfStr t).length 0 none (Nat.sub_zero _).symm
        (by intro q hq; cases hq) (by intro hcon; exact Bool.noConfusion hcon)
        true pos hgo rfl
      obtain ⟨q, hpos, hqle, hqfold, hqstop⟩ := hstate
      subst hpos
      have haplf : add_project_level_file t pidx n = Except.ok
          (strOfLines (insertAt (linesOfStr t) q ("    - name: ".data ++ n.data))) := by
        unfold add_project_level_file
        simp only [hgo]
      rw [haplf] at hok
      rw [insertAt_eq] at hok
      obtain rfl := Except.ok.inj hok
      exact rt_branch_insert t pidx n dp mp (linesOfStr t) rfl hwf hnc hlast hnorm hnlL
        hnodupL hnoexL q hqle hqfold hqstop
    | false =>
      have htotal : (pidx : Int) ≤ (aplf_fold pidx (linesOfStr t) (linesOfStr t).length).1 := by
        rw [aplf_fold_fst_count, List.take_of_length_le le_rfl]
        have : (pidx : Int) < (header_count (linesOfStr t) : Int) := by exact_mod_cast hcnt
        omega
      rcases htree : aplf_tree_go (linesOfStr t) pidx (linesOfStr t).length 0 (-1)
          with _ | tp
      · have hfpe : find_project_end (linesOfStr t) pidx ≤ (linesOfStr t).length ∧
            (aplf_fold pidx (linesOfStr t)
              (find_project_end (linesOfStr t) pidx)).1 = (pidx : Int) :=
          fpe_go_state (linesOfStr t) pidx htotal (linesOfStr t).length 0
            (Nat.sub_zero _).symm (by
              rw [show (aplf_fold pidx (linesOfStr t) 0).1 = -1 from rfl]
              omega)
        obtain ⟨hqle, hqfold1⟩ := hfpe
        have hstop := fpe_go_stop (linesOfStr t) pidx (linesOfStr t).length 0 (-1)
          (find_project_end (linesOfStr t) pidx) rfl
        have haplf : add_project_level_file t pidx n = Except.ok
            (strOfLines (insertAt (insertAt (linesOfStr t)
              (find_project_end (linesOfStr t) pidx) ("    - name: ".data ++ n.data))
              (find_project_end (linesOfStr t) pidx) "  file:".data)) := by
          unfold add_project_level_file
          simp only [hgo, htree]
        rw [haplf, insertAt_insertAt _ _ hqle] at hok
        obtain rfl := Except.ok.inj hok
        rcases hstop with hlen | hhd
        · have hB3 : ∀ ind, has_entries
              ((linesOfStr t).drop (find_project_end (linesOfStr t) pidx)) ind = false := by
            intro ind
            rw [hlen, List.drop_length]
            rfl
          have hqstop : stopOkAt (linesOfStr t) (find_project_end (linesOfStr t) pidx) :=
            Or.inl (by rw [hlen])
          exact rt_branch_create t pidx n dp mp (linesOfStr t) rfl hwf hnc hlast hnorm hnlL
            hnodupL hnoexL _ hqle hqfold1 hB3 hqstop
        · have hqlt : find_project_end (linesOfStr t) pidx < (linesOfStr t).length := by
            rcases Nat.lt_or_ge (find_project_end (linesOfStr t) pidx)
                (linesOfStr t).length with h | h
            · exact h
            · exfalso
              have hgd : (linesOfStr t).getD (find_project_end (linesOfStr t) pidx) []
                  = [] := by
                rw [List.getD_eq_getElem?_getD, List.getElem?_eq_none (by omega),
                  Option.getD_none]
              rw [hgd] at hhd
              exact Bool.noConfusion ((Bool.and_eq_true_iff.mp hhd).1)
          have hB3 := has_entries_drop_header (linesOfStr t)
            (find_project_end (linesOfStr t) pidx) hqlt hhd
          have hqstop : stopOkAt (linesOfStr t) (find_project_end (linesOfStr t) pidx) := by
            right
            obtain ⟨hpre, hind⟩ := Bool.and_eq_true_iff.mp hhd
            unfold contOkF
            rw [show indentOf ((linesOfStr t).getD (find_project_end (linesOfStr t) pidx) [])
              = 0 from by simpa using hind]
            simp
          exact rt_branch_create t pidx n dp mp (linesOfStr t) rfl hwf hnc hlast hnorm hnlL
            hnodupL hnoexL _ hqle hqfold1 hB3 hqstop
      · have htp := aplf_tree_go_state (linesOfStr t) pidx (linesOfStr t).length 0
          (Nat.sub_zero _).symm tp htree
        obtain ⟨htplt, htpfold⟩ := htp
        have hline := aplf_tree_go_line (linesOfStr t) pidx (linesOfStr t).length 0 (-1)
          tp htree
        obtain ⟨hkey, hind2⟩ := hline
        have hB3 := has_entries_drop_tree (linesOfStr t) tp htplt hkey
        have hqstop : stopOkAt (linesOfStr t) tp := by
          right
          unfold contOkF
          rw [show indentOf ((linesOfStr t).getD tp []) = 2 from by simpa using hind2]
          simp
        have haplf : add_project_level_file t pidx n = Except.ok
            (strOfLines (insertAt (insertAt (linesOfStr t) tp
              ("    - name: ".data ++ n.data)) tp "  file:".data)) := by
          unfold add_project_level_file
          simp only [hgo, htree]
        rw [haplf, insertAt_insertAt _ _ (le_of_lt htplt)] at hok
        obtain rfl := Except.ok.inj hok
        exact rt_branch_create t pidx n dp mp (linesOfStr t) rfl hwf hnc hlast hnorm hnlL
          hnodupL hnoexL tp (le_of_lt htplt) htpfold hB3 hqstop

/-- Counterexample to C8 as stated: adding the file `src/main.rs` to a
project that lacks module `src` creates the module on the way (via
`ensure_tree_path`), and removing the file afterwards leaves that module
behind, so the result is not tree-equivalent to the original — its
ManagedPath set gains the directory entry of module `src`, witnessed
textually by the surviving `- name: src` line. -/
theorem C8_counterexample :
    add_entry "- name: p\n  lang: rust\n" 0 ["src", "main.rs"] false "rust" []
      = Except.ok
        "- name: p\n  lang: rust\n  tree:\n    - name: src\n      file:\n        - name: main\n" ∧
    remove_entry
        "- name: p\n  lang: rust\n  tree:\n    - name: src\n      file:\n        - name: main\n"
        (ManagedFile.mk "src/main.rs" 0 "main" ["src"] false false)
      = Except.ok "- name: p\n  lang: rust\n  tree:\n    - name: src\n" ∧
    listIsInfix "- name: src".data
      "- name: p\n  lang: rust\n  tree:\n    - name: src\n".data = true ∧
    listIsInfix "- name: src".data "- name: p\n  lang: rust\n".data = false :=
  ⟨by rfl, by rfl, by decide, by decide⟩

/-- Amended C8. For project-level file additions the round trip is exact
(byte identity, stronger than the claimed tree equivalence): when the
stripped name is well formed, the project index is in range, the document
has no childless `file:` key, does not end in a blank line, is normalized
(re-splitting and re-joining its lines reproduces it), no line scanned
with the target project's `file:` flag set exits the section scan, and
the editor's duplicate check does not fire (the entry is genuinely
inserted), then removing the file entry from the add result returns
exactly the original text. The counterexample shows the unrestricted
claim fails for nested targets whose ancestors the add creates. -/
theorem C8_round_trip_amended :
    ∀ (t : String) (pidx : Nat) (seg lang : String) (ch : List AddChild)
      (t1 dp : String) (mp : List String),
      wellFormedName (filename_without_standard_extension seg lang) = true →
      pidx < header_count (linesOfStr t) →
      no_childless "file:".data (linesOfStr t) = true →
      (linesOfStr t).getLast? ≠ some ([] : Line) →
      withTrailingNewline t (strOfLines (linesOfStr t)) = t →
      noExitWhileFound pidx (linesOfStr t) = true →
      aplf_go (linesOfStr t) pidx
        (entryLine (filename_without_standard_extension seg lang).data)
        (linesOfStr t).length 0 (-1) false none ≠ none →
      add_entry t pidx [seg] false lang ch = Except.ok t1 →
      remove_entry t1 (ManagedFile.mk dp pidx
        (filename_without_standard_extension seg lang) mp true false) = Except.ok t := by
  intro t pidx seg lang ch t1 dp mp hwf hcnt hnc hlast hnorm hnoex hins hok
  rw [add_entry_single_eq] at hok
  show remove_file_entry t1 (ManagedFile.mk dp pidx
    (filename_without_standard_extension seg lang) mp true false) = Except.ok t
  exact rt_core t pidx _ dp mp hwf hcnt hnc hlast hnorm hnoex hins t1 hok

theorem C8_round_trip_amended_witness :
    add_entry "- name: p\n  lang: rust\n  file:\n    - name: a\n" 0 ["x.rs"] false "rust" []
      = Except.ok "- name: p\n  lang: rust\n  file:\n    - name: a\n    - name: x\n" ∧
    remove_entry "- name: p\n  lang: rust\n  file:\n    - name: a\n    - name: x\n"
      (ManagedFile.mk "x.rs" 0 (filename_without_standard_extension "x.rs" "rust") [] true false)
      = Except.ok "- name: p\n  lang: rust\n  file:\n    - name: a\n" :=
  ⟨by rfl,
   C8_round_trip_amended "- name: p\n  lang: rust\n  file:\n    - name: a\n" 0 "x.rs" "rust"
     [] "- name: p\n  lang: rust\n  file:\n    - name: a\n    - name: x\n" "x.rs" []
     (by decide) (by decide) (by decide) (by decide) (by rfl) (by decide) (by decide)
     (by rfl)⟩


/-! ### C2 rework: witness layer for module navigation -/

lemma findIdx_go_some (p : Line → Bool) :
    ∀ (l : List Line) (s k : Nat), List.findIdx? p l s = some k →
      ∃ d, k = s + d ∧ d < l.length ∧ p (l.getD d []) = true ∧
        ∀ j, j < d → p (l.getD j []) = false := by
  intro l
  induction l with
  | nil => intro s k h; rw [List.findIdx?_nil] at h; cases h
  | cons x xs ih =>
    intro s k h
    rw [List.findIdx?_cons] at h
    by_cases hp : p x = true
    · rw [if_pos hp] at h
      have hk : s = k := Option.some.inj h
      exact ⟨0, by omega, by simp, hp, fun j hj => by omega⟩
    · rw [if_neg hp] at h
      obtain ⟨d, hk, hd, hpd, hprev⟩ := ih (s + 1) k h
      refine ⟨d + 1, by omega, by simp only [List.length_cons]; omega, hpd, ?_⟩
      intro j hj
      cases j with
      | zero => exact Bool.eq_false_iff.mpr hp
      | succ j2 => exact hprev j2 (by omega)

lemma findIdx_go_none (p : Line → Bool) :
    ∀ (l : List Line) (s : Nat), List.findIdx? p l s = none →
      ∀ j, j < l.length → p (l.getD j []) = false := by
  intro l
  induction l with
  | nil => intro s _ j hj; simp at hj
  | cons x xs ih =>
    intro s h j hj
    rw [List.findIdx?_cons] at h
    by_cases hp : p x = true
    · rw [if_pos hp] at h; cases h
    · rw [if_neg hp] at h
      cases j with
      | zero => exact Bool.eq_false_iff.mpr hp
      | succ j2 => exact ih (s + 1) h j2 (by simpa using hj)

lemma findIdx_go_complete (p : Line → Bool) :
    ∀ (l : List Line) (s d : Nat), d < l.length → p (l.getD d []) = true →
      (∀ j, j < d → p (l.getD j []) = false) →
      List.findIdx? p l s = some (s + d) := by
  intro l
  induction l with
  | nil => intro s d hd; simp at hd
  | cons x xs ih =>
    intro s d hd hpd hprev
    rw [List.findIdx?_cons]
    cases d with
    | zero =>
      simp only [List.getD_cons_zero] at hpd
      rw [if_pos hpd]
      exact congrArg some (by omega)
    | succ d2 =>
      have hp : ¬ (p x = true) := by
        have := hprev 0 (by omega)
        simp only [List.getD_cons_zero] at this
        exact Bool.eq_false_iff.mp this
      rw [if_neg hp]
      have := ih (s + 1) d2 (by simpa using hd) (by simpa using hpd)
        (fun j hj => by simpa using hprev (j + 1) (by omega))
      rw [this]
      exact congrArg some (by omega)

lemma getD_drop_add (L : List Line) (s j : Nat) :
    (L.drop s).getD j [] = L.getD (s + j) [] := by
  rw [List.getD_eq_getElem?_getD, List.getD_eq_getElem?_getD, List.getElem?_drop]

/-- Full characterization of a successful `find_module_start`: first match
at or after the start. -/
lemma fms_facts (L : List Line) (s : Nat) (name : Line) (m : Nat)
    (h : find_module_start L s name = some m) :
    s ≤ m ∧ m < L.length ∧ (trimL (L.getD m []) == entryLine name) = true ∧
      ∀ k, s ≤ k → k < m → (trimL (L.getD k []) == entryLine name) = false := by
  unfold find_module_start at h
  cases hf : (L.drop s).findIdx? (fun l => trimL l == entryLine name) with
  | none => rw [hf] at h; cases h
  | some kk =>
    rw [hf] at h
    obtain ⟨d, hkk, hd, hpd, hprev⟩ := findIdx_go_some _ _ _ _ hf
    have hm : m = s + d := by
      have h2 : s + kk = m := Option.some.inj h
      omega
    subst hm
    rw [getD_drop_add] at hpd
    rw [List.length_drop] at hd
    refine ⟨by omega, by omega, hpd, ?_⟩
    intro k hk1 hk2
    have := hprev (k - s) (by omega)
    rw [getD_drop_add, show s + (k - s) = k from by omega] at this
    exact this

lemma fms_complete (L : List Line) (s : Nat) (name : Line) (m : Nat)
    (h1 : s ≤ m) (h2 : m < L.length)
    (h3 : (trimL (L.getD m []) == entryLine name) = true)
    (h4 : ∀ k, s ≤ k → k < m → (trimL (L.getD k []) == entryLine name) = false) :
    find_module_start L s name = some m := by
  unfold find_module_start
  have hfi := findIdx_go_complete (fun l => trimL l == entryLine name) (L.drop s) 0 (m - s)
    (by rw [List.length_drop]; omega)
    (by rw [getD_drop_add, show s + (m - s) = m from by omega]; exact h3)
    (fun j hj => by rw [getD_drop_add]; exact h4 (s + j) (by omega) (by omega))
  rw [hfi]
  show some (s + (0 + (m - s))) = some m
  exact congrArg some (by omega)

lemma fms_none (L : List Line) (s : Nat) (name : Line)
    (h : find_module_start L s name = none) :
    ∀ k, s ≤ k → k < L.length → (trimL (L.getD k []) == entryLine name) = false := by
  unfold find_module_start at h
  cases hf : (L.drop s).findIdx? (fun l => trimL l == entryLine name) with
  | some kk => rw [hf] at h; cases h
  | none =>
    intro k hk1 hk2
    have := findIdx_go_none _ _ _ hf (k - s) (by rw [List.length_drop]; omega)
    rw [getD_drop_add, show s + (k - s) = k from by omega] at this
    exact this

lemma navChainErr_ge (L : List Line) (msg : String) :
    ∀ (segs : List String) (s r : Nat),
      navChainErr L msg s segs = Except.ok r → s ≤ r := by
  intro segs
  induction segs with
  | nil =>
    intro s r h
    exact le_of_eq (Except.ok.inj h)
  | cons d rest ih =>
    intro s r h
    simp only [navChainErr] at h
    cases hf : find_module_start L s d.data with
    | none => rw [hf] at h; cases h
    | some idx =>
      rw [hf] at h
      have h1 := ih (idx + 1) r h
      have h2 := (fms_facts L s d.data idx hf).1
      omega

/-- A navigation trace: ordered positions matching the segment names. -/
def navTrace (L : List Line) : List String → List Nat → Prop
  | [], [] => True
  | d :: rest, m :: ms =>
    (trimL (L.getD m []) == entryLine d.data) = true ∧ m < L.length ∧
      (∀ x ∈ ms, m < x) ∧ navTrace L rest ms
  | _, _ => False

/-- Greedy navigation succeeds whenever a trace exists, with a dominated
final start. -/
lemma navChain_of_trace (L : List Line) :
    ∀ (segs : List String) (ps : List Nat) (s : Nat),
      navTrace L segs ps → (∀ x ∈ ps, s ≤ x) →
      ∃ ss, navChain L s segs = some ss ∧
        ∀ M, (∀ x ∈ ps, x < M) → s ≤ M → ss ≤ M := by
  intro segs
  induction segs with
  | nil =>
    intro ps s htr _
    cases ps with
    | cons m ms => exact absurd htr (by intro h; exact h)
    | nil => exact ⟨s, rfl, fun M _ hM => hM⟩
  | cons d rest ih =>
    intro ps s htr hs
    cases ps with
    | nil => exact absurd htr (by intro h; exact h)
    | cons m ms =>
      obtain ⟨hm, hmlen, hord, htr2⟩ := htr
      have hex : ¬ (find_module_start L s d.data = none) := by
        intro hno
        have := fms_none L s d.data hno m (hs m (List.mem_cons_self m ms)) hmlen
        rw [hm] at this; cases this
      cases hf : find_module_start L s d.data with
      | none => exact absurd hf hex
      | some m0 =>
        obtain ⟨hsm0, hm0len, hm0match, hm0prev⟩ := fms_facts L s d.data m0 hf
        have hm0le : m0 ≤ m := by
          by_contra hgt
          push_neg at hgt
          have := hm0prev m (hs m (List.mem_cons_self m ms)) hgt
          rw [hm] at this; cases this
        obtain ⟨ss, hssnav, hssd⟩ := ih ms (m0 + 1) htr2
          (fun x hx => by have := hord x hx; omega)
        refine ⟨ss, ?_, ?_⟩
        · simp only [navChain, hf]
          exact hssnav
        · intro M hM hsM
          exact hssd M (fun x hx => hM x (List.mem_cons_of_mem m hx))
            (by have := hM m (List.mem_cons_self m ms); omega)

/-- Extraction: a successful greedy navigation yields a trace bounded by
the returned start. -/
lemma trace_of_navChain (L : List Line) :
    ∀ (segs : List String) (s ss : Nat), navChain L s segs = some ss →
      ∃ ps, navTrace L segs ps ∧ (∀ x ∈ ps, s ≤ x ∧ x < ss) ∧ s ≤ ss := by
  intro segs
  induction segs with
  | nil =>
    intro s ss h
    have hss : s = ss := Option.some.inj h
    exact ⟨[], trivial, by simp, le_of_eq hss⟩
  | cons d rest ih =>
    intro s ss h
    simp only [navChain] at h
    cases hf : find_module_start L s d.data with
    | none => rw [hf] at h; cases h
    | some m0 =>
      rw [hf] at h
      obtain ⟨ps, htr, hbnd, hge⟩ := ih (m0 + 1) ss h
      obtain ⟨hsm0, hm0len, hm0match, _⟩ := fms_facts L s d.data m0 hf
      refine ⟨m0 :: ps, ?_, ?_, by omega⟩
      · exact ⟨hm0match, hm0len, fun x hx => by have := (hbnd x hx).1; omega, htr⟩
      · intro x hx
        rcases List.mem_cons.mp hx with rfl | hx2
        · exact ⟨hsm0, by omega⟩
        · have := hbnd x hx2
          exact ⟨by omega, this.2⟩

lemma trace_of_navChainErr (L : List Line) (msg : String) :
    ∀ (segs : List String) (s ss : Nat), navChainErr L msg s segs = Except.ok ss →
      ∃ ps, navTrace L segs ps ∧ (∀ x ∈ ps, s ≤ x ∧ x < ss) ∧ s ≤ ss := by
  intro segs
  induction segs with
  | nil =>
    intro s ss h
    have hss : s = ss := Except.ok.inj h
    exact ⟨[], trivial, by simp, le_of_eq hss⟩
  | cons d rest ih =>
    intro s ss h
    simp only [navChainErr] at h
    cases hf : find_module_start L s d.data with
    | none => rw [hf] at h; cases h
    | some m0 =>
      rw [hf] at h
      obtain ⟨ps, htr, hbnd, hge⟩ := ih (m0 + 1) ss h
      obtain ⟨hsm0, hm0len, hm0match, _⟩ := fms_facts L s d.data m0 hf
      refine ⟨m0 :: ps, ?_, ?_, by omega⟩
      · exact ⟨hm0match, hm0len, fun x hx => by have := (hbnd x hx).1; omega, htr⟩
      · intro x hx
        rcases List.mem_cons.mp hx with rfl | hx2
        · exact ⟨hsm0, by omega⟩
        · have := hbnd x hx2
          exact ⟨by omega, this.2⟩

def shiftIns (q x : Nat) : Nat := if q ≤ x then x + 1 else x

lemma length_insertAt (L : List Line) (q : Nat) (e : Line) :
    (insertAt L q e).length = L.length + 1 := by
  rw [insertAt_eq]
  rw [List.length_append, List.length_cons, List.length_take, List.length_drop]
  omega

lemma getD_insertAt_shift (L : List Line) (q : Nat) (e : Line) (hq : q ≤ L.length)
    (m : Nat) (hm : m < L.length) :
    (insertAt L q e).getD (shiftIns q m) [] = L.getD m [] := by
  unfold shiftIns
  by_cases h : q ≤ m
  · rw [if_pos h, insertAt_eq]
    have hlt : (L.take q).length = q := by rw [List.length_take]; omega
    rw [List.getD_eq_getElem?_getD,
      List.getElem?_append_right (by omega : (L.take q).length ≤ m + 1), hlt]
    rw [show m + 1 - q = (m - q) + 1 from by omega]
    rw [List.getElem?_cons_succ, List.getElem?_drop,
      show q + (m - q) = m from by omega]
    rw [List.getD_eq_getElem?_getD]
  · push_neg at h
    rw [if_neg (by omega), insertAt_eq]
    rw [List.getD_eq_getElem?_getD, List.getElem?_append,
      if_pos (by rw [List.length_take]; omega : m < (L.take q).length)]
    rw [List.getElem?_take_of_lt h, List.getD_eq_getElem?_getD]

lemma getD_insertAt_lt (L : List Line) (q : Nat) (e : Line) (hq : q ≤ L.length)
    (m : Nat) (hm : m < q) :
    (insertAt L q e).getD m [] = L.getD m [] := by
  have htake : (insertAt L q e).take q = L.take q := by
    rw [insertAt_eq]
    rw [List.take_append_of_le_length (by rw [List.length_take]; omega)]
    rw [List.take_take, Nat.min_self]
  exact getD_eq_of_take_eq _ _ q m htake hm

lemma getD_insertAt_self (L : List Line) (q : Nat) (e : Line) (hq : q ≤ L.length) :
    (insertAt L q e).getD q [] = e := by
  rw [insertAt_eq]
  exact getD_append_self' _ _ _ q (by rw [List.length_take]; omega)

lemma take_insertAt_of_le (L : List Line) (q : Nat) (e : Line) (hq : q ≤ L.length)
    (j : Nat) (hj : j ≤ q) :
    (insertAt L q e).take j = L.take j := by
  rw [insertAt_eq]
  rw [List.take_append_of_le_length (by rw [List.length_take]; omega)]
  rw [List.take_take, Nat.min_eq_left hj]

/-- Traces survive a line insertion (positions shift past the insertion
point). -/
lemma navTrace_insert (L : List Line) (q : Nat) (e : Line) (hq : q ≤ L.length) :
    ∀ (segs : List String) (ps : List Nat), navTrace L segs ps →
      navTrace (insertAt L q e) segs (ps.map (shiftIns q)) := by
  intro segs
  induction segs with
  | nil =>
    intro ps h
    cases ps with
    | nil => exact trivial
    | cons m ms => exact absurd h (by intro hf; exact hf)
  | cons d rest ih =>
    intro ps h
    cases ps with
    | nil => exact absurd h (by intro hf; exact hf)
    | cons m ms =>
      obtain ⟨hm, hmlen, hord, htr⟩ := h
      refine ⟨?_, ?_, ?_, ih ms htr⟩
      · rw [getD_insertAt_shift L q e hq m hmlen]
        exact hm
      · rw [length_insertAt]
        unfold shiftIns
        split_ifs <;> omega
      · intro x hx
        obtain ⟨y, hy, rfl⟩ := List.mem_map.mp hx
        have := hord y hy
        unfold shiftIns
        split_ifs <;> omega

/-! ### Header bookkeeping -/

/-- A top-level `- name:` header line. -/
def hdrB (l : Line) : Bool := nameKw.isPrefixOf (trimL l) && (indentOf l == 0)

lemma header_count_eq_hdrB (ls : List Line) :
    header_count ls = (ls.filter hdrB).length := rfl

lemma header_count_take_succ (L : List Line) (i : Nat) (hi : i < L.length) :
    header_count (L.take (i + 1)) =
      header_count (L.take i) + (if hdrB (L.getD i []) = true then 1 else 0) := by
  rw [List.take_succ, List.getElem?_eq_getElem hi]
  rw [header_count_eq_hdrB, header_count_eq_hdrB]
  rw [Option.toList_some, List.filter_append, List.length_append]
  congr 1
  rw [List.getD_eq_getElem _ [] hi]
  by_cases hh : hdrB L[i] = true
  · rw [if_pos hh, List.filter_cons, if_pos hh]
    rfl
  · rw [if_neg hh, List.filter_cons, if_neg hh]
    rfl

lemma header_count_take_mono (L : List Line) (a b : Nat) (h : a ≤ b) :
    header_count (L.take a) ≤ header_count (L.take b) := by
  conv_rhs => rw [← List.take_append_drop a (L.take b)]
  rw [List.take_take, Nat.min_eq_left h]
  rw [header_count_eq_hdrB, header_count_eq_hdrB, List.filter_append, List.length_append]
  omega

lemma header_count_take_of_no_hdr (L : List Line) (a : Nat) :
    ∀ b, a ≤ b → b ≤ L.length →
      (∀ k, a ≤ k → k < b → hdrB (L.getD k []) = false) →
      header_count (L.take b) = header_count (L.take a) := by
  intro b
  induction b with
  | zero =>
    intro hab _ _
    have : a = 0 := by omega
    rw [this]
  | succ c ih =>
    intro hab hbl hno
    by_cases hac : a = c + 1
    · rw [hac]
    · have hc : a ≤ c := by omega
      rw [header_count_take_succ L c (by omega)]
      rw [if_neg (by rw [hno c hc (by omega)]; simp)]
      rw [ih hc (by omega) (fun k hk1 hk2 => hno k hk1 (by omega))]
      omega

lemma header_count_insertAt (L : List Line) (q : Nat) (e : Line) (he : hdrB e = false) :
    header_count (insertAt L q e) = header_count L := by
  rw [insertAt_eq]
  rw [header_count_eq_hdrB, List.filter_append, List.filter_cons, he]
  simp only [Bool.false_eq_true, if_false]
  rw [← List.filter_append, List.take_append_drop, ← header_count_eq_hdrB]

lemma take_insertAt_shift (L : List Line) (q : Nat) (e : Line) (hq : q ≤ L.length)
    (j : Nat) (hjq : q ≤ j) (hjL : j ≤ L.length) :
    (insertAt L q e).take (j + 1) = insertAt (L.take j) q e := by
  rw [insertAt_eq, insertAt_eq]
  have hlen : (L.take q).length = q := by rw [List.length_take]; omega
  rw [List.take_take, Nat.min_eq_left hjq, List.drop_take]
  rw [List.take_append_eq_append_take, List.take_of_length_le (by rw [hlen]; omega), hlen]
  rw [show j + 1 - q = (j - q) + 1 from by omega, List.take_succ_cons]

lemma hdrB_false_of_indent (l : Line) (h : ¬ indentOf l = 0) : hdrB l = false := by
  unfold hdrB
  rw [show (indentOf l == 0) = false from beq_eq_false_iff_ne.mpr h]
  rw [Bool.and_false]

lemma hdrB_false_of_tree (l : Line) (h : (trimL l == "tree:".data) = true) :
    hdrB l = false := by
  unfold hdrB
  rw [show trimL l = "tree:".data from eq_of_beq h]
  rw [show nameKw.isPrefixOf "tree:".data = false from by decide]
  rw [Bool.false_and]

lemma hdrB_false_of_file (l : Line) (h : (trimL l == "file:".data) = true) :
    hdrB l = false := by
  unfold hdrB
  rw [show trimL l = "file:".data from eq_of_beq h]
  rw [show nameKw.isPrefixOf "file:".data = false from by decide]
  rw [Bool.false_and]

/-- Witness that `find_top_level_module` can succeed: a `tree:` key at
indent 2 inside the `pidx`-th project block, followed (with no header in
between) by a `- name:` entry at indent 4 matching the name. -/
def ftlmWit (L : List Line) (pidx : Nat) (name : Line) (j i : Nat) : Prop :=
  j < i ∧ i < L.length ∧ header_count (L.take j) = pidx + 1 ∧
  (trimL (L.getD j []) == "tree:".data) = true ∧
  (indentOf (L.getD j []) == 2) = true ∧
  (trimL (L.getD i []) == entryLine name) = true ∧
  (indentOf (L.getD i []) == 4) = true ∧
  ∀ k, j ≤ k → k ≤ i → hdrB (L.getD k []) = false

lemma ftlm_go_reach (L : List Line) (pidx : Nat) (name : Line) (j i0 : Nat)
    (hw : ftlmWit L pidx name j i0) :
    ∀ (fuel i : Nat) (cur : Int) (inT : Bool), fuel = L.length - i →
      cur = -1 + (header_count (L.take i) : Int) →
      (i ≤ j ∨ (j < i ∧ i ≤ i0 ∧ inT = true)) →
      (ftlm_go L pidx name fuel i cur inT).isSome = true := by
  obtain ⟨hji, hi0L, hcj, htreem, htreei, hentm, henti, hnohdr⟩ := hw
  intro fuel
  induction fuel with
  | zero =>
    intro i cur inT hf _ hpos
    exfalso
    rcases hpos with h1 | ⟨h1, h2, _⟩ <;> omega
  | succ fuel ih =>
    intro i cur inT hf hcur hpos
    have hiL : i < L.length := by rcases hpos with h1 | ⟨_, h2, _⟩ <;> omega
    simp only [ftlm_go]
    by_cases hhd : (nameKw.isPrefixOf (trimL (L.getD i [])) &&
        (indentOf (L.getD i []) == 0)) = true
    · -- header line: necessarily strictly before the tree key
      have hij : i < j := by
        rcases hpos with h1 | ⟨h1, h2, _⟩
        · rcases Nat.lt_or_ge i j with h | h
          · exact h
          · exfalso
            have hje : i = j := by omega
            have := hnohdr i (by omega) (by omega)
            rw [show hdrB (L.getD i []) =
              (nameKw.isPrefixOf (trimL (L.getD i [])) &&
                (indentOf (L.getD i []) == 0)) from rfl, hhd] at this
            cases this
        · exfalso
          have := hnohdr i (by omega) h2
          rw [show hdrB (L.getD i []) =
            (nameKw.isPrefixOf (trimL (L.getD i [])) &&
              (indentOf (L.getD i []) == 0)) from rfl, hhd] at this
          cases this
      have hcur2 : cur + 1 = -1 + (header_count (L.take (i + 1)) : Int) := by
        rw [header_count_take_succ L i hiL]
        rw [if_pos (show hdrB (L.getD i []) = true from hhd)]
        push_cast
        omega
      simp only [if_pos hhd]
      by_cases hne : ¬ (cur + 1 = (pidx : Int))
      · rw [if_pos hne]
        exact ih (i + 1) (cur + 1) false (by omega) hcur2 (Or.inl (by omega))
      · rw [if_neg hne]
        by_cases ht : (trimL (L.getD i []) == "tree:".data &&
            (indentOf (L.getD i []) == 2)) = true
        · rw [if_pos ht]
          exact ih (i + 1) (cur + 1) true (by omega) hcur2 (Or.inl (by omega))
        · rw [if_neg ht]
          by_cases he : (false && trimL (L.getD i []) == entryLine name &&
              (indentOf (L.getD i []) == 4)) = true
          · rw [if_pos he]
            rfl
          · rw [if_neg he]
            exact ih (i + 1) (cur + 1) false (by omega) hcur2 (Or.inl (by omega))
    · -- non-header line
      simp only [if_neg hhd]
      have hcur2 : cur = -1 + (header_count (L.take (i + 1)) : Int) := by
        rw [header_count_take_succ L i hiL]
        rw [if_neg (by
          rw [show hdrB (L.getD i []) =
            (nameKw.isPrefixOf (trimL (L.getD i [])) &&
              (indentOf (L.getD i []) == 0)) from rfl]
          rw [show (nameKw.isPrefixOf (trimL (L.getD i [])) &&
              (indentOf (L.getD i []) == 0)) = false from Bool.eq_false_iff.mpr hhd]
          simp)]
        omega
      rcases hpos with h1 | ⟨h1, h2, hT⟩
      · -- phase 1: i ≤ j
        rcases Nat.lt_or_ge i j with hlt | hge
        · -- strictly before the tree key: any branch recurses or returns
          by_cases hne : ¬ (cur = (pidx : Int))
          · rw [if_pos hne]
            exact ih (i + 1) cur inT (by omega) hcur2 (Or.inl (by omega))
          · rw [if_neg hne]
            by_cases ht : (trimL (L.getD i []) == "tree:".data &&
                (indentOf (L.getD i []) == 2)) = true
            · rw [if_pos ht]
              exact ih (i + 1) cur true (by omega) hcur2 (Or.inl (by omega))
            · rw [if_neg ht]
              by_cases he : (inT && trimL (L.getD i []) == entryLine name &&
                  (indentOf (L.getD i []) == 4)) = true
              · rw [if_pos he]
                rfl
              · rw [if_neg he]
                exact ih (i + 1) cur inT (by omega) hcur2 (Or.inl (by omega))
        · -- i = j: the tree branch fires
          have hije : i = j := by omega
          subst hije
          have hcnt : cur = (pidx : Int) := by
            rw [hcur, hcj]
            push_cast
            omega
          rw [if_neg (by omega)]
          rw [if_pos (show (trimL (L.getD i []) == "tree:".data &&
              indentOf (L.getD i []) == 2) = true by rw [htreem, htreei]; rfl)]
          exact ih (i + 1) cur true (by omega) hcur2 (Or.inr ⟨by omega, by omega, rfl⟩)
      · -- phase 2: j < i ≤ i0, inT = true
        subst hT
        have hcnt : cur = (pidx : Int) := by
          have hceq : header_count (L.take i) = header_count (L.take j) :=
            header_count_take_of_no_hdr L j i h1.le (by omega)
              (fun k hk1 hk2 => hnohdr k hk1 (by omega))
          rw [hcur, hceq, hcj]
          push_cast
          omega
        rw [if_neg (by omega)]
        rcases Nat.lt_or_ge i i0 with hlt | hge
        · by_cases ht : (trimL (L.getD i []) == "tree:".data &&
              (indentOf (L.getD i []) == 2)) = true
          · rw [if_pos ht]
            exact ih (i + 1) cur true (by omega) hcur2 (Or.inr ⟨by omega, by omega, rfl⟩)
          · rw [if_neg ht]
            by_cases he : (true && trimL (L.getD i []) == entryLine name &&
                (indentOf (L.getD i []) == 4)) = true
            · rw [if_pos he]
              rfl
            · rw [if_neg he]
              exact ih (i + 1) cur true (by omega) hcur2 (Or.inr ⟨by omega, by omega, rfl⟩)
        · -- i = i0: the entry branch fires
          have hie : i = i0 := by omega
          subst hie
          rw [if_neg (by
            intro hcon
            have h1c := Bool.and_eq_true_iff.mp hcon
            have : trimL (L.getD i []) = "tree:".data := eq_of_beq h1c.1
            have h2c : trimL (L.getD i []) = entryLine name := eq_of_beq hentm
            rw [h2c] at this
            have : ('-' : Char) = 't' := by
              have := congrArg (fun l => l.headI) this
              simpa [entryLine] using this
            cases this)]
          rw [if_pos (show (true && trimL (L.getD i []) == entryLine name &&
              indentOf (L.getD i []) == 4) = true by rw [hentm, henti]; rfl)]
          rfl

/-- Completeness: a witness makes `find_top_level_module` succeed. -/
lemma ftlm_complete (L : List Line) (pidx : Nat) (name : Line) (j i : Nat)
    (hw : ftlmWit L pidx name j i) :
    (find_top_level_module L pidx name).isSome = true := by
  unfold find_top_level_module
  exact ftlm_go_reach L pidx name j i hw L.length 0 (-1) false
    (by omega) (by simp [header_count]) (Or.inl (by omega))

/-- Invariant carried by the `in_tree` flag of the `ftlm_go` scan. -/
def treeLatch (L : List Line) (pidx i j : Nat) : Prop :=
  j < i ∧ header_count (L.take j) = pidx + 1 ∧
  (trimL (L.getD j []) == "tree:".data) = true ∧
  (indentOf (L.getD j []) == 2) = true ∧
  ∀ k, j ≤ k → k < i → hdrB (L.getD k []) = false

lemma ftlm_go_facts (L : List Line) (pidx : Nat) (name : Line) :
    ∀ (fuel i : Nat) (cur : Int) (inT : Bool) (r : Nat),
      fuel = L.length - i →
      cur = -1 + (header_count (L.take i) : Int) →
      (inT = true → ∃ j, treeLatch L pidx i j) →
      ftlm_go L pidx name fuel i cur inT = some r →
      ∃ j, ftlmWit L pidx name j r := by
  intro fuel
  induction fuel with
  | zero =>
    intro i cur inT r _ _ _ hres
    cases hres
  | succ fuel ih =>
    intro i cur inT r hf hcur hinv hres
    have hiL : i < L.length := by omega
    simp only [ftlm_go] at hres
    by_cases hhd : (nameKw.isPrefixOf (trimL (L.getD i [])) &&
        (indentOf (L.getD i []) == 0)) = true
    · simp only [if_pos hhd] at hres
      have hcur2 : cur + 1 = -1 + (header_count (L.take (i + 1)) : Int) := by
        rw [header_count_take_succ L i hiL]
        rw [if_pos (show hdrB (L.getD i []) = true from hhd)]
        push_cast
        omega
      by_cases hne : ¬ (cur + 1 = (pidx : Int))
      · rw [if_pos hne] at hres
        exact ih (i + 1) (cur + 1) false r (by omega) hcur2
          (fun hcon => absurd hcon (by simp)) hres
      · rw [if_neg hne] at hres
        by_cases ht : (trimL (L.getD i []) == "tree:".data &&
            indentOf (L.getD i []) == 2) = true
        · exfalso
          have hfl : hdrB (L.getD i []) = false :=
            hdrB_false_of_tree _ (Bool.and_eq_true_iff.mp ht).1
          have htr : hdrB (L.getD i []) = true := hhd
          rw [hfl] at htr
          cases htr
        · rw [if_neg ht] at hres
          rw [if_neg (by simp)] at hres
          exact ih (i + 1) (cur + 1) false r (by omega) hcur2
            (fun hcon => absurd hcon (by simp)) hres
    · simp only [if_neg hhd] at hres
      have hnh : hdrB (L.getD i []) = false := Bool.eq_false_iff.mpr hhd
      have hcur2 : cur = -1 + (header_count (L.take (i + 1)) : Int) := by
        rw [header_count_take_succ L i hiL, if_neg (by rw [hnh]; simp)]
        omega
      have hkeep : inT = true → ∃ j, treeLatch L pidx (i + 1) j := by
        intro hT
        obtain ⟨j, hj1, hj2, hj3, hj4, hj5⟩ := hinv hT
        exact ⟨j, by omega, hj2, hj3, hj4, fun k hk1 hk2 => by
          rcases Nat.lt_or_ge k i with h | h
          · exact hj5 k hk1 h
          · have : k = i := by omega
            rw [this]; exact hnh⟩
      by_cases hne : ¬ (cur = (pidx : Int))
      · rw [if_pos hne] at hres
        exact ih (i + 1) cur inT r (by omega) hcur2 hkeep hres
      · rw [if_neg hne] at hres
        push_neg at hne
        have hcnt : header_count (L.take i) = pidx + 1 := by
          have : (header_count (L.take i) : Int) = (pidx : Int) + 1 := by omega
          exact_mod_cast this
        by_cases ht : (trimL (L.getD i []) == "tree:".data &&
            indentOf (L.getD i []) == 2) = true
        · rw [if_pos ht] at hres
          obtain ⟨ht1, ht2⟩ := Bool.and_eq_true_iff.mp ht
          refine ih (i + 1) cur true r (by omega) hcur2 (fun _ => ⟨i, by omega,
            hcnt, ht1, ht2, fun k hk1 hk2 => ?_⟩) hres
          have : k = i := by omega
          rw [this]; exact hnh
        · rw [if_neg ht] at hres
          by_cases he : (inT && trimL (L.getD i []) == entryLine name &&
              indentOf (L.getD i []) == 4) = true
          · rw [if_pos he] at hres
            have hri : i = r := Option.some.inj hres
            obtain ⟨he12, he3⟩ := Bool.and_eq_true_iff.mp he
            obtain ⟨he1, he2⟩ := Bool.and_eq_true_iff.mp he12
            obtain ⟨j, hj1, hj2, hj3, hj4, hj5⟩ := hinv he1
            refine ⟨j, by omega, by omega, hj2, hj3, hj4, by rw [← hri]; exact he2,
              by rw [← hri]; exact he3, fun k hk1 hk2 => ?_⟩
            rcases Nat.lt_or_ge k i with h | h
            · exact hj5 k hk1 h
            · have : k = i := by omega
              rw [this]; exact hnh
          · rw [if_neg he] at hres
            exact ih (i + 1) cur inT r (by omega) hcur2 hkeep hres

/-- Soundness: a successful `find_top_level_module` yields a witness. -/
lemma ftlm_sound (L : List Line) (pidx : Nat) (name : Line) (r : Nat)
    (h : find_top_level_module L pidx name = some r) :
    ∃ j, ftlmWit L pidx name j r := by
  unfold find_top_level_module at h
  exact ftlm_go_facts L pidx name L.length 0 (-1) false r (by omega)
    (by simp [header_count]) (fun hcon => absurd hcon (by simp)) h

/-- A witness survives insertion of a non-header line. -/
lemma ftlmWit_insert (L : List Line) (pidx : Nat) (name : Line) (j i : Nat)
    (hw : ftlmWit L pidx name j i) (q : Nat) (e : Line)
    (hq : q ≤ L.length) (he : hdrB e = false) :
    ftlmWit (insertAt L q e) pidx name (shiftIns q j) (shiftIns q i) := by
  obtain ⟨hji, hiL, hcj, htm, hti, hem, hei, hnohdr⟩ := hw
  have hgj : (insertAt L q e).getD (shiftIns q j) [] = L.getD j [] :=
    getD_insertAt_shift L q e hq j (by omega)
  have hgi : (insertAt L q e).getD (shiftIns q i) [] = L.getD i [] :=
    getD_insertAt_shift L q e hq i hiL
  refine ⟨?_, ?_, ?_, by rw [hgj]; exact htm, by rw [hgj]; exact hti,
    by rw [hgi]; exact hem, by rw [hgi]; exact hei, ?_⟩
  · unfold shiftIns
    split_ifs <;> omega
  · rw [length_insertAt]
    unfold shiftIns
    split_ifs <;> omega
  · by_cases hqj : q ≤ j
    · rw [show shiftIns q j = j + 1 from by unfold shiftIns; rw [if_pos hqj]]
      rw [take_insertAt_shift L q e hq j hqj (by omega)]
      rw [header_count_insertAt _ q e he]
      exact hcj
    · rw [show shiftIns q j = j from by unfold shiftIns; rw [if_neg hqj]]
      rw [take_insertAt_of_le L q e hq j (by omega)]
      exact hcj
  · intro k hk1 hk2
    rcases Nat.lt_trichotomy k q with hlt | heq | hgt
    · -- untouched prefix position: k corresponds to original index k
      rw [getD_insertAt_lt L q e hq k hlt]
      apply hnohdr k
      · have : shiftIns q j ≤ k := hk1
        unfold shiftIns at this
        split_ifs at this <;> omega
      · have : k ≤ shiftIns q i := hk2
        unfold shiftIns at this
        split_ifs at this <;> omega
    · rw [heq, getD_insertAt_self L q e hq]
      exact he
    · have hk2b : k - 1 < L.length := by
        have : k ≤ shiftIns q i := hk2
        unfold shiftIns at this
        split_ifs at this <;> omega
      have : k = shiftIns q (k - 1) := by
        unfold shiftIns
        rw [if_pos (by omega)]
        omega
      rw [this, getD_insertAt_shift L q e hq (k - 1) hk2b]
      apply hnohdr (k - 1)
      · have : shiftIns q j ≤ k := hk1
        unfold shiftIns at this
        split_ifs at this <;> omega
      · have : k ≤ shiftIns q i := hk2
        unfold shiftIns at this
        split_ifs at this <;> omega

lemma navTrace_snoc (L : List Line) :
    ∀ (xs : List String) (y : String) (ps : List Nat),
      navTrace L (xs ++ [y]) ps →
      ∃ qs m, ps = qs ++ [m] ∧ navTrace L xs qs ∧
        (trimL (L.getD m []) == entryLine y.data) = true ∧ m < L.length ∧
        ∀ x ∈ qs, x < m := by
  intro xs
  induction xs with
  | nil =>
    intro y ps htr
    cases ps with
    | nil => exact absurd htr (by intro h; exact h)
    | cons m ms =>
      obtain ⟨hm, hmlen, _, htr2⟩ := htr
      cases ms with
      | nil => exact ⟨[], m, rfl, trivial, hm, hmlen, by simp⟩
      | cons a as => exact absurd htr2 (by intro h; exact h)
  | cons d xs ih =>
    intro y ps htr
    cases ps with
    | nil => exact absurd htr (by intro h; exact h)
    | cons m ms =>
      obtain ⟨hm, hmlen, hord, htr2⟩ := htr
      obtain ⟨qs, mf, hms, htrq, hmf1, hmf2, hmf3⟩ := ih y ms htr2
      refine ⟨m :: qs, mf, by rw [hms, List.cons_append], ?_, hmf1, hmf2, ?_⟩
      · refine ⟨hm, hmlen, ?_, htrq⟩
        intro x hx
        exact hord x (by rw [hms]; exact List.mem_append_left _ hx)
      · intro x hx
        rcases List.mem_cons.mp hx with rfl | hx2
        · exact hord mf (by rw [hms]; exact List.mem_append_right _ (by simp))
        · exact hmf3 x hx2

lemma navTrace_snoc_mk (L : List Line) :
    ∀ (xs : List String) (qs : List Nat) (y : String) (m : Nat),
      navTrace L xs qs →
      (trimL (L.getD m []) == entryLine y.data) = true → m < L.length →
      (∀ x ∈ qs, x < m) →
      navTrace L (xs ++ [y]) (qs ++ [m]) := by
  intro xs
  induction xs with
  | nil =>
    intro qs y m htr hm hmlen _
    cases qs with
    | nil => exact ⟨hm, hmlen, by simp, trivial⟩
    | cons a as => exact absurd htr (by intro h; exact h)
  | cons d xs ih =>
    intro qs y m htr hm hmlen hall
    cases qs with
    | nil => exact absurd htr (by intro h; exact h)
    | cons a as =>
      obtain ⟨ha, halen, hord, htr2⟩ := htr
      refine ⟨ha, halen, ?_, ih as y m htr2 hm hmlen
        (fun x hx => hall x (List.mem_cons_of_mem a hx))⟩
      intro x hx
      rcases List.mem_append.mp hx with hx2 | hx2
      · exact hord x hx2
      · rw [List.mem_singleton.mp hx2]
        exact hall a (List.mem_cons_self a as)

/-- Witness form of `module_exists`. -/
def ModW (L : List Line) (pidx : Nat) (segs : List String) : Prop :=
  match segs with
  | [] => True
  | [s] => ∃ j i, ftlmWit L pidx s.data j i
  | _ :: _ :: _ => ∃ ps, navTrace L segs ps

lemma module_exists_of_ModW (yaml : String) (pidx : Nat) (segs : List String)
    (h : ModW (linesOfStr yaml) pidx segs) : module_exists yaml pidx segs = true := by
  match segs with
  | [] => rfl
  | [s] =>
    obtain ⟨j, i, hw⟩ := h
    unfold module_exists
    exact ftlm_complete (linesOfStr yaml) pidx s.data j i hw
  | a :: b :: rest =>
    obtain ⟨ps, htr⟩ := h
    have hne : a :: b :: rest ≠ ([] : List String) := by simp
    have hsplit : (a :: b :: rest).dropLast ++ [(a :: b :: rest).getLast hne] =
        a :: b :: rest := List.dropLast_append_getLast hne
    rw [← hsplit] at htr
    obtain ⟨qs, m, hps, htrq, hmm, hmlen, hord⟩ := navTrace_snoc _ _ _ _ htr
    obtain ⟨ss, hnav, hdom⟩ := navChain_of_trace (linesOfStr yaml) _ qs 0 htrq
      (fun x _ => Nat.zero_le x)
    have hss : ss ≤ m := hdom m hord (Nat.zero_le m)
    simp only [module_exists]
    rw [hnav]
    rw [show (a :: b :: rest).getLast? = some ((a :: b :: rest).getLast hne) from
      List.getLast?_eq_getLast _ hne]
    show (find_module_start (linesOfStr yaml) ss
      ((a :: b :: rest).getLast hne).data).isSome = true
    cases hfm : find_module_start (linesOfStr yaml) ss ((a :: b :: rest).getLast hne).data with
    | some k => rfl
    | none =>
      exfalso
      have := fms_none _ _ _ hfm m hss hmlen
      rw [hmm] at this
      cases this

lemma ModW_of_module_exists (yaml : String) (pidx : Nat) (segs : List String)
    (h : module_exists yaml pidx segs = true) : ModW (linesOfStr yaml) pidx segs := by
  match segs with
  | [] => exact trivial
  | [s] =>
    have h2 : (find_top_level_module (linesOfStr yaml) pidx s.data).isSome = true := h
    cases hf : find_top_level_module (linesOfStr yaml) pidx s.data with
    | none => rw [hf] at h2; cases h2
    | some r =>
      obtain ⟨j, hw⟩ := ftlm_sound _ _ _ _ hf
      exact ⟨j, r, hw⟩
  | a :: b :: rest =>
    simp only [module_exists] at h
    have hne : a :: b :: rest ≠ ([] : List String) := by simp
    rw [show (a :: b :: rest).getLast? = some ((a :: b :: rest).getLast hne) from
      List.getLast?_eq_getLast _ hne] at h
    cases hnav : navChain (linesOfStr yaml) 0 (a :: b :: rest).dropLast with
    | none => rw [hnav] at h; cases h
    | some ss =>
      rw [hnav] at h
      have h2 : (find_module_start (linesOfStr yaml) ss
          ((a :: b :: rest).getLast hne).data).isSome = true := h
      cases hfm : find_module_start (linesOfStr yaml) ss
          ((a :: b :: rest).getLast hne).data with
      | none => rw [hfm] at h2; cases h2
      | some m =>
        obtain ⟨hssm, hmlen, hmm, _⟩ := fms_facts _ _ _ _ hfm
        obtain ⟨qs, htrq, hbnd, _⟩ := trace_of_navChain _ _ _ _ hnav
        have htr := navTrace_snoc_mk (linesOfStr yaml) _ qs _ m htrq hmm hmlen
          (fun x hx => by have := (hbnd x hx).2; omega)
        rw [List.dropLast_append_getLast hne] at htr
        exact ⟨qs ++ [m], htr⟩

lemma ModW_insert (L : List Line) (pidx : Nat) (segs : List String)
    (h : ModW L pidx segs) (q : Nat) (e : Line)
    (hq : q ≤ L.length) (he : hdrB e = false) :
    ModW (insertAt L q e) pidx segs := by
  match segs with
  | [] => exact trivial
  | [s] =>
    obtain ⟨j, i, hw⟩ := h
    exact ⟨shiftIns q j, shiftIns q i, ftlmWit_insert L pidx s.data j i hw q e hq he⟩
  | a :: b :: rest =>
    obtain ⟨ps, htr⟩ := h
    exact ⟨ps.map (shiftIns q), navTrace_insert L q e hq _ ps htr⟩

/-! ### Project-start characterization and navigation transport -/

lemma fps_go_spec (L : List Line) (pidx : Nat) (hcnt : pidx < header_count L) :
    ∀ (fuel i : Nat) (cur : Int), fuel = L.length - i →
      cur = -1 + (header_count (L.take i) : Int) →
      header_count (L.take i) ≤ pidx →
      fps_go L pidx fuel i cur < L.length ∧
        hdrB (L.getD (fps_go L pidx fuel i cur) []) = true ∧
        header_count (L.take (fps_go L pidx fuel i cur)) = pidx ∧
        i ≤ fps_go L pidx fuel i cur := by
  intro fuel
  induction fuel with
  | zero =>
    intro i cur hf hcur hle
    exfalso
    have hge : L.length ≤ i := by omega
    have : header_count (L.take i) = header_count L := by
      rw [List.take_of_length_le hge]
    omega
  | succ fuel ih =>
    intro i cur hf hcur hle
    have hiL : i < L.length := by
      by_contra hcon
      push_neg at hcon
      have : header_count (L.take i) = header_count L := by
        rw [List.take_of_length_le hcon]
      omega
    simp only [fps_go]
    by_cases hhd : (nameKw.isPrefixOf (trimL (L.getD i [])) &&
        (indentOf (L.getD i []) == 0)) = true
    · by_cases heq : cur + 1 = (pidx : Int)
      · rw [if_pos (by rw [hhd]; simpa using heq)]
        refine ⟨hiL, hhd, ?_, le_rfl⟩
        have : (header_count (L.take i) : Int) = (pidx : Int) := by omega
        exact_mod_cast this
      · rw [if_neg (by rw [hhd]; simpa using heq)]
        rw [if_pos (show (nameKw.isPrefixOf (trimL (L.getD i [])) &&
          (indentOf (L.getD i []) == 0)) = true from hhd)]
        have hcnt2 : header_count (L.take (i + 1)) = header_count (L.take i) + 1 := by
          rw [header_count_take_succ L i hiL, if_pos (show hdrB (L.getD i []) = true from hhd)]
        have hle2 : header_count (L.take (i + 1)) ≤ pidx := by
          have : header_count (L.take i) < pidx := by
            rcases Nat.lt_or_ge (header_count (L.take i)) pidx with h | h
            · exact h
            · exfalso
              have : header_count (L.take i) = pidx := by omega
              apply heq
              rw [hcur, this]
              push_cast
              omega
          omega
        have := ih (i + 1) (cur + 1) (by omega)
          (by rw [hcnt2]; push_cast; omega) hle2
        exact ⟨this.1, this.2.1, this.2.2.1, by omega⟩
    · rw [if_neg (by
        rw [show (nameKw.isPrefixOf (trimL (L.getD i [])) &&
          (indentOf (L.getD i []) == 0)) = false from Bool.eq_false_iff.mpr hhd]
        simp)]
      rw [if_neg (show ¬ ((nameKw.isPrefixOf (trimL (L.getD i [])) &&
        (indentOf (L.getD i []) == 0)) = true) from hhd)]
      have hcnt2 : header_count (L.take (i + 1)) = header_count (L.take i) := by
        rw [header_count_take_succ L i hiL,
          if_neg (by rw [show hdrB (L.getD i []) = false from Bool.eq_false_iff.mpr hhd]; simp)]
        omega
      have := ih (i + 1) cur (by omega) (by rw [hcnt2]; omega) (by rw [hcnt2]; omega)
      exact ⟨this.1, this.2.1, this.2.2.1, by omega⟩

lemma fps_spec (L : List Line) (pidx : Nat) (hcnt : pidx < header_count L) :
    find_project_start L pidx < L.length ∧
      hdrB (L.getD (find_project_start L pidx) []) = true ∧
      header_count (L.take (find_project_start L pidx)) = pidx := by
  have := fps_go_spec L pidx hcnt L.length 0 (-1) (by omega)
    (by simp [header_count]) (by simp [header_count])
  exact ⟨this.1, this.2.1, this.2.2.1⟩

lemma fps_unique (L : List Line) (pidx : Nat) (a b : Nat)
    (ha : hdrB (L.getD a []) = true) (hca : header_count (L.take a) = pidx)
    (hb : hdrB (L.getD b []) = true) (hcb : header_count (L.take b) = pidx)
    (haL : a < L.length) (hbL : b < L.length) : a = b := by
  rcases Nat.lt_trichotomy a b with hab | hab | hab
  · exfalso
    have h1 : header_count (L.take (a + 1)) = pidx + 1 := by
      rw [header_count_take_succ L a haL, if_pos ha, hca]
    have h2 := header_count_take_mono L (a + 1) b (by omega)
    omega
  · exact hab
  · exfalso
    have h1 : header_count (L.take (b + 1)) = pidx + 1 := by
      rw [header_count_take_succ L b hbL, if_pos hb, hcb]
    have h2 := header_count_take_mono L (b + 1) a (by omega)
    omega

/-- The project-start scan is unchanged on a list that agrees below a bound
past the found position. -/
lemma fps_congr (X L : List Line) (pidx p : Nat) (hT : X.take p = L.take p)
    (hcL : pidx < header_count L) (hcX : pidx < header_count X)
    (hfp : find_project_start L pidx < p) (hpX : p ≤ X.length) (hpL : p ≤ L.length) :
    find_project_start X pidx = find_project_start L pidx := by
  obtain ⟨hL1, hL2, hL3⟩ := fps_spec L pidx hcL
  obtain ⟨hX1, hX2, hX3⟩ := fps_spec X pidx hcX
  apply fps_unique X pidx _ _ hX2 hX3
  · rw [getD_eq_of_take_eq X L p _ hT hfp]
    exact hL2
  · rw [take_eq_of_take_eq X L p _ hT (by omega)]
    exact hL3
  · exact hX1
  · omega

/-- Chain navigation transported along a prefix-equal list. -/
lemma navChainErr_congr (X L : List Line) (msg : String) (p : Nat)
    (hT : X.take p = L.take p) (hpX : p ≤ X.length) (hpL : p ≤ L.length) :
    ∀ (segs : List String) (s r : Nat),
      navChainErr L msg s segs = Except.ok r → r ≤ p →
      navChainErr X msg s segs = Except.ok r := by
  intro segs
  induction segs with
  | nil => intro s r h _; exact h
  | cons d rest ih =>
    intro s r h hrp
    simp only [navChainErr] at h ⊢
    cases hf : find_module_start L s d.data with
    | none => rw [hf] at h; cases h
    | some idx =>
      rw [hf] at h
      have hidx : idx < r := by
        have := navChainErr_ge L msg rest (idx + 1) r h
        omega
      obtain ⟨hs1, hs2, hs3, hs4⟩ := fms_facts L s d.data idx hf
      have hfX : find_module_start X s d.data = some idx := by
        apply fms_complete X s d.data idx hs1 (by omega)
        · rw [getD_eq_of_take_eq X L p idx hT (by omega)]
          exact hs3
        · intro k hk1 hk2
          rw [getD_eq_of_take_eq X L p k hT (by omega)]
          exact hs4 k hk1 hk2
      rw [hfX]
      exact ih (idx + 1) r h hrp

/-! ### Inserted-line shapes and scan windows -/

lemma tree_line_shape (k : Nat) :
    trimL (spaces k ++ "tree:".data) = "tree:".data ∧
    indentOf (spaces k ++ "tree:".data) = k ∧
    ¬ ('\n' ∈ (spaces k ++ "tree:".data)) := by
  have hts : trimStart (spaces k ++ "tree:".data) = "tree:".data := by
    rw [trimStart_spaces_append]
    exact trimStart_cons_nonws 't' (by decide) _
  refine ⟨?_, ?_, ?_⟩
  · have := trimL_eq_of_getLast ("tree:".data) ':' (by decide) (by decide)
      (trimStart_cons_nonws 't' (by decide) _)
    unfold trimL
    rw [show List.dropWhile isWs (spaces k ++ "tree:".data) = "tree:".data from hts]
    unfold trimL at this
    rw [show List.dropWhile isWs "tree:".data = "tree:".data from
      trimStart_cons_nonws 't' (by decide) _] at this
    exact this
  · unfold indentOf
    rw [show trimStart (spaces k ++ "tree:".data) = "tree:".data from hts]
    rw [List.length_append]
    simp [spaces]
  · intro hmem
    rcases List.mem_append.mp hmem with h | h
    · exact absurd (List.eq_of_mem_replicate h) (by decide)
    · revert h
      decide

lemma file_line_shape (k : Nat) :
    trimL (spaces k ++ "file:".data) = "file:".data ∧
    indentOf (spaces k ++ "file:".data) = k ∧
    ¬ ('\n' ∈ (spaces k ++ "file:".data)) := by
  have hts : trimStart (spaces k ++ "file:".data) = "file:".data := by
    rw [trimStart_spaces_append]
    exact trimStart_cons_nonws 'f' (by decide) _
  refine ⟨?_, ?_, ?_⟩
  · have := trimL_eq_of_getLast ("file:".data) ':' (by decide) (by decide)
      (trimStart_cons_nonws 'f' (by decide) _)
    unfold trimL
    rw [show List.dropWhile isWs (spaces k ++ "file:".data) = "file:".data from hts]
    unfold trimL at this
    rw [show List.dropWhile isWs "file:".data = "file:".data from
      trimStart_cons_nonws 'f' (by decide) _] at this
    exact this
  · unfold indentOf
    rw [show trimStart (spaces k ++ "file:".data) = "file:".data from hts]
    rw [List.length_append]
    simp [spaces]
  · intro hmem
    rcases List.mem_append.mp hmem with h | h
    · exact absurd (List.eq_of_mem_replicate h) (by decide)
    · revert h
      decide

lemma takeWhile_pred_getD (p : Line → Bool) :
    ∀ (l : List Line) (j : Nat), j < (l.takeWhile p).length →
      p (l.getD j []) = true := by
  intro l
  induction l with
  | nil => intro j hj; simp at hj
  | cons x xs ih =>
    intro j hj
    rw [List.takeWhile_cons] at hj
    by_cases hp : p x = true
    · rw [if_pos hp] at hj
      cases j with
      | zero => exact hp
      | succ j2 =>
        rw [List.getD_cons_succ]
        exact ih j2 (by simpa using hj)
    · rw [if_neg hp] at hj
      simp at hj

/-- The skip-blanks span scan started right after line `i` lands in
`(i, lines.length]`, covering only blank-or-deeper lines. -/
lemma span_window (lines : List Line) (m i : Nat) (hi : i < lines.length) :
    i < span_end_go lines m (lines.length - (i + 1)) (i + 1) i + 1 ∧
    span_end_go lines m (lines.length - (i + 1)) (i + 1) i + 1 ≤ lines.length ∧
    ∀ k, i + 1 ≤ k → k < span_end_go lines m (lines.length - (i + 1)) (i + 1) i + 1 →
      ((trimL (lines.getD k [])).isEmpty ||
        decide (m < indentOf (lines.getD k []))) = true := by
  rw [span_end_go_spec lines m (lines.length - (i + 1)) (i + 1) i rfl]
  set tw := ((lines.drop (i + 1)).takeWhile
    (fun l => (trimL l).isEmpty || decide (m < indentOf l))) with htw
  have htwlen : tw.length ≤ lines.length - (i + 1) := by
    have h1 := (List.takeWhile_prefix (l := lines.drop (i + 1))
      (fun l => (trimL l).isEmpty || decide (m < indentOf l))).length_le
    rw [← htw] at h1
    rw [List.length_drop] at h1
    exact h1
  have htr := trailingEmpties_le tw
  split_ifs with hcase
  · refine ⟨by omega, by omega, ?_⟩
    intro k hk1 hk2
    omega
  · refine ⟨by omega, by omega, ?_⟩
    intro k hk1 hk2
    have hkw : k - (i + 1) < tw.length := by omega
    have := takeWhile_pred_getD _ (lines.drop (i + 1)) (k - (i + 1)) (by rw [← htw]; exact hkw)
    rw [getD_drop_add, show i + 1 + (k - (i + 1)) = k from by omega] at this
    exact this

/-- The duplicate scan of `add_file_to_module` fires once a `file:` key is
passed and the expected entry line is reached with no block break in
between. -/
lemma aftm_dup_fires (L : List Line) (expected : Line) (mi p : Nat)
    (hp : p < L.length)
    (hline : trimL (L.getD p []) = expected)
    (hind : indentOf (L.getD p []) = mi + 4)
    (hexp : expected ≠ []) :
    ∀ (fuel s : Nat) (inF : Bool), fuel = L.length - s → s ≤ p →
      (∀ k, s ≤ k → k < p → (!(trimL (L.getD k [])).isEmpty &&
        decide (indentOf (L.getD k []) ≤ mi)) = false) →
      (inF = true ∨ ∃ fk, s ≤ fk ∧ fk < p ∧
        (trimL (L.getD fk []) == "file:".data) = true ∧
        (indentOf (L.getD fk []) == mi + 2) = true) →
      aftm_dup_go L expected mi fuel s inF = true := by
  intro fuel
  induction fuel with
  | zero =>
    intro s inF hf hsp _ _
    exfalso
    omega
  | succ fuel ih =>
    intro s inF hf hsp hnb hlatch
    simp only [aftm_dup_go]
    rcases Nat.lt_or_ge s p with hlt | hge
    · rw [if_neg (by rw [hnb s le_rfl hlt]; simp)]
      by_cases hfk : (trimL (L.getD s []) == "file:".data &&
          indentOf (L.getD s []) == mi + 2) = true
      · rw [if_pos hfk]
        exact ih (s + 1) true (by omega) (by omega)
          (fun k hk1 hk2 => hnb k (by omega) hk2) (Or.inl rfl)
      · rw [if_neg hfk]
        by_cases hdup : (inF && indentOf (L.getD s []) == mi + 4 &&
            trimL (L.getD s []) == expected) = true
        · rw [if_pos hdup]
        · rw [if_neg hdup]
          refine ih (s + 1) inF (by omega) (by omega)
            (fun k hk1 hk2 => hnb k (by omega) hk2) ?_
          rcases hlatch with hl | ⟨fk, hfk1, hfk2, hfk3, hfk4⟩
          · exact Or.inl hl
          · refine Or.inr ⟨fk, ?_, hfk2, hfk3, hfk4⟩
            rcases Nat.lt_or_ge s fk with h | h
            · omega
            · exfalso
              have hfke : fk = s := by omega
              rw [hfke] at hfk3 hfk4
              apply hfk
              rw [hfk3, hfk4]
              rfl
    · have hse : s = p := by omega
      subst hse
      have hinF : inF = true := by
        rcases hlatch with hl | ⟨fk, hfk1, hfk2, _, _⟩
        · exact hl
        · omega
      subst hinF
      rw [if_neg (by
        rw [hind]
        rw [show (decide (mi + 4 ≤ mi)) = false from by simp]
        rw [Bool.and_false]
        simp)]
      rw [if_neg (by
        rw [show (indentOf (L.getD s []) == mi + 2) = false from by
          rw [hind]; simp]
        rw [Bool.and_false]
        simp)]
      rw [if_pos (by
        rw [show (trimL (L.getD s []) == expected) = true from by
          rw [hline]; exact beq_self_eq_true expected]
        rw [show (indentOf (L.getD s []) == mi + 4) = true from by
          rw [hind]; exact beq_self_eq_true (mi + 4)]
        rfl)]

lemma hdrB_false_of_deep (m : Nat) (l : Line)
    (h : ((trimL l).isEmpty || decide (m < indentOf l)) = true) : hdrB l = false := by
  rcases Bool.or_eq_true_iff.mp h with h2 | h2
  · unfold hdrB
    rw [List.isEmpty_iff.mp h2]
    rw [show nameKw.isPrefixOf ([] : Line) = false from by decide]
    rw [Bool.false_and]
  · exact hdrB_false_of_indent l (by
      have := of_decide_eq_true h2
      omega)

lemma atlm_go_facts (L : List Line) (pidx : Nat) :
    ∀ (fuel i : Nat) (cur : Int) (tl pos : Option Nat),
      fuel = L.length - i →
      cur = -1 + (header_count (L.take i) : Int) →
      (∀ j0, tl = some j0 → cur = (pidx : Int) ∧ treeLatch L pidx i j0) →
      (∀ p0, pos = some p0 → p0 ≤ L.length ∧ ∃ j2, treeLatch L pidx p0 j2) →
      ∀ j p, atlm_go L pidx fuel i cur tl pos = (some j, some p) →
        p ≤ L.length ∧ ∃ j2, treeLatch L pidx p j2 := by
  intro fuel
  induction fuel with
  | zero =>
    intro i cur tl pos _ _ _ hpos j p hres
    simp only [atlm_go] at hres
    injection hres with h1 h2
    exact hpos p h2
  | succ fuel ih =>
    intro i cur tl pos hf hcur htl hpos j p hres
    have hiL : i < L.length := by omega
    simp only [atlm_go] at hres
    by_cases hhd : (nameKw.isPrefixOf (trimL (L.getD i [])) &&
        (indentOf (L.getD i []) == 0)) = true
    · by_cases hbrk : ((pidx : Int) < cur + 1)
      · rw [if_pos (by rw [hhd]; simpa using hbrk)] at hres
        injection hres with h1 h2
        have hji : i = p := Option.some.inj h2
        subst hji
        obtain ⟨_, hlatch⟩ := htl j h1
        exact ⟨by omega, j, hlatch⟩
      · rw [if_neg (by rw [hhd]; simpa using hbrk)] at hres
        have htlnone : tl = none := by
          cases htl2 : tl with
          | none => rfl
          | some j0 =>
            exfalso
            have := (htl j0 htl2).1
            omega
        subst htlnone
        simp only [if_pos hhd] at hres
        have hcur2 : cur + 1 = -1 + (header_count (L.take (i + 1)) : Int) := by
          rw [header_count_take_succ L i hiL,
            if_pos (show hdrB (L.getD i []) = true from hhd)]
          push_cast
          omega
        by_cases hpr : cur + 1 = (pidx : Int)
        · rw [if_pos hpr] at hres
          have htc : (trimL (L.getD i []) == "tree:".data &&
              indentOf (L.getD i []) == 2) = false := by
            by_contra hcon
            rw [Bool.not_eq_false] at hcon
            have h1 := (Bool.and_eq_true_iff.mp hcon).1
            have h2 := hdrB_false_of_tree _ h1
            have h3 : hdrB (L.getD i []) = true := hhd
            rw [h2] at h3
            cases h3
          rw [htc] at hres
          simp only [Bool.false_eq_true, if_false] at hres
          simp only [Option.isSome_none, Bool.false_and, if_false] at hres
          exact ih (i + 1) (cur + 1) none pos (by omega) hcur2
            (fun j0 h => by cases h) hpos j p hres
        · rw [if_neg hpr] at hres
          exact ih (i + 1) (cur + 1) none pos (by omega) hcur2
            (fun j0 h => by cases h) hpos j p hres
    · have hnh : hdrB (L.getD i []) = false := Bool.eq_false_iff.mpr hhd
      rw [if_neg (by
        rw [show (nameKw.isPrefixOf (trimL (L.getD i [])) &&
          (indentOf (L.getD i []) == 0)) = false from hnh]
        simp)] at hres
      simp only [if_neg hhd] at hres
      have hcur2 : cur = -1 + (header_count (L.take (i + 1)) : Int) := by
        rw [header_count_take_succ L i hiL, if_neg (by rw [hnh]; simp)]
        omega
      by_cases hpr : cur = (pidx : Int)
      · rw [if_pos hpr] at hres
        have hcnt : header_count (L.take i) = pidx + 1 := by
          have : (header_count (L.take i) : Int) = (pidx : Int) + 1 := by omega
          exact_mod_cast this
        by_cases htc : (trimL (L.getD i []) == "tree:".data &&
            indentOf (L.getD i []) == 2) = true
        · simp only [if_pos htc] at hres
          have hind2 : indentOf (L.getD i []) = 2 :=
            eq_of_beq (Bool.and_eq_true_iff.mp htc).2
          rw [show (indentOf (L.getD i []) == 4) = false from by
            rw [hind2]; rfl] at hres
          simp only [Option.isSome_some, Bool.true_and, Bool.false_and,
            Bool.and_false, Bool.false_eq_true, if_false] at hres
          obtain ⟨htc1, htc2⟩ := Bool.and_eq_true_iff.mp htc
          refine ih (i + 1) cur (some i) pos (by omega) hcur2 ?_ hpos j p hres
          intro j0 h0
          have : i = j0 := Option.some.inj h0
          subst this
          refine ⟨hpr, by omega, hcnt, htc1, htc2, ?_⟩
          intro k hk1 hk2
          have : k = i := by omega
          rw [this]
          exact hnh
        · simp only [if_neg htc] at hres
          have htlkeep : ∀ j0, tl = some j0 →
              cur = (pidx : Int) ∧ treeLatch L pidx (i + 1) j0 := by
            intro j0 h0
            obtain ⟨hc, h1, h2, h3, h4, h5⟩ := htl j0 h0
            refine ⟨hc, by omega, h2, h3, h4, ?_⟩
            intro k hk1 hk2
            rcases Nat.lt_or_ge k i with h | h
            · exact h5 k hk1 h
            · have : k = i := by omega
              rw [this]
              exact hnh
          by_cases hpc : (tl.isSome && indentOf (L.getD i []) == 4 &&
              nameKw.isPrefixOf (trimL (L.getD i []))) = true
          · rw [if_pos hpc] at hres
            obtain ⟨hpc12, _⟩ := Bool.and_eq_true_iff.mp hpc
            obtain ⟨hpc1, _⟩ := Bool.and_eq_true_iff.mp hpc12
            cases htl2 : tl with
            | none => rw [htl2] at hpc1; cases hpc1
            | some j0 =>
              obtain ⟨_, hl1, hl2, hl3, hl4, hl5⟩ := htlkeep j0 htl2
              obtain ⟨hw1, hw2, hw3⟩ := span_window L 4 i hiL
              refine ih (i + 1) cur tl _ (by omega) hcur2 htlkeep ?_ j p hres
              intro p0 h0
              have hp0 : span_end_go L 4 (L.length - (i + 1)) (i + 1) i + 1 = p0 :=
                Option.some.inj h0
              refine ⟨by omega, j0, by omega, hl2, hl3, hl4, ?_⟩
              intro k hk1 hk2
              rcases Nat.lt_or_ge k (i + 1) with h | h
              · exact hl5 k hk1 h
              · exact hdrB_false_of_deep 4 _ (hw3 k h (by omega))
          · rw [if_neg hpc] at hres
            exact ih (i + 1) cur tl pos (by omega) hcur2 htlkeep hpos j p hres
      · rw [if_neg hpr] at hres
        refine ih (i + 1) cur tl pos (by omega) hcur2 ?_ hpos j p hres
        intro j0 h0
        exact absurd (htl j0 h0).1 hpr

/-! ### One creation step: insertion package -/

/-- Guard against the silent no-op branch of `add_top_level_module` (a
`tree:` key found in the project but no insert position derived). -/
def atlmOk (L : List Line) (pidx : Nat) : Bool :=
  match atlm_go L pidx L.length 0 (-1) none none with
  | (some _, none) => false
  | _ => true

/-- Shape of one `add_module` rewrite: one or two non-header, non-empty,
newline-free lines inserted at a single in-range position. -/
def StepIns (L X : List Line) : Prop :=
  (∃ q e, q ≤ L.length ∧ X = insertAt L q e ∧
    hdrB e = false ∧ ¬ ('\n' ∈ e) ∧ e ≠ []) ∨
  (∃ q e f, q ≤ L.length ∧ X = insertAt (insertAt L q e) q f ∧
    hdrB e = false ∧ ¬ ('\n' ∈ e) ∧ e ≠ [] ∧
    hdrB f = false ∧ ¬ ('\n' ∈ f) ∧ f ≠ [])

lemma mem_insertAt (L : List Line) (q : Nat) (e x : Line)
    (h : x ∈ insertAt L q e) : x = e ∨ x ∈ L := by
  rw [insertAt_eq] at h
  rcases List.mem_append.mp h with h2 | h2
  · exact Or.inr (List.take_subset _ _ h2)
  · rcases List.mem_cons.mp h2 with h3 | h3
    · exact Or.inl h3
    · exact Or.inr (List.drop_subset _ _ h3)

lemma getLast?_insertAt_ne (L : List Line) (q : Nat) (e : Line) (hq : q ≤ L.length)
    (he : e ≠ []) (hL : L.getLast? ≠ some ([] : Line)) :
    (insertAt L q e).getLast? ≠ some ([] : Line) := by
  rcases Nat.lt_or_ge q L.length with h | h
  · rw [insertAt_eq]
    have hne : L.drop q ≠ [] := by
      intro hcon
      have := congrArg List.length hcon
      rw [List.length_drop] at this
      simp only [List.length_nil] at this
      omega
    rw [show L.take q ++ e :: L.drop q = (L.take q ++ [e]) ++ L.drop q from by simp]
    rw [List.getLast?_append_of_ne_nil _ hne]
    rw [getLast?_drop_of_lt L q h]
    exact hL
  · have hqe : q = L.length := by omega
    subst hqe
    rw [insertAt_eq, List.take_length, List.drop_length]
    rw [List.getLast?_concat]
    intro hcon
    exact he (Option.some.inj hcon)

lemma StepIns_count (L X : List Line) (h : StepIns L X) :
    header_count X = header_count L := by
  rcases h with ⟨q, e, hq, hX, he, _, _⟩ | ⟨q, e, f, hq, hX, he, _, _, hf, _, _⟩
  · rw [hX, header_count_insertAt L q e he]
  · rw [hX, header_count_insertAt _ q f hf, header_count_insertAt L q e he]

lemma StepIns_nl (L X : List Line) (h : StepIns L X)
    (hnl : ∀ l ∈ L, ¬ ('\n' ∈ l)) : ∀ l ∈ X, ¬ ('\n' ∈ l) := by
  rcases h with ⟨q, e, hq, hX, _, hen, _⟩ | ⟨q, e, f, hq, hX, _, hen, _, _, hfn, _⟩
  · intro l hl
    rcases mem_insertAt L q e l (by rw [← hX]; exact hl) with rfl | h2
    · exact hen
    · exact hnl l h2
  · intro l hl
    rcases mem_insertAt _ q f l (by rw [← hX]; exact hl) with rfl | h2
    · exact hfn
    · rcases mem_insertAt L q e l h2 with rfl | h3
      · exact hen
      · exact hnl l h3

lemma StepIns_last (L X : List Line) (h : StepIns L X)
    (hl : L.getLast? ≠ some ([] : Line)) : X.getLast? ≠ some ([] : Line) := by
  rcases h with ⟨q, e, hq, hX, _, _, hee⟩ | ⟨q, e, f, hq, hX, _, _, hee, _, _, hfe⟩
  · rw [hX]
    exact getLast?_insertAt_ne L q e hq hee hl
  · rw [hX]
    exact getLast?_insertAt_ne _ q f (by rw [length_insertAt]; omega) hfe
      (getLast?_insertAt_ne L q e hq hee hl)

lemma StepIns_len (L X : List Line) (h : StepIns L X) : L.length < X.length := by
  rcases h with ⟨q, e, _, hX, _, _, _⟩ | ⟨q, e, f, _, hX, _, _, _, _, _, _⟩
  · rw [hX, length_insertAt]
    omega
  · rw [hX, length_insertAt, length_insertAt]
    omega

lemma StepIns_ModW (L X : List Line) (h : StepIns L X) (pidx : Nat)
    (segs : List String) (hm : ModW L pidx segs) : ModW X pidx segs := by
  rcases h with ⟨q, e, hq, hX, he, _, _⟩ | ⟨q, e, f, hq, hX, he, _, _, hf, _, _⟩
  · rw [hX]
    exact ModW_insert L pidx segs hm q e hq he
  · rw [hX]
    exact ModW_insert _ pidx segs (ModW_insert L pidx segs hm q e hq he) q f
      (by rw [length_insertAt]; omega) hf

lemma hdrB_entry_false (k : Nat) (n : String) (hwf : wellFormedName n = true)
    (hk : k ≠ 0) : hdrB (spaces k ++ "- name: ".data ++ n.data) = false := by
  obtain ⟨_, hind, _⟩ := entry_line_shape k n hwf
  exact hdrB_false_of_indent _ (by omega)

lemma entry_ne_nil (k : Nat) (n : String) :
    (spaces k ++ "- name: ".data ++ n.data : Line) ≠ [] := by
  intro hcon
  have := congrArg List.length hcon
  rw [List.length_append, List.length_append] at this
  simp at this

lemma atlm_step (L : List Line) (pidx : Nat) (n : String)
    (hwf : wellFormedName n = true) (hcnt : pidx < header_count L)
    (hguard : atlmOk L pidx = true) :
    StepIns L (add_top_level_module L pidx n.data) ∧
      ModW (add_top_level_module L pidx n.data) pidx [n] := by
  have hlit4 : (spaces 4 ++ "- name: ".data ++ n.data : Line) =
      "    - name: ".data ++ n.data := by
    rw [show (spaces 4 : Line) = "    ".data from by decide]
    rfl
  obtain ⟨heT, heI, heN⟩ := entry_line_shape 4 n hwf
  rw [hlit4] at heT heI heN
  have heH : hdrB ("    - name: ".data ++ n.data) = false :=
    hdrB_false_of_indent _ (by omega)
  have heE : ("    - name: ".data ++ n.data : Line) ≠ [] := by
    have := entry_ne_nil 4 n
    rw [hlit4] at this
    exact this
  have hlit2 : (spaces 2 ++ "tree:".data : Line) = "  tree:".data := by
    rw [show (spaces 2 : Line) = "  ".data from by decide]
    rfl
  obtain ⟨htT, htI, htN⟩ := tree_line_shape 2
  rw [hlit2] at htT htI htN
  have htH : hdrB ("  tree:".data) = false :=
    hdrB_false_of_tree _ (by rw [htT]; exact beq_self_eq_true _)
  have htE : ("  tree:".data : Line) ≠ [] := by decide
  unfold add_top_level_module
  rcases hgo : atlm_go L pidx L.length 0 (-1) none none with ⟨tl, pos⟩
  cases tl with
  | none =>
    -- creation branch at the project end
    have hfold : (pidx : Int) ≤ (aplf_fold pidx L L.length).1 := by
      rw [aplf_fold_fst_count, List.take_length]
      push_cast
      omega
    have hfpe : find_project_end L pidx ≤ L.length ∧
        (aplf_fold pidx L (find_project_end L pidx)).1 = (pidx : Int) := by
      have h0 : (aplf_fold pidx L 0).1 = (-1 : Int) := by
        rw [aplf_fold_fst_count]
        simp [header_count]
      have := fpe_go_state L pidx hfold L.length 0 (by omega)
        (by rw [aplf_fold_fst_count]; simp [header_count]; omega)
      unfold find_project_end
      rw [show (-1 : Int) = (aplf_fold pidx L 0).1 from h0.symm]
      exact this
    obtain ⟨hpeL, hpeC⟩ := hfpe
    have hpeCnt : header_count (L.take (find_project_end L pidx)) = pidx + 1 := by
      rw [aplf_fold_fst_count] at hpeC
      have : (header_count (L.take (find_project_end L pidx)) : Int) =
          (pidx : Int) + 1 := by omega
      exact_mod_cast this
    set pe := find_project_end L pidx with hpe
    have hXX : insertAt (insertAt L pe ("    - name: ".data ++ n.data)) pe "  tree:".data
        = L.take pe ++ "  tree:".data :: ("    - name: ".data ++ n.data) :: L.drop pe :=
      insertAt_insertAt L pe hpeL _ _
    constructor
    · exact Or.inr ⟨pe, _, _, hpeL, rfl, heH, heN, heE, htH, htN, htE⟩
    · refine ⟨pe, pe + 1, ?_, ?_, ?_, ?_, ?_, ?_, ?_, ?_⟩
      · omega
      · rw [hXX, List.length_append, List.length_cons, List.length_cons,
          List.length_take, List.length_drop]
        omega
      · rw [hXX]
        have hlen : (L.take pe).length = pe := by
          rw [List.length_take]
          omega
        rw [List.take_append_of_le_length (by omega)]
        rw [List.take_take, Nat.min_self]
        exact hpeCnt
      · rw [hXX, getD_append_self' _ _ _ pe (by rw [List.length_take]; omega)]
        rw [htT]
        exact beq_self_eq_true _
      · rw [hXX, getD_append_self' _ _ _ pe (by rw [List.length_take]; omega)]
        rw [htI]
        rfl
      · rw [hXX, getD_append_succ' _ _ _ _ pe (by rw [List.length_take]; omega)]
        rw [heT]
        exact beq_self_eq_true _
      · rw [hXX, getD_append_succ' _ _ _ _ pe (by rw [List.length_take]; omega)]
        rw [heI]
        rfl
      · intro k hk1 hk2
        have : k = pe ∨ k = pe + 1 := by omega
        rcases this with rfl | rfl
        · rw [hXX, getD_append_self' _ _ _ pe (by rw [List.length_take]; omega)]
          exact htH
        · rw [hXX, getD_append_succ' _ _ _ _ pe (by rw [List.length_take]; omega)]
          exact heH
  | some tlv =>
    cases pos with
    | none =>
      exfalso
      unfold atlmOk at hguard
      rw [hgo] at hguard
      cases hguard
    | some p =>
      obtain ⟨hpL, j2, hl1, hl2, hl3, hl4, hl5⟩ :=
        atlm_go_facts L pidx L.length 0 (-1) none none (by omega)
          (by simp [header_count]) (fun j0 h => by cases h) (fun p0 h => by cases h)
          tlv p hgo
      constructor
      · exact Or.inl ⟨p, _, hpL, rfl, heH, heN, heE⟩
      · refine ⟨j2, p, hl1, ?_, ?_, ?_, ?_, ?_, ?_, ?_⟩
        · rw [length_insertAt]
          omega
        · rw [take_insertAt_of_le L p _ hpL j2 (by omega)]
          exact hl2
        · rw [getD_insertAt_lt L p _ hpL j2 hl1]
          exact hl3
        · rw [getD_insertAt_lt L p _ hpL j2 hl1]
          exact hl4
        · rw [getD_insertAt_self L p _ hpL, heT]
          exact beq_self_eq_true _
        · rw [getD_insertAt_self L p _ hpL, heI]
          rfl
        · intro k hk1 hk2
          rcases Nat.lt_or_ge k p with h | h
          · rw [getD_insertAt_lt L p _ hpL k h]
            exact hl5 k hk1 h
          · have hkp : k = p := by omega
            rw [hkp, getD_insertAt_self L p _ hpL]
            exact heH

lemma ModW_of_trace (L : List Line) (pidx : Nat) (segs : List String)
    (hlen : 2 ≤ segs.length) (h : ∃ ps, navTrace L segs ps) :
    ModW L pidx segs := by
  match segs with
  | [] => simp at hlen
  | [s] => simp at hlen
  | a :: b :: rest => exact h

lemma navChainErr_pos (L : List Line) (msg : String) (segs : List String)
    (s r : Nat) (hne : segs ≠ []) (h : navChainErr L msg s segs = Except.ok r) :
    1 ≤ r := by
  cases segs with
  | nil => exact absurd rfl hne
  | cons d rest =>
    simp only [navChainErr] at h
    cases hf : find_module_start L s d.data with
    | none => rw [hf] at h; cases h
    | some idx =>
      rw [hf] at h
      have := navChainErr_ge L msg rest (idx + 1) r h
      omega

lemma navChainErr_le_len (L : List Line) (msg : String) :
    ∀ (segs : List String) (s r : Nat), segs ≠ [] →
      navChainErr L msg s segs = Except.ok r → r ≤ L.length := by
  intro segs
  induction segs with
  | nil => intro s r hne; exact absurd rfl hne
  | cons d rest ih =>
    intro s r _ h
    simp only [navChainErr] at h
    cases hf : find_module_start L s d.data with
    | none => rw [hf] at h; cases h
    | some idx =>
      rw [hf] at h
      have hidx := (fms_facts L s d.data idx hf).2.1
      cases rest with
      | nil =>
        have : idx + 1 = r := Except.ok.inj h
        omega
      | cons d2 rest2 => exact ih (idx + 1) r (by simp) h

lemma parent_end_go_facts (L : List Line) (pi b : Nat) :
    ∀ (fuel i pe : Nat), fuel = L.length - i → b ≤ pe → b ≤ i → pe < L.length →
      b ≤ parent_end_go L pi fuel i pe ∧ parent_end_go L pi fuel i pe < L.length := by
  intro fuel
  induction fuel with
  | zero =>
    intro i pe _ hbpe _ hpeL
    simp only [parent_end_go]
    exact ⟨hbpe, hpeL⟩
  | succ fuel ih =>
    intro i pe hf hbpe hbi hpeL
    have hiL : i < L.length := by omega
    simp only [parent_end_go]
    by_cases hbrk : (!(trimL (L.getD i [])).isEmpty &&
        decide (indentOf (L.getD i []) ≤ pi)) = true
    · rw [if_pos hbrk]
      exact ⟨hbpe, hpeL⟩
    · rw [if_neg hbrk]
      by_cases hemp : (!(trimL (L.getD i [])).isEmpty) = true
      · rw [if_pos hemp]
        exact ih (i + 1) i (by omega) (by omega) (by omega) hiL
      · rw [if_neg hemp]
        exact ih (i + 1) pe (by omega) hbpe (by omega) hpeL

lemma anm_scan_facts (L : List Line) (pi a : Nat) :
    ∀ (fuel i : Nat) (found : Bool) (pos : Option Nat),
      fuel = L.length - i → a ≤ i →
      (found = true → ∃ tk, a ≤ tk ∧ tk < L.length ∧
        (trimL (L.getD tk []) == "tree:".data) = true ∧
        (indentOf (L.getD tk []) == pi + 2) = true) →
      (∀ p0, pos = some p0 → a ≤ p0 ∧ p0 ≤ L.length) →
      ∀ found2 pos2, anm_scan_go L pi fuel i found pos = (found2, pos2) →
        (found2 = true → ∃ tk, a ≤ tk ∧ tk < L.length ∧
          (trimL (L.getD tk []) == "tree:".data) = true ∧
          (indentOf (L.getD tk []) == pi + 2) = true) ∧
        (∀ p0, pos2 = some p0 → a ≤ p0 ∧ p0 ≤ L.length) := by
  intro fuel
  induction fuel with
  | zero =>
    intro i found pos _ _ hfound hpos found2 pos2 hres
    simp only [anm_scan_go] at hres
    injection hres with h1 h2
    subst h1
    subst h2
    exact ⟨hfound, hpos⟩
  | succ fuel ih =>
    intro i found pos hf hai hfound hpos found2 pos2 hres
    have hiL : i < L.length := by omega
    simp only [anm_scan_go] at hres
    by_cases hbrk : (!(trimL (L.getD i [])).isEmpty &&
        decide (indentOf (L.getD i []) ≤ pi)) = true
    · rw [if_pos hbrk] at hres
      injection hres with h1 h2
      subst h1
      subst h2
      exact ⟨hfound, hpos⟩
    · rw [if_neg hbrk] at hres
      by_cases htc : (trimL (L.getD i []) == "tree:".data &&
          indentOf (L.getD i []) == pi + 2) = true
      · rw [if_pos htc] at hres
        obtain ⟨htc1, htc2⟩ := Bool.and_eq_true_iff.mp htc
        exact ih (i + 1) true pos (by omega) (by omega)
          (fun _ => ⟨i, hai, hiL, htc1, htc2⟩) hpos found2 pos2 hres
      · rw [if_neg htc] at hres
        by_cases hpc : (found && indentOf (L.getD i []) == pi + 4 &&
            nameKw.isPrefixOf (trimL (L.getD i []))) = true
        · rw [if_pos hpc] at hres
          obtain ⟨hw1, hw2, _⟩ := span_window L (pi + 4) i hiL
          refine ih (i + 1) found _ (by omega) (by omega) hfound ?_ found2 pos2 hres
          intro p0 h0
          have := Option.some.inj h0
          omega
        · rw [if_neg hpc] at hres
          exact ih (i + 1) found pos (by omega) (by omega) hfound hpos found2 pos2 hres

lemma anm_fallback_facts (L : List Line) (pi start ipos : Nat)
    (h : anm_fallback_pos L pi start = some ipos) :
    start < ipos ∧ ipos ≤ L.length := by
  unfold anm_fallback_pos at h
  cases hf : (L.drop start).findIdx? (fun l =>
      trimL l == "tree:".data && indentOf l == pi + 2) with
  | none => rw [hf] at h; cases h
  | some k =>
    rw [hf] at h
    have hik : start + k + 1 = ipos := Option.some.inj h
    obtain ⟨d, hkd, hdlen, _, _⟩ := findIdx_go_some _ _ _ _ hf
    rw [List.length_drop] at hdlen
    omega

lemma anm_fallback_none_absurd (L : List Line) (pi start : Nat)
    (h : anm_fallback_pos L pi start = none) (tk : Nat)
    (h1 : start ≤ tk) (h2 : tk < L.length)
    (h3 : (trimL (L.getD tk []) == "tree:".data) = true)
    (h4 : (indentOf (L.getD tk []) == pi + 2) = true) : False := by
  unfold anm_fallback_pos at h
  cases hf : (L.drop start).findIdx? (fun l =>
      trimL l == "tree:".data && indentOf l == pi + 2) with
  | some k => rw [hf] at h; cases h
  | none =>
    have := findIdx_go_none _ _ _ hf (tk - start) (by rw [List.length_drop]; omega)
    rw [getD_drop_add, show start + (tk - start) = tk from by omega] at this
    rw [h3, h4] at this
    cases this

lemma snoc_len2 (done : List String) (n : String) (hdone : done ≠ []) :
    2 ≤ (done ++ [n]).length := by
  cases done with
  | nil => exact absurd rfl hdone
  | cons d ds =>
    rw [List.length_append]
    simp only [List.length_cons, List.length_singleton]
    omega

lemma modw_snoc_insert (L : List Line) (pidx : Nat) (done : List String) (n : String)
    (ps : List Nat) (ss p : Nat) (hdone : done ≠ [])
    (htr : navTrace L done ps) (hbnd : ∀ x ∈ ps, x < ss)
    (hsp : ss ≤ p) (hpL : p ≤ L.length) (e : Line)
    (heT : trimL e = entryLine n.data) :
    ModW (insertAt L p e) pidx (done ++ [n]) := by
  apply ModW_of_trace _ _ _ (snoc_len2 done n hdone)
  refine ⟨ps.map (shiftIns p) ++ [p], ?_⟩
  apply navTrace_snoc_mk
  · exact navTrace_insert L p e hpL done ps htr
  · rw [getD_insertAt_self L p e hpL, heT]
    exact beq_self_eq_true _
  · rw [length_insertAt]
    omega
  · intro x hx
    obtain ⟨y, hy, rfl⟩ := List.mem_map.mp hx
    have := hbnd y hy
    unfold shiftIns
    split_ifs <;> omega

lemma modw_snoc_insert2 (L : List Line) (pidx : Nat) (done : List String) (n : String)
    (ps : List Nat) (ss q : Nat) (hdone : done ≠ [])
    (htr : navTrace L done ps) (hbnd : ∀ x ∈ ps, x < ss)
    (hsq : ss ≤ q) (hqL : q ≤ L.length) (e f : Line)
    (heT : trimL e = entryLine n.data) :
    ModW (insertAt (insertAt L q e) q f) pidx (done ++ [n]) := by
  have hXX := insertAt_insertAt L q hqL e f
  apply ModW_of_trace _ _ _ (snoc_len2 done n hdone)
  refine ⟨(ps.map (shiftIns q)).map (shiftIns q) ++ [q + 1], ?_⟩
  apply navTrace_snoc_mk
  · exact navTrace_insert _ q f (by rw [length_insertAt]; omega) done _
      (navTrace_insert L q e hqL done ps htr)
  · rw [hXX, getD_append_succ' _ _ _ _ q (by rw [List.length_take]; omega)]
    rw [heT]
    exact beq_self_eq_true _
  · rw [length_insertAt, length_insertAt]
    omega
  · intro x hx
    obtain ⟨y, hy, rfl⟩ := List.mem_map.mp hx
    obtain ⟨z, hz, rfl⟩ := List.mem_map.mp hy
    have := hbnd z hz
    unfold shiftIns
    split_ifs <;> omega

lemma tree_ne_nil (k : Nat) : (spaces k ++ "tree:".data : Line) ≠ [] := by
  intro hcon
  have := congrArg List.length hcon
  rw [List.length_append] at this
  simp at this

lemma anm_step (L : List Line) (pidx : Nat) (done : List String) (n : String)
    (X : List Line) (hwf : wellFormedName n = true) (hdone : done ≠ [])
    (hok : add_nested_module L pidx done n.data = Except.ok X) :
    StepIns L X ∧ ModW X pidx (done ++ [n]) := by
  simp only [add_nested_module] at hok
  split at hok
  · cases hok
  · rename_i ss hnav
    have hss1 : 1 ≤ ss := navChainErr_pos L _ done _ ss hdone hnav
    have hssL : ss ≤ L.length := navChainErr_le_len L _ done _ ss hdone hnav
    obtain ⟨ps, htr, hbnd, _⟩ := trace_of_navChainErr L _ done _ ss hnav
    have hbnd2 : ∀ x ∈ ps, x < ss := fun x hx => (hbnd x hx).2
    obtain ⟨heT, heI, heN⟩ :=
      entry_line_shape (indentOf (L.getD (ss - 1) []) + 4) n hwf
    have heH : hdrB (spaces (indentOf (L.getD (ss - 1) []) + 4) ++
        "- name: ".data ++ n.data) = false :=
      hdrB_false_of_indent _ (by omega)
    have heE := entry_ne_nil (indentOf (L.getD (ss - 1) []) + 4) n
    obtain ⟨htT, htI, htN⟩ := tree_line_shape (indentOf (L.getD (ss - 1) []) + 2)
    have htH : hdrB (spaces (indentOf (L.getD (ss - 1) []) + 2) ++ "tree:".data)
        = false := hdrB_false_of_tree _ (by rw [htT]; exact beq_self_eq_true _)
    have htE := tree_ne_nil (indentOf (L.getD (ss - 1) []) + 2)
    split at hok
    · -- no tree section found: create it at the parent block end
      rename_i scanout snd hscan
      have hpef := parent_end_go_facts L (indentOf (L.getD (ss - 1) [])) (ss - 1)
        (L.length - (ss - 1 + 1)) (ss - 1 + 1) (ss - 1) rfl le_rfl (by omega)
        (by omega)
      have hX := Except.ok.inj hok
      rw [← hX]
      constructor
      · exact Or.inr ⟨_, _, _, by omega, rfl, heH, heN, heE, htH, htN, htE⟩
      · exact modw_snoc_insert2 L pidx done n ps ss _ hdone htr hbnd2
          (by omega) (by omega) _ _ heT
    · -- insert after the last entry of the tree section
      rename_i scanout p hscan
      have hfacts := anm_scan_facts L (indentOf (L.getD (ss - 1) [])) (ss - 1 + 1)
        (L.length - (ss - 1 + 1)) (ss - 1 + 1) false none rfl le_rfl
        (fun hcon => by cases hcon) (fun p0 h0 => by cases h0) true (some p) hscan
      obtain ⟨hp1, hp2⟩ := hfacts.2 p rfl
      have hX := Except.ok.inj hok
      rw [← hX]
      constructor
      · exact Or.inl ⟨p, _, hp2, rfl, heH, heN, heE⟩
      · exact modw_snoc_insert L pidx done n ps ss p hdone htr hbnd2
          (by omega) hp2 _ heT
    · -- empty tree section: fallback position scan
      rename_i scanout hscan
      have hfacts := anm_scan_facts L (indentOf (L.getD (ss - 1) [])) (ss - 1 + 1)
        (L.length - (ss - 1 + 1)) (ss - 1 + 1) false none rfl le_rfl
        (fun hcon => by cases hcon) (fun p0 h0 => by cases h0) true none hscan
      split at hok
      · rename_i ipos hfb
        obtain ⟨hi1, hi2⟩ := anm_fallback_facts L _ _ ipos hfb
        have hX := Except.ok.inj hok
        rw [← hX]
        constructor
        · exact Or.inl ⟨ipos, _, hi2, rfl, heH, heN, heE⟩
        · exact modw_snoc_insert L pidx done n ps ss ipos hdone htr hbnd2
            (by omega) hi2 _ heT
      · rename_i hfb
        exfalso
        obtain ⟨tk, htk1, htk2, htk3, htk4⟩ := hfacts.1 rfl
        exact anm_fallback_none_absurd L _ _ hfb tk htk1 htk2 htk3 htk4

/-! ### The depth loop of ensure_tree_path: invariants and witnesses -/

lemma take_snoc_of_lt (done : List String) (seg : String) (k : Nat)
    (hk : k < done.length) : (done ++ [seg]).take (k + 1) = done.take (k + 1) :=
  List.take_append_of_le_length (by omega)

lemma take_snoc_self (done : List String) (seg : String) :
    (done ++ [seg]).take (done.length + 1) = done ++ [seg] := by
  apply List.take_of_length_le
  rw [List.length_append]
  simp

lemma ensure_go_post (pidx : Nat) (t : String) :
    ∀ (rest done : List String) (T : String),
      (∀ s ∈ rest, wellFormedName s = true) →
      (∀ l ∈ linesOfStr T, ¬ ('\n' ∈ l)) →
      (linesOfStr T).getLast? ≠ some ([] : Line) →
      pidx < header_count (linesOfStr T) →
      (done = [] → atlmOk (linesOfStr T) pidx = true) →
      (∀ k, k < done.length → ModW (linesOfStr T) pidx (done.take (k + 1))) →
      (T = t ∨ T = strOfLines (linesOfStr T)) →
      ∀ R, ensure_tree_path_go pidx done T rest = Except.ok R →
        (∀ l ∈ linesOfStr R, ¬ ('\n' ∈ l)) ∧
        (linesOfStr R).getLast? ≠ some ([] : Line) ∧
        pidx < header_count (linesOfStr R) ∧
        (∀ k, k < (done ++ rest).length →
          ModW (linesOfStr R) pidx ((done ++ rest).take (k + 1))) ∧
        (R = t ∨ R = strOfLines (linesOfStr R)) := by
  intro rest
  induction rest with
  | nil =>
    intro done T _ hnl hlast hcnt _ hmods hform R hgo
    have hRT : T = R := Except.ok.inj hgo
    subst hRT
    rw [List.append_nil]
    exact ⟨hnl, hlast, hcnt, fun k hk => hmods k hk, hform⟩
  | cons seg rest2 ih =>
    intro done T hwf hnl hlast hcnt hguard hmods hform R hgo
    have hwfseg : wellFormedName seg = true := hwf seg (List.mem_cons_self _ _)
    have hwf2 : ∀ s ∈ rest2, wellFormedName s = true :=
      fun s hs => hwf s (List.mem_cons_of_mem _ hs)
    have hlistEq : done ++ seg :: rest2 = (done ++ [seg]) ++ rest2 := by
      rw [List.append_assoc]
      rfl
    simp only [ensure_tree_path_go] at hgo
    split at hgo
    · -- the module already exists: keep its witness and recurse
      rename_i hex
      have hfresh : ModW (linesOfStr T) pidx (done ++ [seg]) :=
        ModW_of_module_exists T pidx (done ++ [seg]) hex
      have hmods2 : ∀ k, k < (done ++ [seg]).length →
          ModW (linesOfStr T) pidx ((done ++ [seg]).take (k + 1)) := by
        intro k hk
        rw [List.length_append, List.length_singleton] at hk
        rcases Nat.lt_or_ge k done.length with h | h
        · rw [take_snoc_of_lt done seg k h]
          exact hmods k h
        · have hke : k = done.length := by omega
          rw [hke, take_snoc_self]
          exact hfresh
      have := ih (done ++ [seg]) T hwf2 hnl hlast hcnt
        (fun hcon => absurd hcon (by simp)) hmods2 hform R hgo
      rw [hlistEq]
      exact this
    · -- the module is created by add_module, then recurse on the new text
      rename_i hexF
      split at hgo
      · cases hgo
      · rename_i r2 hadd
        simp only [add_module] at hadd
        by_cases hemp : done = []
        · subst hemp
          rw [if_pos (by rfl)] at hadd
          have hX := Except.ok.inj hadd
          obtain ⟨hstep, hmw⟩ := atlm_step (linesOfStr T) pidx seg hwfseg hcnt
            (hguard rfl)
          have hXnl := StepIns_nl _ _ hstep hnl
          have hXlast := StepIns_last _ _ hstep hlast
          have hXcnt := StepIns_count _ _ hstep
          have hr2 : linesOfStr r2 =
              add_top_level_module (linesOfStr T) pidx seg.data := by
            rw [← hX]
            exact linesOf_join_clean _ hXnl hXlast
          have := ih [seg] r2 hwf2 (by rw [hr2]; exact hXnl) (by rw [hr2]; exact hXlast)
            (by rw [hr2, hXcnt]; exact hcnt)
            (fun hcon => by cases hcon)
            (by
              intro k hk
              rw [List.length_singleton] at hk
              have hke : k = 0 := by omega
              rw [hke]
              rw [show ([seg] : List String).take 1 = [seg] from rfl]
              rw [hr2]
              exact hmw)
            (Or.inr (by rw [hr2, ← hX]))
            R hgo
          rw [show ([] : List String) ++ seg :: rest2 = [seg] ++ rest2 from rfl]
          exact this
        · rw [if_neg (by
            intro hcon
            exact hemp (List.isEmpty_iff.mp hcon))] at hadd
          split at hadd
          · cases hadd
          · rename_i ls hanm
            have hX := Except.ok.inj hadd
            obtain ⟨hstep, hmw⟩ := anm_step (linesOfStr T) pidx done seg ls
              hwfseg hemp hanm
            have hXnl := StepIns_nl _ _ hstep hnl
            have hXlast := StepIns_last _ _ hstep hlast
            have hXcnt := StepIns_count _ _ hstep
            have hr2 : linesOfStr r2 = ls := by
              rw [← hX]
              exact linesOf_join_clean _ hXnl hXlast
            have hmods2 : ∀ k, k < (done ++ [seg]).length →
                ModW (linesOfStr r2) pidx ((done ++ [seg]).take (k + 1)) := by
              intro k hk
              rw [List.length_append, List.length_singleton] at hk
              rcases Nat.lt_or_ge k done.length with h | h
              · rw [take_snoc_of_lt done seg k h, hr2]
                exact StepIns_ModW _ _ hstep pidx _ (hmods k h)
              · have hke : k = done.length := by omega
                rw [hke, take_snoc_self, hr2]
                exact hmw
            have := ih (done ++ [seg]) r2 hwf2 (by rw [hr2]; exact hXnl)
              (by rw [hr2]; exact hXlast) (by rw [hr2, hXcnt]; exact hcnt)
              (fun hcon => absurd hcon (by simp)) hmods2
              (Or.inr (by rw [hr2, ← hX]))
              R hgo
            rw [hlistEq]
            exact this

lemma contSpan_window (L : List Line) (i thr : Nat) :
    contSpanLen L i thr ≤ L.length - (i + 1) ∧
    ∀ k, i + 1 ≤ k → k < i + contSpanLen L i thr + 1 →
      (!(trimL (L.getD k [])).isEmpty && decide (thr < indentOf (L.getD k [])) &&
        !(nameKw.isPrefixOf (trimL (L.getD k [])))) = true := by
  constructor
  · have h1 := (List.takeWhile_prefix (l := L.drop (i + 1))
      (fun l => !(trimL l).isEmpty && decide (thr < indentOf l) &&
        !(nameKw.isPrefixOf (trimL l)))).length_le
    rw [List.length_drop] at h1
    exact h1
  · intro k hk1 hk2
    have hkw : k - (i + 1) < contSpanLen L i thr := by omega
    have := takeWhile_pred_getD _ (L.drop (i + 1)) (k - (i + 1)) hkw
    rw [getD_drop_add, show i + 1 + (k - (i + 1)) = k from by omega] at this
    exact this

lemma nobreak_of_span (L : List Line) (mi k : Nat)
    (h : (!(trimL (L.getD k [])).isEmpty && decide (mi + 4 < indentOf (L.getD k [])) &&
      !(nameKw.isPrefixOf (trimL (L.getD k [])))) = true) :
    (!(trimL (L.getD k [])).isEmpty && decide (indentOf (L.getD k []) ≤ mi)) = false := by
  obtain ⟨h12, _⟩ := Bool.and_eq_true_iff.mp h
  obtain ⟨_, h2⟩ := Bool.and_eq_true_iff.mp h12
  have := of_decide_eq_true h2
  rw [show decide (indentOf (L.getD k []) ≤ mi) = false from
    decide_eq_false (by omega)]
  rw [Bool.and_false]

lemma aftm_insert_facts (L : List Line) (mi a : Nat) :
    ∀ (fuel i : Nat) (found : Bool) (pos : Option Nat),
      fuel = L.length - i → a ≤ i →
      (∀ k, a ≤ k → k < i → (!(trimL (L.getD k [])).isEmpty &&
        decide (indentOf (L.getD k []) ≤ mi)) = false) →
      (found = true → ∃ fk, a ≤ fk ∧ fk < i ∧
        (trimL (L.getD fk []) == "file:".data) = true ∧
        (indentOf (L.getD fk []) == mi + 2) = true) →
      (∀ p0, pos = some p0 → p0 ≤ L.length ∧
        (∃ fk, a ≤ fk ∧ fk < p0 ∧
          (trimL (L.getD fk []) == "file:".data) = true ∧
          (indentOf (L.getD fk []) == mi + 2) = true) ∧
        (∀ k, i ≤ k → k < p0 → (!(trimL (L.getD k [])).isEmpty &&
          decide (indentOf (L.getD k []) ≤ mi)) = false)) →
      ∀ found2 p, aftm_insert_go L mi fuel i found pos = (found2, some p) →
        p ≤ L.length ∧
        (∃ fk, a ≤ fk ∧ fk < p ∧
          (trimL (L.getD fk []) == "file:".data) = true ∧
          (indentOf (L.getD fk []) == mi + 2) = true) ∧
        (∀ k, a ≤ k → k < p → (!(trimL (L.getD k [])).isEmpty &&
          decide (indentOf (L.getD k []) ≤ mi)) = false) := by
  intro fuel
  induction fuel with
  | zero =>
    intro i found pos _ _ hnb _ hpos found2 p hres
    simp only [aftm_insert_go] at hres
    injection hres with h1 h2
    obtain ⟨hl, hfk, hrange⟩ := hpos p h2
    refine ⟨hl, hfk, ?_⟩
    intro k hk1 hk2
    rcases Nat.lt_or_ge k i with h | h
    · exact hnb k hk1 h
    · exact hrange k h hk2
  | succ fuel ih =>
    intro i found pos hf hai hnb hfound hpos found2 p hres
    have hiL : i < L.length := by omega
    simp only [aftm_insert_go] at hres
    by_cases hbrk : (!(trimL (L.getD i [])).isEmpty &&
        decide (indentOf (L.getD i []) ≤ mi)) = true
    · rw [if_pos hbrk] at hres
      injection hres with h1 h2
      obtain ⟨hl, hfk, hrange⟩ := hpos p h2
      refine ⟨hl, hfk, ?_⟩
      intro k hk1 hk2
      rcases Nat.lt_or_ge k i with h | h
      · exact hnb k hk1 h
      · exact hrange k h hk2
    · rw [if_neg hbrk] at hres
      have hnb2 : ∀ k, a ≤ k → k < i + 1 → (!(trimL (L.getD k [])).isEmpty &&
          decide (indentOf (L.getD k []) ≤ mi)) = false := by
        intro k hk1 hk2
        rcases Nat.lt_or_ge k i with h | h
        · exact hnb k hk1 h
        · have : k = i := by omega
          rw [this]
          exact Bool.eq_false_iff.mpr hbrk
      by_cases hfkc : (trimL (L.getD i []) == "file:".data &&
          indentOf (L.getD i []) == mi + 2) = true
      · rw [if_pos hfkc] at hres
        obtain ⟨hfk1, hfk2⟩ := Bool.and_eq_true_iff.mp hfkc
        exact ih (i + 1) true (some (i + 1)) (by omega) (by omega) hnb2
          (fun _ => ⟨i, hai, by omega, hfk1, hfk2⟩)
          (fun p0 h0 => by
            have hp0 : i + 1 = p0 := Option.some.inj h0
            exact ⟨by omega, ⟨i, hai, by omega, hfk1, hfk2⟩,
              fun k hk1 hk2 => by omega⟩)
          found2 p hres
      · rw [if_neg hfkc] at hres
        by_cases hpc : (found && indentOf (L.getD i []) == mi + 4 &&
            nameKw.isPrefixOf (trimL (L.getD i []))) = true
        · simp only [if_pos hpc] at hres
          obtain ⟨hpc12, _⟩ := Bool.and_eq_true_iff.mp hpc
          obtain ⟨hpcf, _⟩ := Bool.and_eq_true_iff.mp hpc12
          obtain ⟨fk, hfka, hfki, hfkm, hfkn⟩ := hfound hpcf
          obtain ⟨hcw1, hcw2⟩ := contSpan_window L i (mi + 4)
          have hposinv : ∀ p0, some (i + contSpanLen L i (mi + 4) + 1) = some p0 →
              p0 ≤ L.length ∧
              (∃ fk2, a ≤ fk2 ∧ fk2 < p0 ∧
                (trimL (L.getD fk2 []) == "file:".data) = true ∧
                (indentOf (L.getD fk2 []) == mi + 2) = true) ∧
              (∀ k, i + 1 ≤ k → k < p0 → (!(trimL (L.getD k [])).isEmpty &&
                decide (indentOf (L.getD k []) ≤ mi)) = false) := by
            intro p0 h0
            have hp0 : i + contSpanLen L i (mi + 4) + 1 = p0 := Option.some.inj h0
            refine ⟨by omega, ⟨fk, hfka, by omega, hfkm, hfkn⟩, ?_⟩
            intro k hk1 hk2
            exact nobreak_of_span L mi k (hcw2 k hk1 (by omega))
          by_cases htc : (found && trimL (L.getD i []) == "tree:".data &&
              indentOf (L.getD i []) == mi + 2) = true
          · rw [if_pos htc] at hres
            injection hres with h1 h2
            obtain ⟨hl, hfko, hrange⟩ := hposinv p h2
            refine ⟨hl, hfko, ?_⟩
            intro k hk1 hk2
            rcases Nat.lt_or_ge k (i + 1) with h | h
            · exact hnb2 k hk1 h
            · exact hrange k h hk2
          · rw [if_neg htc] at hres
            exact ih (i + 1) found _ (by omega) (by omega) hnb2
              (fun hc => by
                obtain ⟨fk2, h1, h2, h3, h4⟩ := hfound hc
                exact ⟨fk2, h1, by omega, h3, h4⟩)
              hposinv found2 p hres
        · simp only [if_neg hpc] at hres
          have hposinv : ∀ p0, pos = some p0 → p0 ≤ L.length ∧
              (∃ fk2, a ≤ fk2 ∧ fk2 < p0 ∧
                (trimL (L.getD fk2 []) == "file:".data) = true ∧
                (indentOf (L.getD fk2 []) == mi + 2) = true) ∧
              (∀ k, i + 1 ≤ k → k < p0 → (!(trimL (L.getD k [])).isEmpty &&
                decide (indentOf (L.getD k []) ≤ mi)) = false) := by
            intro p0 h0
            obtain ⟨hl, hfko, hrange⟩ := hpos p0 h0
            exact ⟨hl, hfko, fun k hk1 hk2 => hrange k (by omega) hk2⟩
          by_cases htc : (found && trimL (L.getD i []) == "tree:".data &&
              indentOf (L.getD i []) == mi + 2) = true
          · rw [if_pos htc] at hres
            injection hres with h1 h2
            obtain ⟨hl, hfko, hrange⟩ := hposinv p h2
            refine ⟨hl, hfko, ?_⟩
            intro k hk1 hk2
            rcases Nat.lt_or_ge k (i + 1) with h | h
            · exact hnb2 k hk1 h
            · exact hrange k h hk2
          · rw [if_neg htc] at hres
            exact ih (i + 1) found pos (by omega) (by omega) hnb2
              (fun hc => by
                obtain ⟨fk2, h1, h2, h3, h4⟩ := hfound hc
                exact ⟨fk2, h1, by omega, h3, h4⟩)
              hposinv found2 p hres

lemma aftm_create_facts (L : List Line) (mi a : Nat) :
    ∀ (fuel i mce : Nat), fuel = L.length - i → a ≤ i → mce + 1 ≤ i →
      mce < L.length → a ≤ mce + 1 →
      (∀ k, a ≤ k → k < i → (!(trimL (L.getD k [])).isEmpty &&
        decide (indentOf (L.getD k []) ≤ mi)) = false) →
      ∀ tp2 mce2, aftm_create_go L mi fuel i mce = (tp2, mce2) →
        (∀ tp0, tp2 = some tp0 → a ≤ tp0 ∧ tp0 < L.length ∧
          (trimL (L.getD tp0 []) == "tree:".data) = true ∧
          (indentOf (L.getD tp0 []) == mi + 2) = true ∧
          (∀ k, a ≤ k → k < tp0 → (!(trimL (L.getD k [])).isEmpty &&
            decide (indentOf (L.getD k []) ≤ mi)) = false)) ∧
        (tp2 = none → mce2 + 1 ≤ L.length ∧ a ≤ mce2 + 1 ∧
          (∀ k, a ≤ k → k < mce2 + 1 → (!(trimL (L.getD k [])).isEmpty &&
            decide (indentOf (L.getD k []) ≤ mi)) = false)) := by
  intro fuel
  induction fuel with
  | zero =>
    intro i mce _ _ hmce hmceL hamce hnb tp2 mce2 hres
    simp only [aftm_create_go] at hres
    injection hres with h1 h2
    subst h1
    subst h2
    constructor
    · intro tp0 h0
      cases h0
    · intro _
      refine ⟨by omega, hamce, ?_⟩
      intro k hk1 hk2
      exact hnb k hk1 (by omega)
  | succ fuel ih =>
    intro i mce hf hai hmce hmceL hamce hnb tp2 mce2 hres
    have hiL : i < L.length := by omega
    simp only [aftm_create_go] at hres
    by_cases hbrk : (!(trimL (L.getD i [])).isEmpty &&
        decide (indentOf (L.getD i []) ≤ mi)) = true
    · rw [if_pos hbrk] at hres
      injection hres with h1 h2
      subst h1
      subst h2
      constructor
      · intro tp0 h0
        cases h0
      · intro _
        refine ⟨by omega, hamce, ?_⟩
        intro k hk1 hk2
        exact hnb k hk1 (by omega)
    · rw [if_neg hbrk] at hres
      have hnb2 : ∀ k, a ≤ k → k < i + 1 → (!(trimL (L.getD k [])).isEmpty &&
          decide (indentOf (L.getD k []) ≤ mi)) = false := by
        intro k hk1 hk2
        rcases Nat.lt_or_ge k i with h | h
        · exact hnb k hk1 h
        · have : k = i := by omega
          rw [this]
          exact Bool.eq_false_iff.mpr hbrk
      by_cases htc : (trimL (L.getD i []) == "tree:".data &&
          indentOf (L.getD i []) == mi + 2) = true
      · rw [if_pos htc] at hres
        injection hres with h1 h2
        subst h1
        obtain ⟨htc1, htc2⟩ := Bool.and_eq_true_iff.mp htc
        refine ⟨?_, fun hcon => by cases hcon⟩
        intro tp0 h0
        have : i = tp0 := Option.some.inj h0
        subst this
        exact ⟨hai, hiL, htc1, htc2, fun k hk1 hk2 => hnb k hk1 hk2⟩
      · rw [if_neg htc] at hres
        by_cases hne : (!(trimL (L.getD i [])).isEmpty) = true
        · rw [if_pos hne] at hres
          exact ih (i + 1) i (by omega) (by omega) (by omega) hiL (by omega) hnb2
            tp2 mce2 hres
        · rw [if_neg hne] at hres
          exact ih (i + 1) mce (by omega) (by omega) (by omega) hmceL hamce hnb2
            tp2 mce2 hres

/-- The insert scan never reports `file:` found without an insert
position. -/
lemma aftm_insert_found_pos (L : List Line) (mi : Nat) :
    ∀ (fuel i : Nat) (found : Bool) (pos : Option Nat),
      (found = true → pos ≠ none) →
      ∀ found2 pos2, aftm_insert_go L mi fuel i found pos = (found2, pos2) →
      (found2 = true → pos2 ≠ none) := by
  intro fuel
  induction fuel with
  | zero =>
    intro i found pos hinv found2 pos2 hres
    simp only [aftm_insert_go] at hres
    injection hres with h1 h2
    subst h1
    subst h2
    exact hinv
  | succ fuel ih =>
    intro i found pos hinv found2 pos2 hres
    simp only [aftm_insert_go] at hres
    by_cases hbrk : (!(trimL (L.getD i [])).isEmpty &&
        decide (indentOf (L.getD i []) ≤ mi)) = true
    · rw [if_pos hbrk] at hres
      injection hres with h1 h2
      subst h1
      subst h2
      exact hinv
    · rw [if_neg hbrk] at hres
      by_cases hfkc : (trimL (L.getD i []) == "file:".data &&
          indentOf (L.getD i []) == mi + 2) = true
      · rw [if_pos hfkc] at hres
        exact ih (i + 1) true (some (i + 1)) (fun _ => by simp) found2 pos2 hres
      · rw [if_neg hfkc] at hres
        by_cases hpc : (found && indentOf (L.getD i []) == mi + 4 &&
            nameKw.isPrefixOf (trimL (L.getD i []))) = true
        · simp only [if_pos hpc] at hres
          by_cases htc : (found && trimL (L.getD i []) == "tree:".data &&
              indentOf (L.getD i []) == mi + 2) = true
          · rw [if_pos htc] at hres
            injection hres with h1 h2
            subst h1
            subst h2
            intro _
            simp
          · rw [if_neg htc] at hres
            exact ih (i + 1) found _ (fun _ => by simp) found2 pos2 hres
        · simp only [if_neg hpc] at hres
          by_cases htc : (found && trimL (L.getD i []) == "tree:".data &&
              indentOf (L.getD i []) == mi + 2) = true
          · rw [if_pos htc] at hres
            injection hres with h1 h2
            subst h1
            subst h2
            intro hf2
            exact hinv hf2
          · rw [if_neg htc] at hres
            exact ih (i + 1) found pos hinv found2 pos2 hres

lemma linesOf_wtn (t r : String)
    (hform : r = t ∨ r = strOfLines (linesOfStr r))
    (hne : linesOfStr r ≠ [])
    (hnl : ∀ l ∈ linesOfStr r, ¬ ('\n' ∈ l))
    (hlast : (linesOfStr r).getLast? ≠ some ([] : Line)) :
    linesOfStr (withTrailingNewline t r) = linesOfStr r := by
  rcases hform with rfl | hr
  · rw [withTrailingNewline_self]
  · conv_lhs => rw [hr]
    exact linesOf_out_clean _ t hnl hne hlast

/-- Transport of the no-op inputs from the modified line list to the
written-out text. -/
lemma aftm_noop_core (t r t1 : String) (pidx : Nat) (ds : List String) (mn : String)
    (X : List Line) (q ss : Nat) (hds : ds ≠ [])
    (hnlX : ∀ l ∈ X, ¬ ('\n' ∈ l)) (hneX : X ≠ [])
    (hlastX : X.getLast? ≠ some ([] : Line))
    (ht1 : t1 = withTrailingNewline t (strOfLines X))
    (htake : X.take q = (linesOfStr r).take q)
    (hXlen : q ≤ X.length) (hqL : q ≤ (linesOfStr r).length)
    (hcntL : pidx < header_count (linesOfStr r))
    (hcntX : pidx < header_count X)
    (hmodsX : ∀ k, k < ds.length → ModW X pidx (ds.take (k + 1)))
    (hnav : navChainErr (linesOfStr r) "Could not find module '"
      (find_project_start (linesOfStr r) pidx) ds = Except.ok ss)
    (hssq : ss ≤ q)
    (hdupX : aftm_dup_go X (entryLine mn.data) (indentOf (X.getD (ss - 1) []))
      (X.length - ss) ss false = true) :
    (∀ k, k < ds.length → module_exists t1 pidx (ds.take (k + 1)) = true) ∧
    ∃ ss2, navChainErr (linesOfStr t1) "Could not find module '"
      (find_project_start (linesOfStr t1) pidx) ds = Except.ok ss2 ∧
    aftm_dup_go (linesOfStr t1) (entryLine mn.data)
      (indentOf ((linesOfStr t1).getD (ss2 - 1) []))
      ((linesOfStr t1).length - (ss2 - 1 + 1)) (ss2 - 1 + 1) false = true := by
  have hss1 : 1 ≤ ss := navChainErr_pos _ _ ds _ ss hds hnav
  have hL1 : linesOfStr t1 = X := by
    rw [ht1]
    exact linesOf_out_clean X t hnlX hneX hlastX
  obtain ⟨ps, htr, hbnd, _⟩ := trace_of_navChainErr (linesOfStr r) _ ds _ ss hnav
  have hfp : find_project_start (linesOfStr r) pidx < q := by
    cases ds with
    | nil => exact absurd rfl hds
    | cons d rest =>
      cases ps with
      | nil => exact absurd htr (by intro h; exact h)
      | cons x0 xs =>
        have := hbnd x0 (List.mem_cons_self _ _)
        omega
  have hfpsEq : find_project_start X pidx = find_project_start (linesOfStr r) pidx :=
    fps_congr X (linesOfStr r) pidx q htake hcntL hcntX hfp hXlen hqL
  have hnavX : navChainErr X "Could not find module '"
      (find_project_start X pidx) ds = Except.ok ss := by
    rw [hfpsEq]
    exact navChainErr_congr X (linesOfStr r) _ q htake hXlen hqL ds _ ss hnav hssq
  refine ⟨?_, ss, ?_, ?_⟩
  · intro k hk
    apply module_exists_of_ModW
    rw [hL1]
    exact hmodsX k hk
  · rw [hL1]
    exact hnavX
  · rw [hL1]
    rw [show ss - 1 + 1 = ss from by omega]
    exact hdupX

lemma entryLine_ne_nil (x : Line) : entryLine x ≠ [] := by
  unfold entryLine
  intro h
  have := congrArg List.length h
  rw [List.length_append] at this
  simp at this

lemma aftm_pack_create (t r t1 : String) (pidx : Nat) (ds : List String)
    (mn : String) (ss q mi : Nat) (hds : ds ≠ [])
    (hwfm : wellFormedName mn = true)
    (hnlR : ∀ l ∈ linesOfStr r, ¬ ('\n' ∈ l))
    (hlastR : (linesOfStr r).getLast? ≠ some ([] : Line))
    (hcntR : pidx < header_count (linesOfStr r))
    (hmods : ∀ k, k < ds.length → ModW (linesOfStr r) pidx (ds.take (k + 1)))
    (hnav : navChainErr (linesOfStr r) "Could not find module '"
      (find_project_start (linesOfStr r) pidx) ds = Except.ok ss)
    (hmi : mi = indentOf ((linesOfStr r).getD (ss - 1) []))
    (hq1 : ss ≤ q) (hq2 : q ≤ (linesOfStr r).length)
    (hnb : ∀ k, ss ≤ k → k < q →
      (!(trimL ((linesOfStr r).getD k [])).isEmpty &&
        decide (indentOf ((linesOfStr r).getD k []) ≤ mi)) = false)
    (ht1 : t1 = withTrailingNewline t (strOfLines
      (insertAt (insertAt (linesOfStr r) q
        (spaces (mi + 4) ++ "- name: ".data ++ mn.data)) q
        (spaces (mi + 2) ++ "file:".data)))) :
    (∀ k, k < ds.length → module_exists t1 pidx (ds.take (k + 1)) = true) ∧
    ∃ ss2, navChainErr (linesOfStr t1) "Could not find module '"
      (find_project_start (linesOfStr t1) pidx) ds = Except.ok ss2 ∧
    aftm_dup_go (linesOfStr t1) (entryLine mn.data)
      (indentOf ((linesOfStr t1).getD (ss2 - 1) []))
      ((linesOfStr t1).length - (ss2 - 1 + 1)) (ss2 - 1 + 1) false = true := by
  have hss1 : 1 ≤ ss := navChainErr_pos _ _ ds _ ss hds hnav
  obtain ⟨heT, heI, heN⟩ := entry_line_shape (mi + 4) mn hwfm
  have heH : hdrB (spaces (mi + 4) ++ "- name: ".data ++ mn.data) = false :=
    hdrB_false_of_indent _ (by rw [heI]; omega)
  have heE := entry_ne_nil (mi + 4) mn
  obtain ⟨hfT, hfI, hfN⟩ := file_line_shape (mi + 2)
  have hfH : hdrB (spaces (mi + 2) ++ "file:".data) = false :=
    hdrB_false_of_file _ (by rw [hfT]; exact beq_self_eq_true _)
  have hfE : (spaces (mi + 2) ++ "file:".data : Line) ≠ [] := by
    intro hcon
    have := congrArg List.length hcon
    rw [List.length_append] at this
    simp at this
  have hXX := insertAt_insertAt (linesOfStr r) q hq2
    (spaces (mi + 4) ++ "- name: ".data ++ mn.data)
    (spaces (mi + 2) ++ "file:".data)
  have hlen1 : (insertAt (linesOfStr r) q
      (spaces (mi + 4) ++ "- name: ".data ++ mn.data)).length
      = (linesOfStr r).length + 1 := length_insertAt _ _ _
  have htake : (insertAt (insertAt (linesOfStr r) q
      (spaces (mi + 4) ++ "- name: ".data ++ mn.data)) q
      (spaces (mi + 2) ++ "file:".data)).take q = (linesOfStr r).take q := by
    rw [take_insertAt_of_le _ q _ (by omega) q le_rfl]
    rw [take_insertAt_of_le _ q _ hq2 q le_rfl]
  have hlenX : (insertAt (insertAt (linesOfStr r) q
      (spaces (mi + 4) ++ "- name: ".data ++ mn.data)) q
      (spaces (mi + 2) ++ "file:".data)).length = (linesOfStr r).length + 2 := by
    rw [length_insertAt, hlen1]
  have hgq : (insertAt (insertAt (linesOfStr r) q
      (spaces (mi + 4) ++ "- name: ".data ++ mn.data)) q
      (spaces (mi + 2) ++ "file:".data)).getD q [] =
      spaces (mi + 2) ++ "file:".data := by
    rw [hXX]
    exact getD_append_self' _ _ _ q (by rw [List.length_take]; omega)
  have hgq1 : (insertAt (insertAt (linesOfStr r) q
      (spaces (mi + 4) ++ "- name: ".data ++ mn.data)) q
      (spaces (mi + 2) ++ "file:".data)).getD (q + 1) [] =
      spaces (mi + 4) ++ "- name: ".data ++ mn.data := by
    rw [hXX]
    exact getD_append_succ' _ _ _ _ q (by rw [List.length_take]; omega)
  have hglt : ∀ k, k < q → (insertAt (insertAt (linesOfStr r) q
      (spaces (mi + 4) ++ "- name: ".data ++ mn.data)) q
      (spaces (mi + 2) ++ "file:".data)).getD k [] = (linesOfStr r).getD k [] :=
    fun k hk => getD_eq_of_take_eq _ _ q k htake hk
  have hmiX : indentOf ((insertAt (insertAt (linesOfStr r) q
      (spaces (mi + 4) ++ "- name: ".data ++ mn.data)) q
      (spaces (mi + 2) ++ "file:".data)).getD (ss - 1) []) = mi := by
    rw [hglt (ss - 1) (by omega), ← hmi]
  apply aftm_noop_core t r t1 pidx ds mn _ q ss hds
  · intro l hl
    rcases mem_insertAt _ q _ l hl with rfl | h2
    · exact hfN
    · rcases mem_insertAt _ q _ l h2 with rfl | h3
      · exact heN
      · exact hnlR l h3
  · intro hcon
    have := congrArg List.length hcon
    rw [hlenX] at this
    simp at this
  · exact getLast?_insertAt_ne _ q _ (by omega) hfE
      (getLast?_insertAt_ne _ q _ hq2 heE hlastR)
  · exact ht1
  · exact htake
  · omega
  · exact hq2
  · exact hcntR
  · rw [header_count_insertAt _ q _ hfH, header_count_insertAt _ q _ heH]
    exact hcntR
  · intro k hk
    exact ModW_insert _ pidx _
      (ModW_insert _ pidx _ (hmods k hk) q _ hq2 heH) q _ (by omega) hfH
  · exact hnav
  · omega
  · rw [hmiX]
    apply aftm_dup_fires _ (entryLine mn.data) mi (q + 1) (by omega)
      (by rw [hgq1]; exact heT) (by rw [hgq1]; exact heI) (entryLine_ne_nil _)
      _ ss false rfl (by omega)
    · intro k hk1 hk2
      rcases Nat.lt_or_ge k q with h | h
      · rw [hglt k h]
        exact hnb k hk1 h
      · have hkq : k = q := by omega
        rw [hkq, hgq]
        rw [hfT, hfI]
        rw [show decide (mi + 2 ≤ mi) = false from decide_eq_false (by omega)]
        rw [Bool.and_false]
    · refine Or.inr ⟨q, by omega, by omega, ?_, ?_⟩
      · rw [hgq, hfT]
        exact beq_self_eq_true _
      · rw [hgq, hfI]
        exact beq_self_eq_true _

lemma aftm_pack_insert (t r t1 : String) (pidx : Nat) (ds : List String)
    (mn : String) (ss p mi : Nat) (hds : ds ≠ [])
    (hwfm : wellFormedName mn = true)
    (hnlR : ∀ l ∈ linesOfStr r, ¬ ('\n' ∈ l))
    (hlastR : (linesOfStr r).getLast? ≠ some ([] : Line))
    (hcntR : pidx < header_count (linesOfStr r))
    (hmods : ∀ k, k < ds.length → ModW (linesOfStr r) pidx (ds.take (k + 1)))
    (hnav : navChainErr (linesOfStr r) "Could not find module '"
      (find_project_start (linesOfStr r) pidx) ds = Except.ok ss)
    (hmi : mi = indentOf ((linesOfStr r).getD (ss - 1) []))
    (hp2 : p ≤ (linesOfStr r).length)
    (hfk : ∃ fk, ss ≤ fk ∧ fk < p ∧
      (trimL ((linesOfStr r).getD fk []) == "file:".data) = true ∧
      (indentOf ((linesOfStr r).getD fk []) == mi + 2) = true)
    (hnb : ∀ k, ss ≤ k → k < p →
      (!(trimL ((linesOfStr r).getD k [])).isEmpty &&
        decide (indentOf ((linesOfStr r).getD k []) ≤ mi)) = false)
    (ht1 : t1 = withTrailingNewline t (strOfLines
      (insertAt (linesOfStr r) p
        (spaces (mi + 4) ++ "- name: ".data ++ mn.data)))) :
    (∀ k, k < ds.length → module_exists t1 pidx (ds.take (k + 1)) = true) ∧
    ∃ ss2, navChainErr (linesOfStr t1) "Could not find module '"
      (find_project_start (linesOfStr t1) pidx) ds = Except.ok ss2 ∧
    aftm_dup_go (linesOfStr t1) (entryLine mn.data)
      (indentOf ((linesOfStr t1).getD (ss2 - 1) []))
      ((linesOfStr t1).length - (ss2 - 1 + 1)) (ss2 - 1 + 1) false = true := by
  have hss1 : 1 ≤ ss := navChainErr_pos _ _ ds _ ss hds hnav
  obtain ⟨fk, hfk1, hfk2, hfk3, hfk4⟩ := hfk
  have hsp : ss ≤ p := by omega
  obtain ⟨heT, heI, heN⟩ := entry_line_shape (mi + 4) mn hwfm
  have heH : hdrB (spaces (mi + 4) ++ "- name: ".data ++ mn.data) = false :=
    hdrB_false_of_indent _ (by rw [heI]; omega)
  have heE := entry_ne_nil (mi + 4) mn
  have htake : (insertAt (linesOfStr r) p
      (spaces (mi + 4) ++ "- name: ".data ++ mn.data)).take p
      = (linesOfStr r).take p := take_insertAt_of_le _ p _ hp2 p le_rfl
  have hglt : ∀ k, k < p → (insertAt (linesOfStr r) p
      (spaces (mi + 4) ++ "- name: ".data ++ mn.data)).getD k []
      = (linesOfStr r).getD k [] :=
    fun k hk => getD_eq_of_take_eq _ _ p k htake hk
  have hgp : (insertAt (linesOfStr r) p
      (spaces (mi + 4) ++ "- name: ".data ++ mn.data)).getD p []
      = spaces (mi + 4) ++ "- name: ".data ++ mn.data :=
    getD_insertAt_self _ p _ hp2
  have hmiX : indentOf ((insertAt (linesOfStr r) p
      (spaces (mi + 4) ++ "- name: ".data ++ mn.data)).getD (ss - 1) []) = mi := by
    rw [hglt (ss - 1) (by omega), ← hmi]
  apply aftm_noop_core t r t1 pidx ds mn _ p ss hds
  · intro l hl
    rcases mem_insertAt _ p _ l hl with rfl | h2
    · exact heN
    · exact hnlR l h2
  · intro hcon
    have := congrArg List.length hcon
    rw [length_insertAt] at this
    simp at this
  · exact getLast?_insertAt_ne _ p _ hp2 heE hlastR
  · exact ht1
  · exact htake
  · rw [length_insertAt]
    omega
  · exact hp2
  · exact hcntR
  · rw [header_count_insertAt _ p _ heH]
    exact hcntR
  · intro k hk
    exact ModW_insert _ pidx _ (hmods k hk) p _ hp2 heH
  · exact hnav
  · exact hsp
  · rw [hmiX]
    apply aftm_dup_fires _ (entryLine mn.data) mi p
      (by rw [length_insertAt]; omega)
      (by rw [hgp]; exact heT) (by rw [hgp]; exact heI) (entryLine_ne_nil _)
      _ ss false rfl hsp
    · intro k hk1 hk2
      rw [hglt k hk2]
      exact hnb k hk1 hk2
    · refine Or.inr ⟨fk, hfk1, hfk2, ?_, ?_⟩
      · rw [hglt fk hfk2]
        exact hfk3
      · rw [hglt fk hfk2]
        exact hfk4

/-- After a successful nested file insertion, the written-out text carries
everything the second run's scoped duplicate check needs. -/
lemma aftm_round (t r t1 res : String) (pidx : Nat) (ds : List String) (mn : String)
    (hds : ds ≠ [])
    (hwfm : wellFormedName mn = true)
    (hnlR : ∀ l ∈ linesOfStr r, ¬ ('\n' ∈ l))
    (hlastR : (linesOfStr r).getLast? ≠ some ([] : Line))
    (hcntR : pidx < header_count (linesOfStr r))
    (hmods : ∀ k, k < ds.length → ModW (linesOfStr r) pidx (ds.take (k + 1)))
    (hform : r = t ∨ r = strOfLines (linesOfStr r))
    (haftm : add_file_to_module r pidx ds mn = Except.ok res)
    (ht1 : t1 = withTrailingNewline t res) :
    (∀ k, k < ds.length → module_exists t1 pidx (ds.take (k + 1)) = true) ∧
    ∃ ss2, navChainErr (linesOfStr t1) "Could not find module '"
      (find_project_start (linesOfStr t1) pidx) ds = Except.ok ss2 ∧
    aftm_dup_go (linesOfStr t1) (entryLine mn.data)
      (indentOf ((linesOfStr t1).getD (ss2 - 1) []))
      ((linesOfStr t1).length - (ss2 - 1 + 1)) (ss2 - 1 + 1) false = true := by
  have hneR : linesOfStr r ≠ [] := by
    intro hcon
    rw [hcon] at hcntR
    simp [header_count] at hcntR
  simp only [add_file_to_module] at haftm
  split at haftm
  · cases haftm
  · rename_i ss hnav
    have hss1 : 1 ≤ ss := navChainErr_pos _ _ ds _ ss hds hnav
    have hssL : ss ≤ (linesOfStr r).length := navChainErr_le_len _ _ ds _ ss hds hnav
    split at haftm
    · -- the duplicate check already fires on r itself
      rename_i hdup
      have hres : r = res := Except.ok.inj haftm
      have hL1 : linesOfStr t1 = linesOfStr r := by
        rw [ht1, ← hres]
        exact linesOf_wtn t r hform hneR hnlR hlastR
      refine ⟨?_, ss, ?_, ?_⟩
      · intro k hk
        apply module_exists_of_ModW
        rw [hL1]
        exact hmods k hk
      · rw [hL1]
        exact hnav
      · rw [hL1]
        exact hdup
    · rename_i hdupF
      split at haftm
      · -- no file: section yet: create one
        rename_i scanout snd hins
        split at haftm
        · -- insert the section before the project tree key
          rename_i creout tp snd2 hcre
          have hcfacts := aftm_create_facts (linesOfStr r)
            (indentOf ((linesOfStr r).getD (ss - 1) [])) (ss - 1 + 1)
            ((linesOfStr r).length - (ss - 1 + 1)) (ss - 1 + 1) (ss - 1)
            rfl le_rfl (by omega) (by omega) (by omega)
            (fun k hk1 hk2 => by omega) (some tp) snd2 hcre
          obtain ⟨htp1, htp2, htp3, htp4, htp5⟩ := hcfacts.1 tp rfl
          have hres : strOfLines (insertAt (insertAt (linesOfStr r) tp
              (spaces (indentOf ((linesOfStr r).getD (ss - 1) []) + 4) ++
                "- name: ".data ++ mn.data)) tp
              (spaces (indentOf ((linesOfStr r).getD (ss - 1) []) + 2) ++
                "file:".data)) = res := Except.ok.inj haftm
          exact aftm_pack_create t r t1 pidx ds mn ss tp _ hds hwfm hnlR hlastR
            hcntR hmods hnav rfl (by omega) (by omega)
            (fun k hk1 hk2 => htp5 k (by omega) hk2)
            (by rw [ht1, ← hres])
        · -- append the section after the module block end
          rename_i creout snd2 mce hcre
          have hcfacts := aftm_create_facts (linesOfStr r)
            (indentOf ((linesOfStr r).getD (ss - 1) [])) (ss - 1 + 1)
            ((linesOfStr r).length - (ss - 1 + 1)) (ss - 1 + 1) (ss - 1)
            rfl le_rfl (by omega) (by omega) (by omega)
            (fun k hk1 hk2 => by omega) none mce hcre
          obtain ⟨hm1, hm2, hm3⟩ := hcfacts.2 rfl
          have hres : strOfLines (insertAt (insertAt (linesOfStr r) (mce + 1)
              (spaces (indentOf ((linesOfStr r).getD (ss - 1) []) + 4) ++
                "- name: ".data ++ mn.data)) (mce + 1)
              (spaces (indentOf ((linesOfStr r).getD (ss - 1) []) + 2) ++
                "file:".data)) = res := Except.ok.inj haftm
          exact aftm_pack_create t r t1 pidx ds mn ss (mce + 1) _ hds hwfm hnlR
            hlastR hcntR hmods hnav rfl (by omega) hm1
            (fun k hk1 hk2 => hm3 k (by omega) hk2)
            (by rw [ht1, ← hres])
      · -- insert after the last file entry
        rename_i scanout p hins
        have hifacts := aftm_insert_facts (linesOfStr r)
          (indentOf ((linesOfStr r).getD (ss - 1) [])) (ss - 1 + 1)
          ((linesOfStr r).length - (ss - 1 + 1)) (ss - 1 + 1) false none
          rfl le_rfl (fun k hk1 hk2 => by omega)
          (fun hcon => by cases hcon) (fun p0 h0 => by cases h0) true p hins
        obtain ⟨hp1, ⟨fk, hfka, hfkp, hfkm, hfkn⟩, hp3⟩ := hifacts
        have hres : strOfLines (insertAt (linesOfStr r) p
            (spaces (indentOf ((linesOfStr r).getD (ss - 1) []) + 4) ++
              "- name: ".data ++ mn.data)) = res := Except.ok.inj haftm
        exact aftm_pack_insert t r t1 pidx ds mn ss p _ hds hwfm hnlR hlastR
          hcntR hmods hnav rfl hp1
          ⟨fk, by omega, hfkp, hfkm, hfkn⟩
          (fun k hk1 hk2 => hp3 k (by omega) hk2)
          (by rw [ht1, ← hres])
      · -- file: found with no position is impossible
        rename_i scanout hins
        exfalso
        have := aftm_insert_found_pos (linesOfStr r)
          (indentOf ((linesOfStr r).getD (ss - 1) []))
          ((linesOfStr r).length - (ss - 1 + 1)) (ss - 1 + 1) false none
          (fun hcon => by cases hcon) true none hins
        exact this rfl rfl

/-! ### Idempotence assembly -/

lemma add_entry_file_idem (t : String) (pidx : Nat) (segs : List String)
    (lang : String) (ch : List AddChild) (t1 : String)
    (hsegs : segs ≠ [])
    (hwfds : ∀ s ∈ segs.dropLast, wellFormedName s = true)
    (hwfl : wellFormedName (filename_without_standard_extension
      ((segs.getLast?).getD "") lang) = true)
    (hcnt : pidx < header_count (linesOfStr t))
    (hlast : (linesOfStr t).getLast? ≠ some ([] : Line))
    (hguard : atlmOk (linesOfStr t) pidx = true)
    (hok : add_entry t pidx segs false lang ch = Except.ok t1) :
    add_entry t1 pidx segs false lang ch = Except.ok t1 := by
  by_cases hdp : segs.dropLast = []
  · obtain ⟨s, hs⟩ : ∃ s, segs = [s] := by
      cases segs with
      | nil => exact absurd rfl hsegs
      | cons a rest =>
        cases rest with
        | nil => exact ⟨a, rfl⟩
        | cons b rest2 => simp at hdp
    subst hs
    simp only [List.getLast?_singleton, Option.getD_some] at hwfl
    rw [add_entry_single_eq] at hok
    rw [add_entry_single_eq, aplf_idem_core t pidx _ hwfl hcnt t1 hok]
    exact congrArg Except.ok (withTrailingNewline_self t1)
  · have hlastSeg : (segs.getLast?).getD "" = segs.getLast hsegs := by
      rw [List.getLast?_eq_getLast segs hsegs]
      rfl
    have hsplit : segs.dropLast ++ [segs.getLast hsegs] = segs :=
      List.dropLast_append_getLast hsegs
    simp only [add_entry] at hok
    rw [if_neg (fun hc => hsegs (List.isEmpty_iff.mp hc))] at hok
    simp only [Bool.false_eq_true, if_false] at hok
    rw [if_neg (fun hc => hdp (List.isEmpty_iff.mp hc))] at hok
    split at hok
    · cases hok
    · rename_i res hstep
      have ht1 : t1 = withTrailingNewline t res := (Except.ok.inj hok).symm
      split at hstep
      · cases hstep
      · rename_i r hens
        have haftm : add_file_to_module r pidx segs.dropLast
            (filename_without_standard_extension ((segs.getLast?).getD "") lang)
            = Except.ok res := hstep
        have hpost := ensure_go_post pidx t segs.dropLast [] t hwfds
          (mem_linesOfStr_nl_free t) hlast hcnt (fun _ => hguard)
          (fun k hk => by simp at hk) (Or.inl rfl) r
          (by
            unfold ensure_tree_path at hens
            exact hens)
        rw [List.nil_append] at hpost
        obtain ⟨hnlR, hlastR, hcntR, hmodsR, hformR⟩ := hpost
        have hround := aftm_round t r t1 res pidx segs.dropLast
          (filename_without_standard_extension ((segs.getLast?).getD "") lang)
          hdp hwfl hnlR hlastR hcntR hmodsR hformR haftm ht1
        obtain ⟨hex, ss2, hnav2, hdup2⟩ := hround
        rw [← hsplit]
        rw [hlastSeg] at hdup2
        exact add_entry_nested_noop t1 pidx segs.dropLast (segs.getLast hsegs)
          lang ch ss2 hdp hex hnav2 hdup2

lemma add_entry_dir_idem (t : String) (pidx : Nat) (segs : List String)
    (lang : String) (t1 : String)
    (hsegs : segs ≠ [])
    (hwf : ∀ s ∈ segs, wellFormedName s = true)
    (hcnt : pidx < header_count (linesOfStr t))
    (hlast : (linesOfStr t).getLast? ≠ some ([] : Line))
    (hguard : atlmOk (linesOfStr t) pidx = true)
    (hok : add_entry t pidx segs true lang [] = Except.ok t1) :
    add_entry t1 pidx segs true lang [] = Except.ok t1 := by
  simp only [add_entry] at hok
  rw [if_neg (fun hc => hsegs (List.isEmpty_iff.mp hc))] at hok
  rw [if_pos trivial] at hok
  split at hok
  · cases hok
  · rename_i res hstep
    have ht1 : t1 = withTrailingNewline t res := (Except.ok.inj hok).symm
    split at hstep
    · cases hstep
    · rename_i r hens
      have hres : r = res := by
        have h2 : Except.ok r = Except.ok res := hstep
        exact Except.ok.inj h2
      subst hres
      have hpost := ensure_go_post pidx t segs [] t hwf
        (mem_linesOfStr_nl_free t) hlast hcnt (fun _ => hguard)
        (fun k hk => by simp at hk) (Or.inl rfl) r
        (by
          unfold ensure_tree_path at hens
          exact hens)
      rw [List.nil_append] at hpost
      obtain ⟨hnlR, hlastR, hcntR, hmodsR, hformR⟩ := hpost
      have hneR : linesOfStr r ≠ [] := by
        intro hcon
        rw [hcon] at hcntR
        simp [header_count] at hcntR
      have hL1 : linesOfStr t1 = linesOfStr r := by
        rw [ht1]
        exact linesOf_wtn t r hformR hneR hnlR hlastR
      have hens2 : ensure_tree_path t1 pidx segs = Except.ok t1 := by
        unfold ensure_tree_path
        apply ensure_tree_path_go_id
        intro k hk
        rw [List.nil_append]
        apply module_exists_of_ModW
        rw [hL1]
        exact hmodsR k hk
      simp only [add_entry]
      rw [if_neg (fun hc => hsegs (List.isEmpty_iff.mp hc))]
      rw [if_pos trivial, hens2]
      exact congrArg Except.ok (withTrailingNewline_self t1)

/-- Amended C2. (1) File-request idempotence, nested paths included: for a
request whose segments are well formed, whose project index is in range,
whose text has no trailing blank line, and whose text does not hit the
silent no-op branch of `add_top_level_module` (guard `atlmOk`), applying
the add twice yields the first result unchanged — creation of missing
ancestors included. (2) The same idempotence for directory requests
without children. (3) The no-op guarantee is scoped, not verbatim-global:
the input is returned unchanged when the editor's own duplicate check —
run in the module block located by first-occurrence navigation — finds
the entry and the directory chain already exists; an entry existing
verbatim elsewhere does not prevent insertion, as the counterexample
shows. -/
theorem C2_add_idempotent_amended :
    (∀ (t : String) (pidx : Nat) (segs : List String) (lang : String)
        (ch : List AddChild) (t1 : String),
      segs ≠ [] →
      (∀ s ∈ segs.dropLast, wellFormedName s = true) →
      wellFormedName (filename_without_standard_extension
        ((segs.getLast?).getD "") lang) = true →
      pidx < header_count (linesOfStr t) →
      (linesOfStr t).getLast? ≠ some ([] : Line) →
      atlmOk (linesOfStr t) pidx = true →
      add_entry t pidx segs false lang ch = Except.ok t1 →
      add_entry t1 pidx segs false lang ch = Except.ok t1) ∧
    (∀ (t : String) (pidx : Nat) (segs : List String) (lang : String) (t1 : String),
      segs ≠ [] →
      (∀ s ∈ segs, wellFormedName s = true) →
      pidx < header_count (linesOfStr t) →
      (linesOfStr t).getLast? ≠ some ([] : Line) →
      atlmOk (linesOfStr t) pidx = true →
      add_entry t pidx segs true lang [] = Except.ok t1 →
      add_entry t1 pidx segs true lang [] = Except.ok t1) ∧
    (∀ (t : String) (pidx : Nat) (ds : List String) (fseg lang : String)
        (ch : List AddChild) (ss : Nat),
      ds ≠ [] →
      (∀ k, k < ds.length → module_exists t pidx (ds.take (k + 1)) = true) →
      navChainErr (linesOfStr t) "Could not find module '"
        (find_project_start (linesOfStr t) pidx) ds = Except.ok ss →
      aftm_dup_go (linesOfStr t)
        (entryLine (filename_without_standard_extension fseg lang).data)
        (indentOf ((linesOfStr t).getD (ss - 1) []))
        ((linesOfStr t).length - (ss - 1 + 1)) (ss - 1 + 1) false = true →
      add_entry t pidx (ds ++ [fseg]) false lang ch = Except.ok t) := by
  refine ⟨?_, ?_, ?_⟩
  · intro t pidx segs lang ch t1 h1 h2 h3 h4 h5 h6 h7
    exact add_entry_file_idem t pidx segs lang ch t1 h1 h2 h3 h4 h5 h6 h7
  · intro t pidx segs lang t1 h1 h2 h3 h4 h5 h6
    exact add_entry_dir_idem t pidx segs lang t1 h1 h2 h3 h4 h5 h6
  · intro t pidx ds fseg lang ch ss h1 h2 h3 h4
    exact add_entry_nested_noop t pidx ds fseg lang ch ss h1 h2 h3 h4

theorem C2_add_idempotent_amended_witness :
    ((["m", "f.rs"] : List String) ≠ [] ∧
      (∀ s ∈ (["m", "f.rs"] : List String).dropLast, wellFormedName s = true) ∧
      wellFormedName (filename_without_standard_extension
        (((["m", "f.rs"] : List String).getLast?).getD "") "rust") = true ∧
      0 < header_count (linesOfStr "- name: p\n") ∧
      (linesOfStr "- name: p\n").getLast? ≠ some ([] : Line) ∧
      atlmOk (linesOfStr "- name: p\n") 0 = true ∧
      add_entry "- name: p\n" 0 ["m", "f.rs"] false "rust" [] =
        Except.ok "- name: p\n  tree:\n    - name: m\n      file:\n        - name: f\n" ∧
      add_entry "- name: p\n  tree:\n    - name: m\n      file:\n        - name: f\n"
          0 ["m", "f.rs"] false "rust" [] =
        Except.ok "- name: p\n  tree:\n    - name: m\n      file:\n        - name: f\n") ∧
    (add_entry "- name: p\n" 0 ["m", "k"] true "rust" [] =
        Except.ok "- name: p\n  tree:\n    - name: m\n      tree:\n        - name: k\n" ∧
      add_entry "- name: p\n  tree:\n    - name: m\n      tree:\n        - name: k\n"
          0 ["m", "k"] true "rust" [] =
        Except.ok "- name: p\n  tree:\n    - name: m\n      tree:\n        - name: k\n") ∧
    add_entry "- name: p\n  tree:\n    - name: a\n      file:\n        - name: f\n"
        0 (["a"] ++ ["f.rs"]) false "rust" []
      = Except.ok "- name: p\n  tree:\n    - name: a\n      file:\n        - name: f\n" :=
  ⟨⟨by decide, by decide, by decide, by decide, by decide, by decide, by rfl,
    C2_add_idempotent_amended.1 "- name: p\n" 0 ["m", "f.rs"] "rust" []
      "- name: p\n  tree:\n    - name: m\n      file:\n        - name: f\n"
      (by decide) (by decide) (by decide) (by decide) (by decide) (by decide) (by rfl)⟩,
   ⟨by rfl,
    C2_add_idempotent_amended.2.1 "- name: p\n" 0 ["m", "k"] "rust"
      "- name: p\n  tree:\n    - name: m\n      tree:\n        - name: k\n"
      (by decide) (by decide) (by decide) (by decide) (by decide) (by rfl)⟩,
   C2_add_idempotent_amended.2.2
     "- name: p\n  tree:\n    - name: a\n      file:\n        - name: f\n"
     0 ["a"] "f.rs" "rust" [] 3 (by decide)
     (by intro k hk; have hk0 : k = 0 := Nat.lt_one_iff.mp hk; subst hk0; decide)
     (by rfl) (by decide)⟩

end Moli
